import Mathlib

/-! # The rfc-2822 email decoder of `src/webmail.c`

A shallow embedding of the email table-of-contents decoder
(`emailtoc_from_email` and the routines under it) and of the header
unfolder `email_hdr_unfold`, followed by theorems about them.

Conventions of the embedding.

* A byte is a `Nat` (`'\n'` is 10, `' '` is 32, `'-'` is 45, ...).
* The mutable message buffer is a `List Nat`; a `char *` into it is an
  offset, read with `rd` and written with `wr`.
* A `const char *` argument that a routine only reads as a NUL-terminated
  string is passed as the contents of that string (`cstr`): the bytes before
  the first NUL.  End of list therefore stands for `z[i]==0`.
* Loops whose trip count is not structurally evident take a fuel argument
  and return `none` when the fuel runs out; `none` never stands for a result
  of the C code.
-/

namespace Webmail

/-! ## Bytes, buffers and C strings -/

/-- The message buffer: the bytes of the blob, terminator included. -/
abbrev Buf := List Nat

/-- Read `z[i]`; a read outside the buffer yields 0. -/
def rd (b : Buf) (i : Nat) : Nat := b.getD i 0

/-- Write `z[i] = v`. -/
def wr (b : Buf) (i : Nat) (v : Nat) : Buf := b.set i v

/-- The NUL-terminated string that starts at offset `z` of the buffer. -/
def cstr (b : Buf) (z : Nat) : List Nat := (b.drop z).takeWhile (fun c => c != 0)

/-- Modelled from the spec: `fossil_isspace` is not under src/; the spec lists
the whitespace bytes as space, `\t`, `\n`, `\v`, `\f` and `\r`. -/
def fossil_isspace (c : Nat) : Bool := c == 32 || (9 ≤ c && c ≤ 13)

/-- Modelled from the spec: `fossil_isalnum` is not under src/; an
alphanumeric byte is an ASCII letter or digit. -/
def fossil_isalnum (c : Nat) : Bool :=
  (97 ≤ c && c ≤ 122) || (65 ≤ c && c ≤ 90) || (48 ≤ c && c ≤ 57)

/-- Number of leading bytes of a string that satisfy `f`: the value of `i`
after `for(i=0; f(z[i]); i++){}` when `f` rejects the NUL. -/
def scanLen (f : Nat → Bool) : List Nat → Nat
  | [] => 0
  | c :: rest => if f c then scanLen f rest + 1 else 0

/-! ## `email_line_length` -/

/-- The loop of `email_line_length`:
`for(i=0; z[i] && (z[i]!='\n' || z[i+1]==' ' || z[i+1]=='\t'); i++){}`. -/
def email_line_length_scan : List Nat → Nat → Nat
  | [], i => i
  | c :: rest, i =>
    if c ≠ 10 ∨ rest.headD 0 = 32 ∨ rest.headD 0 = 9 then
      email_line_length_scan rest (i + 1)
    else i

/-- Source: `email_line_length` in webmail.c. -/
def email_line_length (z : List Nat) : Nat :=
  let i := email_line_length_scan z 0
  if z.getD i 0 = 10 then i + 1 else i

/-! ## `email_hdr_unfold` -/

/-- The loop of `email_hdr_unfold`, run in place on the buffer:
`for(i=j=0; (c = z[i])!=0; i++){ if( fossil_isspace(c) ){ c = ' ';
if( j && z[j-1]==' ' ) continue; } z[j++] = c; }`.
Returns the buffer and the final `j`. -/
def email_hdr_unfold_loop (z : Nat) : Nat → Buf → Nat → Nat → Option (Buf × Nat)
  | fuel, buf, i, j =>
    if rd buf (z + i) = 0 then some (buf, j) else
    match fuel with
    | 0 => none
    | fuel + 1 =>
      if fossil_isspace (rd buf (z + i)) then
        if j ≠ 0 ∧ rd buf (z + j - 1) = 32 then
          email_hdr_unfold_loop z fuel buf (i + 1) j
        else
          email_hdr_unfold_loop z fuel (wr buf (z + j) 32) (i + 1) (j + 1)
      else
        email_hdr_unfold_loop z fuel (wr buf (z + j) (rd buf (z + i))) (i + 1) (j + 1)

/-- Source: `email_hdr_unfold` in webmail.c, on the string at offset `z`. -/
def email_hdr_unfold (buf : Buf) (z : Nat) : Option Buf :=
  match email_hdr_unfold_loop z buf.length buf 0 0 with
  | none => none
  | some (buf1, j) => some (wr buf1 (z + j) 0)

/-- The reference transform of the header unfolder, following the spec's
words: every maximal run of whitespace bytes becomes exactly one space and
every other byte is kept.  `inRun` tells that the previous byte was a
whitespace byte, so that the current one continues a run. -/
def collapse_ws : Bool → List Nat → List Nat
  | _, [] => []
  | inRun, c :: rest =>
    if fossil_isspace c then
      if inRun then collapse_ws true rest else 32 :: collapse_ws true rest
    else c :: collapse_ws false rest

/-! ## String helpers of the C library and of SQLite -/

/-- Modelled from the spec: the case folding of `sqlite3_strnicmp`
(`sqlite3UpperToLower`, not under src/): ASCII upper-case letters are
mapped to lower case, every other byte is kept. -/
def lower (c : Nat) : Nat := if 65 ≤ c ∧ c ≤ 90 then c + 32 else c

/-- Modelled from the spec: `sqlite3_strnicmp` is not under src/; it is the
case-insensitive comparison of at most `N` bytes that stops at the NUL of
its left argument:
`while( N-- > 0 && *a!=0 && lower[*a]==lower[*b] ){ a++; b++; }
return N<0 ? 0 : lower[*a] - lower[*b];`. -/
def sqlite3_strnicmp : List Nat → List Nat → Nat → Int
  | _, _, 0 => 0
  | [], b, _ + 1 => (lower 0 : Int) - lower (b.headD 0)
  | x :: a, b, n + 1 =>
    if x ≠ 0 ∧ lower x = lower (b.headD 0) then sqlite3_strnicmp a b.tail n
    else (lower x : Int) - lower (b.headD 0)

/-- The C library's `strncmp`: compare at most `n` bytes, stopping at a
difference or at a NUL. -/
def strncmp : List Nat → List Nat → Nat → Int
  | _, _, 0 => 0
  | a, b, n + 1 =>
    if a.headD 0 ≠ b.headD 0 then (a.headD 0 : Int) - b.headD 0
    else if a.headD 0 = 0 then 0
    else strncmp a.tail b.tail n

/-- Does the string `hay` begin with the bytes of `needle`? -/
def startsWith : List Nat → List Nat → Bool
  | [], _ => true
  | _ :: _, [] => false
  | x :: needle, y :: hay => x == y && startsWith needle hay

/-- The C library's `strstr`: offset of the first occurrence of `needle`
in `hay`, or `none` for a NULL result. -/
def strstr : List Nat → List Nat → Option Nat
  | [], needle => if needle = [] then some 0 else none
  | c :: hay, needle =>
    if startsWith needle (c :: hay) then some 0
    else (strstr hay needle).map (fun k => k + 1)

/-- Source: `email_hdr_value` in webmail.c.  `none` is the NULL result;
`mprintf("%.*s", i, z2)` copies the first `i` bytes of `z2`. -/
def email_hdr_value (z : List Nat) (zName : List Nat) : Option (List Nat) :=
  let nName := zName.length
  match strstr z zName with
  | none => none
  | some off =>
    let z2 := z.drop (off + nName)
    if z2.headD 0 ≠ 61 then none else
    let z2 := z2.tail
    if z2.headD 0 = 34 then
      let z2 := z2.tail
      let i := scanLen (fun c => c != 0 && c != 34) z2
      if z2.getD i 0 ≠ 34 then none else some (z2.take i)
    else
      let i := scanLen (fun c => c != 0 && !fossil_isspace c) z2
      some (z2.take i)

/-- Source: `firstToken` in webmail.c: skip the leading whitespace. -/
def firstToken (z : List Nat) : List Nat := z.dropWhile fossil_isspace

/-! ## The table of contents -/

/-- Source: `struct EmailBody`.  `zMimetype` holds the bytes stored in the
32-byte array before its first NUL; `zContent` is an offset into the message
buffer, `none` while the pointer is NULL. -/
structure EmailBody where
  zMimetype : List Nat
  encoding : Nat
  zFilename : Option (List Nat)
  zContent : Option Nat
  deriving DecidableEq

/-- Source: `struct EmailToc`.  `nHdr` and `nBody` are the lengths of the two
lists; the header lines are offsets into the message buffer. -/
structure EmailToc where
  azHdr : List Nat
  aBody : List EmailBody
  deriving DecidableEq

def EMAILENC_NONE : Nat := 0
def EMAILENC_B64 : Nat := 1
def EMAILENC_QUOTED : Nat := 2

/-- Source: `emailtoc_alloc`: an all-zero table of contents. -/
def emailtoc_alloc : EmailToc := { azHdr := [], aBody := [] }

/-- The all-zero `EmailBody` left by `memset(pNew, 0, sizeof(*pNew))`. -/
def EmailBody.zero : EmailBody :=
  { zMimetype := [], encoding := 0, zFilename := none, zContent := none }

/-- Source: `emailtoc_new_body`: append a zeroed body; the returned pointer
`pNew` is the last element of `aBody`. -/
def emailtoc_new_body (p : EmailToc) : EmailToc :=
  { p with aBody := p.aBody ++ [EmailBody.zero] }

/-- Source: `emailtoc_new_header_line`. -/
def emailtoc_new_header_line (p : EmailToc) (z : Nat) : EmailToc :=
  { p with azHdr := p.azHdr ++ [z] }

/-- A store through `pBody`, the pointer to the last element of `aBody`. -/
def EmailToc.updBody (p : EmailToc) (f : EmailBody → EmailBody) : EmailToc :=
  { p with aBody := p.aBody.dropLast ++ (p.aBody.getLast?.map f).toList }

/-- The statement `p->nBody--`: drop the last body. -/
def EmailToc.popBody (p : EmailToc) : EmailToc :=
  { p with aBody := p.aBody.dropLast }

/-! ## Byte strings compared against by the decoder -/

/-- The bytes of `"Content-Type:"`. -/
def lit_content_type : List Nat := [67, 111, 110, 116, 101, 110, 116, 45, 84, 121, 112, 101, 58]

/-- The bytes of `"multipart/"`. -/
def lit_multipart : List Nat := [109, 117, 108, 116, 105, 112, 97, 114, 116, 47]

/-- The bytes of `"Content-Transfer-Encoding:"`. -/
def lit_content_transfer_encoding : List Nat :=
  [67, 111, 110, 116, 101, 110, 116, 45, 84, 114, 97, 110, 115, 102, 101, 114, 45,
   69, 110, 99, 111, 100, 105, 110, 103, 58]

/-- The bytes of `"base64"`. -/
def lit_base64 : List Nat := [98, 97, 115, 101, 54, 52]

/-- The bytes of `"quoted-printable"`. -/
def lit_quoted_printable : List Nat :=
  [113, 117, 111, 116, 101, 100, 45, 112, 114, 105, 110, 116, 97, 98, 108, 101]

/-- The bytes of `"Content-Disposition:"`. -/
def lit_content_disposition : List Nat :=
  [67, 111, 110, 116, 101, 110, 116, 45, 68, 105, 115, 112, 111, 115, 105, 116, 105,
   111, 110, 58]

/-- The bytes of `"filename"`. -/
def lit_filename : List Nat := [102, 105, 108, 101, 110, 97, 109, 101]

/-! ## `emailtoc_add_multipart_segment`: the header loop -/

/-- The trimming loop `for(j=i+n; j>i && fossil_isspace(z[j-1]); j--){}` of
the segment decoder; `zi` is the offset of `z+i`, the argument counts `j-i`
and so does the result. -/
def trimLen (buf : Buf) (zi : Nat) : Nat → Nat
  | 0 => 0
  | k + 1 => if fossil_isspace (rd buf (zi + k)) then trimLen buf zi k else k + 1

/-- The `else` branch of the `Content-Type:` block (webmail.c 187-191):
`for(j=0; z2[j]=='/' || fossil_isalnum(z2[j]); j++){}`, then `j` is capped
at `sizeof(zMimetype)`, which is 32, `j` bytes are copied and
`zMimetype[j] = 0` is stored.  With `j == 32` that store falls on the byte
after the 32-byte array, which is the field `encoding`. -/
def store_mimetype (b : EmailBody) (z2 : List Nat) : EmailBody :=
  let j := scanLen (fun c => c == 47 || fossil_isalnum c) z2
  if j ≥ 32 then { b with zMimetype := z2.take 32, encoding := 0 }
  else { b with zMimetype := z2.take j }

/-- The `Content-Type:` block of the header loop (webmail.c 182-193) on the
line `line`, the string at `z+i`. -/
def hdr_content_type (line : List Nat) (p : EmailToc) (multipartBody : Bool) :
    EmailToc × Bool :=
  if sqlite3_strnicmp line lit_content_type 13 = 0 then
    let z2 := firstToken (line.drop 13)
    if strncmp z2 lit_multipart 10 = 0 then (p, true)
    else (p.updBody (fun b => store_mimetype b z2), multipartBody)
  else (p, multipartBody)

/-- The `Content-Transfer-Encoding:` block of the header loop
(webmail.c 195-205). -/
def hdr_encoding (line : List Nat) (p : EmailToc) : EmailToc :=
  if sqlite3_strnicmp line lit_content_transfer_encoding 26 = 0 then
    let z2 := firstToken (line.drop 26)
    if sqlite3_strnicmp z2 lit_base64 6 = 0 then
      p.updBody (fun b => { b with encoding := EMAILENC_B64 })
    else if sqlite3_strnicmp z2 lit_quoted_printable 16 = 0 then
      p.updBody (fun b => { b with encoding := EMAILENC_QUOTED })
    else
      p.updBody (fun b => { b with encoding := EMAILENC_NONE })
  else p

/-- The last block of the header loop (webmail.c 206-212): record the header
line at offset `zi`, or else look for a file name. -/
def hdr_capture (bAddHeader : Bool) (line : List Nat) (zi : Nat) (p : EmailToc) :
    EmailToc :=
  if bAddHeader then emailtoc_new_header_line p zi
  else if sqlite3_strnicmp line lit_content_disposition 20 = 0 then
    p.updBody (fun b => { b with zFilename := email_hdr_value line lit_filename })
  else p

/-- One header line, already delimited: webmail.c 182-212. -/
def hdr_line (bAddHeader : Bool) (line : List Nat) (zi : Nat) (p : EmailToc)
    (multipartBody : Bool) : EmailToc × Bool :=
  let r := hdr_content_type line p multipartBody
  (hdr_capture bAddHeader line zi (hdr_encoding line r.1), r.2)

/-- The `while( z[i] )` loop of `emailtoc_add_multipart_segment`
(webmail.c 173-214).  The result is the buffer, the final `i`, the table of
contents and the flag `multipartBody`. -/
def segment_loop (z : Nat) (bAddHeader : Bool) :
    Nat → Buf → Nat → EmailToc → Bool → Option (Buf × Nat × EmailToc × Bool)
  | fuel, buf, i, p, multipartBody =>
    if rd buf (z + i) = 0 then some (buf, i, p, multipartBody) else
    match fuel with
    | 0 => none
    | fuel + 1 =>
      let n := email_line_length (cstr buf (z + i))
      if (n = 2 ∧ rd buf (z + i) = 13 ∧ rd buf (z + i + 1) = 10) ∨ rd buf (z + i) = 10
          ∨ n = 0 then
        some (buf, i + n, p, multipartBody)
      else
        let j := i + trimLen buf (z + i) n
        let buf1 := wr buf (z + j) 0
        let r := hdr_line bAddHeader (cstr buf1 (z + i)) (z + i) p multipartBody
        segment_loop z bAddHeader fuel buf1 (i + n) r.1 r.2

/-! ## `emailtoc_add_multipart` -/

/-- The loop that skips forward to the boundary mark (webmail.c 241-245):
`while( z[0]!='-' || z[1]!='-' ){ while( z[0] && z[0]!='\n' ) z++;
if( z[0]==0 ) return; z++; }`.
The two nested loops are run as one scan: `atStart` tells that `z` is where
the outer loop tests for `"--"`, that is at the start of the range or right
after a `'\n'`.  The result is the distance skipped, or `none` when the
routine returns at the end of the string. -/
def skip_to_boundary : Bool → List Nat → Option Nat
  | _, [] => none
  | atStart, c :: rest =>
    if atStart && c == 45 && rest.headD 0 == 45 then some 0
    else (skip_to_boundary (c == 10) rest).map (fun k => k + 1)

/-- The `for(i=iStart=0; z[i]; i++)` loop of `emailtoc_add_multipart`
(webmail.c 255-264).  `seg p buf z` is the call
`emailtoc_add_multipart_segment(p, z, 0)`; `zB` is the offset of `zBoundary`
and `z` the offset of the first child. -/
def multipart_loop (seg : EmailToc → Buf → Nat → Option (EmailToc × Buf))
    (zB nB z : Nat) : Nat → EmailToc → Buf → Nat → Nat → Option (EmailToc × Buf)
  | fuel, p, buf, i, iStart =>
    if rd buf (z + i) = 0 then some (p, buf) else
    match fuel with
    | 0 => none
    | fuel + 1 =>
      if rd buf (z + i) = 10 ∧ strncmp (cstr buf (z + i + 1)) (cstr buf zB) nB = 0 then
        let buf1 := wr buf (z + i + 1) 0
        match seg p buf1 (z + iStart) with
        | none => none
        | some (p2, buf2) =>
          let iStart1 := i + nB
          if rd buf2 (z + iStart1) = 45 ∧ rd buf2 (z + iStart1 + 1) = 45 then some (p2, buf2)
          else
            let iStart2 := iStart1 + scanLen fossil_isspace (cstr buf2 (z + iStart1))
            multipart_loop seg zB nB z fuel p2 buf2 (iStart2 + 1) iStart2
      else
        multipart_loop seg zB nB z fuel p buf (i + 1) iStart

/-- Source: `emailtoc_add_multipart` in webmail.c, with the recursive call
`emailtoc_add_multipart_segment(p, z, 0)` passed as `seg`. -/
def emailtoc_add_multipart_with (seg : EmailToc → Buf → Nat → Option (EmailToc × Buf))
    (p : EmailToc) (buf : Buf) (z : Nat) : Option (EmailToc × Buf) :=
  match skip_to_boundary true (cstr buf z) with
  | none => some (p, buf)
  | some k =>
    let zB := z + k
    let nB := scanLen (fun c => c != 0 && !fossil_isspace c) (cstr buf zB)
    if nB = 0 then some (p, buf) else
    let z1 := zB + nB + scanLen fossil_isspace (cstr buf (zB + nB))
    let buf1 := wr buf (zB + nB) 0
    multipart_loop seg zB nB z1 buf1.length p buf1 0 0

/-- Source: `emailtoc_add_multipart_segment` in webmail.c.  The first
argument bounds the nesting depth of multipart containers. -/
def emailtoc_add_multipart_segment :
    Nat → EmailToc → Buf → Nat → Bool → Option (EmailToc × Buf)
  | 0, _, _, _, _ => none
  | d + 1, p, buf, z, bAddHeader =>
    match segment_loop z bAddHeader buf.length buf 0 (emailtoc_new_body p) false with
    | none => none
    | some (buf1, i, p1, multipartBody) =>
      if multipartBody then
        emailtoc_add_multipart_with
          (fun q b y => emailtoc_add_multipart_segment d q b y false)
          p1.popBody buf1 (z + i)
      else
        some (p1.updBody (fun b => { b with zContent := some (z + i) }), buf1)

/-- Source: `emailtoc_add_multipart` in webmail.c, at nesting depth `d`. -/
def emailtoc_add_multipart (d : Nat) (p : EmailToc) (buf : Buf) (z : Nat) :
    Option (EmailToc × Buf) :=
  emailtoc_add_multipart_with (fun q b y => emailtoc_add_multipart_segment d q b y false)
    p buf z

/-- Source: `emailtoc_from_email` in webmail.c.  `blob_terminate` appends the
NUL; the decoder is run with `depth` levels of nesting allowed. -/
def emailtoc_from_email_depth (depth : Nat) (pEmail : List Nat) : Option (EmailToc × Buf) :=
  emailtoc_add_multipart_segment depth emailtoc_alloc (pEmail ++ [0]) 0 true

/-- Source: `emailtoc_from_email` in webmail.c: the table of contents and the
buffer as the decoder leaves it.  A message of `n` bytes nests fewer than
`n + 1` containers. -/
def emailtoc_from_email (pEmail : List Nat) : Option (EmailToc × Buf) :=
  emailtoc_from_email_depth (pEmail.length + 1) pEmail

/-! ## Reference notions used by the statements -/

/-- Index `i` of the string `z` holds a `'\n'` that is followed by something
other than a space or a tab (the terminating NUL counts as such). -/
def line_end (z : List Nat) (i : Nat) : Prop :=
  z.getD i 0 = 10 ∧ z.getD (i + 1) 0 ≠ 32 ∧ z.getD (i + 1) 0 ≠ 9

instance (z : List Nat) (i : Nat) : Decidable (line_end z i) := by
  unfold line_end; infer_instance

/-- The bytes of a string literal. -/
def bytes (s : String) : List Nat := s.toList.map Char.toNat

/-- Is the last byte of `out` a space? -/
def last_is_space (out : List Nat) : Bool := out.getLast? == some 32

/-- A string with its trailing run of whitespace bytes removed. -/
def rtrim (l : List Nat) : List Nat := (l.reverse.dropWhile fossil_isspace).reverse

/-- Splitting a string into logical lines, in the spec's words: a physical line
ends at `'\n'`, and the logical line goes on across that `'\n'` when the next
byte is a space or a tab.  `cur` holds the bytes of the line being read. -/
def logical_lines_aux : List Nat → List Nat → List (List Nat)
  | cur, [] => if cur = [] then [] else [cur]
  | cur, c :: rest =>
    if c = 10 ∧ rest.headD 0 ≠ 32 ∧ rest.headD 0 ≠ 9 then
      (cur ++ [c]) :: logical_lines_aux [] rest
    else logical_lines_aux (cur ++ [c]) rest

/-- The logical lines of a string, each with its terminating `'\n'` if it
has one. -/
def logical_lines (z : List Nat) : List (List Nat) := logical_lines_aux [] z

/-- The test of webmail.c 175 on a logical line, the `n` bytes that
`email_line_length` delimits at `z+i`: `z[i]=='\n'`, or `n==2` with the pair CR-LF.
This is the line at which the header loop of the decoder stops.  It is the
decoder's reading, not the blank line of the spec: an empty line made of the pair
CR-LF that is followed by a line starting with a space or a tab is folded with that
line by `email_line_length`, has more than 2 bytes, and does not pass the test
(`blank_line_folded`); the header block in the spec's sense is
`spec_header_lines`. -/
def is_blank (l : List Nat) : Bool := l.headD 0 == 10 || l == [13, 10]

/-- The header loop of the segment decoder read off the list of logical lines
of the string at `z+i`: every line before the first blank one goes through
`hdr_line`, trimmed, and the blank line is stepped over.  The result is the
final `i`, the table of contents and the flag `multipartBody`. -/
def seg_pure (z : Nat) (bAddHeader : Bool) :
    Nat → List (List Nat) → EmailToc → Bool → Nat × EmailToc × Bool
  | i, [], p, multipartBody => (i, p, multipartBody)
  | i, l :: ls, p, multipartBody =>
    if is_blank l then (i + l.length, p, multipartBody)
    else
      seg_pure z bAddHeader (i + l.length) ls
        (hdr_line bAddHeader (rtrim l) (z + i) p multipartBody).1
        (hdr_line bAddHeader (rtrim l) (z + i) p multipartBody).2

/-- The buffer `buf1` has the length of `buf` and differs from it only at
offsets from `lo` up to, not including, `hi`, and there only by bytes
overwritten with NUL. -/
def frame (lo hi : Nat) (buf buf1 : Buf) : Prop :=
  buf1.length = buf.length ∧ (∀ k, k < lo ∨ hi ≤ k → rd buf1 k = rd buf k) ∧
    ∀ k, rd buf1 k = rd buf k ∨ rd buf1 k = 0

/-- Is the trimmed header line a `Content-Type:` line whose value begins with
`multipart/`?  This is the test that sets `multipartBody` (webmail.c 182-185). -/
def is_multipart_line (line : List Nat) : Bool :=
  decide (sqlite3_strnicmp line lit_content_type 13 = 0) &&
    decide (strncmp (firstToken (line.drop 13)) lit_multipart 10 = 0)

/-- What the `Content-Type:` block of the header loop does to `*pBody`. -/
def body_content_type (line : List Nat) (x : EmailBody) : EmailBody :=
  if sqlite3_strnicmp line lit_content_type 13 = 0 ∧
      ¬ strncmp (firstToken (line.drop 13)) lit_multipart 10 = 0 then
    store_mimetype x (firstToken (line.drop 13))
  else x

/-- What the `Content-Transfer-Encoding:` block does to `*pBody`. -/
def body_encoding (line : List Nat) (x : EmailBody) : EmailBody :=
  if sqlite3_strnicmp line lit_content_transfer_encoding 26 = 0 then
    if sqlite3_strnicmp (firstToken (line.drop 26)) lit_base64 6 = 0 then
      { x with encoding := EMAILENC_B64 }
    else if sqlite3_strnicmp (firstToken (line.drop 26)) lit_quoted_printable 16 = 0 then
      { x with encoding := EMAILENC_QUOTED }
    else { x with encoding := EMAILENC_NONE }
  else x

/-- What the last block of the header loop does to `*pBody`. -/
def body_disposition (bAddHeader : Bool) (line : List Nat) (x : EmailBody) : EmailBody :=
  if bAddHeader = false ∧ sqlite3_strnicmp line lit_content_disposition 20 = 0 then
    { x with zFilename := email_hdr_value line lit_filename }
  else x

/-- What one header line does to `*pBody`: the three blocks in turn. -/
def body_line (bAddHeader : Bool) (line : List Nat) (x : EmailBody) : EmailBody :=
  body_disposition bAddHeader line (body_encoding line (body_content_type line x))

/-- The lines that the header loop of the decoder takes as header lines: the
logical lines before the first one that passes the test `is_blank` of the code.
They are the lines of the header block in the spec's sense, `spec_header_lines`,
unless the blank line is a CR-LF pair followed by a space or a tab
(`blank_line_folded`); then they go on into the body. -/
def header_block : List (List Nat) → List (List Nat)
  | [] => []
  | l :: ls => if is_blank l then [] else l :: header_block ls

/-- The offsets at which consecutive lines start, the first one at `off`. -/
def line_offsets : Nat → List (List Nat) → List Nat
  | _, [] => []
  | off, l :: ls => off :: line_offsets (off + l.length) ls

/-- The number of bytes that the header loop of the decoder steps over: the lines
of `header_block` and the logical line at which the loop stops. -/
def body_start : List (List Nat) → Nat
  | [] => 0
  | l :: ls => if is_blank l then l.length else l.length + body_start ls

/-- The body entry of a part whose header block has the lines `ls`, starting
from the entry `x`: every line, trimmed, acts on it in turn. -/
def body_of_lines (bAddHeader : Bool) : List (List Nat) → EmailBody → EmailBody
  | [], x => x
  | l :: ls, x => body_of_lines bAddHeader ls (body_line bAddHeader (rtrim l) x)

/-- Physical lines put together, each followed by `'\n'`. -/
def unlines : List (List Nat) → List Nat
  | [] => []
  | l :: ls => l ++ 10 :: unlines ls

/-- A physical header line, given without its `'\n'`: it is not empty and not
a lone CR (which would make it a blank CR-LF line), has no NUL and no `'\n'`
inside, and does not start with a space or a tab. -/
def header_line_ok (l : List Nat) : Prop :=
  l ≠ [] ∧ l ≠ [13] ∧ (∀ c ∈ l, c ≠ 0 ∧ c ≠ 10) ∧ l.headD 0 ≠ 32 ∧ l.headD 0 ≠ 9

instance (l : List Nat) : Decidable (header_line_ok l) := by
  unfold header_line_ok; infer_instance

/-- Does the line begin, case-insensitively, with the field name `name`
(colon included)?  This is the decoder's test `sqlite3_strnicmp(z+i, name, n)==0`
with `n` the length of `name`. -/
def is_header (name line : List Nat) : Bool :=
  decide (sqlite3_strnicmp line name name.length = 0)

/-- Does the string have a blank line: a physical line that is empty, or
that holds a lone CR?  `atStart` tells that the first byte starts a physical
line. -/
def has_blank_line_aux : Bool → List Nat → Bool
  | _, [] => false
  | atStart, c :: rest =>
    (atStart && (c == 10 || (c == 13 && rest.headD 0 == 10))) ||
      has_blank_line_aux (c == 10) rest

/-- Does the string have a blank line anywhere? -/
def has_blank_line (z : List Nat) : Bool := has_blank_line_aux true z

/-- The text of a message buffer: its bytes before the first NUL, which is
the string the decoder sees once the blob is terminated. -/
def text_of (pEmail : List Nat) : List Nat := pEmail.takeWhile (fun c => c != 0)

/-- The mimetype of the body entry does not begin with `multipart/`. -/
def leaf_mimetype (x : EmailBody) : Bool := !startsWith lit_multipart x.zMimetype

/-- What the decoder guarantees for the call `seg p buf z`, that is
`emailtoc_add_multipart_segment(p, z, 0)`, on every part shorter than `d` bytes:
it returns, writes only inside the part and only NULs, leaves the header list as
it is and appends body entries whose mimetype does not begin with `multipart/`. -/
def seg_ok (seg : EmailToc → Buf → Nat → Option (EmailToc × Buf)) (d : Nat) : Prop :=
  ∀ (p : EmailToc) (buf : Buf) (z : Nat), (cstr buf z).length < d →
    ∃ p1 buf1, seg p buf z = some (p1, buf1) ∧
      frame z (z + (cstr buf z).length) buf buf1 ∧ p1.azHdr = p.azHdr ∧
      ∃ ys, p1.aBody = p.aBody ++ ys ∧ ∀ y ∈ ys, leaf_mimetype y = true

/-- No line of the text `T` begins with the boundary token `B`: the bytes `'\n'`
and then `B` occur nowhere in `'\n'` followed by `T`. -/
def no_boundary (B T : List Nat) : Prop :=
  ∀ m, m < T.length + 1 → startsWith (10 :: B) ((10 :: T).drop m) = false

instance (B T : List Nat) : Decidable (no_boundary B T) := by
  unfold no_boundary; infer_instance


/-! ## What the header lines of a part say, in the spec's words -/

/-- Is the trimmed line a `Content-Type:` line?  The field name is compared
without regard to case. -/
def content_type_line (line : List Nat) : Bool :=
  decide (sqlite3_strnicmp line lit_content_type 13 = 0)

/-- Is the trimmed line a `Content-Transfer-Encoding:` line? -/
def transfer_encoding_line (line : List Nat) : Bool :=
  decide (sqlite3_strnicmp line lit_content_transfer_encoding 26 = 0)

/-- The mimetype that a `Content-Type:` line names: the longest prefix of the
first token of its value made of alphanumeric bytes and `'/'`. -/
def mimetype_token (line : List Nat) : List Nat :=
  (firstToken (line.drop 13)).takeWhile (fun c => c == 47 || fossil_isalnum c)

/-- Modelled from the spec: the encoding that a `Content-Transfer-Encoding:`
line names: Base64 if the first token of the value starts, case-insensitively,
with `base64`, QuotedPrintable if it starts with `quoted-printable`, None for any
other value. -/
def named_encoding (line : List Nat) : Nat :=
  if sqlite3_strnicmp (firstToken (line.drop 26)) lit_base64 6 = 0 then EMAILENC_B64
  else if sqlite3_strnicmp (firstToken (line.drop 26)) lit_quoted_printable 16 = 0 then
    EMAILENC_QUOTED
  else EMAILENC_NONE

/-- The value that the last line satisfying `p` gives through `f`, and `dflt`
when no line satisfies `p`. -/
def last_decides {α : Type} (p : List Nat → Bool) (f : List Nat → α) (dflt : α)
    (lines : List (List Nat)) : α :=
  match (lines.filter p).getLast? with
  | none => dflt
  | some l => f l

/-- Modelled from the spec: the encoding of a part is decided by its last
`Content-Transfer-Encoding:` line, and is None when the part has no such line. -/
def spec_encoding (lines : List (List Nat)) : Nat :=
  last_decides transfer_encoding_line named_encoding EMAILENC_NONE lines

/-- Modelled from the spec: the mimetype of a part is the one its last
`Content-Type:` line with a value that is not `multipart/` names, and is empty
when the part has no such line. -/
def spec_mimetype (lines : List (List Nat)) : List Nat :=
  last_decides (fun l => content_type_line l && !is_multipart_line l) mimetype_token [] lines

/-! ## Occurrences of a parameter name in a header line -/

/-- The string `needle` occurs in `hay` at offset `k`. -/
def occurs_at (needle hay : List Nat) (k : Nat) : Prop :=
  k ≤ hay.length ∧ startsWith needle (hay.drop k) = true

instance (needle hay : List Nat) (k : Nat) : Decidable (occurs_at needle hay k) := by
  unfold occurs_at; infer_instance

/-- The first occurrence of `needle` in `hay` is the one at offset `k`. -/
def first_occurrence (needle hay : List Nat) (k : Nat) : Prop :=
  occurs_at needle hay k ∧ ∀ m, m < k → startsWith needle (hay.drop m) = false

instance (needle hay : List Nat) (k : Nat) : Decidable (first_occurrence needle hay k) := by
  unfold first_occurrence; infer_instance

/-- The guarantee `seg_ok` with an arbitrary property `P` of the body entries that
are appended. -/
def seg_ok_of (P : EmailBody → Prop) (seg : EmailToc → Buf → Nat → Option (EmailToc × Buf))
    (d : Nat) : Prop :=
  ∀ (p : EmailToc) (buf : Buf) (z : Nat), (cstr buf z).length < d →
    ∃ p1 buf1, seg p buf z = some (p1, buf1) ∧
      frame z (z + (cstr buf z).length) buf buf1 ∧ p1.azHdr = p.azHdr ∧
      ∃ ys, p1.aBody = p.aBody ++ ys ∧ ∀ y ∈ ys, P y

/-- The body entry is the one of a part: what the header lines `ls` of some part
make of a fresh entry, with the content pointer set. -/
def part_entry (y : EmailBody) : Prop :=
  ∃ (b : Bool) (ls : List (List Nat)) (o : Nat),
    y = { body_of_lines b ls EmailBody.zero with zContent := some o }

/-- Is the trimmed line a `Content-Disposition:` line? -/
def content_disposition_line (line : List Nat) : Bool :=
  decide (sqlite3_strnicmp line lit_content_disposition 20 = 0)

/-- Modelled from the spec: the file name of a part decoded without header
capture is decided by its last `Content-Disposition:` line alone: it is the
`filename` parameter of that line, and there is none without such a line. -/
def spec_filename (lines : List (List Nat)) : Option (List Nat) :=
  last_decides content_disposition_line (fun l => email_hdr_value l lit_filename) none lines

/-- Does the string `s` begin with the bytes of `name`, letters compared without
regard to case? -/
def starts_nocase (name s : List Nat) : Bool :=
  startsWith (name.map lower) (s.map lower)

/-- The header lines of the part at offset `z`, as the decoder reads and tests
them: the lines of `header_block`, each without its trailing whitespace.  The lines
of the header block in the spec's sense are `spec_part_lines`. -/
def part_lines (buf : Buf) (z : Nat) : List (List Nat) :=
  (header_block (logical_lines (cstr buf z))).map rtrim

/-- The decoder takes the part at offset `z` as a leaf: none of the header lines
that it reads (`part_lines`) is a `Content-Type:` line with a value that begins
with `multipart/`, so that `multipartBody` stays 0. -/
def leaf_part (buf : Buf) (z : Nat) : Prop :=
  ∀ l ∈ part_lines buf z, is_multipart_line l = false

instance (buf : Buf) (z : Nat) : Decidable (leaf_part buf z) := by
  unfold leaf_part; infer_instance

/-! ## Lines of a multipart body -/

/-- A line of the string `s` begins at offset `k`, and it begins with the two
bytes `"--"`. -/
def dash_line_at (s : List Nat) (k : Nat) : Prop :=
  (k = 0 ∨ rd s (k - 1) = 10) ∧ rd s k = 45 ∧ rd s (k + 1) = 45

instance (s : List Nat) (k : Nat) : Decidable (dash_line_at s k) := by
  unfold dash_line_at; infer_instance

/-! ## `webmail_normal_header` -/

/-- The table `az[]` of `webmail_normal_header`: the header fields shown in
"Normal" mode. -/
def normal_header_names : List (List Nat) :=
  [bytes "To", bytes "Cc", bytes "Bcc", bytes "Date", bytes "From", bytes "Subject"]

/-- Source: `webmail_normal_header` in webmail.c:
`for(i=0; i<6; i++){ if( sqlite3_strnicmp(z, az[i], N)==0 ) return 1; } return 0;`. -/
def webmail_normal_header (z : List Nat) (N : Nat) : Nat :=
  if normal_header_names.any (fun name => decide (sqlite3_strnicmp z name N = 0)) then 1 else 0

/-- The first `N` bytes of `z` are, letters compared without regard to case, the
whole of the name `name`. -/
def is_whole_name (name z : List Nat) (N : Nat) : Prop :=
  N = name.length ∧ (z.take N).map lower = name.map lower

instance (name z : List Nat) (N : Nat) : Decidable (is_whole_name name z N) := by
  unfold is_whole_name; infer_instance

/-! ## cookies.c: the display preferences cookie -/

/-- One entry of `cookies.aParam[]`.  `zPValue` is `none` for a NULL pointer. -/
structure CookieParam where
  zPName : List Nat
  zPValue : Option (List Nat)
deriving DecidableEq

/-- Source: the static struct `cookies` of cookies.c.  `aParam` holds the entries
in use, so that `nParam` is its length; the array has room for `COOKIE_NPARAM`,
which is 10. -/
structure Cookies where
  zCookieValue : Option (List Nat)
  bChanged : Bool
  bIsInit : Bool
  aParam : List CookieParam
deriving DecidableEq

/-- The count `cookies.nParam`. -/
def Cookies.nParam (c : Cookies) : Nat := c.aParam.length

/-- The value of `COOKIE_NPARAM`. -/
def COOKIE_NPARAM : Nat := 10

/-- The bytes of `"fossil_display_settings"`, the value of
`DISPLAY_SETTINGS_COOKIE`. -/
def DISPLAY_SETTINGS_COOKIE : List Nat := bytes "fossil_display_settings"

/-- The `while( cookies.nParam<COOKIE_NPARAM )` loop of `cookie_parse` on the
string `z`: skip whitespace, take a name up to `'='` or `','`, then a value up to
`','` if an `'='` follows the name, and the empty value otherwise.  Every pass adds
one entry, so ten passes are all the loop can make.  `dehttpize` is not under
src/ and is passed in. -/
def cookie_parse_loop (dehttpize : List Nat → List Nat) :
    Nat → List Nat → List CookieParam → List CookieParam
  | 0, _, acc => acc
  | fuel + 1, z, acc =>
    if acc.length < COOKIE_NPARAM then
      let z1 := z.dropWhile fossil_isspace
      if z1 = [] then acc else
      let name := z1.takeWhile (fun c => c != 61 && c != 44)
      let z2 := z1.dropWhile (fun c => c != 61 && c != 44)
      if z2.headD 0 = 61 then
        let value := z2.tail.takeWhile (fun c => c != 44)
        let z4 := (z2.tail.dropWhile (fun c => c != 44)).tail
        cookie_parse_loop dehttpize fuel z4 (acc ++ [⟨name, some (dehttpize value)⟩])
      else
        cookie_parse_loop dehttpize fuel z2.tail (acc ++ [⟨name, some []⟩])
    else acc

/-- Source: `cookie_parse` in cookies.c.  `P` is the lookup of a query parameter
or cookie by name (`P()` of cgi.c, not under src/), `none` for NULL.
`zCookieValue` points to the copy of the cookie text that the loop cuts up in
place; the field holds the string that the pointer gives once the routine has
returned, which ends at the first NUL that the loop stored: when the loop makes a
pass, that NUL stands on the `'='` or `','` that follows the first name, so that
the string is the leading whitespace and the first name (the whole text when
nothing follows the name); when the loop makes no pass, it is the whole text. -/
def cookie_parse (dehttpize : List Nat → List Nat) (P : List Nat → Option (List Nat))
    (c : Cookies) : Cookies :=
  if c.bIsInit then c
  else
    let z := (P DISPLAY_SETTINGS_COOKIE).getD []
    let zCopy :=
      if c.aParam.length < COOKIE_NPARAM then
        z.takeWhile fossil_isspace ++
          (z.dropWhile fossil_isspace).takeWhile (fun c => c != 61 && c != 44)
      else z
    { c with zCookieValue := some zCopy, bIsInit := true,
             aParam := cookie_parse_loop dehttpize COOKIE_NPARAM z c.aParam }

/-- The loop `for(i=0; i<cookies.nParam && strcmp(zPName,cookies.aParam[i].zPName);
i++){}`: the index of the first entry named `zPName`, or the count of entries. -/
def cookie_find (zPName : List Nat) : List CookieParam → Nat
  | [] => 0
  | e :: rest => if zPName = e.zPName then 0 else cookie_find zPName rest + 1

/-- The value `cookies.aParam[i].zPValue`. -/
def cookie_value_at (ps : List CookieParam) (i : Nat) : Option (List Nat) :=
  match ps.get? i with
  | some e => e.zPValue
  | none => none

/-- The value of `COOKIE_READ`. -/
def COOKIE_READ : Nat := 1

/-- The value of `COOKIE_WRITE`. -/
def COOKIE_WRITE : Nat := 2

/-- The test `strcmp(a, b)!=0` on two pointers: `none` when one of them is NULL,
where the program reads through a null pointer. -/
def strcmp_differ (a b : Option (List Nat)) : Option Bool :=
  match a, b with
  | some x, some y => some (decide (x ≠ y))
  | _, _ => none

/-- Source: `cookie_readwrite` in cookies.c.  The result is the state `cookies`
and the query parameters, which `cgi_set_parameter_nocopy` (not under src/) changes
at the name `zQP`; it is `none` when the program calls `strcmp` on a NULL pointer,
which it does in the test `strcmp(zQVal, cookies.aParam[i].zPValue)` when `zQVal`
or the value of the entry is NULL.  That test is reached when the flag
`COOKIE_WRITE` is set, `i<COOKIE_NPARAM` and `i` is not `cookies.nParam`. -/
def cookie_readwrite (dehttpize : List Nat → List Nat) (P : List Nat → Option (List Nat))
    (c : Cookies) (zQP zPName : List Nat) (zDflt : Option (List Nat)) (flags : Nat) :
    Option (Cookies × (List Nat → Option (List Nat))) :=
  let zQVal := P zQP
  let c1 := cookie_parse dehttpize P c
  let i := cookie_find zPName c1.aParam
  if zQVal = none ∧ flags &&& COOKIE_READ ≠ 0 ∧ i < c1.nParam then
    some (c1, fun k => if k = zQP then cookie_value_at c1.aParam i else P k)
  else
    let zQVal1 := if zQVal = none then zDflt else zQVal
    if flags &&& COOKIE_WRITE ≠ 0 ∧ i < COOKIE_NPARAM then
      if i = c1.nParam then
        some ({ c1 with aParam := c1.aParam ++ [⟨zPName, zQVal1⟩], bChanged := true }, P)
      else
        match strcmp_differ zQVal1 (cookie_value_at c1.aParam i) with
        | none => none
        | some true =>
          some ({ c1 with aParam := c1.aParam.modify (fun e => { e with zPValue := zQVal1 }) i,
                          bChanged := true }, P)
        | some false => some (c1, P)
    else some (c1, P)

/-- Source: `cookie_write_parameter` in cookies.c. -/
def cookie_write_parameter (dehttpize : List Nat → List Nat)
    (P : List Nat → Option (List Nat)) (c : Cookies) (zQP zPName : List Nat)
    (zDflt : Option (List Nat)) : Option (Cookies × (List Nat → Option (List Nat))) :=
  cookie_readwrite dehttpize P c zQP zPName zDflt COOKIE_WRITE

/-! ## What the decoder does to the buffer -/

/-- The byte at index `k` of the buffer `a` is one that the decoder may
overwrite: a whitespace byte, or a `'-'` that follows a `'\n'` and is followed by
another `'-'`, which is how a boundary line begins. -/
def overwritten_ok (a : Buf) (k : Nat) : Prop :=
  fossil_isspace (rd a k) = true ∨
    (rd a k = 45 ∧ rd a (k + 1) = 45 ∧ 1 ≤ k ∧ rd a (k - 1) = 10)

instance (a : Buf) (k : Nat) : Decidable (overwritten_ok a k) := by
  unfold overwritten_ok; infer_instance

/-- The buffer `b` is the buffer `a` with some bytes overwritten by NUL, each of
them a byte of `a` that may be overwritten; the length is the same and every other
byte is unchanged. -/
def zeroed (a b : Buf) : Prop :=
  b.length = a.length ∧ ∀ k, rd b k = rd a k ∨ (rd b k = 0 ∧ overwritten_ok a k)

/-- What holds each time the loop of the splitter tests `z[i]`: the string that
is split ends with the NUL at `E`, the index is not beyond it, the token at `zB`
is `B`, and no byte from `iStart` up to `i` is NUL. -/
def mp_state (zB z1 E : Nat) (B : List Nat) (buf : Buf) (i iStart : Nat) : Prop :=
  rd buf E = 0 ∧ z1 + i ≤ E ∧ iStart ≤ i ∧ cstr buf zB = B ∧
    ∀ k, iStart ≤ k → k < i → rd buf (z1 + k) ≠ 0

/-! ## The parts that the splitter hands to the segment decoder -/

/-- The segment decoder `seg`, refusing every part that does not satisfy `Q`. -/
def seg_on (Q : Buf → Nat → Prop) [∀ b y, Decidable (Q b y)]
    (seg : EmailToc → Buf → Nat → Option (EmailToc × Buf)) :
    EmailToc → Buf → Nat → Option (EmailToc × Buf) :=
  fun q b y => if Q b y then seg q b y else none

/-! ## The decoder with every access to the buffer checked

The routines of the decoder once more, with every access to the buffer checked
against `lim`, the index of the NUL that terminates the buffer: a read `z[i]` is
`rdc`, a store `z[i] = 0` is `wrc`, and a string handed to a library routine or
scanned by `firstToken` is `strc`.  A run stops with `Fault.range` at the first
access beyond `lim`. -/

/-- Why a checked run stops: an access to the buffer at an index beyond the
limit, or a loop that ran out of fuel. -/
inductive Fault where
  | range (i : Nat)
  | fuel
deriving DecidableEq

/-- The read `z[i]`, checked. -/
def rdc (lim : Nat) (buf : Buf) (i : Nat) : Except Fault Nat :=
  if i ≤ lim then Except.ok (rd buf i) else Except.error (Fault.range i)

/-- The store `z[i] = v`, checked. -/
def wrc (lim : Nat) (buf : Buf) (i v : Nat) : Except Fault Buf :=
  if i ≤ lim then Except.ok (wr buf i v) else Except.error (Fault.range i)

/-- The string at `off`, handed to `strncmp`, `sqlite3_strnicmp`, `strstr` or
`memcpy` or scanned by `firstToken`: such a routine reads no byte after the NUL
that ends the string, and that NUL must not be beyond the limit. -/
def strc (lim : Nat) (buf : Buf) (off : Nat) : Except Fault (List Nat) :=
  if off + (cstr buf off).length ≤ lim then Except.ok (cstr buf off)
  else Except.error (Fault.range (off + (cstr buf off).length))

/-- A read `z[i]` that the code makes only when `c` holds, as the right operand
of `&&` or `||`; checked when it is made. -/
def rdc_when (lim : Nat) (buf : Buf) (c : Bool) (i : Nat) : Except Fault Nat :=
  if c then rdc lim buf i else Except.ok 0

/-- A string that is handed to a library routine only when `c` holds; checked
when it is. -/
def strc_when (lim : Nat) (buf : Buf) (c : Bool) (off : Nat) : Except Fault (List Nat) :=
  if c then strc lim buf off else Except.ok []

/-- The loop of `email_line_length` on the buffer, checked:
`for(i=0; z[i] && (z[i]!='\n' || z[i+1]==' ' || z[i+1]=='\t'); i++){}`;
`z[i+1]` is read only when `z[i]` is `'\n'`. -/
def email_line_length_scan_c (lim : Nat) (buf : Buf) (q : Nat) :
    Nat → Nat → Except Fault Nat
  | 0, _ => Except.error Fault.fuel
  | fuel + 1, i => do
    let c ← rdc lim buf (q + i)
    let c1 ← rdc_when lim buf (decide (c = 10)) (q + i + 1)
    if c ≠ 0 ∧ (c ≠ 10 ∨ c1 = 32 ∨ c1 = 9) then
      email_line_length_scan_c lim buf q fuel (i + 1)
    else pure i

/-- Source: `email_line_length` in webmail.c, on the string at offset `q` of the
buffer, checked. -/
def email_line_length_c (lim : Nat) (buf : Buf) (q : Nat) : Except Fault Nat := do
  let i ← email_line_length_scan_c lim buf q (buf.length + 1) 0
  let c ← rdc lim buf (q + i)
  pure (if c = 10 then i + 1 else i)

/-- The loop `for(j=i+n; j>i && fossil_isspace(z[j-1]); j--){}`, checked. -/
def trimLen_c (lim : Nat) (buf : Buf) (zi : Nat) : Nat → Except Fault Nat
  | 0 => pure 0
  | k + 1 => do
    let c ← rdc lim buf (zi + k)
    if fossil_isspace c then trimLen_c lim buf zi k else pure (k + 1)

/-- One header line (webmail.c 182-212), checked: the line at `z+i` is handed to
`sqlite3_strnicmp`, and `z+i+13` and `z+i+26` are handed to `firstToken` after
the field name has matched. -/
def hdr_line_c (lim : Nat) (buf : Buf) (bAddHeader : Bool) (zi : Nat) (p : EmailToc)
    (multipartBody : Bool) : Except Fault (EmailToc × Bool) := do
  let line ← strc lim buf zi
  let _ ← strc_when lim buf (decide (sqlite3_strnicmp line lit_content_type 13 = 0)) (zi + 13)
  let _ ← strc_when lim buf
    (decide (sqlite3_strnicmp line lit_content_transfer_encoding 26 = 0)) (zi + 26)
  pure (hdr_line bAddHeader line zi p multipartBody)

/-- The `while( z[i] )` loop of `emailtoc_add_multipart_segment`, checked.  In
the test of the blank line `z[i+1]` is read only when `n==2 && z[i]=='\r'`. -/
def segment_loop_c (lim : Nat) (z : Nat) (bAddHeader : Bool) :
    Nat → Buf → Nat → EmailToc → Bool → Except Fault (Buf × Nat × EmailToc × Bool)
  | fuel, buf, i, p, multipartBody => do
    let c ← rdc lim buf (z + i)
    if c = 0 then pure (buf, i, p, multipartBody) else
    match fuel with
    | 0 => Except.error Fault.fuel
    | fuel + 1 => do
      let n ← email_line_length_c lim buf (z + i)
      let c1 ← rdc_when lim buf (decide (n = 2 ∧ c = 13)) (z + i + 1)
      if (n = 2 ∧ c = 13 ∧ c1 = 10) ∨ c = 10 ∨ n = 0 then
        pure (buf, i + n, p, multipartBody)
      else do
        let t ← trimLen_c lim buf (z + i) n
        let buf1 ← wrc lim buf (z + (i + t)) 0
        let r ← hdr_line_c lim buf1 bAddHeader (z + i) p multipartBody
        segment_loop_c lim z bAddHeader fuel buf1 (i + n) r.1 r.2

/-- The loop that skips forward to the boundary mark, checked: at the start of a
line `z[0]` is read, and `z[1]` when `z[0]` is `'-'`. -/
def skip_to_boundary_c (lim : Nat) (buf : Buf) (q : Nat) :
    Nat → Bool → Nat → Except Fault (Option Nat)
  | 0, _, _ => Except.error Fault.fuel
  | fuel + 1, atStart, k => do
    let c ← rdc lim buf (q + k)
    let c1 ← rdc_when lim buf (atStart && c == 45) (q + k + 1)
    if atStart = true ∧ c = 45 ∧ c1 = 45 then pure (some k)
    else if c = 0 then pure none
    else skip_to_boundary_c lim buf q fuel (c == 10) (k + 1)

/-- A loop `for(k=0; f(z[k]); k++){}` on the buffer, checked. -/
def scan_c (lim : Nat) (buf : Buf) (f : Nat → Bool) (q : Nat) : Nat → Nat → Except Fault Nat
  | 0, _ => Except.error Fault.fuel
  | fuel + 1, k => do
    let c ← rdc lim buf (q + k)
    if f c then scan_c lim buf f q fuel (k + 1) else pure k

/-- The `for(i=iStart=0; z[i]; i++)` loop of `emailtoc_add_multipart`, checked.
`strncmp` is called only when `z[i]` is `'\n'`, and `z[iStart+1]` is read only
when `z[iStart]` is `'-'`. -/
def multipart_loop_c (lim : Nat)
    (seg : EmailToc → Buf → Nat → Except Fault (EmailToc × Buf)) (zB nB z : Nat) :
    Nat → EmailToc → Buf → Nat → Nat → Except Fault (EmailToc × Buf)
  | fuel, p, buf, i, iStart => do
    let c ← rdc lim buf (z + i)
    if c = 0 then pure (p, buf) else
    match fuel with
    | 0 => Except.error Fault.fuel
    | fuel + 1 => do
      let s ← strc_when lim buf (decide (c = 10)) (z + i + 1)
      let bs ← strc_when lim buf (decide (c = 10)) zB
      if c = 10 ∧ strncmp s bs nB = 0 then do
        let buf1 ← wrc lim buf (z + i + 1) 0
        let r ← seg p buf1 (z + iStart)
        let a ← rdc lim r.2 (z + (i + nB))
        let a1 ← rdc_when lim r.2 (decide (a = 45)) (z + (i + nB) + 1)
        if a = 45 ∧ a1 = 45 then pure r
        else do
          let w ← scan_c lim r.2 fossil_isspace (z + (i + nB)) (r.2.length + 1) 0
          multipart_loop_c lim seg zB nB z fuel r.1 r.2 (i + nB + w + 1) (i + nB + w)
      else
        multipart_loop_c lim seg zB nB z fuel p buf (i + 1) iStart

/-- Source: `emailtoc_add_multipart` in webmail.c, checked, with the recursive
call passed as `seg`. -/
def emailtoc_add_multipart_with_c (lim : Nat)
    (seg : EmailToc → Buf → Nat → Except Fault (EmailToc × Buf))
    (p : EmailToc) (buf : Buf) (z : Nat) : Except Fault (EmailToc × Buf) := do
  let k ← skip_to_boundary_c lim buf z (buf.length + 1) true 0
  match k with
  | none => pure (p, buf)
  | some k => do
    let zB := z + k
    let nB ← scan_c lim buf (fun c => c != 0 && !fossil_isspace c) zB (buf.length + 1) 0
    if nB = 0 then pure (p, buf) else do
    let ws ← scan_c lim buf fossil_isspace (zB + nB) (buf.length + 1) 0
    let buf1 ← wrc lim buf (zB + nB) 0
    multipart_loop_c lim seg zB nB (zB + nB + ws) buf1.length p buf1 0 0

/-- Source: `emailtoc_add_multipart_segment` in webmail.c, checked. -/
def emailtoc_add_multipart_segment_c (lim : Nat) :
    Nat → EmailToc → Buf → Nat → Bool → Except Fault (EmailToc × Buf)
  | 0, _, _, _, _ => Except.error Fault.fuel
  | d + 1, p, buf, z, bAddHeader => do
    let r ← segment_loop_c lim z bAddHeader buf.length buf 0 (emailtoc_new_body p) false
    if r.2.2.2 = true then
      emailtoc_add_multipart_with_c lim
        (fun q b y => emailtoc_add_multipart_segment_c lim d q b y false)
        r.2.2.1.popBody r.1 (z + r.2.1)
    else
      pure (r.2.2.1.updBody (fun b => { b with zContent := some (z + r.2.1) }), r.1)

/-- Source: `emailtoc_from_email` in webmail.c, checked: every access must be at
an index no greater than the index of the first NUL of the terminated buffer. -/
def emailtoc_from_email_c (pEmail : List Nat) : Except Fault (EmailToc × Buf) :=
  emailtoc_add_multipart_segment_c (cstr (pEmail ++ [0]) 0).length (pEmail.length + 1)
    emailtoc_alloc (pEmail ++ [0]) 0 true

/-! ## The header block of a part, in the spec's words -/

/-- Modelled from the spec: the header block of a text, as bytes: what comes
before the first blank line, a physical line that is empty or that holds a lone CR
(the "immediate `\n`, or CR-LF pair" of the Line Scanner); the whole text when it
has no blank line.  `atStart` tells that the first byte starts a physical line. -/
def spec_header_text_aux : Bool → List Nat → List Nat
  | _, [] => []
  | atStart, c :: rest =>
    if atStart && (c == 10 || (c == 13 && rest.headD 0 == 10)) then []
    else c :: spec_header_text_aux (c == 10) rest

/-- Modelled from the spec: the bytes of the header block of a text. -/
def spec_header_text (z : List Nat) : List Nat := spec_header_text_aux true z

/-- Modelled from the spec: the header lines of a text are the logical lines of
its header block. -/
def spec_header_lines (z : List Nat) : List (List Nat) := logical_lines (spec_header_text z)

/-- The blank line that ends the header block is a CR-LF pair and the line after
it begins with a space or a tab.  This is the input on which the decoder does not
see the blank line: `email_line_length` folds the line after it into it.
`atStart` tells that the first byte starts a physical line. -/
def blank_folded_aux : Bool → List Nat → Bool
  | _, [] => false
  | atStart, c :: rest =>
    if atStart && (c == 10 || (c == 13 && rest.headD 0 == 10)) then
      c == 13 && (rest.getD 1 0 == 32 || rest.getD 1 0 == 9)
    else blank_folded_aux (c == 10) rest

/-- The text has a blank line, the first one is a CR-LF pair, and the line after
it begins with a space or a tab. -/
def blank_line_folded (z : List Nat) : Prop := blank_folded_aux true z = true

instance (z : List Nat) : Decidable (blank_line_folded z) := by
  unfold blank_line_folded; infer_instance

/-- Modelled from the spec: the header lines of the part at offset `z`, each
without its trailing whitespace. -/
def spec_part_lines (buf : Buf) (z : Nat) : List (List Nat) :=
  (spec_header_lines (cstr buf z)).map rtrim

/-- Modelled from the spec: the part at offset `z` is a leaf: no line of its
header block is a `Content-Type:` line with a value that begins with
`multipart/`. -/
def spec_leaf_part (buf : Buf) (z : Nat) : Prop :=
  ∀ l ∈ spec_part_lines buf z, is_multipart_line l = false

instance (buf : Buf) (z : Nat) : Decidable (spec_leaf_part buf z) := by
  unfold spec_leaf_part; infer_instance

/-! ## Where a child part of a multipart body starts and ends -/

/-- The start of `emailtoc_add_multipart` (webmail.c 241-253), read off the
buffer: the offset of `zBoundary`, the length `nB` of the boundary mark and the
offset of the first child, which is `z` once `z += nB` and the skip of the
whitespace are done; `none` when the routine returns before its `for` loop. -/
def split_start (buf : Buf) (z : Nat) : Option (Nat × Nat × Nat) :=
  match skip_to_boundary true (cstr buf z) with
  | none => none
  | some k =>
    let zB := z + k
    let nB := scanLen (fun c => c != 0 && !fossil_isspace c) (cstr buf zB)
    if nB = 0 then none else
    some (zB, nB, zB + nB + scanLen fossil_isspace (cstr buf (zB + nB)))

/-- The part at offset `y` of the buffer, as it is handed to the segment decoder by
the splitter whose boundary mark is the `nB` bytes at `zB` and whose first child is
at `z1`.  Its start: `y` is `z1`, or `y` is the offset of the last byte of a
boundary mark, of which the first byte, at `y+1-nB`, holds the NUL that ended the
part before (`iStart = i+nB`, where `z[i+1] = 0` was stored).  Its end: the last
byte of the part is a `'\n'`, and the NUL that ends the part stands on the first
byte of a boundary mark, the bytes after it being those of the mark from the second
on. -/
def child_from_split (zB nB z1 : Nat) (buf : Buf) (y : Nat) : Prop :=
  (y = z1 ∨ (z1 + nB ≤ y ∧ rd buf (y + 1 - nB) = 0 ∧
      ∀ m, m < nB → 1 ≤ m → rd buf (y + 1 - nB + m) = rd buf (zB + m))) ∧
    (cstr buf y).getLast? = some 10 ∧
    ∀ m, m < nB → 1 ≤ m → rd buf (y + (cstr buf y).length + m) = rd buf (zB + m)

instance (zB nB z1 : Nat) (buf : Buf) (y : Nat) : Decidable (child_from_split zB nB z1 buf y) := by
  unfold child_from_split; infer_instance

/-- A segment decoder that decodes nothing and writes down, in the header list,
the offset of every part that it is handed. -/
def seg_record : EmailToc → Buf → Nat → Option (EmailToc × Buf) :=
  fun q b y => some (⟨q.azHdr ++ [y], q.aBody⟩, b)
/-! # Theorems -/

/-! ## Basic facts about buffers -/

theorem rd_append_right (a b : List Nat) (m : Nat) : rd (a ++ b) (a.length + m) = rd b m := by
  simp [rd, List.getD_eq_getElem?_getD, List.getElem?_append_right]

theorem rd_append_left (a b : List Nat) (m : Nat) (h : m < a.length) :
    rd (a ++ b) m = rd a m := by
  simp [rd, List.getD_eq_getElem?_getD, List.getElem?_append_left h]

theorem rd_cons_zero (c : Nat) (b : List Nat) : rd (c :: b) 0 = c := by
  simp [rd]

theorem rd_cons_succ (c : Nat) (b : List Nat) (m : Nat) : rd (c :: b) (m + 1) = rd b m := by
  simp [rd]

theorem rd_nil (m : Nat) : rd [] m = 0 := by
  simp [rd]

theorem wr_append_right (a b : List Nat) (m v : Nat) :
    wr (a ++ b) (a.length + m) v = a ++ wr b m v := by
  simp [wr, List.set_append]

theorem wr_cons_zero (c : Nat) (b : List Nat) (v : Nat) : wr (c :: b) 0 v = v :: b := by
  simp [wr]

theorem wr_length (b : List Nat) (m v : Nat) : (wr b m v).length = b.length := by
  simp [wr]

theorem takeWhile_nul_free (s post : List Nat) (hs : ∀ c ∈ s, c ≠ 0) :
    (s ++ 0 :: post).takeWhile (fun c => c != 0) = s := by
  induction s with
  | nil => simp
  | cons c s ih =>
    have hc : c ≠ 0 := hs c (List.mem_cons_self _ _)
    have := ih (fun x hx => hs x (List.mem_cons_of_mem _ hx))
    simp [List.takeWhile_cons, hc, this]

theorem cstr_append (a s post : List Nat) (hs : ∀ c ∈ s, c ≠ 0) :
    cstr (a ++ (s ++ 0 :: post)) a.length = s := by
  simp [cstr, takeWhile_nul_free s post hs]

/-! ## `email_line_length` -/

theorem line_end_cons_zero (c : Nat) (rest : List Nat) :
    line_end (c :: rest) 0 ↔ (c = 10 ∧ rest.headD 0 ≠ 32 ∧ rest.headD 0 ≠ 9) := by
  cases rest <;> simp [line_end]

theorem line_end_cons_succ (c : Nat) (rest : List Nat) (i : Nat) :
    line_end (c :: rest) (i + 1) ↔ line_end rest i := by
  simp [line_end]

theorem line_end_nil (i : Nat) : ¬ line_end [] i := by
  simp [line_end]

theorem line_end_lt (z : List Nat) (i : Nat) (h : line_end z i) : i < z.length := by
  by_contra hlt
  have : z.getD i 0 = 0 := by
    simp [List.getD_eq_getElem?_getD, List.getElem?_eq_none (Nat.le_of_not_lt hlt)]
  rw [h.1] at this
  omega

theorem scan_first_line_end (z : List Nat) : ∀ (a i : Nat), line_end z i →
    (∀ k, k < i → ¬ line_end z k) → email_line_length_scan z a = a + i := by
  induction z with
  | nil => intro a i h; exact absurd h (line_end_nil i)
  | cons c rest ih =>
    intro a i h hmin
    cases i with
    | zero =>
      have h0 := (line_end_cons_zero c rest).1 h
      have hcond : ¬ (c ≠ 10 ∨ rest.headD 0 = 32 ∨ rest.headD 0 = 9) := by
        rintro (h1 | h1 | h1)
        · exact h1 h0.1
        · exact h0.2.1 h1
        · exact h0.2.2 h1
      simp only [email_line_length_scan, if_neg hcond, Nat.add_zero]
    | succ i =>
      have h0 : ¬ line_end (c :: rest) 0 := hmin 0 (Nat.succ_pos i)
      rw [line_end_cons_zero] at h0
      have hcond : c ≠ 10 ∨ rest.headD 0 = 32 ∨ rest.headD 0 = 9 := by
        by_contra hc
        push_neg at hc
        exact h0 ⟨hc.1, hc.2.1, hc.2.2⟩
      have hrec := ih (a + 1) i ((line_end_cons_succ c rest i).1 h)
        (fun k hk hl => hmin (k + 1) (Nat.succ_lt_succ hk) ((line_end_cons_succ c rest k).2 hl))
      simp only [email_line_length_scan, if_pos hcond, hrec]
      omega

theorem scan_no_line_end (z : List Nat) : ∀ (a : Nat), (∀ i, ¬ line_end z i) →
    email_line_length_scan z a = a + z.length := by
  induction z with
  | nil => intro a _; simp [email_line_length_scan]
  | cons c rest ih =>
    intro a hno
    have h0 := hno 0
    rw [line_end_cons_zero] at h0
    have hcond : c ≠ 10 ∨ rest.headD 0 = 32 ∨ rest.headD 0 = 9 := by
      by_contra hc
      push_neg at hc
      exact h0 ⟨hc.1, hc.2.1, hc.2.2⟩
    have hrec := ih (a + 1) (fun i hl => hno (i + 1) ((line_end_cons_succ c rest i).2 hl))
    simp only [email_line_length_scan, if_pos hcond, hrec, List.length_cons]
    omega

/-- C9: `email_line_length(z)` is `i+1` for the smallest index `i` that holds a
`'\n'` followed by neither a space nor a tab, and the length of `z` when there is
no such index; the folded line `"Subject: Hello\n World"` is scanned as one logical
line of all its 21 bytes, and a terminating `'\n'` is counted in the result. -/
theorem email_line_length_spec (z : List Nat) :
    (∀ i, line_end z i → (∀ k, k < i → ¬ line_end z k) → email_line_length z = i + 1) ∧
    ((∀ i, ¬ line_end z i) → email_line_length z = z.length) ∧
    email_line_length (bytes "Subject: Hello\n World") = 21 ∧
    email_line_length (bytes "Subject: Hello\n World\nTo: x") = 22 := by
  refine ⟨?_, ?_, by decide, by decide⟩
  · intro i h hmin
    have hs := scan_first_line_end z 0 i h hmin
    simp only [Nat.zero_add] at hs
    unfold email_line_length
    simp only [hs, h.1, if_true]
  · intro hno
    have hs := scan_no_line_end z 0 hno
    simp only [Nat.zero_add] at hs
    unfold email_line_length
    simp [hs, List.getD_eq_getElem?_getD]

/-- Witness for C9 on `"a\nb"`: the first line end is at index 1. -/
theorem email_line_length_spec_witness :
    line_end [97, 10, 98] 1 ∧ email_line_length [97, 10, 98] = 1 + 1 :=
  ⟨by decide, (email_line_length_spec [97, 10, 98]).1 1 (by decide) (by decide)⟩
/-! ## `email_hdr_unfold` -/

theorem rd_append_length (a b : List Nat) : rd (a ++ b) a.length = rd b 0 := by
  have := rd_append_right a b 0
  simpa using this

theorem wr_append_length (a b : List Nat) (v : Nat) :
    wr (a ++ b) a.length v = a ++ wr b 0 v := by
  have := wr_append_right a b 0 v
  simpa using this

theorem last_is_space_concat (o : List Nat) (x : Nat) :
    last_is_space (o ++ [x]) = (x == 32) := by
  simp [last_is_space]

theorem last_is_space_nil : last_is_space [] = false := by
  simp [last_is_space]

theorem fossil_isspace_32 : fossil_isspace 32 = true := by decide

theorem not_space_ne_32 (c : Nat) (h : fossil_isspace c = false) : (c == 32) = false := by
  cases hc : (c == 32)
  · rfl
  · have : c = 32 := by simpa using hc
    subst this
    simp [fossil_isspace] at h

/-- The test `j && z[j-1]==' '` of the unfolder asks whether the output so far
ends in a space. -/
theorem unfold_test (pre out X : List Nat) :
    (out.length ≠ 0 ∧ rd (pre ++ (out ++ X)) (pre.length + out.length - 1) = 32) ↔
      last_is_space out = true := by
  rcases List.eq_nil_or_concat out with rfl | ⟨o, x, rfl⟩
  · simp [last_is_space]
  · simp only [List.concat_eq_append]
    have hidx : pre.length + (o ++ [x]).length - 1 = pre.length + (o.length + 0) := by
      simp
    rw [hidx, rd_append_right, List.append_assoc, rd_append_right, last_is_space_concat]
    simp [rd]

/-- Storing `v` at the write position `j`, which is at or before the read
position: the stored byte joins the output and the read byte joins the bytes in
between. -/
theorem unfold_store (pre out junk R : List Nat) (c v : Nat) :
    ∃ junk1, junk1.length = junk.length ∧
      wr (pre ++ (out ++ (junk ++ c :: R))) (pre.length + out.length) v =
        pre ++ ((out ++ [v]) ++ (junk1 ++ R)) := by
  cases junk with
  | nil =>
    refine ⟨[], rfl, ?_⟩
    rw [wr_append_right, wr_append_length]
    simp [wr]
  | cons x t =>
    refine ⟨t ++ [c], by simp, ?_⟩
    rw [wr_append_right, wr_append_length]
    simp [wr]

theorem unfold_loop_spec (post : List Nat) : ∀ (rest : List Nat), (∀ c ∈ rest, c ≠ 0) →
    ∀ (fuel : Nat), rest.length ≤ fuel → ∀ (pre out junk : List Nat),
    ∃ junk1, email_hdr_unfold_loop pre.length fuel
        (pre ++ (out ++ (junk ++ (rest ++ 0 :: post)))) (out.length + junk.length) out.length
      = some (pre ++ (out ++ (collapse_ws (last_is_space out) rest ++ (junk1 ++ 0 :: post))),
          out.length + (collapse_ws (last_is_space out) rest).length) := by
  intro rest
  induction rest with
  | nil =>
    intro _ fuel _ pre out junk
    refine ⟨junk, ?_⟩
    have hrd : rd (pre ++ (out ++ (junk ++ ([] ++ 0 :: post))))
        (pre.length + (out.length + junk.length)) = 0 := by
      rw [rd_append_right, rd_append_right, rd_append_length]
      simp [rd]
    unfold email_hdr_unfold_loop
    rw [if_pos hrd]
    simp [collapse_ws]
  | cons c rest ih =>
    intro hnz fuel hfuel pre out junk
    have hc : c ≠ 0 := hnz c (List.mem_cons_self _ _)
    have hnz1 : ∀ x ∈ rest, x ≠ 0 := fun x hx => hnz x (List.mem_cons_of_mem _ hx)
    obtain ⟨f, rfl⟩ : ∃ f, fuel = f + 1 := by
      cases fuel with
      | zero => simp at hfuel
      | succ f => exact ⟨f, rfl⟩
    have hf : rest.length ≤ f := by simpa using hfuel
    have hrd : rd (pre ++ (out ++ (junk ++ (c :: rest ++ 0 :: post))))
        (pre.length + (out.length + junk.length)) = c := by
      rw [rd_append_right, rd_append_right, rd_append_length]
      simp [rd]
    unfold email_hdr_unfold_loop
    simp only [hrd, if_neg hc]
    by_cases hsp : fossil_isspace c = true
    · simp only [hsp, if_true]
      by_cases hlast : last_is_space out = true
      · have htest := (unfold_test pre out (junk ++ (c :: rest ++ 0 :: post))).2 hlast
        rw [if_pos htest]
        obtain ⟨junk1, h1⟩ := ih hnz1 f hf pre out (junk ++ [c])
        refine ⟨junk1, ?_⟩
        have e1 : pre ++ (out ++ (junk ++ (c :: rest ++ 0 :: post))) =
            pre ++ (out ++ ((junk ++ [c]) ++ (rest ++ 0 :: post))) := by simp
        have e2 : out.length + junk.length + 1 = out.length + (junk ++ [c]).length := by
          simp; omega
        rw [e1, e2, h1]
        simp [collapse_ws, hsp, hlast]
      · have htest : ¬ (out.length ≠ 0 ∧
            rd (pre ++ (out ++ (junk ++ (c :: rest ++ 0 :: post))))
              (pre.length + out.length - 1) = 32) :=
          fun h => hlast ((unfold_test pre out _).1 h)
        rw [if_neg htest]
        obtain ⟨junkA, hlen, hwr⟩ := unfold_store pre out junk (rest ++ 0 :: post) c 32
        have e0 : c :: rest ++ 0 :: post = c :: (rest ++ 0 :: post) := rfl
        rw [e0, hwr]
        obtain ⟨junk1, h1⟩ := ih hnz1 f hf pre (out ++ [32]) junkA
        refine ⟨junk1, ?_⟩
        have e2 : out.length + junk.length + 1 = (out ++ [32]).length + junkA.length := by
          simp; omega
        have e3 : out.length + 1 = (out ++ [32]).length := by simp
        rw [e2, e3, h1]
        have hl : last_is_space out = false := by simpa using hlast
        simp [collapse_ws, hsp, hl, last_is_space_concat]
        omega
    · have hsp' : fossil_isspace c = false := by simpa using hsp
      simp only [hsp', Bool.false_eq_true, if_false]
      obtain ⟨junkA, hlen, hwr⟩ := unfold_store pre out junk (rest ++ 0 :: post) c c
      have e0 : c :: rest ++ 0 :: post = c :: (rest ++ 0 :: post) := rfl
      rw [e0, hwr]
      obtain ⟨junk1, h1⟩ := ih hnz1 f hf pre (out ++ [c]) junkA
      refine ⟨junk1, ?_⟩
      have e2 : out.length + junk.length + 1 = (out ++ [c]).length + junkA.length := by
        simp; omega
      have e3 : out.length + 1 = (out ++ [c]).length := by simp
      rw [e2, e3, h1]
      simp [collapse_ws, hsp', last_is_space_concat, not_space_ne_32 c hsp']
      omega

theorem collapse_ws_nul_free (z : List Nat) (hz : ∀ c ∈ z, c ≠ 0) :
    ∀ r, ∀ c ∈ collapse_ws r z, c ≠ 0 := by
  induction z with
  | nil => intro r c hc; simp [collapse_ws] at hc
  | cons x rest ih =>
    intro r c hc
    have hx : x ≠ 0 := hz x (List.mem_cons_self _ _)
    have ih1 := ih (fun y hy => hz y (List.mem_cons_of_mem _ hy))
    unfold collapse_ws at hc
    split at hc
    · split at hc
      · exact ih1 true c hc
      · rcases List.mem_cons.1 hc with h | h
        · omega
        · exact ih1 true c h
    · rcases List.mem_cons.1 hc with h | h
      · omega
      · exact ih1 false c h

theorem collapse_ws_space (z : List Nat) :
    ∀ r, ∀ c ∈ collapse_ws r z, fossil_isspace c = true → c = 32 := by
  induction z with
  | nil => intro r c hc; simp [collapse_ws] at hc
  | cons x rest ih =>
    intro r c hc hsp
    unfold collapse_ws at hc
    split at hc
    · split at hc
      · exact ih true c hc hsp
      · rcases List.mem_cons.1 hc with h | h
        · exact h
        · exact ih true c h hsp
    · rename_i hx
      rcases List.mem_cons.1 hc with h | h
      · subst h; exact absurd hsp hx
      · exact ih false c h hsp

theorem collapse_ws_length (z : List Nat) : ∀ r, (collapse_ws r z).length ≤ z.length := by
  induction z with
  | nil => intro r; simp [collapse_ws]
  | cons x rest ih =>
    intro r
    unfold collapse_ws
    split
    · split
      · have := ih true; simp only [List.length_cons]; omega
      · have := ih true; simp only [List.length_cons]; omega
    · have := ih false; simp only [List.length_cons]; omega

/-- Inside a run the output does not start with a space; in any case it has no
two adjacent spaces. -/
theorem collapse_ws_chain (z : List Nat) :
    (∀ c, (collapse_ws true z).head? = some c → c ≠ 32) ∧
    ∀ r, List.Chain' (fun a b => ¬ (a = 32 ∧ b = 32)) (collapse_ws r z) := by
  induction z with
  | nil => simp [collapse_ws]
  | cons x rest ih =>
    by_cases hx : fossil_isspace x = true
    · constructor
      · intro c hc
        simp only [collapse_ws, hx, if_true] at hc
        exact ih.1 c hc
      · intro r
        cases r with
        | true => simp only [collapse_ws, hx, if_true]; exact ih.2 true
        | false =>
          simp only [collapse_ws, hx, if_true, Bool.false_eq_true, if_false]
          rw [List.chain'_cons']
          refine ⟨?_, ih.2 true⟩
          intro y hy h
          exact ih.1 y (by simpa using hy) h.2
    · have hx' : fossil_isspace x = false := by simpa using hx
      have hne : x ≠ 32 := by
        intro h; subst h; simp [fossil_isspace] at hx'
      constructor
      · intro c hc
        simp only [collapse_ws, hx', Bool.false_eq_true, if_false, List.head?_cons,
          Option.some.injEq] at hc
        omega
      · intro r
        simp only [collapse_ws, hx', Bool.false_eq_true, if_false]
        rw [List.chain'_cons']
        refine ⟨?_, ih.2 false⟩
        intro y _ h
        exact hne h.1

theorem collapse_ws_run_true (run : List Nat) (hrun : ∀ c ∈ run, fossil_isspace c = true)
    (rest : List Nat) : collapse_ws true (run ++ rest) = collapse_ws true rest := by
  induction run with
  | nil => rfl
  | cons x t ih =>
    have hx := hrun x (List.mem_cons_self _ _)
    simp only [List.cons_append, collapse_ws, hx, if_true]
    exact ih (fun y hy => hrun y (List.mem_cons_of_mem _ hy))

theorem collapse_ws_true_eq (rest : List Nat)
    (hrest : ∀ c, rest.head? = some c → fossil_isspace c = false) :
    collapse_ws true rest = collapse_ws false rest := by
  cases rest with
  | nil => rfl
  | cons y t =>
    have hy := hrest y rfl
    simp [collapse_ws, hy]

/-- A maximal run of whitespace bytes becomes exactly one space. -/
theorem collapse_ws_run (run rest : List Nat) (hne : run ≠ [])
    (hrun : ∀ c ∈ run, fossil_isspace c = true)
    (hrest : ∀ c, rest.head? = some c → fossil_isspace c = false) :
    collapse_ws false (run ++ rest) = 32 :: collapse_ws false rest := by
  cases run with
  | nil => exact absurd rfl hne
  | cons x t =>
    have hx := hrun x (List.mem_cons_self _ _)
    simp only [List.cons_append, collapse_ws, hx, if_true, Bool.false_eq_true, if_false]
    show 32 :: collapse_ws true (t ++ rest) = 32 :: collapse_ws false rest
    rw [collapse_ws_run_true t (fun y hy => hrun y (List.mem_cons_of_mem _ hy)),
      collapse_ws_true_eq rest hrest]

theorem email_hdr_unfold_eq (pre z post : List Nat) (hz : ∀ c ∈ z, c ≠ 0) :
    ∃ buf1, email_hdr_unfold (pre ++ (z ++ 0 :: post)) pre.length = some buf1 ∧
      cstr buf1 pre.length = collapse_ws false z := by
  have hfuel : z.length ≤ (pre ++ (z ++ 0 :: post)).length := by simp; omega
  obtain ⟨junk1, h1⟩ := unfold_loop_spec post z hz _ hfuel pre [] []
  simp only [List.nil_append, List.length_nil, Nat.add_zero, Nat.zero_add, last_is_space_nil]
    at h1
  refine ⟨pre ++ (collapse_ws false z ++ 0 :: (junk1 ++ 0 :: post).tail), ?_, ?_⟩
  · unfold email_hdr_unfold
    rw [h1]
    simp only
    rw [wr_append_right, wr_append_length]
    cases junk1 <;> simp [wr]
  · exact cstr_append pre _ _ (collapse_ws_nul_free z hz false)

theorem unfold_example :
    (email_hdr_unfold (bytes "Subject: Hello\n World" ++ [0]) 0).map (fun b => cstr b 0)
      = some (bytes "Subject: Hello World") := by
  decide!

/-- C10: on every NUL-terminated string `z`, wherever it lies in the buffer,
`email_hdr_unfold` leaves the string `collapse_ws false z`, the reference transform
that turns every maximal run of whitespace bytes into exactly one space and keeps
every other byte in order (the three laws that follow pin that transform down);
so the result has no whitespace byte other than a space, no two adjacent spaces,
is not longer than `z`, and `"Subject: Hello\n World"` becomes
`"Subject: Hello World"`. -/
theorem email_hdr_unfold_spec (pre z post : List Nat) (hz : ∀ c ∈ z, c ≠ 0) :
    (∃ buf1, email_hdr_unfold (pre ++ (z ++ 0 :: post)) pre.length = some buf1 ∧
      cstr buf1 pre.length = collapse_ws false z ∧
      (∀ c ∈ cstr buf1 pre.length, fossil_isspace c = true → c = 32) ∧
      List.Chain' (fun a b => ¬ (a = 32 ∧ b = 32)) (cstr buf1 pre.length) ∧
      (cstr buf1 pre.length).length ≤ z.length) ∧
    collapse_ws false [] = [] ∧
    (∀ c rest, fossil_isspace c = false →
      collapse_ws false (c :: rest) = c :: collapse_ws false rest) ∧
    (∀ run rest, run ≠ [] → (∀ c ∈ run, fossil_isspace c = true) →
      (∀ c, rest.head? = some c → fossil_isspace c = false) →
      collapse_ws false (run ++ rest) = 32 :: collapse_ws false rest) ∧
    (email_hdr_unfold (bytes "Subject: Hello\n World" ++ [0]) 0).map (fun b => cstr b 0)
      = some (bytes "Subject: Hello World") := by
  refine ⟨?_, rfl, ?_, collapse_ws_run, unfold_example⟩
  · obtain ⟨buf1, h1, h2⟩ := email_hdr_unfold_eq pre z post hz
    refine ⟨buf1, h1, h2, ?_, ?_, ?_⟩
    · rw [h2]; exact collapse_ws_space z false
    · rw [h2]; exact (collapse_ws_chain z).2 false
    · rw [h2]; exact collapse_ws_length z false
  · intro c rest hc
    simp [collapse_ws, hc]

/-- Witness for C10 on the string `"a \n b"` placed after one byte of the buffer. -/
theorem email_hdr_unfold_spec_witness :
    ∃ buf1, email_hdr_unfold ([120] ++ ([97, 32, 10, 32, 98] ++ 0 :: [121])) 1 = some buf1 ∧
      cstr buf1 1 = collapse_ws false [97, 32, 10, 32, 98] ∧
      (∀ c ∈ cstr buf1 1, fossil_isspace c = true → c = 32) ∧
      List.Chain' (fun a b => ¬ (a = 32 ∧ b = 32)) (cstr buf1 1) ∧
      (cstr buf1 1).length ≤ 5 :=
  (email_hdr_unfold_spec [120] [97, 32, 10, 32, 98] [121] (by decide)).1
/-! ## More facts about buffers and C strings -/

theorem rd_eq (b : List Nat) (i : Nat) : rd b i = (b[i]?).getD 0 := by
  simp [rd, List.getD_eq_getElem?_getD]

theorem rd_drop (b : List Nat) (q m : Nat) : rd (b.drop q) m = rd b (q + m) := by
  simp [rd_eq, List.getElem?_drop]

theorem rd_of_le (b : List Nat) (i : Nat) (h : b.length ≤ i) : rd b i = 0 := by
  simp [rd_eq, List.getElem?_eq_none h]

theorem lt_of_rd_ne_zero (b : List Nat) (i : Nat) (h : rd b i ≠ 0) : i < b.length := by
  by_contra hlt
  exact h (rd_of_le b i (Nat.le_of_not_lt hlt))

theorem rd_headD (b : List Nat) : rd b 0 = b.headD 0 := by
  cases b <;> simp [rd]

theorem rd_getD (b : List Nat) (i : Nat) : b.getD i 0 = rd b i := rfl

theorem cstr_nul_free (b : List Nat) (q : Nat) : ∀ c ∈ cstr b q, c ≠ 0 := by
  intro c hc
  have := List.mem_takeWhile_imp hc
  simpa using this

theorem drop_eq_cstr_append (b : List Nat) (q : Nat) :
    ∃ tail, b.drop q = cstr b q ++ tail ∧ tail.headD 0 = 0 := by
  refine ⟨(b.drop q).dropWhile (fun c => c != 0), ?_, ?_⟩
  · exact (List.takeWhile_append_dropWhile _ _).symm
  · cases h : (b.drop q).dropWhile (fun c => c != 0) with
    | nil => rfl
    | cons x t =>
      have hx := List.head_dropWhile_not (fun c => c != 0) (b.drop q) (by simp [h])
      simp only [h, List.head_cons] at hx
      simpa using hx

theorem rd_cstr (b : List Nat) (q m : Nat) (h : m ≤ (cstr b q).length) :
    rd b (q + m) = rd (cstr b q) m := by
  obtain ⟨tail, h1, h2⟩ := drop_eq_cstr_append b q
  rw [← rd_drop, h1]
  rcases Nat.lt_or_ge m (cstr b q).length with hlt | hge
  · exact rd_append_left _ _ _ hlt
  · have hm : m = (cstr b q).length := Nat.le_antisymm h hge
    rw [hm, rd_append_length, rd_headD, h2, rd_of_le _ _ (Nat.le_refl _)]

theorem rd_cstr_zero (b : List Nat) (q : Nat) : rd b q = (cstr b q).headD 0 := by
  have := rd_cstr b q 0 (Nat.zero_le _)
  rw [Nat.add_zero] at this
  rw [this, rd_headD]

theorem cstr_eq_nil_iff (b : List Nat) (q : Nat) : cstr b q = [] ↔ rd b q = 0 := by
  constructor
  · intro h; rw [rd_cstr_zero, h]; rfl
  · intro h
    rw [rd_cstr_zero] at h
    cases hc : cstr b q with
    | nil => rfl
    | cons x t =>
      rw [hc] at h
      have := cstr_nul_free b q x (by rw [hc]; exact List.mem_cons_self _ _)
      simp at h
      exact absurd h this

theorem takeWhile_drop_of_all (p : Nat → Bool) (l : List Nat) (m : Nat)
    (h : m ≤ (l.takeWhile p).length) :
    (l.drop m).takeWhile p = (l.takeWhile p).drop m := by
  induction l generalizing m with
  | nil => simp
  | cons x t ih =>
    cases m with
    | zero => simp
    | succ m =>
      by_cases hx : p x = true
      · simp only [List.takeWhile_cons, hx, if_true, List.length_cons] at h ⊢
        simp only [List.drop_succ_cons]
        exact ih m (by omega)
      · simp [List.takeWhile_cons, hx] at h

theorem cstr_add (b : List Nat) (q m : Nat) (h : m ≤ (cstr b q).length) :
    cstr b (q + m) = (cstr b q).drop m := by
  unfold cstr at h ⊢
  rw [← List.drop_drop]
  exact takeWhile_drop_of_all _ _ _ h

theorem cstr_length_le (b : List Nat) (q : Nat) : (cstr b q).length ≤ b.length - q := by
  unfold cstr
  have := (List.takeWhile_sublist (l := b.drop q) (fun c => c != 0)).length_le
  simpa using this

theorem rd_wr_ne (b : List Nat) (q k v : Nat) (h : k ≠ q) : rd (wr b q v) k = rd b k := by
  simp [rd_eq, wr, List.getElem?_set_ne (Ne.symm h)]

theorem rd_wr_self (b : List Nat) (q v : Nat) (h : q < b.length) : rd (wr b q v) q = v := by
  simp [rd_eq, wr, List.getElem?_set_self, h]

theorem wr_zero_of_rd_zero (b : List Nat) (q : Nat) (h : rd b q = 0) : wr b q 0 = b := by
  apply List.ext_getElem?
  intro k
  by_cases hk : k = q
  · subst hk
    by_cases hlt : k < b.length
    · have h1 : rd (wr b k 0) k = 0 := rd_wr_self b k 0 hlt
      have hlt2 : k < (wr b k 0).length := by rw [wr_length]; exact hlt
      rw [rd_eq] at h h1
      rw [List.getElem?_eq_getElem hlt] at h ⊢
      rw [List.getElem?_eq_getElem hlt2] at h1 ⊢
      simp only [Option.getD_some] at h h1
      rw [h, h1]
    · have hge : b.length ≤ k := Nat.le_of_not_lt hlt
      rw [List.getElem?_eq_none hge, List.getElem?_eq_none (by rw [wr_length]; exact hge)]
  · simp [wr, List.getElem?_set_ne (Ne.symm hk)]

theorem drop_wr_lt (b : List Nat) (q p v : Nat) (h : q < p) :
    (wr b q v).drop p = b.drop p := by
  unfold wr
  exact List.drop_set_of_lt v b h

theorem take_wr_ge (b : List Nat) (q p v : Nat) (h : p ≤ q) :
    (wr b q v).take p = b.take p := by
  unfold wr
  apply List.ext_getElem?
  intro k
  rw [List.getElem?_take, List.getElem?_take]
  split
  · rw [List.getElem?_set_ne (by omega)]
  · rfl

theorem cstr_wr_lt (b : List Nat) (q p v : Nat) (h : q < p) :
    cstr (wr b q v) p = cstr b p := by
  unfold cstr
  rw [drop_wr_lt b q p v h]

theorem cstr_wr_zero (b : List Nat) (q m : Nat) (h : m ≤ (cstr b q).length) :
    cstr (wr b (q + m) 0) q = (cstr b q).take m := by
  rcases Nat.lt_or_ge m (cstr b q).length with hlt | hge
  · obtain ⟨tail, h1, _⟩ := drop_eq_cstr_append b q
    have hb : b = b.take q ++ (cstr b q ++ tail) := by
      rw [← h1, List.take_append_drop]
    have hq : q ≤ b.length := by
      have := cstr_length_le b q
      omega
    have hlen : (b.take q).length = q := by simp [hq]
    have hsplit : cstr b q = (cstr b q).take m ++ (cstr b q).drop m :=
      (List.take_append_drop m _).symm
    obtain ⟨x, t, hxt⟩ : ∃ x t, (cstr b q).drop m = x :: t := by
      cases hd : (cstr b q).drop m with
      | nil =>
        have := congrArg List.length hd
        simp at this
        omega
      | cons x t => exact ⟨x, t, rfl⟩
    have hm : ((cstr b q).take m).length = m := by simp; omega
    have hnf : ∀ c ∈ (cstr b q).take m, c ≠ 0 :=
      fun c hc => cstr_nul_free b q c (List.mem_of_mem_take hc)
    have hw : wr b (q + m) 0 =
        b.take q ++ ((cstr b q).take m ++ 0 :: (t ++ tail)) := by
      conv_lhs => rw [hb, hsplit, hxt]
      have e1 : q + m = (b.take q).length + (((cstr b q).take m).length + 0) := by
        rw [hlen, hm]; rfl
      rw [e1, wr_append_right, List.append_assoc, wr_append_right]
      simp [wr]
    rw [hw]
    have := cstr_append (b.take q) ((cstr b q).take m) (t ++ tail) hnf
    rw [hlen] at this
    exact this
  · have hm : m = (cstr b q).length := Nat.le_antisymm h hge
    have hz : rd b (q + m) = 0 := by
      rw [rd_cstr b q m h, hm, rd_of_le _ _ (Nat.le_refl _)]
    rw [wr_zero_of_rd_zero b (q + m) hz, hm, List.take_length]
/-! ## Logical lines -/

theorem scan_shift (z : List Nat) : ∀ a, email_line_length_scan z (a + 1) =
    email_line_length_scan z a + 1 := by
  induction z with
  | nil => intro a; rfl
  | cons c rest ih =>
    intro a
    simp only [email_line_length_scan]
    split
    · exact ih (a + 1)
    · rfl

theorem ell_nil : email_line_length [] = 0 := by decide

theorem ell_cons (c : Nat) (rest : List Nat) :
    email_line_length (c :: rest) =
      if c = 10 ∧ rest.headD 0 ≠ 32 ∧ rest.headD 0 ≠ 9 then 1
      else if rest = [] then 1 else 1 + email_line_length rest := by
  by_cases h : c = 10 ∧ rest.headD 0 ≠ 32 ∧ rest.headD 0 ≠ 9
  · have hcond : ¬ (c ≠ 10 ∨ rest.headD 0 = 32 ∨ rest.headD 0 = 9) := by
      rintro (h1 | h1 | h1)
      · exact h1 h.1
      · exact h.2.1 h1
      · exact h.2.2 h1
    rw [if_pos h]
    unfold email_line_length
    simp only [email_line_length_scan, if_neg hcond]
    simp [h.1]
  · have hcond : c ≠ 10 ∨ rest.headD 0 = 32 ∨ rest.headD 0 = 9 := by
      by_contra hc
      push_neg at hc
      exact h ⟨hc.1, hc.2.1, hc.2.2⟩
    rw [if_neg h]
    unfold email_line_length
    simp only [email_line_length_scan, if_pos hcond]
    have hs := scan_shift rest 0
    simp only [Nat.zero_add] at hs
    rw [hs]
    by_cases hr : rest = []
    · subst hr
      simp [email_line_length_scan]
    · rw [if_neg hr]
      simp only [List.getD_cons_succ]
      split <;> omega

theorem ell_le (z : List Nat) : email_line_length z ≤ z.length := by
  induction z with
  | nil => simp [ell_nil]
  | cons c rest ih =>
    rw [ell_cons]
    split
    · simp
    · split
      · simp
      · simp only [List.length_cons]; omega

theorem ell_pos (z : List Nat) (h : z ≠ []) : 1 ≤ email_line_length z := by
  cases z with
  | nil => exact absurd rfl h
  | cons c rest =>
    rw [ell_cons]
    split
    · exact Nat.le_refl _
    · split
      · exact Nat.le_refl _
      · omega

/-- A logical line stops at the end of the string or right after a `'\n'`. -/
theorem ell_cases (z : List Nat) :
    email_line_length z = z.length ∨
      (1 ≤ email_line_length z ∧ rd z (email_line_length z - 1) = 10) := by
  induction z with
  | nil => left; simp [ell_nil]
  | cons c rest ih =>
    rw [ell_cons]
    split
    · rename_i h
      right
      simp [rd, h.1]
    · split
      · rename_i hr
        left; simp [hr]
      · rename_i hr
        rcases ih with h1 | ⟨h1, h2⟩
        · left; simp only [List.length_cons]; omega
        · right
          refine ⟨by omega, ?_⟩
          have : 1 + email_line_length rest - 1 = (email_line_length rest - 1) + 1 := by omega
          rw [this, rd_cons_succ]
          exact h2

theorem logical_lines_aux_cons (z : List Nat) (hz : z ≠ []) : ∀ cur,
    logical_lines_aux cur z =
      (cur ++ z.take (email_line_length z)) :: logical_lines (z.drop (email_line_length z)) := by
  induction z with
  | nil => exact absurd rfl hz
  | cons c rest ih =>
    intro cur
    rw [ell_cons]
    by_cases h : c = 10 ∧ rest.headD 0 ≠ 32 ∧ rest.headD 0 ≠ 9
    · simp only [logical_lines_aux, if_pos h]
      simp [logical_lines]
    · simp only [logical_lines_aux, if_neg h]
      by_cases hr : rest = []
      · subst hr
        simp [logical_lines_aux, logical_lines]
      · simp only [if_neg hr]
        rw [ih hr (cur ++ [c])]
        have e : 1 + email_line_length rest = email_line_length rest + 1 := by omega
        rw [e]
        simp

theorem logical_lines_nil : logical_lines [] = [] := by
  simp [logical_lines, logical_lines_aux]

theorem logical_lines_cons (z : List Nat) (hz : z ≠ []) :
    logical_lines z =
      z.take (email_line_length z) :: logical_lines (z.drop (email_line_length z)) := by
  have := logical_lines_aux_cons z hz []
  simpa [logical_lines] using this

/-! ## Trimming a header line -/

theorem rtrim_concat (a : List Nat) (x : Nat) :
    rtrim (a ++ [x]) = if fossil_isspace x then rtrim a else a ++ [x] := by
  unfold rtrim
  by_cases hx : fossil_isspace x = true
  · simp [List.dropWhile_cons, hx]
  · simp [List.dropWhile_cons, hx]

theorem rtrim_nil : rtrim [] = [] := by simp [rtrim]

theorem take_succ_eq (s : List Nat) (k : Nat) (h : k < s.length) :
    s.take (k + 1) = s.take k ++ [rd s k] := by
  rw [List.take_succ]
  simp [rd_eq, List.getElem?_eq_getElem h]

theorem trimLen_spec (buf : List Nat) (q : Nat) : ∀ n, n ≤ (cstr buf q).length →
    (cstr buf q).take (trimLen buf q n) = rtrim ((cstr buf q).take n) ∧
      trimLen buf q n ≤ n := by
  intro n
  induction n with
  | zero => intro _; simp [trimLen, rtrim_nil]
  | succ k ih =>
    intro hk
    have hk' : k < (cstr buf q).length := hk
    have ih' := ih (Nat.le_of_lt hk')
    have hrd : rd buf (q + k) = rd (cstr buf q) k := rd_cstr buf q k (Nat.le_of_lt hk')
    rw [take_succ_eq _ k hk', rtrim_concat]
    simp only [trimLen, hrd]
    by_cases hsp : fossil_isspace (rd (cstr buf q) k) = true
    · simp only [hsp, if_true]
      exact ⟨ih'.1, by omega⟩
    · simp only [hsp, if_false, Bool.false_eq_true]
      exact ⟨take_succ_eq _ k hk', Nat.le_refl _⟩

theorem rtrim_nul_free (l : List Nat) (h : ∀ c ∈ l, c ≠ 0) : ∀ c ∈ rtrim l, c ≠ 0 := by
  intro c hc
  apply h
  unfold rtrim at hc
  have h1 := List.mem_reverse.1 hc
  have h2 := (List.dropWhile_sublist fossil_isspace).subset h1
  exact List.mem_reverse.1 h2
/-! ## Frames -/

theorem frame_refl (lo hi : Nat) (buf : List Nat) : frame lo hi buf buf :=
  ⟨rfl, fun _ _ => rfl, fun _ => Or.inl rfl⟩

theorem frame_mono {lo hi lo1 hi1 : Nat} {a b : List Nat} (h : frame lo hi a b)
    (hlo : lo1 ≤ lo) (hhi : hi ≤ hi1) : frame lo1 hi1 a b :=
  ⟨h.1, fun k hk => h.2.1 k (by omega), h.2.2⟩

theorem frame_trans {lo hi : Nat} {a b c : List Nat} (h1 : frame lo hi a b)
    (h2 : frame lo hi b c) : frame lo hi a c := by
  refine ⟨h2.1.trans h1.1, fun k hk => (h2.2.1 k hk).trans (h1.2.1 k hk), fun k => ?_⟩
  rcases h2.2.2 k with e | e
  · rcases h1.2.2 k with e1 | e1
    · left; rw [e, e1]
    · right; rw [e, e1]
  · right; exact e

theorem frame_wr_zero (lo hi q : Nat) (buf : List Nat) (h1 : lo ≤ q) (h2 : q < hi) :
    frame lo hi buf (wr buf q 0) := by
  refine ⟨wr_length buf q 0, fun k hk => rd_wr_ne buf q k 0 (by omega), fun k => ?_⟩
  by_cases hk : k = q
  · subst hk
    by_cases hlt : k < buf.length
    · right; exact rd_wr_self buf k 0 hlt
    · right; exact rd_of_le _ _ (by rw [wr_length]; omega)
  · left; exact rd_wr_ne buf q k 0 hk

theorem frame_drop {lo hi : Nat} {a b : List Nat} (h : frame lo hi a b) (q : Nat)
    (hq : hi ≤ q) : b.drop q = a.drop q := by
  apply List.ext_getElem?
  intro k
  have := h.2.1 (q + k) (Or.inr (by omega))
  rw [rd_eq, rd_eq] at this
  rw [List.getElem?_drop, List.getElem?_drop]
  by_cases hk : q + k < a.length
  · have hk' : q + k < b.length := by rw [h.1]; exact hk
    rw [List.getElem?_eq_getElem hk, List.getElem?_eq_getElem hk'] at this ⊢
    simpa using this
  · have hk1 : a.length ≤ q + k := Nat.le_of_not_lt hk
    rw [List.getElem?_eq_none hk1, List.getElem?_eq_none (by rw [h.1]; exact hk1)]

theorem frame_take {lo hi : Nat} {a b : List Nat} (h : frame lo hi a b) (q : Nat)
    (hq : q ≤ lo) : b.take q = a.take q := by
  apply List.ext_getElem?
  intro k
  rw [List.getElem?_take, List.getElem?_take]
  split
  · rename_i hk
    have := h.2.1 k (Or.inl (by omega))
    rw [rd_eq, rd_eq] at this
    by_cases hk2 : k < a.length
    · have hk' : k < b.length := by rw [h.1]; exact hk2
      rw [List.getElem?_eq_getElem hk2, List.getElem?_eq_getElem hk'] at this ⊢
      simpa using this
    · have hk1 : a.length ≤ k := Nat.le_of_not_lt hk2
      rw [List.getElem?_eq_none hk1, List.getElem?_eq_none (by rw [h.1]; exact hk1)]
  · rfl

theorem frame_cstr {lo hi : Nat} {a b : List Nat} (h : frame lo hi a b) (q : Nat)
    (hq : hi ≤ q) : cstr b q = cstr a q := by
  unfold cstr
  rw [frame_drop h q hq]

theorem frame_zero {lo hi : Nat} {a b : List Nat} (h : frame lo hi a b) (k : Nat)
    (hk : rd a k = 0) : rd b k = 0 := by
  rcases h.2.2 k with e | e
  · rw [e, hk]
  · exact e

/-! ## The header loop against its reading off the logical lines -/

theorem take_eq_pair (s : List Nat) (h : 2 ≤ s.length) : s.take 2 = [rd s 0, rd s 1] := by
  match s, h with
  | a :: b :: t, _ => simp [rd]

theorem blank_test (s : List Nat) (n : Nat) (hn1 : 1 ≤ n) (hn2 : n ≤ s.length) :
    ((n = 2 ∧ rd s 0 = 13 ∧ rd s 1 = 10) ∨ rd s 0 = 10 ∨ n = 0) ↔
      is_blank (s.take n) = true := by
  have hhead : (s.take n).headD 0 = rd s 0 := by
    cases s with
    | nil => simp at hn2; omega
    | cons c t =>
      obtain ⟨k, rfl⟩ : ∃ k, n = k + 1 := ⟨n - 1, by omega⟩
      simp [rd]
  unfold is_blank
  rw [hhead]
  simp only [Bool.or_eq_true, beq_iff_eq]
  constructor
  · rintro (⟨h1, h2, h3⟩ | h | h)
    · right
      subst h1
      rw [take_eq_pair s hn2, h2, h3]
    · left; exact h
    · omega
  · rintro (h | h)
    · right; left; exact h
    · left
      have hlen := congrArg List.length h
      simp only [List.length_take, List.length_cons, List.length_nil] at hlen
      have hn : n = 2 := by omega
      subst hn
      rw [take_eq_pair s hn2] at h
      simp only [List.cons.injEq, and_true] at h
      exact ⟨rfl, h.1, h.2⟩

/-- The store `z[j] = 0` that delimits a header line: the string at the start
of the line becomes the trimmed line, and what follows the line is untouched. -/
theorem trim_write (buf : List Nat) (q : Nat) (hne : cstr buf q ≠ []) :
    cstr (wr buf (q + trimLen buf q (email_line_length (cstr buf q))) 0) q =
        rtrim ((cstr buf q).take (email_line_length (cstr buf q))) ∧
      cstr (wr buf (q + trimLen buf q (email_line_length (cstr buf q))) 0)
          (q + email_line_length (cstr buf q)) =
        (cstr buf q).drop (email_line_length (cstr buf q)) ∧
      frame q (q + email_line_length (cstr buf q)) buf
        (wr buf (q + trimLen buf q (email_line_length (cstr buf q))) 0) := by
  have hn2 := ell_le (cstr buf q)
  have hn1 := ell_pos (cstr buf q) hne
  obtain ⟨ht1, ht2⟩ := trimLen_spec buf q _ hn2
  generalize hn : email_line_length (cstr buf q) = n at *
  generalize hm : trimLen buf q n = m at *
  refine ⟨?_, ?_, ?_⟩
  · rw [cstr_wr_zero buf q m (by omega), ht1]
  · rcases Nat.lt_or_ge m n with hlt | hge
    · rw [cstr_wr_lt buf (q + m) (q + n) 0 (by omega), cstr_add buf q n hn2]
    · have hmn : m = n := by omega
      have hfull : n = (cstr buf q).length := by
        rcases ell_cases (cstr buf q) with h | ⟨_, h⟩
        · rw [hn] at h; exact h
        · exfalso
          rw [hn] at h
          obtain ⟨k, rfl⟩ : ∃ k, n = k + 1 := ⟨n - 1, by omega⟩
          have hrd : rd buf (q + k) = rd (cstr buf q) k := rd_cstr buf q k (by omega)
          have hk : k + 1 - 1 = k := by omega
          rw [hk] at h
          have : trimLen buf q (k + 1) = trimLen buf q k := by
            simp [trimLen, hrd, h, fossil_isspace]
          have hle := (trimLen_spec buf q k (by omega)).2
          omega
      have hz : rd buf (q + m) = 0 := by
        rw [hmn, rd_cstr buf q n hn2, hfull, rd_of_le _ _ (Nat.le_refl _)]
      rw [wr_zero_of_rd_zero buf _ hz, cstr_add buf q n hn2]
  · rcases Nat.lt_or_ge m n with hlt | hge
    · exact frame_wr_zero q (q + n) (q + m) buf (by omega) (by omega)
    · have hmn : m = n := by omega
      have hfull : n = (cstr buf q).length := by
        rcases ell_cases (cstr buf q) with h | ⟨_, h⟩
        · rw [hn] at h; exact h
        · exfalso
          rw [hn] at h
          obtain ⟨k, rfl⟩ : ∃ k, n = k + 1 := ⟨n - 1, by omega⟩
          have hrd : rd buf (q + k) = rd (cstr buf q) k := rd_cstr buf q k (by omega)
          have hk : k + 1 - 1 = k := by omega
          rw [hk] at h
          have : trimLen buf q (k + 1) = trimLen buf q k := by
            simp [trimLen, hrd, h, fossil_isspace]
          have hle := (trimLen_spec buf q k (by omega)).2
          omega
      have hz : rd buf (q + m) = 0 := by
        rw [hmn, rd_cstr buf q n hn2, hfull, rd_of_le _ _ (Nat.le_refl _)]
      rw [wr_zero_of_rd_zero buf _ hz]
      exact frame_refl _ _ _

/-- The header loop computes `seg_pure` on the logical lines of the string at
`z+i`; it writes only inside the lines it steps over. -/
theorem seg_loop_eq (z : Nat) (b : Bool) : ∀ (fuel : Nat) (buf : List Nat) (i : Nat)
    (p : EmailToc) (mp : Bool), (cstr buf (z + i)).length ≤ fuel →
    ∃ buf1, segment_loop z b fuel buf i p mp =
        some (buf1, seg_pure z b i (logical_lines (cstr buf (z + i))) p mp) ∧
      frame (z + i) (z + (seg_pure z b i (logical_lines (cstr buf (z + i))) p mp).1) buf buf1 ∧
      i ≤ (seg_pure z b i (logical_lines (cstr buf (z + i))) p mp).1 ∧
      (seg_pure z b i (logical_lines (cstr buf (z + i))) p mp).1
        ≤ i + (cstr buf (z + i)).length := by
  intro fuel
  induction fuel with
  | zero =>
    intro buf i p mp hf
    have hnil : cstr buf (z + i) = [] := List.length_eq_zero.1 (Nat.le_zero.1 hf)
    have hrd : rd buf (z + i) = 0 := (cstr_eq_nil_iff buf (z + i)).1 hnil
    refine ⟨buf, ?_, ?_, ?_, ?_⟩
    · unfold segment_loop
      rw [if_pos hrd, hnil, logical_lines_nil]
      rfl
    · exact frame_refl _ _ _
    · rw [hnil, logical_lines_nil]; exact Nat.le_refl _
    · rw [hnil, logical_lines_nil]; simp [seg_pure]
  | succ f ih =>
    intro buf i p mp hf
    by_cases hrd : rd buf (z + i) = 0
    · have hnil : cstr buf (z + i) = [] := (cstr_eq_nil_iff buf (z + i)).2 hrd
      refine ⟨buf, ?_, ?_, ?_, ?_⟩
      · unfold segment_loop
        rw [if_pos hrd, hnil, logical_lines_nil]
        rfl
      · exact frame_refl _ _ _
      · rw [hnil, logical_lines_nil]; exact Nat.le_refl _
      · rw [hnil, logical_lines_nil]; simp [seg_pure]
    · have hne : cstr buf (z + i) ≠ [] := fun h => hrd ((cstr_eq_nil_iff buf (z + i)).1 h)
      have hn2 := ell_le (cstr buf (z + i))
      have hn1 := ell_pos (cstr buf (z + i)) hne
      have hll := logical_lines_cons (cstr buf (z + i)) hne
      have hr0 : rd buf (z + i) = rd (cstr buf (z + i)) 0 := by
        have := rd_cstr buf (z + i) 0 (Nat.zero_le _)
        simpa using this
      have hr1 : rd buf (z + i + 1) = rd (cstr buf (z + i)) 1 :=
        rd_cstr buf (z + i) 1 (by omega)
      have hbt := blank_test (cstr buf (z + i)) _ hn1 hn2
      have hlen : ((cstr buf (z + i)).take (email_line_length (cstr buf (z + i)))).length
          = email_line_length (cstr buf (z + i)) := by
        simp; omega
      unfold segment_loop
      rw [if_neg hrd]
      simp only []
      rw [hr0, hr1, hll]
      by_cases hb : is_blank ((cstr buf (z + i)).take (email_line_length (cstr buf (z + i))))
          = true
      · rw [if_pos (hbt.2 hb)]
        simp only [seg_pure, hb, if_true, hlen]
        exact ⟨buf, rfl, frame_refl _ _ _, by omega, by omega⟩
      · rw [if_neg (fun h => hb (hbt.1 h))]
        obtain ⟨hw1, hw2, hw3⟩ := trim_write buf (z + i) hne
        have e1 : z + (i + trimLen buf (z + i) (email_line_length (cstr buf (z + i))))
            = z + i + trimLen buf (z + i) (email_line_length (cstr buf (z + i))) := by omega
        have e2 : z + (i + email_line_length (cstr buf (z + i)))
            = z + i + email_line_length (cstr buf (z + i)) := by omega
        rw [e1, hw1]
        have hf2 : (cstr (wr buf (z + i + trimLen buf (z + i)
            (email_line_length (cstr buf (z + i)))) 0)
            (z + (i + email_line_length (cstr buf (z + i))))).length ≤ f := by
          rw [e2, hw2]
          simp only [List.length_drop]
          omega
        obtain ⟨buf2, hres, hfr, hlo, hhi⟩ := ih _ (i + email_line_length (cstr buf (z + i)))
          (hdr_line b (rtrim ((cstr buf (z + i)).take (email_line_length (cstr buf (z + i)))))
            (z + i) p mp).1
          (hdr_line b (rtrim ((cstr buf (z + i)).take (email_line_length (cstr buf (z + i)))))
            (z + i) p mp).2 hf2
        rw [e2, hw2] at hres hfr hlo hhi
        simp only [seg_pure, hb, Bool.false_eq_true, if_false, hlen]
        refine ⟨buf2, ?_, ?_, by omega, ?_⟩
        · exact hres
        · exact frame_trans (frame_mono hw3 (Nat.le_refl _) (by omega))
            (frame_mono hfr (by omega) (Nat.le_refl _))
        · simp only [List.length_drop] at hhi
          omega
/-! ## One header line, and a header block, on the table of contents -/

theorem updBody_concat (h : List Nat) (xs : List EmailBody) (x : EmailBody)
    (f : EmailBody → EmailBody) :
    EmailToc.updBody ⟨h, xs ++ [x]⟩ f = ⟨h, xs ++ [f x]⟩ := by
  simp [EmailToc.updBody]

theorem hdr_line_eq (b : Bool) (line : List Nat) (zi : Nat) (h : List Nat)
    (xs : List EmailBody) (x : EmailBody) (mp : Bool) :
    hdr_line b line zi ⟨h, xs ++ [x]⟩ mp =
      (⟨if b then h ++ [zi] else h, xs ++ [body_line b line x]⟩,
        mp || is_multipart_line line) := by
  unfold hdr_line hdr_content_type hdr_encoding hdr_capture body_line body_disposition
    body_encoding body_content_type is_multipart_line emailtoc_new_header_line
  by_cases h1 : sqlite3_strnicmp line lit_content_type 13 = 0 <;>
  by_cases h2 : strncmp (firstToken (line.drop 13)) lit_multipart 10 = 0 <;>
  by_cases h3 : sqlite3_strnicmp line lit_content_transfer_encoding 26 = 0 <;>
  by_cases h4 : sqlite3_strnicmp (firstToken (line.drop 26)) lit_base64 6 = 0 <;>
  by_cases h5 : sqlite3_strnicmp (firstToken (line.drop 26)) lit_quoted_printable 16 = 0 <;>
  by_cases h6 : sqlite3_strnicmp line lit_content_disposition 20 = 0 <;>
  cases b <;>
  simp [h1, h2, h3, h4, h5, h6, updBody_concat]

theorem seg_pure_eq (z : Nat) (b : Bool) : ∀ (lines : List (List Nat)) (i : Nat)
    (h : List Nat) (xs : List EmailBody) (x : EmailBody) (mp : Bool),
    seg_pure z b i lines ⟨h, xs ++ [x]⟩ mp =
      (i + body_start lines,
        ⟨h ++ (if b then line_offsets (z + i) (header_block lines) else []),
          xs ++ [body_of_lines b (header_block lines) x]⟩,
        mp || (header_block lines).any (fun l => is_multipart_line (rtrim l))) := by
  intro lines
  induction lines with
  | nil => intro i h xs x mp; cases b <;> simp [seg_pure, body_start, header_block,
      line_offsets, body_of_lines]
  | cons l ls ih =>
    intro i h xs x mp
    by_cases hb : is_blank l = true
    · cases b <;> simp [seg_pure, body_start, header_block, line_offsets, body_of_lines, hb]
    · simp only [seg_pure, hb, Bool.false_eq_true, if_false, hdr_line_eq, ih,
        body_start, header_block, line_offsets, body_of_lines, List.any_cons]
      cases b
      · simp [Nat.add_assoc, Bool.or_assoc]
      · simp [Nat.add_assoc, Bool.or_assoc]

theorem popBody_concat (h : List Nat) (xs : List EmailBody) (x : EmailBody) :
    EmailToc.popBody ⟨h, xs ++ [x]⟩ = ⟨h, xs⟩ := by
  simp [EmailToc.popBody]

/-- The segment decoder in terms of the logical lines of the part: a part
without a `Content-Type: multipart/` header line becomes one body entry, and
any other part is handed to the splitter. -/
theorem seg_unfold (d : Nat) (h : List Nat) (xs : List EmailBody) (buf : List Nat)
    (z : Nat) (b : Bool) :
    ∃ buf1, frame z (z + body_start (logical_lines (cstr buf z))) buf buf1 ∧
      body_start (logical_lines (cstr buf z)) ≤ (cstr buf z).length ∧
      emailtoc_add_multipart_segment (d + 1) ⟨h, xs⟩ buf z b =
        if (header_block (logical_lines (cstr buf z))).any
            (fun l => is_multipart_line (rtrim l)) = true then
          emailtoc_add_multipart d
            ⟨h ++ (if b then line_offsets z (header_block (logical_lines (cstr buf z)))
              else []), xs⟩
            buf1 (z + body_start (logical_lines (cstr buf z)))
        else
          some (⟨h ++ (if b then line_offsets z (header_block (logical_lines (cstr buf z)))
              else []),
            xs ++ [{ body_of_lines b (header_block (logical_lines (cstr buf z)))
                EmailBody.zero with
              zContent := some (z + body_start (logical_lines (cstr buf z))) }]⟩, buf1) := by
  have hfuel : (cstr buf (z + 0)).length ≤ buf.length := by
    have := cstr_length_le buf z
    simp only [Nat.add_zero]
    omega
  obtain ⟨buf1, hres, hfr, _, hhi⟩ := seg_loop_eq z b buf.length buf 0
    (emailtoc_new_body ⟨h, xs⟩) false hfuel
  have hnb : emailtoc_new_body ⟨h, xs⟩ = ⟨h, xs ++ [EmailBody.zero]⟩ := rfl
  rw [hnb, seg_pure_eq] at hres hfr hhi
  simp only [Nat.add_zero, Nat.zero_add, Bool.false_or] at hres hfr hhi
  refine ⟨buf1, hfr, hhi, ?_⟩
  unfold emailtoc_add_multipart_segment
  rw [hnb, hres]
  simp only []
  split
  · rw [popBody_concat]
    rfl
  · rw [updBody_concat]
/-! ## Field-name tests and trimming -/

theorem lower_ne_zero (y : Nat) (h : y ≠ 0) : lower y ≠ 0 := by
  unfold lower; split <;> omega

theorem lower_space_ne (x y : Nat) (hx : fossil_isspace x = true)
    (hy : fossil_isspace y = false) : lower x ≠ lower y := by
  simp only [fossil_isspace, Bool.or_eq_true, beq_iff_eq, Bool.and_eq_true,
    decide_eq_true_eq, Bool.or_eq_false_iff, beq_eq_false_iff_ne, ne_eq,
    Bool.and_eq_false_iff, decide_eq_false_iff_not, not_le] at hx hy
  unfold lower
  split <;> split <;> omega

theorem space_ne_zero (x : Nat) (hx : fossil_isspace x = true) : x ≠ 0 := by
  intro h; subst h; simp [fossil_isspace] at hx

theorem strnicmp_concat_ws (x : Nat) (hx : fossil_isspace x = true) :
    ∀ (a b : List Nat) (N : Nat), (∀ c ∈ b, c ≠ 0 ∧ fossil_isspace c = false) →
      N ≤ b.length →
      (sqlite3_strnicmp (a ++ [x]) b N = 0 ↔ sqlite3_strnicmp a b N = 0) := by
  intro a
  induction a with
  | nil =>
    intro b N hb hN
    cases N with
    | zero => simp [sqlite3_strnicmp]
    | succ N =>
      cases b with
      | nil => simp at hN
      | cons y b =>
        have hy := hb y (List.mem_cons_self _ _)
        have h1 : lower x ≠ lower y := lower_space_ne x y hx hy.2
        have h2 : lower y ≠ 0 := lower_ne_zero y hy.1
        have h3 : lower 0 = 0 := by decide
        simp only [List.nil_append, sqlite3_strnicmp, List.headD_cons, h3]
        rw [if_neg (fun h => h1 h.2)]
        constructor
        · intro h; exfalso; apply h1; omega
        · intro h; exfalso; apply h2; omega
  | cons c a ih =>
    intro b N hb hN
    cases N with
    | zero => simp [sqlite3_strnicmp]
    | succ N =>
      cases b with
      | nil => simp at hN
      | cons y b =>
        simp only [List.cons_append, sqlite3_strnicmp, List.headD_cons, List.tail_cons]
        split
        · exact ih b N (fun c hc => hb c (List.mem_cons_of_mem _ hc))
            (by simpa using hN)
        · exact Iff.rfl

theorem strnicmp_rtrim (b : List Nat) (N : Nat)
    (hb : ∀ c ∈ b, c ≠ 0 ∧ fossil_isspace c = false) (hN : N ≤ b.length) (a : List Nat) :
    sqlite3_strnicmp (rtrim a) b N = 0 ↔ sqlite3_strnicmp a b N = 0 := by
  induction a using List.reverseRecOn with
  | nil => simp [rtrim_nil]
  | append_singleton a x ih =>
    rw [rtrim_concat]
    by_cases hx : fossil_isspace x = true
    · rw [if_pos hx, ih]
      exact (strnicmp_concat_ws x hx a b N hb hN).symm
    · rw [if_neg hx]

theorem rtrim_line (l : List Nat) : rtrim (l ++ [10]) = rtrim l := by
  rw [rtrim_concat]
  simp [fossil_isspace]

theorem lit_content_type_ok :
    ∀ c ∈ lit_content_type, c ≠ 0 ∧ fossil_isspace c = false := by decide

theorem lit_cte_ok :
    ∀ c ∈ lit_content_transfer_encoding, c ≠ 0 ∧ fossil_isspace c = false := by decide

theorem lit_cd_ok :
    ∀ c ∈ lit_content_disposition, c ≠ 0 ∧ fossil_isspace c = false := by decide

/-- The `Content-Type:` test on a trimmed line is the test on the line. -/
theorem ct_test_line (l : List Nat) :
    sqlite3_strnicmp (rtrim (l ++ [10])) lit_content_type 13 = 0 ↔
      is_header lit_content_type l = true := by
  rw [rtrim_line, strnicmp_rtrim _ _ lit_content_type_ok (by decide)]
  simp [is_header, lit_content_type]

theorem cte_test_line (l : List Nat) :
    sqlite3_strnicmp (rtrim (l ++ [10])) lit_content_transfer_encoding 26 = 0 ↔
      is_header lit_content_transfer_encoding l = true := by
  rw [rtrim_line, strnicmp_rtrim _ _ lit_cte_ok (by decide)]
  simp [is_header, lit_content_transfer_encoding]

theorem cd_test_line (l : List Nat) :
    sqlite3_strnicmp (rtrim (l ++ [10])) lit_content_disposition 20 = 0 ↔
      is_header lit_content_disposition l = true := by
  rw [rtrim_line, strnicmp_rtrim _ _ lit_cd_ok (by decide)]
  simp [is_header, lit_content_disposition]

/-! ## The logical lines of a block of physical lines -/

theorem ell_line (l rest : List Nat) (hl : ∀ c ∈ l, c ≠ 10) (h32 : rest.headD 0 ≠ 32)
    (h9 : rest.headD 0 ≠ 9) : email_line_length (l ++ 10 :: rest) = l.length + 1 := by
  induction l with
  | nil =>
    rw [List.nil_append, ell_cons, if_pos ⟨rfl, h32, h9⟩]
    rfl
  | cons c l ih =>
    have hc : c ≠ 10 := hl c (List.mem_cons_self _ _)
    have ih1 := ih (fun x hx => hl x (List.mem_cons_of_mem _ hx))
    rw [List.cons_append, ell_cons, if_neg (fun h => hc h.1), if_neg (by simp), ih1]
    simp only [List.length_cons]
    omega

theorem unlines_headD (hs : List (List Nat)) (tail : List Nat)
    (hh : ∀ l ∈ hs, l.headD 0 ≠ 32 ∧ l.headD 0 ≠ 9) (h32 : tail.headD 0 ≠ 32)
    (h9 : tail.headD 0 ≠ 9) :
    (unlines hs ++ tail).headD 0 ≠ 32 ∧ (unlines hs ++ tail).headD 0 ≠ 9 := by
  cases hs with
  | nil => exact ⟨h32, h9⟩
  | cons l ls =>
    have := hh l (List.mem_cons_self _ _)
    cases l with
    | nil => simp [unlines]
    | cons c t => simpa [unlines] using this

theorem logical_lines_unlines (hs : List (List Nat)) (tail : List Nat)
    (h10 : ∀ l ∈ hs, ∀ c ∈ l, c ≠ 10)
    (hh : ∀ l ∈ hs, l.headD 0 ≠ 32 ∧ l.headD 0 ≠ 9) (h32 : tail.headD 0 ≠ 32)
    (h9 : tail.headD 0 ≠ 9) :
    logical_lines (unlines hs ++ tail) =
      hs.map (fun l => l ++ [10]) ++ logical_lines tail := by
  induction hs with
  | nil => rfl
  | cons l ls ih =>
    have ih1 := ih (fun x hx => h10 x (List.mem_cons_of_mem _ hx))
      (fun x hx => hh x (List.mem_cons_of_mem _ hx))
    have hhd := unlines_headD ls tail (fun x hx => hh x (List.mem_cons_of_mem _ hx)) h32 h9
    have hell := ell_line l (unlines ls ++ tail) (h10 l (List.mem_cons_self _ _)) hhd.1 hhd.2
    have e : unlines (l :: ls) ++ tail = l ++ 10 :: (unlines ls ++ tail) := by
      simp [unlines]
    rw [e, logical_lines_cons _ (by simp), hell]
    have e1 : (l ++ 10 :: (unlines ls ++ tail)).take (l.length + 1) = l ++ [10] := by
      have : l ++ 10 :: (unlines ls ++ tail) = (l ++ [10]) ++ (unlines ls ++ tail) := by simp
      rw [this]
      have hlen : l.length + 1 = (l ++ [10]).length := by simp
      rw [hlen, List.take_left']
      rfl
    have e2 : (l ++ 10 :: (unlines ls ++ tail)).drop (l.length + 1) = unlines ls ++ tail := by
      have : l ++ 10 :: (unlines ls ++ tail) = (l ++ [10]) ++ (unlines ls ++ tail) := by simp
      rw [this]
      have hlen : l.length + 1 = (l ++ [10]).length := by simp
      rw [hlen, List.drop_left']
      rfl
    rw [e1, e2, ih1]
    rfl

theorem line_offsets_length (off : Nat) (ls : List (List Nat)) :
    (line_offsets off ls).length = ls.length := by
  induction ls generalizing off with
  | nil => rfl
  | cons l ls ih => simp [line_offsets, ih]

theorem line_not_blank (l : List Nat) (h : header_line_ok l) : is_blank (l ++ [10]) = false := by
  obtain ⟨h1, h2, h3, _, _⟩ := h
  cases l with
  | nil => exact absurd rfl h1
  | cons c t =>
    have hc := (h3 c (List.mem_cons_self _ _)).2
    unfold is_blank
    simp only [List.cons_append, List.headD_cons, Bool.or_eq_false_iff, beq_eq_false_iff_ne,
      ne_eq]
    refine ⟨hc, ?_⟩
    intro h
    simp only [List.cons.injEq] at h
    obtain ⟨hc13, ht⟩ := h
    cases t with
    | nil => subst hc13; exact h2 rfl
    | cons y t => simp at ht

theorem header_block_lines (hs : List (List Nat)) (bl : List Nat) (rest : List (List Nat))
    (hok : ∀ l ∈ hs, header_line_ok l) (hbl : is_blank bl = true) :
    header_block (hs.map (fun l => l ++ [10]) ++ bl :: rest) = hs.map (fun l => l ++ [10]) ∧
    body_start (hs.map (fun l => l ++ [10]) ++ bl :: rest) = (unlines hs).length + bl.length := by
  induction hs with
  | nil => simp [header_block, body_start, hbl, unlines]
  | cons l ls ih =>
    have ih1 := ih (fun x hx => hok x (List.mem_cons_of_mem _ hx))
    have hnb := line_not_blank l (hok l (List.mem_cons_self _ _))
    simp only [List.map_cons, List.cons_append, header_block, body_start, hnb,
      Bool.false_eq_true, if_false, List.append_eq, ih1.1, ih1.2, unlines,
      List.length_append, List.length_cons, List.length_nil]
    exact ⟨trivial, by omega⟩

theorem header_block_lines_end (hs : List (List Nat)) (hok : ∀ l ∈ hs, header_line_ok l) :
    header_block (hs.map (fun l => l ++ [10])) = hs.map (fun l => l ++ [10]) ∧
    body_start (hs.map (fun l => l ++ [10])) = (unlines hs).length := by
  induction hs with
  | nil => simp [header_block, body_start, unlines]
  | cons l ls ih =>
    have ih1 := ih (fun x hx => hok x (List.mem_cons_of_mem _ hx))
    have hnb := line_not_blank l (hok l (List.mem_cons_self _ _))
    simp only [List.map_cons, header_block, body_start, hnb,
      Bool.false_eq_true, if_false, ih1.1, ih1.2, unlines, List.length_append,
      List.length_cons, List.length_nil]
    exact ⟨trivial, by omega⟩
/-! ## Single-part messages -/

theorem takeWhile_append_of_all (p : Nat → Bool) (a b : List Nat) (h : ∀ c ∈ a, p c = true) :
    (a ++ b).takeWhile p = a ++ b.takeWhile p := by
  induction a with
  | nil => rfl
  | cons x t ih =>
    have hx := h x (List.mem_cons_self _ _)
    simp only [List.cons_append, List.takeWhile_cons, hx, if_true]
    rw [ih (fun c hc => h c (List.mem_cons_of_mem _ hc))]

theorem cstr_top (msg : List Nat) : cstr (msg ++ [0]) 0 = msg.takeWhile (fun c => c != 0) := by
  unfold cstr
  simp only [List.drop_zero]
  induction msg with
  | nil => simp
  | cons x t ih =>
    by_cases hx : x = 0
    · simp [List.takeWhile_cons, hx]
    · simp [List.takeWhile_cons, hx, ih]

theorem unlines_nul_free (hs : List (List Nat)) (h : ∀ l ∈ hs, ∀ c ∈ l, c ≠ 0) :
    ∀ c ∈ unlines hs, c ≠ 0 := by
  induction hs with
  | nil => intro c hc; simp [unlines] at hc
  | cons l ls ih =>
    intro c hc
    simp only [unlines, List.mem_append, List.mem_cons] at hc
    rcases hc with hc | hc | hc
    · exact h l (List.mem_cons_self _ _) c hc
    · omega
    · exact ih (fun x hx => h x (List.mem_cons_of_mem _ hx)) c hc

/-- The string of a message that is a block of header lines, a blank line and
a body. -/
theorem cstr_message (hs : List (List Nat)) (body : List Nat)
    (hok : ∀ l ∈ hs, header_line_ok l) :
    cstr (unlines hs ++ 10 :: body ++ [0]) 0 =
      unlines hs ++ 10 :: body.takeWhile (fun c => c != 0) := by
  rw [cstr_top]
  have hnf := unlines_nul_free hs (fun l hl c hc => ((hok l hl).2.2.1 c hc).1)
  rw [takeWhile_append_of_all _ _ _ (fun c hc => by simpa using hnf c hc)]
  simp [List.takeWhile_cons]

theorem logical_lines_blank (t : List Nat) :
    ∃ bl rest, logical_lines (10 :: t) = bl :: rest ∧ is_blank bl = true ∧
      bl = (10 :: t).take (email_line_length (10 :: t)) := by
  refine ⟨_, _, logical_lines_cons (10 :: t) (by simp), ?_, rfl⟩
  have h1 := ell_pos (10 :: t) (by simp)
  obtain ⟨k, hk⟩ : ∃ k, email_line_length (10 :: t) = k + 1 := ⟨_, (Nat.sub_add_cancel h1).symm⟩
  rw [hk]
  simp [is_blank]

theorem logical_lines_message (hs : List (List Nat)) (t : List Nat)
    (hok : ∀ l ∈ hs, header_line_ok l) :
    ∃ bl rest, logical_lines (unlines hs ++ 10 :: t) =
        hs.map (fun l => l ++ [10]) ++ bl :: rest ∧ is_blank bl = true ∧
      bl = (10 :: t).take (email_line_length (10 :: t)) := by
  obtain ⟨bl, rest, h1, h2, h3⟩ := logical_lines_blank t
  refine ⟨bl, rest, ?_, h2, h3⟩
  rw [logical_lines_unlines hs (10 :: t) (fun l hl c hc => ((hok l hl).2.2.1 c hc).2)
    (fun l hl => ⟨(hok l hl).2.2.2.1, (hok l hl).2.2.2.2⟩) (by simp) (by simp), h1]

theorem no_multipart_lines (hs : List (List Nat))
    (hct : ∀ l ∈ hs, is_header lit_content_type l = false) :
    (hs.map (fun l => l ++ [10])).any (fun l => is_multipart_line (rtrim l)) = false := by
  rw [List.any_eq_false]
  intro l hl
  obtain ⟨l0, hl0, rfl⟩ := List.mem_map.1 hl
  have h := hct l0 hl0
  have : ¬ sqlite3_strnicmp (rtrim (l0 ++ [10])) lit_content_type 13 = 0 := by
    rw [ct_test_line, h]; simp
  simp [is_multipart_line, this]

theorem body_line_plain (l : List Nat) (x : EmailBody)
    (hct : is_header lit_content_type l = false)
    (hcte : is_header lit_content_transfer_encoding l = false) :
    body_line true (rtrim (l ++ [10])) x = x := by
  have h1 : ¬ sqlite3_strnicmp (rtrim (l ++ [10])) lit_content_type 13 = 0 := by
    rw [ct_test_line, hct]; simp
  have h2 : ¬ sqlite3_strnicmp (rtrim (l ++ [10])) lit_content_transfer_encoding 26 = 0 := by
    rw [cte_test_line, hcte]; simp
  simp [body_line, body_disposition, body_encoding, body_content_type, h1, h2]

theorem body_of_lines_plain (hs : List (List Nat)) (x : EmailBody)
    (hct : ∀ l ∈ hs, is_header lit_content_type l = false)
    (hcte : ∀ l ∈ hs, is_header lit_content_transfer_encoding l = false) :
    body_of_lines true (hs.map (fun l => l ++ [10])) x = x := by
  induction hs with
  | nil => rfl
  | cons l ls ih =>
    simp only [List.map_cons, body_of_lines]
    rw [body_line_plain l x (hct l (List.mem_cons_self _ _)) (hcte l (List.mem_cons_self _ _))]
    exact ih (fun y hy => hct y (List.mem_cons_of_mem _ hy))
      (fun y hy => hcte y (List.mem_cons_of_mem _ hy))

/-- A message without a `Content-Type:` header line: the table of contents
has the offsets of the header lines and one body entry, which starts after the
logical line that begins with the blank line. -/
theorem single_part_eq (hs : List (List Nat)) (body : List Nat)
    (hok : ∀ l ∈ hs, header_line_ok l)
    (hct : ∀ l ∈ hs, is_header lit_content_type l = false) :
    ∃ buf1, emailtoc_from_email (unlines hs ++ 10 :: body) =
        some (⟨line_offsets 0 (hs.map (fun l => l ++ [10])),
          [{ body_of_lines true (hs.map (fun l => l ++ [10])) EmailBody.zero with
            zContent := some ((unlines hs).length +
              email_line_length (10 :: body.takeWhile (fun c => c != 0))) }]⟩, buf1) ∧
      cstr buf1 ((unlines hs).length +
          email_line_length (10 :: body.takeWhile (fun c => c != 0))) =
        (10 :: body.takeWhile (fun c => c != 0)).drop
          (email_line_length (10 :: body.takeWhile (fun c => c != 0))) := by
  obtain ⟨buf1, hfr, hle, hres⟩ := seg_unfold (unlines hs ++ 10 :: body).length [] []
    (unlines hs ++ 10 :: body ++ [0]) 0 true
  have hs0 := cstr_message hs body hok
  obtain ⟨bl, rest, hll, hbl, hbl2⟩ :=
    logical_lines_message hs (body.takeWhile (fun c => c != 0)) hok
  obtain ⟨hhb, hbs⟩ := header_block_lines hs bl rest hok hbl
  have hbll : bl.length = email_line_length (10 :: body.takeWhile (fun c => c != 0)) := by
    rw [hbl2, List.length_take]
    exact Nat.min_eq_left (ell_le _)
  simp only [hs0, hll, hhb, hbs, hbll, no_multipart_lines hs hct, Bool.false_eq_true, if_false,
    if_true, List.nil_append, Nat.zero_add] at hres hfr
  refine ⟨buf1, ?_, ?_⟩
  · exact hres
  · rw [frame_cstr hfr _ (Nat.le_refl _)]
    have hlen : (unlines hs).length + email_line_length (10 :: body.takeWhile (fun c => c != 0))
        ≤ (cstr (unlines hs ++ 10 :: body ++ [0]) 0).length := by
      rw [hs0, List.length_append]
      have := ell_le (10 :: body.takeWhile (fun c => c != 0))
      omega
    have hadd := cstr_add (unlines hs ++ 10 :: body ++ [0]) 0 _ hlen
    rw [Nat.zero_add] at hadd
    rw [hadd, hs0, ← List.drop_drop]
    simp

theorem takeWhile_nul_free_eq (body : List Nat) (h : ∀ c ∈ body, c ≠ 0) :
    body.takeWhile (fun c => c != 0) = body := by
  rw [List.takeWhile_eq_self_iff]
  intro c hc
  simpa using h c hc

/-- C2: the content of the one body segment of a single-part message is the
literal body when the body does not begin with a space or a tab; on the message
`"A: b\n\n x\ny"`, whose body `" x\ny"` begins with a space, the decoder steps
over the blank line and the first body line together and the content is `"y"`. -/
theorem single_part_content :
    (∀ (hs : List (List Nat)) (body : List Nat), (∀ l ∈ hs, header_line_ok l) →
      (∀ l ∈ hs, is_header lit_content_type l = false) → (∀ c ∈ body, c ≠ 0) →
      body.headD 0 ≠ 32 → body.headD 0 ≠ 9 →
      ∃ toc buf1 x o, emailtoc_from_email (unlines hs ++ 10 :: body) = some (toc, buf1) ∧
        toc.aBody = [x] ∧ x.zContent = some o ∧ cstr buf1 o = body) ∧
    (emailtoc_from_email (unlines [bytes "A: b"] ++ 10 :: bytes " x\ny")).map
      (fun r => r.1.aBody.map (fun x => x.zContent.map (cstr r.2))) = some [some (bytes "y")] := by
  refine ⟨?_, by decide!⟩
  intro hs body hok hct hnf h32 h9
  obtain ⟨buf1, hres, hc⟩ := single_part_eq hs body hok hct
  rw [takeWhile_nul_free_eq body hnf] at hres hc
  have hell : email_line_length (10 :: body) = 1 := by
    rw [ell_cons, if_pos ⟨rfl, h32, h9⟩]
  rw [hell] at hres hc
  exact ⟨_, buf1, _, _, hres, rfl, rfl, by simpa using hc⟩

/-- Witness for C2 on the message `"A: b\n\nhi"`. -/
theorem single_part_content_witness :
    ∃ toc buf1 x o, emailtoc_from_email (unlines [bytes "A: b"] ++ 10 :: bytes "hi")
        = some (toc, buf1) ∧
      toc.aBody = [x] ∧ x.zContent = some o ∧ cstr buf1 o = bytes "hi" :=
  single_part_content.1 [bytes "A: b"] (bytes "hi") (by decide!) (by decide!) (by decide!)
    (by decide!) (by decide!)
/-! ## Messages without a blank line -/

theorem has_blank_drop : ∀ (s : List Nat) (f : Bool) (k : Nat),
    has_blank_line_aux f s = false → 1 ≤ k → rd s (k - 1) = 10 →
    has_blank_line_aux true (s.drop k) = false := by
  intro s
  induction s with
  | nil => intro f k _ _ _; simp [has_blank_line_aux]
  | cons c rest ih =>
    intro f k h hk hrd
    simp only [has_blank_line_aux, Bool.or_eq_false_iff] at h
    obtain ⟨k1, rfl⟩ : ∃ k1, k = k1 + 1 := ⟨k - 1, by omega⟩
    cases k1 with
    | zero =>
      simp only [Nat.zero_add, Nat.sub_self, rd_cons_zero] at hrd
      subst hrd
      simpa using h.2
    | succ k2 =>
      have e : k2 + 1 + 1 - 1 = (k2 + 1 - 1) + 1 := by omega
      rw [e, rd_cons_succ] at hrd
      simpa using ih (c == 10) (k2 + 1) h.2 (by omega) hrd

theorem no_blank_first_line (s : List Nat) (hne : s ≠ [])
    (h : has_blank_line_aux true s = false) :
    is_blank (s.take (email_line_length s)) = false ∧
      has_blank_line_aux true (s.drop (email_line_length s)) = false := by
  have hn1 := ell_pos s hne
  have hn2 := ell_le s
  constructor
  · cases s with
    | nil => exact absurd rfl hne
    | cons c rest =>
      simp only [has_blank_line_aux, Bool.true_and, Bool.or_eq_false_iff,
        Bool.and_eq_false_iff, beq_eq_false_iff_ne, ne_eq] at h
      obtain ⟨k, hk⟩ : ∃ k, email_line_length (c :: rest) = k + 1 :=
        ⟨_, (Nat.sub_add_cancel hn1).symm⟩
      rw [hk]
      simp only [is_blank, List.take_succ_cons, List.headD_cons, Bool.or_eq_false_iff,
        beq_eq_false_iff_ne, ne_eq]
      refine ⟨h.1.1, ?_⟩
      intro hh
      simp only [List.cons.injEq] at hh
      obtain ⟨hc, ht⟩ := hh
      cases rest with
      | nil => cases k <;> simp at ht
      | cons y t =>
        cases k with
        | zero => simp at ht
        | succ k =>
          simp only [List.take_succ_cons, List.cons.injEq] at ht
          rcases h.1.2 with h1 | h1
          · exact h1 hc
          · exact h1 (by simpa using ht.1)
  · rcases ell_cases s with hfull | ⟨_, hrd⟩
    · rw [hfull, List.drop_length]
      rfl
    · exact has_blank_drop s true _ h hn1 hrd

theorem no_blank_lines : ∀ (n : Nat) (s : List Nat), s.length ≤ n →
    has_blank_line_aux true s = false →
    header_block (logical_lines s) = logical_lines s ∧
      body_start (logical_lines s) = s.length := by
  intro n
  induction n with
  | zero =>
    intro s hs _
    have : s = [] := List.length_eq_zero.1 (Nat.le_zero.1 hs)
    subst this
    simp [logical_lines_nil, header_block, body_start]
  | succ n ih =>
    intro s hs h
    by_cases hne : s = []
    · subst hne
      simp [logical_lines_nil, header_block, body_start]
    · obtain ⟨h1, h2⟩ := no_blank_first_line s hne h
      have hn1 := ell_pos s hne
      have hn2 := ell_le s
      have ih1 := ih (s.drop (email_line_length s)) (by simp only [List.length_drop]; omega) h2
      rw [logical_lines_cons s hne]
      simp only [header_block, body_start, h1, Bool.false_eq_true, if_false, ih1.1, ih1.2,
        List.length_take, List.length_drop]
      exact ⟨trivial, by omega⟩

/-- C7 (amended): for every input buffer whose text has no blank line anywhere
and no logical line that is a `Content-Type:` line with a value starting with
`multipart/`, `emailtoc_from_email` returns a table of contents with exactly one
body segment, whose content is empty, and with as many header entries as the text
has logical lines. -/
theorem no_blank_line_toc (msg : List Nat)
    (hnb : has_blank_line (text_of msg) = false)
    (hmp : ∀ l ∈ logical_lines (text_of msg), is_multipart_line (rtrim l) = false) :
    ∃ toc buf1 x o, emailtoc_from_email msg = some (toc, buf1) ∧
      toc.aBody = [x] ∧ x.zContent = some o ∧ cstr buf1 o = [] ∧
      toc.azHdr.length = (logical_lines (text_of msg)).length := by
  obtain ⟨buf1, hfr, hle, hres⟩ := seg_unfold msg.length [] [] (msg ++ [0]) 0 true
  have hs0 : cstr (msg ++ [0]) 0 = text_of msg := cstr_top msg
  obtain ⟨hhb, hbs⟩ := no_blank_lines _ (text_of msg) (Nat.le_refl _) hnb
  have hany : (logical_lines (text_of msg)).any (fun l => is_multipart_line (rtrim l))
      = false := List.any_eq_false.2 (fun l hl => by simpa using hmp l hl)
  simp only [hs0, hhb, hbs, hany, Bool.false_eq_true, if_false, if_true, List.nil_append,
    Nat.zero_add] at hres hfr
  refine ⟨_, buf1, _, _, hres, rfl, rfl, ?_, ?_⟩
  · rw [frame_cstr hfr _ (Nat.le_refl _)]
    have hadd := cstr_add (msg ++ [0]) 0 (text_of msg).length (by rw [hs0])
    rw [Nat.zero_add] at hadd
    rw [hadd, hs0, List.drop_length]
  · simp [line_offsets_length]

/-- Witness for C7 on the buffer `"A: b\nC: d\n e\nF"`, which has three
logical lines. -/
theorem no_blank_line_toc_witness :
    ∃ toc buf1 x o, emailtoc_from_email (bytes "A: b\nC: d\n e\nF") = some (toc, buf1) ∧
      toc.aBody = [x] ∧ x.zContent = some o ∧ cstr buf1 o = [] ∧
      toc.azHdr.length = (logical_lines (text_of (bytes "A: b\nC: d\n e\nF"))).length :=
  no_blank_line_toc (bytes "A: b\nC: d\n e\nF") (by decide!) (by decide!)

/-- C7 as stated fails: the buffer `"Content-Type: multipart/mixed"` is not empty
and has no blank line, and its table of contents has no body segment at all. -/
theorem no_blank_line_counterexample :
    bytes "Content-Type: multipart/mixed" ≠ [] ∧
    has_blank_line (bytes "Content-Type: multipart/mixed") = false ∧
    (emailtoc_from_email (bytes "Content-Type: multipart/mixed")).map
      (fun r => (r.1.azHdr.length, r.1.aBody.length)) = some (1, 0) := by
  decide!
/-! ## Scanning helpers of the multipart splitter -/

theorem strncmp_eq_zero_iff : ∀ (B x : List Nat), (∀ c ∈ B, c ≠ 0) →
    (strncmp x B B.length = 0 ↔ startsWith B x = true) := by
  intro B
  induction B with
  | nil => intro x _; simp [strncmp, startsWith]
  | cons y B ih =>
    intro x hB
    have hy : y ≠ 0 := hB y (List.mem_cons_self _ _)
    have ih1 := fun x => ih x (fun c hc => hB c (List.mem_cons_of_mem _ hc))
    cases x with
    | nil =>
      simp only [List.length_cons, strncmp, List.headD_nil, List.headD_cons, startsWith]
      rw [if_pos (fun h => hy h.symm)]
      simp only [Bool.false_eq_true, iff_false]
      omega
    | cons c x =>
      simp only [List.length_cons, strncmp, List.headD_cons, List.tail_cons, startsWith,
        Bool.and_eq_true, beq_iff_eq]
      by_cases hc : c = y
      · subst hc
        simp only [ne_eq, not_true_eq_false, if_false, if_neg hy, true_and]
        exact ih1 x
      · rw [if_pos hc]
        constructor
        · intro h; exfalso; apply hc; omega
        · intro h; exact absurd h.1.symm hc

theorem startsWith_length : ∀ (B x : List Nat), startsWith B x = true →
    B.length ≤ x.length ∧ ∀ m, m < B.length → rd x m = rd B m := by
  intro B
  induction B with
  | nil => intro x _; exact ⟨Nat.zero_le _, fun m hm => by simp at hm⟩
  | cons y B ih =>
    intro x h
    cases x with
    | nil => simp [startsWith] at h
    | cons c x =>
      simp only [startsWith, Bool.and_eq_true, beq_iff_eq] at h
      obtain ⟨h1, h2⟩ := ih x h.2
      refine ⟨by simp only [List.length_cons]; omega, ?_⟩
      intro m hm
      cases m with
      | zero => simp [rd, h.1]
      | succ m =>
        rw [rd_cons_succ, rd_cons_succ]
        exact h2 m (by simpa using hm)

theorem cstr_length_of_zero (b : List Nat) (q e : Nat) (hq : q ≤ e) (he : rd b e = 0) :
    (cstr b q).length ≤ e - q := by
  by_contra hlt
  have hlt' : e - q < (cstr b q).length := Nat.lt_of_not_le hlt
  have h1 := rd_cstr b q (e - q) (Nat.le_of_lt hlt')
  have e1 : q + (e - q) = e := by omega
  rw [e1, he] at h1
  have hmem : rd (cstr b q) (e - q) ∈ cstr b q := by
    rw [rd_eq, List.getElem?_eq_getElem hlt']
    simp
  exact cstr_nul_free b q _ hmem h1.symm

theorem rd_cstr_end (b : List Nat) (q : Nat) : rd b (q + (cstr b q).length) = 0 := by
  rw [rd_cstr b q _ (Nat.le_refl _)]
  exact rd_of_le _ _ (Nat.le_refl _)

theorem scanLen_le (f : Nat → Bool) (l : List Nat) : scanLen f l ≤ l.length := by
  induction l with
  | nil => simp [scanLen]
  | cons c t ih =>
    simp only [scanLen]
    split
    · simp only [List.length_cons]; omega
    · exact Nat.zero_le _

theorem scanLen_pos (f : Nat → Bool) (l : List Nat) (h : f (l.headD 0) = true)
    (hne : l ≠ []) : 1 ≤ scanLen f l := by
  cases l with
  | nil => exact absurd rfl hne
  | cons c t =>
    simp only [List.headD_cons] at h
    simp [scanLen, h]

theorem scanLen_zero (f : Nat → Bool) (l : List Nat) (h : f (l.headD 0) = false) :
    scanLen f l = 0 := by
  cases l with
  | nil => rfl
  | cons c t =>
    simp only [List.headD_cons] at h
    simp [scanLen, h]

theorem scanLen_all (f : Nat → Bool) (l : List Nat) :
    ∀ m, m < scanLen f l → f (rd l m) = true := by
  induction l with
  | nil => intro m hm; simp [scanLen] at hm
  | cons c t ih =>
    intro m hm
    by_cases hc : f c = true
    · simp only [scanLen, hc, if_true] at hm
      cases m with
      | zero => simpa [rd] using hc
      | succ m =>
        rw [rd_cons_succ]
        exact ih m (by omega)
    · simp [scanLen, hc] at hm

theorem skip_to_boundary_some : ∀ (t : List Nat) (f : Bool) (k : Nat),
    skip_to_boundary f t = some k → k + 2 ≤ t.length ∧ rd t k = 45 ∧ rd t (k + 1) = 45 := by
  intro t
  induction t with
  | nil => intro f k h; simp [skip_to_boundary] at h
  | cons c rest ih =>
    intro f k h
    simp only [skip_to_boundary] at h
    split at h
    · rename_i hc
      simp only [Bool.and_eq_true, beq_iff_eq] at hc
      simp only [Option.some.injEq] at h
      subst h
      obtain ⟨⟨_, hc1⟩, hc2⟩ := hc
      cases rest with
      | nil => simp at hc2
      | cons y t =>
        simp only [List.headD_cons] at hc2
        simp [rd, hc1, hc2]
    · cases hr : skip_to_boundary (c == 10) rest with
      | none => simp [hr] at h
      | some k1 =>
        simp only [hr, Option.map_some', Option.some.injEq] at h
        subst h
        obtain ⟨h1, h2, h3⟩ := ih (c == 10) k1 hr
        refine ⟨by simp only [List.length_cons]; omega, ?_, ?_⟩
        · rw [rd_cons_succ]; exact h2
        · rw [rd_cons_succ]; exact h3

theorem frame_wr_zero_or (lo hi q : Nat) (buf : List Nat) (h1 : lo ≤ q)
    (h2 : q < hi ∨ rd buf q = 0) : frame lo hi buf (wr buf q 0) := by
  rcases h2 with h | h
  · exact frame_wr_zero lo hi q buf h1 h
  · rw [wr_zero_of_rd_zero buf q h]
    exact frame_refl _ _ _

/-- A string that ends below the frame is not touched. -/
theorem frame_cstr_below {lo hi : Nat} {a b : List Nat} (h : frame lo hi a b) (q : Nat)
    (hq : q + (cstr a q).length < lo) : cstr b q = cstr a q := by
  obtain ⟨tail, h1, h2⟩ := drop_eq_cstr_append a q
  have hlen := cstr_length_le a q
  have hb : b.drop q = cstr a q ++ (b.drop (q + (cstr a q).length)) := by
    apply List.ext_getElem?
    intro k
    rcases Nat.lt_or_ge k (cstr a q).length with hk | hk
    · rw [List.getElem?_append_left hk, List.getElem?_drop]
      have e := h.2.1 (q + k) (Or.inl (by omega))
      have e2 := rd_cstr a q k (Nat.le_of_lt hk)
      rw [rd_eq, rd_eq] at e
      rw [rd_eq, rd_eq] at e2
      have hk1 : q + k < a.length := by omega
      have hk2 : q + k < b.length := by rw [h.1]; exact hk1
      rw [List.getElem?_eq_getElem hk1] at e e2
      rw [List.getElem?_eq_getElem hk2] at e ⊢
      rw [List.getElem?_eq_getElem hk] at e2 ⊢
      simp only [Option.getD_some] at e e2
      rw [e, e2]
    · rw [List.getElem?_append_right hk, List.getElem?_drop, List.getElem?_drop]
      congr 1
      omega
  have hz : rd b (q + (cstr a q).length) = 0 := by
    rw [h.2.1 _ (Or.inl hq)]
    exact rd_cstr_end a q
  unfold cstr at hb ⊢
  rw [hb]
  have hnf : ∀ c ∈ List.takeWhile (fun c => c != 0) (List.drop q a), c ≠ 0 := cstr_nul_free a q
  rw [takeWhile_append_of_all _ _ _ (fun c hc => by simpa using hnf c hc)]
  have : (List.drop (q + (List.takeWhile (fun c => c != 0) (List.drop q a)).length) b).takeWhile
      (fun c => c != 0) = [] := by
    have := (cstr_eq_nil_iff b (q + (cstr a q).length)).2 hz
    exact this
  rw [this, List.append_nil]
/-! ## Body entries are leaves -/

theorem startsWith_take : ∀ (B x : List Nat) (n : Nat), startsWith B (x.take n) = true →
    startsWith B x = true := by
  intro B
  induction B with
  | nil => intro x n _; simp [startsWith]
  | cons y B ih =>
    intro x n h
    cases x with
    | nil => simp [startsWith] at h
    | cons c x =>
      cases n with
      | zero => simp [startsWith] at h
      | succ n =>
        simp only [List.take_succ_cons, startsWith, Bool.and_eq_true, beq_iff_eq] at h ⊢
        exact ⟨h.1, ih x n h.2⟩

theorem lit_multipart_nul_free : ∀ c ∈ lit_multipart, c ≠ 0 := by decide

theorem store_mimetype_leaf (x : EmailBody) (z2 : List Nat)
    (h : ¬ strncmp z2 lit_multipart 10 = 0) : leaf_mimetype (store_mimetype x z2) = true := by
  have hsw : startsWith lit_multipart z2 = false := by
    cases hs : startsWith lit_multipart z2 with
    | false => rfl
    | true =>
      exfalso
      apply h
      have := (strncmp_eq_zero_iff lit_multipart z2 lit_multipart_nul_free).2 hs
      simpa [lit_multipart] using this
  have key : ∀ n, startsWith lit_multipart (z2.take n) = false := by
    intro n
    cases hs : startsWith lit_multipart (z2.take n) with
    | false => rfl
    | true => rw [startsWith_take _ _ _ hs] at hsw; exact absurd hsw (by simp)
  unfold store_mimetype leaf_mimetype
  simp only []
  split <;> simp [key]

theorem body_line_leaf (b : Bool) (line : List Nat) (x : EmailBody)
    (h : leaf_mimetype x = true) : leaf_mimetype (body_line b line x) = true := by
  have h1 : leaf_mimetype (body_content_type line x) = true := by
    unfold body_content_type
    split
    · rename_i hc
      exact store_mimetype_leaf x _ hc.2
    · exact h
  have h2 : leaf_mimetype (body_encoding line (body_content_type line x)) = true := by
    unfold body_encoding
    split
    · split
      · exact h1
      · split <;> exact h1
    · exact h1
  unfold body_line body_disposition
  split
  · exact h2
  · exact h2

theorem body_of_lines_leaf (b : Bool) (ls : List (List Nat)) : ∀ (x : EmailBody),
    leaf_mimetype x = true → leaf_mimetype (body_of_lines b ls x) = true := by
  induction ls with
  | nil => intro x h; exact h
  | cons l ls ih =>
    intro x h
    exact ih _ (body_line_leaf b (rtrim l) x h)

theorem rd_wr_zero (b : List Nat) (q : Nat) : rd (wr b q 0) q = 0 := by
  by_cases h : q < b.length
  · exact rd_wr_self b q 0 h
  · exact rd_of_le _ _ (by rw [wr_length]; omega)

/-! ## The splitting loop -/

theorem mp_loop_inv (seg : EmailToc → Buf → Nat → Option (EmailToc × Buf)) (d : Nat)
    (hseg : seg_ok seg d) (zB nB z1 E : Nat) (B : List Nat) (hB1 : B.length = nB)
    (hB2 : ∀ c ∈ B, c ≠ 0 ∧ fossil_isspace c = false) (hnB : 1 ≤ nB) (hz : zB + nB < z1)
    (hd : E - z1 < d) :
    ∀ (fuel : Nat) (p : EmailToc) (buf : List Nat) (i iStart : Nat),
      rd buf E = 0 → z1 + i ≤ E → iStart ≤ i → cstr buf zB = B → E - (z1 + i) ≤ fuel →
      ∃ p1 buf1, multipart_loop seg zB nB z1 fuel p buf i iStart = some (p1, buf1) ∧
        frame (z1 + iStart) E buf buf1 ∧ p1.azHdr = p.azHdr ∧
        ∃ ys, p1.aBody = p.aBody ++ ys ∧ ∀ y ∈ ys, leaf_mimetype y = true := by
  intro fuel
  induction fuel with
  | zero =>
    intro p buf i iStart hE hi _ _ hf
    have hiE : z1 + i = E := by omega
    refine ⟨p, buf, ?_, frame_refl _ _ _, rfl, [], by simp, by simp⟩
    unfold multipart_loop
    rw [hiE, if_pos hE]
  | succ f ih =>
    intro p buf i iStart hE hi hiS hcB hf
    by_cases hrd : rd buf (z1 + i) = 0
    · refine ⟨p, buf, ?_, frame_refl _ _ _, rfl, [], by simp, by simp⟩
      unfold multipart_loop
      rw [if_pos hrd]
    · have hiE : z1 + i < E := by
        rcases Nat.lt_or_ge (z1 + i) E with h | h
        · exact h
        · exfalso; apply hrd
          have : z1 + i = E := by omega
          rw [this]; exact hE
      unfold multipart_loop
      rw [if_neg hrd]
      simp only []
      by_cases hm : rd buf (z1 + i) = 10 ∧
          strncmp (cstr buf (z1 + i + 1)) (cstr buf zB) nB = 0
      · rw [if_pos hm]
        -- the boundary token lies wholly inside the string
        have hsw : startsWith B (cstr buf (z1 + i + 1)) = true := by
          have := hm.2
          rw [hcB, ← hB1] at this
          exact (strncmp_eq_zero_iff B _ (fun c hc => (hB2 c hc).1)).1 this
        obtain ⟨hlenB, hBrd⟩ := startsWith_length B _ hsw
        have hcl := cstr_length_of_zero buf (z1 + i + 1) E (by omega) hE
        have hend : z1 + i + 1 + nB ≤ E := by omega
        -- the store `z[i+1] = 0`
        have hfr1 : frame (z1 + iStart) E buf (wr buf (z1 + i + 1) 0) :=
          frame_wr_zero _ _ _ _ (by omega) (by omega)
        have hchild : (cstr (wr buf (z1 + i + 1) 0) (z1 + iStart)).length < d := by
          have := cstr_length_of_zero (wr buf (z1 + i + 1) 0) (z1 + iStart) (z1 + i + 1)
            (by omega) (rd_wr_zero buf _)
          omega
        have hchild2 : (cstr (wr buf (z1 + i + 1) 0) (z1 + iStart)).length
            ≤ i + 1 - iStart := by
          have := cstr_length_of_zero (wr buf (z1 + i + 1) 0) (z1 + iStart) (z1 + i + 1)
            (by omega) (rd_wr_zero buf _)
          omega
        obtain ⟨p2, buf2, hs, hfr2, hh2, ys2, hb2, hq2⟩ :=
          hseg p (wr buf (z1 + i + 1) 0) (z1 + iStart) hchild
        rw [hs]
        simp only []
        have hfr2' : frame (z1 + iStart) (z1 + i + 1) (wr buf (z1 + i + 1) 0) buf2 :=
          frame_mono hfr2 (Nat.le_refl _) (by omega)
        have hfr12 : frame (z1 + iStart) E buf buf2 :=
          frame_trans hfr1 (frame_mono hfr2' (Nat.le_refl _) (by omega))
        by_cases hterm : rd buf2 (z1 + (i + nB)) = 45 ∧ rd buf2 (z1 + (i + nB) + 1) = 45
        · rw [if_pos hterm]
          exact ⟨p2, buf2, rfl, hfr12, hh2, ys2, hb2, hq2⟩
        · rw [if_neg hterm]
          -- the byte at `iStart` is the last byte of the token, or the NUL just stored
          have hnws : fossil_isspace (rd buf2 (z1 + (i + nB))) = false := by
            have e1 : rd buf2 (z1 + (i + nB)) = rd (wr buf (z1 + i + 1) 0) (z1 + (i + nB)) :=
              hfr2'.2.1 _ (Or.inr (by omega))
            rw [e1]
            rcases Nat.eq_or_lt_of_le hnB with h1 | h1
            · have : z1 + (i + nB) = z1 + i + 1 := by omega
              rw [this, rd_wr_zero]
              rfl
            · rw [rd_wr_ne _ _ _ _ (by omega)]
              have e2 : z1 + (i + nB) = z1 + i + 1 + (nB - 1) := by omega
              rw [e2, rd_cstr buf (z1 + i + 1) (nB - 1) (by omega), hBrd (nB - 1) (by omega)]
              have hmem : rd B (nB - 1) ∈ B := by
                rw [rd_eq, List.getElem?_eq_getElem (by omega)]
                simp
              exact (hB2 _ hmem).2
          have hws : scanLen fossil_isspace (cstr buf2 (z1 + (i + nB))) = 0 := by
            apply scanLen_zero
            rw [← rd_cstr_zero]
            exact hnws
          rw [hws, Nat.add_zero]
          have hcB2 : cstr buf2 zB = B := by
            rw [frame_cstr_below hfr12 zB (by rw [hcB, hB1]; omega), hcB]
          obtain ⟨p3, buf3, hl, hfr3, hh3, ys3, hb3, hq3⟩ :=
            ih p2 buf2 (i + nB + 1) (i + nB) (frame_zero hfr12 E hE) (by omega) (by omega)
              hcB2 (by omega)
          refine ⟨p3, buf3, hl, ?_, hh3.trans hh2, ys2 ++ ys3, ?_, ?_⟩
          · exact frame_trans hfr12 (frame_mono hfr3 (by omega) (Nat.le_refl _))
          · rw [hb3, hb2, List.append_assoc]
          · intro y hy
            rcases List.mem_append.1 hy with h | h
            · exact hq2 y h
            · exact hq3 y h
      · rw [if_neg hm]
        obtain ⟨p3, buf3, hl, hfr3, hh3, ys3, hb3, hq3⟩ :=
          ih p buf (i + 1) iStart hE (by omega) (by omega) hcB (by omega)
        exact ⟨p3, buf3, hl, hfr3, hh3, ys3, hb3, hq3⟩

theorem scanLen_take_all (f : Nat → Bool) (l : List Nat) :
    ∀ c ∈ l.take (scanLen f l), f c = true := by
  induction l with
  | nil => intro c hc; simp at hc
  | cons x t ih =>
    intro c hc
    by_cases hx : f x = true
    · simp only [scanLen, hx, if_true, List.take_succ_cons, List.mem_cons] at hc
      rcases hc with h | h
      · rw [h]; exact hx
      · exact ih c h
    · simp [scanLen, hx] at hc

/-- The splitter, given that the segment decoder behaves on every part shorter
than `d` bytes. -/
theorem mp_inv (seg : EmailToc → Buf → Nat → Option (EmailToc × Buf)) (d : Nat)
    (hseg : seg_ok seg d) (p : EmailToc) (buf : List Nat) (z : Nat)
    (hlen : (cstr buf z).length ≤ d + 1) :
    ∃ p1 buf1, emailtoc_add_multipart_with seg p buf z = some (p1, buf1) ∧
      frame z (z + (cstr buf z).length) buf buf1 ∧ p1.azHdr = p.azHdr ∧
      ∃ ys, p1.aBody = p.aBody ++ ys ∧ ∀ y ∈ ys, leaf_mimetype y = true := by
  unfold emailtoc_add_multipart_with
  cases hk : skip_to_boundary true (cstr buf z) with
  | none =>
    exact ⟨p, buf, rfl, frame_refl _ _ _, rfl, [], by simp, by simp⟩
  | some k =>
    simp only []
    obtain ⟨hk1, hk2, _⟩ := skip_to_boundary_some _ _ _ hk
    have hcB : cstr buf (z + k) = (cstr buf z).drop k := cstr_add buf z k (by omega)
    have hne : (cstr buf z).drop k ≠ [] := by
      intro h
      have := congrArg List.length h
      simp only [List.length_drop, List.length_nil] at this
      omega
    have hhead : ((cstr buf z).drop k).headD 0 = 45 := by
      rw [← rd_headD, rd_drop, Nat.add_zero]
      simpa using hk2
    have hnB1 : 1 ≤ scanLen (fun c => c != 0 && !fossil_isspace c) ((cstr buf z).drop k) :=
      scanLen_pos _ _ (by rw [hhead]; decide) hne
    have hnB2 := scanLen_le (fun c => c != 0 && !fossil_isspace c) ((cstr buf z).drop k)
    rw [hcB]
    generalize hnB : scanLen (fun c => c != 0 && !fossil_isspace c) ((cstr buf z).drop k)
      = nB at *
    rw [if_neg (by omega)]
    simp only [List.length_drop] at hnB2
    have hcW : cstr buf (z + k + nB) = (cstr buf z).drop (k + nB) := by
      rw [Nat.add_assoc, cstr_add buf z (k + nB) (by omega)]
    have hws := scanLen_le fossil_isspace ((cstr buf z).drop (k + nB))
    rw [hcW]
    generalize hw : scanLen fossil_isspace ((cstr buf z).drop (k + nB)) = ws at *
    simp only [List.length_drop] at hws
    have hE : rd buf (z + (cstr buf z).length) = 0 := rd_cstr_end buf z
    have hfr1 : frame z (z + (cstr buf z).length) buf (wr buf (z + k + nB) 0) := by
      apply frame_wr_zero_or _ _ _ _ (by omega)
      rcases Nat.lt_or_ge (k + nB) (cstr buf z).length with h | h
      · left; omega
      · right
        have : z + k + nB = z + (cstr buf z).length := by omega
        rw [this]; exact hE
    have hcB1 : cstr (wr buf (z + k + nB) 0) (z + k) = ((cstr buf z).drop k).take nB := by
      rw [cstr_wr_zero buf (z + k) nB (by rw [hcB, List.length_drop]; omega), hcB]
    have hBok : ∀ c ∈ ((cstr buf z).drop k).take nB, c ≠ 0 ∧ fossil_isspace c = false := by
      intro c hc
      rw [← hnB] at hc
      have := scanLen_take_all _ _ c hc
      simpa using this
    have hBlen : (((cstr buf z).drop k).take nB).length = nB := by
      simp only [List.length_take, List.length_drop]
      omega
    rcases Nat.eq_zero_or_pos ws with h0 | hpos
    · -- nothing follows the boundary token
      subst h0
      refine ⟨p, wr buf (z + k + nB) 0, ?_, hfr1, rfl, [], by simp, by simp⟩
      unfold multipart_loop
      rw [if_pos (by simpa using rd_wr_zero buf (z + k + nB))]
    · have hEle : z + (cstr buf z).length ≤ buf.length := by
        have := cstr_length_le buf z
        omega
      obtain ⟨p1, buf1, hl, hfr2, hh, ys, hb, hq⟩ :=
        mp_loop_inv seg d hseg (z + k) nB (z + k + nB + ws) (z + (cstr buf z).length)
          (((cstr buf z).drop k).take nB) hBlen hBok (by omega) (by omega) (by omega)
          (wr buf (z + k + nB) 0).length p (wr buf (z + k + nB) 0) 0 0
          (frame_zero hfr1 _ hE) (by omega) (Nat.le_refl _) hcB1
          (by rw [wr_length]; omega)
      refine ⟨p1, buf1, hl, ?_, hh, ys, hb, hq⟩
      exact frame_trans hfr1 (frame_mono hfr2 (by omega) (Nat.le_refl _))

/-- The segment decoder at nesting depth `d` behaves on every part shorter than
`d` bytes. -/
theorem decode_inv : ∀ (d : Nat),
    seg_ok (fun q b y => emailtoc_add_multipart_segment d q b y false) d := by
  intro d
  induction d with
  | zero => intro p buf z h; exact absurd h (Nat.not_lt_zero _)
  | succ d ih =>
    intro p buf z hlen
    obtain ⟨h, xs⟩ := p
    obtain ⟨buf1, hfr, hle, hres⟩ := seg_unfold d h xs buf z false
    simp only [] at hres ⊢
    rw [hres]
    have hc1 : cstr buf1 (z + body_start (logical_lines (cstr buf z)))
        = (cstr buf z).drop (body_start (logical_lines (cstr buf z))) := by
      rw [frame_cstr hfr _ (Nat.le_refl _), cstr_add buf z _ hle]
    split
    · unfold emailtoc_add_multipart
      obtain ⟨p2, buf2, hm, hfr2, hh2, ys, hb2, hq2⟩ := mp_inv _ d ih
        ⟨h ++ (if false = true then line_offsets z (header_block (logical_lines (cstr buf z)))
          else []), xs⟩ buf1 (z + body_start (logical_lines (cstr buf z)))
        (by rw [hc1, List.length_drop]; omega)
      refine ⟨p2, buf2, hm, ?_, ?_, ys, hb2, hq2⟩
      · rw [hc1, List.length_drop] at hfr2
        have e : z + body_start (logical_lines (cstr buf z)) +
            ((cstr buf z).length - body_start (logical_lines (cstr buf z)))
            = z + (cstr buf z).length := by omega
        rw [e] at hfr2
        exact frame_trans (frame_mono hfr (Nat.le_refl _) (by omega))
          (frame_mono hfr2 (by omega) (Nat.le_refl _))
      · rw [hh2]; simp
    · refine ⟨_, buf1, rfl, frame_mono hfr (Nat.le_refl _) (by omega), by simp, _, rfl, ?_⟩
      intro y hy
      simp only [List.mem_singleton] at hy
      subst hy
      have := body_of_lines_leaf false (header_block (logical_lines (cstr buf z)))
        EmailBody.zero (by decide)
      simpa [leaf_mimetype] using this

/-! ## More nesting depth does not change a result -/

theorem mp_loop_mono (seg1 seg2 : EmailToc → Buf → Nat → Option (EmailToc × Buf))
    (h : ∀ q b y r, seg1 q b y = some r → seg2 q b y = some r) (zB nB z : Nat) :
    ∀ (fuel : Nat) (p : EmailToc) (buf : List Nat) (i iStart : Nat) (r : EmailToc × Buf),
      multipart_loop seg1 zB nB z fuel p buf i iStart = some r →
      multipart_loop seg2 zB nB z fuel p buf i iStart = some r := by
  intro fuel
  induction fuel with
  | zero =>
    intro p buf i iStart r hr
    unfold multipart_loop at hr ⊢
    split
    · rename_i h0; rw [if_pos h0] at hr; exact hr
    · rename_i h0; rw [if_neg h0] at hr; simp at hr
  | succ f ih =>
    intro p buf i iStart r hr
    unfold multipart_loop at hr ⊢
    split
    · rename_i h0; rw [if_pos h0] at hr; exact hr
    · rename_i h0
      rw [if_neg h0] at hr
      simp only [] at hr ⊢
      split
      · rename_i hm
        rw [if_pos hm] at hr
        cases hs : seg1 p (wr buf (z + i + 1) 0) (z + iStart) with
        | none => rw [hs] at hr; simp at hr
        | some r1 =>
          obtain ⟨p2, buf2⟩ := r1
          rw [hs] at hr
          rw [h _ _ _ _ hs]
          simp only [] at hr ⊢
          split
          · rename_i ht; rw [if_pos ht] at hr; exact hr
          · rename_i ht; rw [if_neg ht] at hr; exact ih _ _ _ _ _ hr
      · rename_i hm
        rw [if_neg hm] at hr
        exact ih _ _ _ _ _ hr

theorem mp_with_mono (seg1 seg2 : EmailToc → Buf → Nat → Option (EmailToc × Buf))
    (h : ∀ q b y r, seg1 q b y = some r → seg2 q b y = some r) (p : EmailToc)
    (buf : List Nat) (z : Nat) (r : EmailToc × Buf)
    (hr : emailtoc_add_multipart_with seg1 p buf z = some r) :
    emailtoc_add_multipart_with seg2 p buf z = some r := by
  unfold emailtoc_add_multipart_with at hr ⊢
  cases hk : skip_to_boundary true (cstr buf z) with
  | none => rw [hk] at hr; exact hr
  | some k =>
    rw [hk] at hr
    simp only [] at hr ⊢
    split
    · rename_i h0; rw [if_pos h0] at hr; exact hr
    · rename_i h0
      rw [if_neg h0] at hr
      exact mp_loop_mono seg1 seg2 h _ _ _ _ _ _ _ _ _ hr

theorem seg_mono : ∀ (d : Nat) (p : EmailToc) (buf : List Nat) (z : Nat) (b : Bool)
    (r : EmailToc × Buf), emailtoc_add_multipart_segment d p buf z b = some r →
    emailtoc_add_multipart_segment (d + 1) p buf z b = some r := by
  intro d
  induction d with
  | zero => intro p buf z b r hr; simp [emailtoc_add_multipart_segment] at hr
  | succ d ih =>
    intro p buf z b r hr
    unfold emailtoc_add_multipart_segment at hr ⊢
    cases hl : segment_loop z b buf.length buf 0 (emailtoc_new_body p) false with
    | none => rw [hl] at hr; simp at hr
    | some s =>
      obtain ⟨buf1, i, p1, mp⟩ := s
      rw [hl] at hr
      simp only [] at hr ⊢
      split
      · rename_i hm
        rw [if_pos hm] at hr
        exact mp_with_mono _ _ (fun q b y r h => ih q b y false r h) _ _ _ _ hr
      · rename_i hm
        rw [if_neg hm] at hr
        exact hr

theorem seg_mono_add (d k : Nat) (p : EmailToc) (buf : List Nat) (z : Nat) (b : Bool)
    (r : EmailToc × Buf) (hr : emailtoc_add_multipart_segment d p buf z b = some r) :
    emailtoc_add_multipart_segment (d + k) p buf z b = some r := by
  induction k with
  | zero => exact hr
  | succ k ih => exact seg_mono (d + k) p buf z b r ih
/-! ## The decoder on every buffer -/

/-- The segment decoder, with or without header capture, on a part shorter than
the nesting depth it is allowed. -/
theorem seg_inv_any (d : Nat) (h : List Nat) (xs : List EmailBody) (buf : List Nat)
    (z : Nat) (b : Bool) (hlen : (cstr buf z).length < d + 1) :
    ∃ p1 buf1, emailtoc_add_multipart_segment (d + 1) ⟨h, xs⟩ buf z b = some (p1, buf1) ∧
      frame z (z + (cstr buf z).length) buf buf1 ∧
      p1.azHdr = h ++ (if b then line_offsets z (header_block (logical_lines (cstr buf z)))
        else []) ∧
      ∃ ys, p1.aBody = xs ++ ys ∧ ∀ y ∈ ys, leaf_mimetype y = true := by
  obtain ⟨buf1, hfr, hle, hres⟩ := seg_unfold d h xs buf z b
  rw [hres]
  have hc1 : cstr buf1 (z + body_start (logical_lines (cstr buf z)))
      = (cstr buf z).drop (body_start (logical_lines (cstr buf z))) := by
    rw [frame_cstr hfr _ (Nat.le_refl _), cstr_add buf z _ hle]
  split
  · unfold emailtoc_add_multipart
    obtain ⟨p2, buf2, hm, hfr2, hh2, ys, hb2, hq2⟩ := mp_inv _ d (decode_inv d)
      ⟨h ++ (if b then line_offsets z (header_block (logical_lines (cstr buf z)))
        else []), xs⟩ buf1 (z + body_start (logical_lines (cstr buf z)))
      (by rw [hc1, List.length_drop]; omega)
    refine ⟨p2, buf2, hm, ?_, hh2, ys, hb2, hq2⟩
    rw [hc1, List.length_drop] at hfr2
    have e : z + body_start (logical_lines (cstr buf z)) +
        ((cstr buf z).length - body_start (logical_lines (cstr buf z)))
        = z + (cstr buf z).length := by omega
    rw [e] at hfr2
    exact frame_trans (frame_mono hfr (Nat.le_refl _) (by omega))
      (frame_mono hfr2 (by omega) (Nat.le_refl _))
  · refine ⟨_, buf1, rfl, frame_mono hfr (Nat.le_refl _) (by omega), rfl, _, rfl, ?_⟩
    intro y hy
    simp only [List.mem_singleton] at hy
    subst hy
    have := body_of_lines_leaf b (header_block (logical_lines (cstr buf z)))
      EmailBody.zero (by decide)
    simpa [leaf_mimetype] using this

theorem text_length_le (msg : List Nat) : (text_of msg).length ≤ msg.length :=
  (List.takeWhile_sublist (l := msg) (fun c => c != 0)).length_le

/-- The decoder on a whole message. -/
theorem top_inv (msg : List Nat) :
    ∃ toc buf1, emailtoc_from_email msg = some (toc, buf1) ∧
      frame 0 (text_of msg).length (msg ++ [0]) buf1 ∧
      toc.azHdr = line_offsets 0 (header_block (logical_lines (text_of msg))) ∧
      ∀ y ∈ toc.aBody, leaf_mimetype y = true := by
  have hs0 : cstr (msg ++ [0]) 0 = text_of msg := cstr_top msg
  have hl := text_length_le msg
  obtain ⟨p1, buf1, hr, hfr, hh, ys, hb, hq⟩ := seg_inv_any msg.length [] [] (msg ++ [0]) 0 true
    (by rw [hs0]; omega)
  rw [hs0] at hfr hh
  refine ⟨p1, buf1, hr, by simpa using hfr, by simpa using hh, ?_⟩
  intro y hy
  rw [hb] at hy
  exact hq y (by simpa using hy)

/-- C8: `emailtoc_from_email` returns a table of contents on every input buffer,
and the same one however much deeper the nesting is allowed to go; the buffer
keeps its length.  The segment decoder returns on every part that is shorter than
the nesting depth it is given, because every nested part is strictly shorter than
the part around it, and every loop of the decoder stops inside its fuel, which is
the length of the buffer, because every pass advances its index. -/
theorem decoder_terminates :
    (∀ msg : List Nat, ∃ r, emailtoc_from_email msg = some r ∧
      (∀ k, emailtoc_from_email_depth (msg.length + 1 + k) msg = some r) ∧
      r.2.length = msg.length + 1) ∧
    (∀ (d : Nat) (p : EmailToc) (buf : List Nat) (z : Nat) (b : Bool),
      (cstr buf z).length < d →
      ∃ r, emailtoc_add_multipart_segment d p buf z b = some r ∧ r.2.length = buf.length) ∧
    (∀ (d : Nat) (p : EmailToc) (buf : List Nat) (z : Nat),
      (cstr buf z).length ≤ d + 1 →
      ∃ r, emailtoc_add_multipart d p buf z = some r ∧ r.2.length = buf.length) := by
  refine ⟨?_, ?_, ?_⟩
  · intro msg
    obtain ⟨toc, buf1, hr, hfr, _, _⟩ := top_inv msg
    refine ⟨(toc, buf1), hr, ?_, ?_⟩
    · intro k
      exact seg_mono_add (msg.length + 1) k _ _ _ _ _ hr
    · rw [hfr.1]; simp
  · intro d p buf z b hlen
    obtain ⟨d1, rfl⟩ : ∃ d1, d = d1 + 1 := ⟨d - 1, by omega⟩
    obtain ⟨h, xs⟩ := p
    obtain ⟨p1, buf1, hr, hfr, _, _⟩ := seg_inv_any d1 h xs buf z b hlen
    exact ⟨(p1, buf1), hr, hfr.1⟩
  · intro d p buf z hlen
    obtain ⟨p1, buf1, hr, hfr, _, _⟩ := mp_inv _ d (decode_inv d) p buf z hlen
    exact ⟨(p1, buf1), hr, hfr.1⟩

/-- Witness for C8 on the part `"A: b\n\nhi"` at offset 2 of a buffer, decoded
with depth 12. -/
theorem decoder_terminates_witness :
    ∃ r, emailtoc_add_multipart_segment 12 emailtoc_alloc
        (bytes "xxA: b\n\nhi" ++ [0]) 2 false = some r ∧
      r.2.length = (bytes "xxA: b\n\nhi" ++ [0]).length :=
  decoder_terminates.2.1 12 emailtoc_alloc (bytes "xxA: b\n\nhi" ++ [0]) 2 false (by decide!)

/-- C5: a part whose header block has a `Content-Type:` line with a value
beginning with `multipart/` gets no body entry of its own: decoding it is running
the splitter on the table of contents with the body list as it was before; and no
body segment of a table of contents returned by `emailtoc_from_email` has a
mimetype that begins with `multipart/`. -/
theorem leaf_only :
    (∀ (d : Nat) (h : List Nat) (xs : List EmailBody) (buf : List Nat) (z : Nat) (b : Bool),
      (header_block (logical_lines (cstr buf z))).any
        (fun l => is_multipart_line (rtrim l)) = true →
      (∃ buf1 hdr, emailtoc_add_multipart_segment (d + 1) ⟨h, xs⟩ buf z b =
          emailtoc_add_multipart d ⟨hdr, xs⟩ buf1
            (z + body_start (logical_lines (cstr buf z)))) ∧
      ∀ r, emailtoc_add_multipart_segment (d + 1) ⟨h, xs⟩ buf z b = some r →
        ∃ ys, r.1.aBody = xs ++ ys ∧ ∀ y ∈ ys, startsWith lit_multipart y.zMimetype = false) ∧
    (∀ (msg : List Nat) (toc : EmailToc) (buf1 : List Nat),
      emailtoc_from_email msg = some (toc, buf1) →
      ∀ y ∈ toc.aBody, startsWith lit_multipart y.zMimetype = false) := by
  refine ⟨?_, ?_⟩
  · intro d h xs buf z b hany
    constructor
    · obtain ⟨buf1, _, _, hres⟩ := seg_unfold d h xs buf z b
      rw [if_pos hany] at hres
      exact ⟨buf1, _, hres⟩
    · intro r hr
      have hr2 := seg_mono_add (d + 1) (cstr buf z).length ⟨h, xs⟩ buf z b r hr
      have e : d + 1 + (cstr buf z).length = (d + (cstr buf z).length) + 1 := by omega
      rw [e] at hr2
      obtain ⟨p1, buf2, hm, _, _, ys, hb, hq⟩ :=
        seg_inv_any (d + (cstr buf z).length) h xs buf z b (by omega)
      rw [hm] at hr2
      simp only [Option.some.injEq] at hr2
      rw [← hr2]
      refine ⟨ys, hb, ?_⟩
      intro y hy
      simpa [leaf_mimetype] using hq y hy
  · intro msg toc buf1 hr
    obtain ⟨toc', buf1', hr', _, _, hq⟩ := top_inv msg
    rw [hr'] at hr
    simp only [Option.some.injEq, Prod.mk.injEq] at hr
    intro y hy
    rw [← hr.1] at hy
    simpa [leaf_mimetype] using hq y hy

/-- Witness for C5 on a multipart message with one child. -/
theorem leaf_only_witness :
    ∃ buf1 hdr, emailtoc_add_multipart_segment (9 + 1) ⟨[], []⟩
        (bytes "Content-Type: multipart/mixed\n\n--X\nA: b\n\nhi\n--X--\n" ++ [0]) 0 true =
      emailtoc_add_multipart 9 ⟨hdr, []⟩ buf1
        (0 + body_start (logical_lines (cstr
          (bytes "Content-Type: multipart/mixed\n\n--X\nA: b\n\nhi\n--X--\n" ++ [0]) 0))) :=
  (leaf_only.1 9 [] [] (bytes "Content-Type: multipart/mixed\n\n--X\nA: b\n\nhi\n--X--\n" ++ [0])
    0 true (by decide!)).1
/-! ## Running the splitting loop over a known text -/

theorem mp_loop_end (seg : EmailToc → Buf → Nat → Option (EmailToc × Buf))
    (zB nB z1 fuel : Nat) (p : EmailToc) (buf : List Nat) (i iS : Nat)
    (h : rd buf (z1 + i) = 0) :
    multipart_loop seg zB nB z1 fuel p buf i iS = some (p, buf) := by
  unfold multipart_loop
  rw [if_pos h]

theorem mp_loop_fuel_succ (seg : EmailToc → Buf → Nat → Option (EmailToc × Buf))
    (zB nB z1 : Nat) : ∀ (fuel : Nat) (p : EmailToc) (buf : List Nat) (i iS : Nat)
    (r : EmailToc × Buf), multipart_loop seg zB nB z1 fuel p buf i iS = some r →
    multipart_loop seg zB nB z1 (fuel + 1) p buf i iS = some r := by
  intro fuel
  induction fuel with
  | zero =>
    intro p buf i iS r hr
    unfold multipart_loop at hr
    by_cases h0 : rd buf (z1 + i) = 0
    · rw [if_pos h0] at hr
      rw [mp_loop_end _ _ _ _ _ _ _ _ _ h0]
      exact hr
    · rw [if_neg h0] at hr; simp at hr
  | succ f ih =>
    intro p buf i iS r hr
    unfold multipart_loop at hr ⊢
    by_cases h0 : rd buf (z1 + i) = 0
    · rw [if_pos h0] at hr ⊢; exact hr
    · rw [if_neg h0] at hr ⊢
      simp only [] at hr ⊢
      split
      · rename_i hm
        rw [if_pos hm] at hr
        cases hs : seg p (wr buf (z1 + i + 1) 0) (z1 + iS) with
        | none => rw [hs] at hr; simp at hr
        | some r1 =>
          obtain ⟨p2, buf2⟩ := r1
          rw [hs] at hr
          simp only [] at hr ⊢
          split
          · rename_i ht; rw [if_pos ht] at hr; exact hr
          · rename_i ht; rw [if_neg ht] at hr; exact ih _ _ _ _ _ hr
      · rename_i hm
        rw [if_neg hm] at hr
        exact ih _ _ _ _ _ hr

theorem mp_loop_fuel_le (seg : EmailToc → Buf → Nat → Option (EmailToc × Buf))
    (zB nB z1 : Nat) (f g : Nat) (hfg : f ≤ g) (p : EmailToc) (buf : List Nat) (i iS : Nat)
    (r : EmailToc × Buf) (hr : multipart_loop seg zB nB z1 f p buf i iS = some r) :
    multipart_loop seg zB nB z1 g p buf i iS = some r := by
  obtain ⟨k, rfl⟩ : ∃ k, g = f + k := ⟨g - f, by omega⟩
  induction k with
  | zero => exact hr
  | succ k ih => exact mp_loop_fuel_succ seg zB nB z1 (f + k) p buf i iS r (ih (by omega))

theorem cstr_cons (buf : List Nat) (q : Nat) (h : rd buf q ≠ 0) :
    cstr buf q = rd buf q :: cstr buf (q + 1) := by
  have hne : cstr buf q ≠ [] := fun hc => h ((cstr_eq_nil_iff buf q).1 hc)
  have h1 := cstr_add buf q 1 (by
    cases hc : cstr buf q with
    | nil => exact absurd hc hne
    | cons x t => simp)
  have h0 := rd_cstr_zero buf q
  cases hc : cstr buf q with
  | nil => exact absurd hc hne
  | cons x t =>
    rw [hc] at h1 h0
    simp only [List.drop_succ_cons, List.drop_zero, List.headD_cons] at h1 h0
    rw [h1, h0]

theorem match_iff (buf : List Nat) (q zB nB : Nat) (B : List Nat) (hB : cstr buf zB = B)
    (hBl : B.length = nB) (hBnf : ∀ c ∈ B, c ≠ 0) :
    (rd buf q = 10 ∧ strncmp (cstr buf (q + 1)) (cstr buf zB) nB = 0) ↔
      startsWith (10 :: B) (cstr buf q) = true := by
  rw [hB, ← hBl, strncmp_eq_zero_iff B _ hBnf]
  by_cases h0 : rd buf q = 0
  · have hnil := (cstr_eq_nil_iff buf q).2 h0
    rw [hnil, h0]
    simp [startsWith]
  · rw [cstr_cons buf q h0]
    simp only [startsWith, Bool.and_eq_true, beq_iff_eq]
    constructor
    · intro h; exact ⟨h.1.symm, h.2⟩
    · intro h; exact ⟨h.1.symm, h.2⟩

theorem mp_loop_scan (seg : EmailToc → Buf → Nat → Option (EmailToc × Buf))
    (zB nB z1 : Nat) (B : List Nat) (p : EmailToc) (buf : List Nat) (iS : Nat)
    (hB : cstr buf zB = B) (hBl : B.length = nB) (hBnf : ∀ c ∈ B, c ≠ 0) :
    ∀ (k fuel i : Nat), k ≤ (cstr buf (z1 + i)).length →
      (∀ m, m < k → startsWith (10 :: B) ((cstr buf (z1 + i)).drop m) = false) →
      multipart_loop seg zB nB z1 (fuel + k) p buf i iS =
        multipart_loop seg zB nB z1 fuel p buf (i + k) iS := by
  intro k
  induction k with
  | zero => intro fuel i _ _; rfl
  | succ k ih =>
    intro fuel i hk hno
    have h0 : rd buf (z1 + i) ≠ 0 := by
      intro h
      rw [(cstr_eq_nil_iff buf (z1 + i)).2 h] at hk
      simp at hk
    have hnm : ¬ (rd buf (z1 + i) = 10 ∧
        strncmp (cstr buf (z1 + i + 1)) (cstr buf zB) nB = 0) := by
      rw [match_iff buf (z1 + i) zB nB B hB hBl hBnf]
      have := hno 0 (Nat.succ_pos k)
      simpa using this
    have e : fuel + (k + 1) = (fuel + k) + 1 := by omega
    rw [e]
    conv_lhs => unfold multipart_loop
    rw [if_neg h0]
    simp only []
    rw [if_neg hnm]
    have hc : cstr buf (z1 + (i + 1)) = (cstr buf (z1 + i)).drop 1 := by
      rw [← Nat.add_assoc, cstr_add buf (z1 + i) 1 (by omega)]
    rw [ih fuel (i + 1) (by rw [hc, List.length_drop]; omega)
      (fun m hm => by rw [hc, List.drop_drop]; exact hno (1 + m) (by omega))]
    congr 1
    omega

theorem mp_loop_match (seg : EmailToc → Buf → Nat → Option (EmailToc × Buf))
    (zB nB z1 : Nat) (B : List Nat) (p : EmailToc) (buf : List Nat) (i iS fuel : Nat)
    (hB : cstr buf zB = B) (hBl : B.length = nB) (hBnf : ∀ c ∈ B, c ≠ 0)
    (hm : startsWith (10 :: B) (cstr buf (z1 + i)) = true) :
    multipart_loop seg zB nB z1 (fuel + 1) p buf i iS =
      match seg p (wr buf (z1 + i + 1) 0) (z1 + iS) with
      | none => none
      | some (p2, buf2) =>
        if rd buf2 (z1 + (i + nB)) = 45 ∧ rd buf2 (z1 + (i + nB) + 1) = 45 then
          some (p2, buf2)
        else
          multipart_loop seg zB nB z1 fuel p2 buf2
            (i + nB + scanLen fossil_isspace (cstr buf2 (z1 + (i + nB))) + 1)
            (i + nB + scanLen fossil_isspace (cstr buf2 (z1 + (i + nB)))) := by
  have hmm := (match_iff buf (z1 + i) zB nB B hB hBl hBnf).2 hm
  have h0 : rd buf (z1 + i) ≠ 0 := by rw [hmm.1]; decide
  conv_lhs => unfold multipart_loop
  rw [if_neg h0]
  simp only []
  rw [if_pos hmm]

/-! ## Texts without a boundary line -/

theorem startsWith_append : ∀ (N A : List Nat) (y : Nat) (Y : List Nat),
    startsWith N (A ++ y :: Y) = true → startsWith N A = true ∨ y ∈ N := by
  intro N
  induction N with
  | nil => intro A y Y _; left; simp [startsWith]
  | cons n N ih =>
    intro A y Y h
    cases A with
    | nil =>
      simp only [List.nil_append, startsWith, Bool.and_eq_true, beq_iff_eq] at h
      right; rw [h.1]; exact List.mem_cons_self _ _
    | cons a A =>
      simp only [List.cons_append, startsWith, Bool.and_eq_true, beq_iff_eq] at h ⊢
      rcases ih A y Y h.2 with h1 | h1
      · left; exact ⟨h.1, h1⟩
      · right; exact List.mem_cons_of_mem _ h1

/-- A text without a boundary line, followed by a `'\n'`: the boundary token
does not start anywhere in the text, the following bytes included. -/
theorem no_boundary_append (B T rest : List Nat) (hnb : no_boundary B T)
    (hB10 : ∀ c ∈ B, c ≠ 10) :
    ∀ m, m < T.length + 1 →
      startsWith (10 :: B) (((10 :: T) ++ 10 :: rest).drop m) = false := by
  intro m hm
  have hsplit : ((10 :: T) ++ 10 :: rest).drop m = (10 :: T).drop m ++ 10 :: rest := by
    rw [List.drop_append_of_le_length (by simp only [List.length_cons]; omega)]
  rw [hsplit]
  cases hA : (10 :: T).drop m with
  | nil =>
    have := congrArg List.length hA
    simp only [List.length_drop, List.length_cons, List.length_nil] at this
    omega
  | cons a A =>
    cases hs : startsWith (10 :: B) (a :: A ++ 10 :: rest) with
    | false => rfl
    | true =>
      exfalso
      simp only [List.cons_append, startsWith, Bool.and_eq_true, beq_iff_eq] at hs
      rcases startsWith_append B A 10 rest hs.2 with h1 | h1
      · have := hnb m hm
        rw [hA] at this
        simp [startsWith, hs.1, h1] at this
      · exact hB10 10 h1 rfl
/-! ## One child of a multipart body -/

theorem no_multipart_lines_of (cl : List (List Nat))
    (h : ∀ l ∈ cl, is_multipart_line (rtrim (l ++ [10])) = false) :
    (cl.map (fun l => l ++ [10])).any (fun l => is_multipart_line (rtrim l)) = false := by
  rw [List.any_eq_false]
  intro l hl
  obtain ⟨l0, hl0, rfl⟩ := List.mem_map.1 hl
  simpa using h l0 hl0

/-- The segment decoder on a part that is a block of header lines, a blank line
and a body, and that has no `Content-Type: multipart/` line. -/
theorem leaf_part_eq (d : Nat) (h : List Nat) (xs : List EmailBody) (buf : List Nat)
    (z : Nat) (b : Bool) (cl : List (List Nat)) (bd : List Nat)
    (hC : cstr buf z = unlines cl ++ 10 :: bd) (hok : ∀ l ∈ cl, header_line_ok l)
    (hleaf : ∀ l ∈ cl, is_multipart_line (rtrim (l ++ [10])) = false) :
    ∃ buf2, emailtoc_add_multipart_segment (d + 1) ⟨h, xs⟩ buf z b =
        some (⟨h ++ (if b then line_offsets z (cl.map (fun l => l ++ [10])) else []),
          xs ++ [{ body_of_lines b (cl.map (fun l => l ++ [10])) EmailBody.zero with
            zContent := some (z + ((unlines cl).length + email_line_length (10 :: bd))) }]⟩,
          buf2) ∧
      frame z (z + ((unlines cl).length + email_line_length (10 :: bd))) buf buf2 := by
  obtain ⟨buf1, hfr, _, hres⟩ := seg_unfold d h xs buf z b
  obtain ⟨bl, rest, hll, hbl, hbl2⟩ := logical_lines_message cl bd hok
  obtain ⟨hhb, hbs⟩ := header_block_lines cl bl rest hok hbl
  have hbll : bl.length = email_line_length (10 :: bd) := by
    rw [hbl2, List.length_take]
    exact Nat.min_eq_left (ell_le _)
  simp only [hC, hll, hhb, hbs, hbll, no_multipart_lines_of cl hleaf, Bool.false_eq_true,
    if_false] at hres hfr
  exact ⟨buf1, hres, hfr⟩

theorem drop_append_left (A Bs : List Nat) : (A ++ Bs).drop A.length = Bs :=
  List.drop_left A Bs

theorem take_append_left (A Bs : List Nat) : (A ++ Bs).take A.length = A :=
  List.take_left A Bs

/-- The loop of the splitter from the start of a child to the boundary line
that ends it: `seg` is called on the child, and the loop goes on right after the
last byte of the boundary token unless that byte and the next are `"--"`. -/
theorem mp_child_step (seg : EmailToc → Buf → Nat → Option (EmailToc × Buf))
    (zB nB z1 : Nat) (B0 : List Nat) (lastB : Nat) (p p2 : EmailToc)
    (buf buf2 : List Nat) (i iS fuel : Nat) (U rest : List Nat)
    (hB : cstr buf zB = B0 ++ [lastB]) (hBl : (B0 ++ [lastB]).length = nB) (hB0 : B0 ≠ [])
    (hBok : ∀ c ∈ B0 ++ [lastB], c ≠ 0 ∧ fossil_isspace c = false)
    (hz : zB + nB < z1 + iS) (hiS : iS ≤ i)
    (hU : cstr buf (z1 + i) = U ++ 10 :: ((B0 ++ [lastB]) ++ rest))
    (hno : ∀ m, m < U.length →
      startsWith (10 :: (B0 ++ [lastB])) ((U ++ 10 :: ((B0 ++ [lastB]) ++ rest)).drop m) = false)
    (hseg : seg p (wr buf (z1 + i + U.length + 1) 0) (z1 + iS) = some (p2, buf2))
    (hfr : frame (z1 + iS) (z1 + i + U.length + 1) (wr buf (z1 + i + U.length + 1) 0) buf2) :
    cstr buf2 zB = B0 ++ [lastB] ∧
    cstr buf2 (z1 + (i + U.length + nB)) = lastB :: rest ∧
    multipart_loop seg zB nB z1 (fuel + 1 + U.length) p buf i iS =
      if lastB = 45 ∧ rest.headD 0 = 45 then some (p2, buf2)
      else multipart_loop seg zB nB z1 fuel p2 buf2 (i + U.length + nB + 1)
        (i + U.length + nB) := by
  have hBnf : ∀ c ∈ B0 ++ [lastB], c ≠ 0 := fun c hc => (hBok c hc).1
  have hB0len : 1 ≤ B0.length := by
    cases B0 with
    | nil => exact absurd rfl hB0
    | cons x t => simp
  have hnB : nB = B0.length + 1 := by rw [← hBl]; simp
  have hUlen : U.length + 1 + nB ≤ (cstr buf (z1 + i)).length := by
    rw [hU, hnB]; simp only [List.length_append, List.length_cons, List.length_nil]; omega
  -- the strings of the buffer once the child has been decoded
  have hfrw : frame (z1 + i + U.length + 1) (z1 + i + U.length + 1 + 1) buf
      (wr buf (z1 + i + U.length + 1) 0) :=
    frame_wr_zero _ _ _ _ (Nat.le_refl _) (by omega)
  have hB1 : cstr (wr buf (z1 + i + U.length + 1) 0) zB = B0 ++ [lastB] := by
    rw [frame_cstr_below hfrw zB (by rw [hB, hBl]; omega), hB]
  have hB2 : cstr buf2 zB = B0 ++ [lastB] := by
    rw [frame_cstr_below hfr zB (by rw [hB1, hBl]; omega), hB1]
  have hq : cstr buf2 (z1 + (i + U.length + nB)) = lastB :: rest := by
    rw [frame_cstr hfr _ (by omega), cstr_wr_lt _ _ _ _ (by omega)]
    have e : z1 + (i + U.length + nB) = z1 + i + (U.length + nB) := by omega
    rw [e, cstr_add buf (z1 + i) _ (by omega), hU]
    have e2 : U ++ 10 :: ((B0 ++ [lastB]) ++ rest) = (U ++ 10 :: B0) ++ (lastB :: rest) := by
      simp
    have e3 : U.length + nB = (U ++ 10 :: B0).length := by
      rw [hnB]; simp only [List.length_append, List.length_cons]
    rw [e2, e3, drop_append_left]
  refine ⟨hB2, hq, ?_⟩
  -- scan the child, then meet the boundary line
  have hscan := mp_loop_scan seg zB nB z1 (B0 ++ [lastB]) p buf iS hB hBl hBnf U.length
    (fuel + 1) i (by omega) (fun m hm => by rw [hU]; exact hno m hm)
  rw [hscan]
  have hmatch : startsWith (10 :: (B0 ++ [lastB])) (cstr buf (z1 + (i + U.length))) = true := by
    have e : z1 + (i + U.length) = z1 + i + U.length := by omega
    rw [e, cstr_add buf (z1 + i) _ (by omega), hU, drop_append_left]
    have : ∀ (N Y : List Nat), startsWith N (N ++ Y) = true := by
      intro N
      induction N with
      | nil => intro Y; rfl
      | cons n N ih => intro Y; simp [startsWith, ih]
    have h2 := this (10 :: (B0 ++ [lastB])) rest
    simpa using h2
  rw [mp_loop_match seg zB nB z1 (B0 ++ [lastB]) p buf (i + U.length) iS fuel hB hBl hBnf
    hmatch]
  have e1 : z1 + (i + U.length) + 1 = z1 + i + U.length + 1 := by omega
  rw [e1, hseg]
  simp only []
  have e2 : z1 + (i + U.length + nB) = z1 + (i + U.length + nB) + 0 := rfl
  have hr0 : rd buf2 (z1 + (i + U.length + nB)) = lastB := by
    rw [rd_cstr_zero, hq]; rfl
  have hr1 : rd buf2 (z1 + (i + U.length + nB) + 1) = rest.headD 0 := by
    rw [rd_cstr buf2 _ 1 (by rw [hq]; simp), hq, rd_cons_succ, rd_headD]
  have hws : scanLen fossil_isspace (cstr buf2 (z1 + (i + U.length + nB))) = 0 := by
    rw [hq]
    apply scanLen_zero
    exact (hBok lastB (by simp)).2
  rw [hr0, hr1, hws]
  rfl

/-- The loop of the splitter over what follows the last boundary line. -/
theorem mp_loop_tail (seg : EmailToc → Buf → Nat → Option (EmailToc × Buf))
    (zB nB z1 : Nat) (B : List Nat) (p : EmailToc) (buf : List Nat) (i iS fuel : Nat)
    (rest : List Nat) (hB : cstr buf zB = B) (hBl : B.length = nB) (hBnf : ∀ c ∈ B, c ≠ 0)
    (hR : cstr buf (z1 + i) = rest)
    (hno : ∀ m, m < rest.length → startsWith (10 :: B) (rest.drop m) = false) :
    multipart_loop seg zB nB z1 (fuel + rest.length) p buf i iS = some (p, buf) := by
  rw [mp_loop_scan seg zB nB z1 B p buf iS hB hBl hBnf rest.length fuel i (by rw [hR])
    (fun m hm => by rw [hR]; exact hno m hm)]
  apply mp_loop_end
  have := rd_cstr_end buf (z1 + i)
  rw [hR] at this
  rw [← this]
  congr 1
  omega
/-! ## Helpers for a multipart body with known children -/

theorem strnicmp_zero_length : ∀ (N : Nat) (a b : List Nat), (∀ c ∈ b, c ≠ 0) →
    N ≤ b.length → sqlite3_strnicmp a b N = 0 → N ≤ a.length := by
  intro N
  induction N with
  | zero => intro a b _ _ _; exact Nat.zero_le _
  | succ N ih =>
    intro a b hb hN h
    cases b with
    | nil => simp at hN
    | cons y b =>
      have hy : lower y ≠ 0 := lower_ne_zero y (hb y (List.mem_cons_self _ _))
      have h0 : lower 0 = 0 := by decide
      cases a with
      | nil =>
        simp only [sqlite3_strnicmp, List.headD_cons, h0] at h
        omega
      | cons x a =>
        simp only [sqlite3_strnicmp, List.headD_cons, List.tail_cons] at h
        split at h
        · have := ih a b (fun c hc => hb c (List.mem_cons_of_mem _ hc))
            (by simpa using hN) h
          simp only [List.length_cons]
          omega
        · rename_i hc
          exfalso
          have hxy : lower x = lower y := by omega
          by_cases hx : x = 0
          · rw [hx, h0] at hxy; exact hy hxy.symm
          · exact hc ⟨hx, hxy⟩

theorem body_line_short (b : Bool) (line : List Nat) (x : EmailBody) (h : line.length < 13) :
    body_line b line x = x := by
  have h1 : ¬ sqlite3_strnicmp line lit_content_type 13 = 0 := by
    intro h0
    have := strnicmp_zero_length 13 line lit_content_type
      (fun c hc => (lit_content_type_ok c hc).1) (by decide) h0
    omega
  have h2 : ¬ sqlite3_strnicmp line lit_content_transfer_encoding 26 = 0 := by
    intro h0
    have := strnicmp_zero_length 26 line lit_content_transfer_encoding
      (fun c hc => (lit_cte_ok c hc).1) (by decide) h0
    omega
  have h3 : ¬ sqlite3_strnicmp line lit_content_disposition 20 = 0 := by
    intro h0
    have := strnicmp_zero_length 20 line lit_content_disposition
      (fun c hc => (lit_cd_ok c hc).1) (by decide) h0
    omega
  simp [body_line, body_disposition, body_encoding, body_content_type, h1, h2, h3]

theorem multipart_line_short (line : List Nat) (h : line.length < 13) :
    is_multipart_line line = false := by
  have h1 : ¬ sqlite3_strnicmp line lit_content_type 13 = 0 := by
    intro h0
    have := strnicmp_zero_length 13 line lit_content_type
      (fun c hc => (lit_content_type_ok c hc).1) (by decide) h0
    omega
  simp [is_multipart_line, h1]

theorem rtrim_length_le (l : List Nat) : (rtrim l).length ≤ l.length := by
  unfold rtrim
  rw [List.length_reverse]
  have := (List.dropWhile_sublist (l := l.reverse) fossil_isspace).length_le
  simpa using this

theorem scanLen_append (f : Nat → Bool) (A X : List Nat) (hA : ∀ c ∈ A, f c = true)
    (hX : f (X.headD 0) = false) : scanLen f (A ++ X) = A.length := by
  induction A with
  | nil => simpa using scanLen_zero f X hX
  | cons a A ih =>
    have ha := hA a (List.mem_cons_self _ _)
    simp only [List.cons_append, scanLen, ha, if_true, List.length_cons, List.append_eq]
    rw [ih (fun c hc => hA c (List.mem_cons_of_mem _ hc))]

/-- The byte left over from the boundary token is a header line of its own, and
a harmless one. -/
theorem junk_line_ok (lastB : Nat) (h0 : lastB ≠ 0) (hs : fossil_isspace lastB = false) :
    header_line_ok [lastB] ∧ is_multipart_line (rtrim ([lastB] ++ [10])) = false ∧
      ∀ b x, body_line b (rtrim ([lastB] ++ [10])) x = x := by
  have hlen : (rtrim ([lastB] ++ [10])).length < 13 := by
    have := rtrim_length_le ([lastB] ++ [10])
    simp only [List.length_append, List.length_cons, List.length_nil] at this
    omega
  refine ⟨?_, multipart_line_short _ hlen, fun b x => body_line_short b _ x hlen⟩
  simp only [fossil_isspace, Bool.or_eq_false_iff, beq_eq_false_iff_ne, ne_eq,
    Bool.and_eq_false_iff, decide_eq_false_iff_not, not_le] at hs
  refine ⟨by simp, ?_, ?_, ?_, ?_⟩
  · intro h; simp only [List.cons.injEq, and_true] at h; omega
  · intro c hc
    simp only [List.mem_singleton] at hc
    subst hc
    exact ⟨h0, by omega⟩
  · simp only [List.headD_cons]; omega
  · simp only [List.headD_cons]; omega

theorem unlines_length_cons (l : List Nat) (ls : List (List Nat)) :
    (unlines (l :: ls)).length = l.length + 1 + (unlines ls).length := by
  simp only [unlines, List.length_append, List.length_cons]
  omega

theorem skip_to_boundary_dashes (X : List Nat) :
    skip_to_boundary true (45 :: 45 :: X) = some 0 := by
  simp [skip_to_boundary]

/-- The opening of the splitter on a body that begins with its boundary line:
the token is delimited and the loop starts at the first child. -/
theorem mp_start (seg : EmailToc → Buf → Nat → Option (EmailToc × Buf)) (p : EmailToc)
    (buf : List Nat) (z : Nat) (tok X : List Nat)
    (htok : ∀ c ∈ tok, c ≠ 0 ∧ fossil_isspace c = false)
    (hM : cstr buf z = (45 :: 45 :: tok) ++ 10 :: X)
    (hX : fossil_isspace (X.headD 0) = false) :
    emailtoc_add_multipart_with seg p buf z =
        multipart_loop seg z (tok.length + 2) (z + (tok.length + 2) + 1)
          (wr buf (z + (tok.length + 2)) 0).length p (wr buf (z + (tok.length + 2)) 0) 0 0 ∧
      cstr (wr buf (z + (tok.length + 2)) 0) z = 45 :: 45 :: tok ∧
      cstr (wr buf (z + (tok.length + 2)) 0) (z + (tok.length + 2) + 1) = X := by
  have hBok : ∀ c ∈ 45 :: 45 :: tok, (fun c => c != 0 && !fossil_isspace c) c = true := by
    intro c hc
    simp only [List.mem_cons] at hc
    rcases hc with h | h | h
    · subst h; decide
    · subst h; decide
    · have := htok c h
      simp [this.1, this.2]
  have hBlen : (45 :: 45 :: tok).length = tok.length + 2 := by simp
  have hnB : scanLen (fun c => c != 0 && !fossil_isspace c) (cstr buf z) = tok.length + 2 := by
    rw [hM, scanLen_append _ _ _ hBok (by simp [fossil_isspace]), hBlen]
  have hlen : (cstr buf z).length = tok.length + 2 + 1 + X.length := by
    rw [hM]; simp only [List.length_append, List.length_cons]; omega
  have hcW : cstr buf (z + (tok.length + 2)) = 10 :: X := by
    rw [cstr_add buf z _ (by omega), hM, ← hBlen, drop_append_left]
  have hws : scanLen fossil_isspace (cstr buf (z + (tok.length + 2))) = 1 := by
    rw [hcW]
    have := scanLen_append fossil_isspace [10] X (by decide) hX
    simpa using this
  refine ⟨?_, ?_, ?_⟩
  · have hskip : skip_to_boundary true (cstr buf z) = some 0 := by
      rw [hM]
      exact skip_to_boundary_dashes _
    unfold emailtoc_add_multipart_with
    rw [hskip]
    simp only [Nat.add_zero]
    rw [hnB, if_neg (by omega), hws]
  · rw [cstr_wr_zero buf z _ (by omega), hM, ← hBlen, take_append_left]
  · rw [cstr_wr_lt _ _ _ _ (by omega)]
    have e : z + (tok.length + 2) + 1 = z + (tok.length + 2 + 1) := by omega
    rw [e, cstr_add buf z _ (by omega), hM]
    have e2 : (45 :: 45 :: tok) ++ 10 :: X = ((45 :: 45 :: tok) ++ [10]) ++ X := by simp
    have e3 : tok.length + 2 + 1 = ((45 :: 45 :: tok) ++ [10]).length := by simp
    rw [e2, e3, drop_append_left]

/-- The loop of the splitter over a child that is a leaf part. -/
theorem leaf_child_step (d : Nat) (zB nB z1 : Nat) (B0 : List Nat) (lastB : Nat)
    (p : EmailToc) (buf : List Nat) (i iS fuel : Nat) (pre U rest : List Nat)
    (cl : List (List Nat)) (bd : List Nat)
    (hB : cstr buf zB = B0 ++ [lastB]) (hBl : (B0 ++ [lastB]).length = nB) (hB0 : B0 ≠ [])
    (hBok : ∀ c ∈ B0 ++ [lastB], c ≠ 0 ∧ fossil_isspace c = false)
    (hz : zB + nB < z1 + iS) (hi : i = iS + pre.length)
    (hS : cstr buf (z1 + iS) = pre ++ (U ++ 10 :: ((B0 ++ [lastB]) ++ rest)))
    (hno : ∀ m, m < U.length →
      startsWith (10 :: (B0 ++ [lastB])) ((U ++ 10 :: ((B0 ++ [lastB]) ++ rest)).drop m) = false)
    (hC : pre ++ (U ++ [10]) = unlines cl ++ 10 :: bd) (hok : ∀ l ∈ cl, header_line_ok l)
    (hleaf : ∀ l ∈ cl, is_multipart_line (rtrim (l ++ [10])) = false) :
    ∃ buf2, cstr buf2 zB = B0 ++ [lastB] ∧
      cstr buf2 (z1 + (i + U.length + nB)) = lastB :: rest ∧
      multipart_loop (fun q b y => emailtoc_add_multipart_segment (d + 1) q b y false)
          zB nB z1 (fuel + 1 + U.length) p buf i iS =
        if lastB = 45 ∧ rest.headD 0 = 45 then
          some (⟨p.azHdr, p.aBody ++ [{ body_of_lines false (cl.map (fun l => l ++ [10]))
              EmailBody.zero with
            zContent := some (z1 + iS + ((unlines cl).length +
              email_line_length (10 :: bd))) }]⟩, buf2)
        else
          multipart_loop (fun q b y => emailtoc_add_multipart_segment (d + 1) q b y false)
            zB nB z1 fuel
            ⟨p.azHdr, p.aBody ++ [{ body_of_lines false (cl.map (fun l => l ++ [10]))
              EmailBody.zero with
            zContent := some (z1 + iS + ((unlines cl).length +
              email_line_length (10 :: bd))) }]⟩ buf2
            (i + U.length + nB + 1) (i + U.length + nB) := by
  have hlenS : pre.length + U.length + 1 ≤ (cstr buf (z1 + iS)).length := by
    rw [hS]; simp only [List.length_append, List.length_cons]; omega
  have hw : z1 + i + U.length + 1 = z1 + iS + (pre.length + U.length + 1) := by omega
  have hchild : cstr (wr buf (z1 + i + U.length + 1) 0) (z1 + iS) = unlines cl ++ 10 :: bd := by
    rw [hw, cstr_wr_zero buf (z1 + iS) _ hlenS, hS, ← hC]
    have e : pre ++ (U ++ 10 :: ((B0 ++ [lastB]) ++ rest))
        = (pre ++ (U ++ [10])) ++ ((B0 ++ [lastB]) ++ rest) := by simp
    have e2 : pre.length + U.length + 1 = (pre ++ (U ++ [10])).length := by
      simp only [List.length_append, List.length_cons, List.length_nil]; omega
    rw [e, e2, take_append_left]
  obtain ⟨h, xs⟩ := p
  obtain ⟨buf2, hres, hfr⟩ := leaf_part_eq d h xs (wr buf (z1 + i + U.length + 1) 0)
    (z1 + iS) false cl bd hchild hok hleaf
  simp only [Bool.false_eq_true, if_false, List.append_nil] at hres
  have hClen : (unlines cl).length + email_line_length (10 :: bd)
      ≤ pre.length + U.length + 1 := by
    have h1 := ell_le (10 :: bd)
    have h2 := congrArg List.length hC
    simp only [List.length_append, List.length_cons, List.length_nil] at h1 h2
    omega
  have hU : cstr buf (z1 + i) = U ++ 10 :: ((B0 ++ [lastB]) ++ rest) := by
    have e : z1 + i = z1 + iS + pre.length := by omega
    rw [e, cstr_add buf (z1 + iS) _ (by omega), hS, drop_append_left]
  obtain ⟨h1, h2, h3⟩ := mp_child_step
    (fun q b y => emailtoc_add_multipart_segment (d + 1) q b y false) zB nB z1 B0 lastB
    ⟨h, xs⟩ _ buf buf2 i iS fuel U rest hB hBl hB0 hBok hz (by omega) hU hno hres
    (frame_mono hfr (Nat.le_refl _) (by omega))
  exact ⟨buf2, h1, h2, h3⟩

theorem concat_of_dashes (tok : List Nat)
    (htok : ∀ c ∈ tok, c ≠ 0 ∧ fossil_isspace c = false) :
    ∃ B0 lastB, 45 :: 45 :: tok = B0 ++ [lastB] ∧ B0 ≠ [] ∧
      (∀ c ∈ B0 ++ [lastB], c ≠ 0 ∧ fossil_isspace c = false) ∧
      (∀ c ∈ B0 ++ [lastB], c ≠ 10) ∧ (B0 ++ [lastB]).length = tok.length + 2 := by
  have hok : ∀ c ∈ 45 :: 45 :: tok, c ≠ 0 ∧ fossil_isspace c = false := by
    intro c hc
    simp only [List.mem_cons] at hc
    rcases hc with h | h | h
    · subst h; decide
    · subst h; decide
    · exact htok c h
  rcases List.eq_nil_or_concat (45 :: 45 :: tok) with h | ⟨B0, lastB, h⟩
  · simp at h
  · rw [List.concat_eq_append] at h
    refine ⟨B0, lastB, h, ?_, ?_, ?_, ?_⟩
    · intro h0
      subst h0
      have := congrArg List.length h
      simp at this
    · rw [← h]; exact hok
    · rw [← h]
      intro c hc h10
      have := (hok c hc).2
      rw [h10] at this
      exact absurd this (by decide)
    · rw [← h]; simp

/-- The splitter on a body with two leaf children: two body entries are
appended, the first child's and then the second child's. -/
theorem mp_two_leaves (d : Nat) (p : EmailToc) (buf : List Nat) (z : Nat)
    (tok : List Nat) (c1 c2 : List (List Nat)) (b1 b2 tail T1 T2 : List Nat)
    (htok : ∀ c ∈ tok, c ≠ 0 ∧ fossil_isspace c = false)
    (hT1 : T1 = unlines c1 ++ 10 :: b1) (hT2 : T2 = unlines c2 ++ 10 :: b2)
    (hM : cstr buf z = (45 :: 45 :: tok) ++ 10 :: (T1 ++ 10 :: ((45 :: 45 :: tok) ++
      10 :: (T2 ++ 10 :: ((45 :: 45 :: tok) ++ tail)))))
    (hc1 : ∀ l ∈ c1, header_line_ok l) (hc2 : ∀ l ∈ c2, header_line_ok l)
    (hfirst : fossil_isspace (T1.headD 0) = false)
    (hl1 : ∀ l ∈ c1, is_multipart_line (rtrim (l ++ [10])) = false)
    (hl2 : ∀ l ∈ c2, is_multipart_line (rtrim (l ++ [10])) = false)
    (hn1 : no_boundary (45 :: 45 :: tok) T1) (hn2 : no_boundary (45 :: 45 :: tok) T2)
    (hnt : ∀ m, m < tail.length → startsWith (10 :: 45 :: 45 :: tok) (tail.drop m) = false) :
    ∃ buf1 o1 o2, emailtoc_add_multipart (d + 1) p buf z =
        some (⟨p.azHdr, p.aBody ++
          [{ body_of_lines false (c1.map (fun l => l ++ [10])) EmailBody.zero with
              zContent := some o1 },
           { body_of_lines false (c2.map (fun l => l ++ [10])) EmailBody.zero with
              zContent := some o2 }]⟩, buf1) ∧
      o1 = z + (tok.length + 2) + 1 + ((unlines c1).length +
        email_line_length (10 :: (b1 ++ [10]))) ∧
      o2 = z + (tok.length + 2) + 1 + (T1.length + (tok.length + 2)) +
        (2 + (unlines c2).length + email_line_length (10 :: (b2 ++ [10]))) := by
  obtain ⟨B0, lastB, hBeq, hB0, hBok, hB10, hBlen⟩ := concat_of_dashes tok htok
  rw [hBeq] at hM hn1 hn2 hnt
  have hT1ne : T1 ≠ [] := by rw [hT1]; simp
  have hXhead : fossil_isspace ((T1 ++ 10 :: ((B0 ++ [lastB]) ++
      10 :: (T2 ++ 10 :: ((B0 ++ [lastB]) ++ tail)))).headD 0) = false := by
    cases T1 with
    | nil => exact absurd rfl hT1ne
    | cons a t => simpa using hfirst
  have hM0 := hM
  rw [← hBeq] at hM0
  obtain ⟨hstart, hcB, hcX⟩ := mp_start
    (fun q b y => emailtoc_add_multipart_segment (d + 1) q b y false) p buf z tok _ htok hM0
    (by rw [hBeq]; exact hXhead)
  rw [hBeq] at hcB hcX
  generalize hbuf1 : wr buf (z + (tok.length + 2)) 0 = buf1 at hstart hcB hcX
  -- the first child
  obtain ⟨buf2, hcB2, hq2, hloop1⟩ := leaf_child_step d z (tok.length + 2)
    (z + (tok.length + 2) + 1) B0 lastB p buf1 0 0
    (0 + tail.length + 1 + (10 :: T2).length) [] T1
    (10 :: (T2 ++ 10 :: ((B0 ++ [lastB]) ++ tail))) c1 (b1 ++ [10]) hcB hBlen hB0 hBok
    (by omega) rfl (by simpa using hcX)
    (fun m hm => by
      have := no_boundary_append (B0 ++ [lastB]) T1
        ((B0 ++ [lastB]) ++ 10 :: (T2 ++ 10 :: ((B0 ++ [lastB]) ++ tail))) hn1 hB10 (m + 1)
        (by omega)
      simpa using this)
    (by rw [hT1]; simp) hc1 hl1
  rw [if_neg (by simp)] at hloop1
  -- the second child, which starts at the last byte of the boundary token
  obtain ⟨hjok, hjmp, hjbody⟩ := junk_line_ok lastB (hBok lastB (by simp)).1
    (hBok lastB (by simp)).2
  obtain ⟨buf3, hcB3, hq3, hloop2⟩ := leaf_child_step d z (tok.length + 2)
    (z + (tok.length + 2) + 1) B0 lastB _ buf2 (0 + T1.length + (tok.length + 2) + 1)
    (0 + T1.length + (tok.length + 2)) (0 + tail.length) [lastB] (10 :: T2) tail
    ([lastB] :: c2) (b2 ++ [10]) hcB2 hBlen hB0 hBok (by omega) (by simp)
    (by simpa using hq2)
    (fun m hm => by
      have := no_boundary_append (B0 ++ [lastB]) T2 ((B0 ++ [lastB]) ++ tail) hn2 hB10 m
        (by simpa using hm)
      simpa using this)
    (by rw [hT2]; simp [unlines])
    (fun l hl => by
      rcases List.mem_cons.1 hl with h | h
      · rw [h]; exact hjok
      · exact hc2 l h)
    (fun l hl => by
      rcases List.mem_cons.1 hl with h | h
      · rw [h]; exact hjmp
      · exact hl2 l h)
  -- what follows the last boundary line
  have htail := mp_loop_tail (fun q b y => emailtoc_add_multipart_segment (d + 1) q b y false)
    z (tok.length + 2) (z + (tok.length + 2) + 1) (B0 ++ [lastB])
    ⟨p.azHdr, (p.aBody ++ [{ body_of_lines false (c1.map (fun l => l ++ [10]))
        EmailBody.zero with
      zContent := some (z + (tok.length + 2) + 1 + 0 + ((unlines c1).length +
        email_line_length (10 :: (b1 ++ [10])))) }]) ++
      [{ body_of_lines false (([lastB] :: c2).map (fun l => l ++ [10])) EmailBody.zero with
        zContent := some (z + (tok.length + 2) + 1 + (0 + T1.length + (tok.length + 2)) +
          ((unlines ([lastB] :: c2)).length + email_line_length (10 :: (b2 ++ [10])))) }]⟩
    buf3 (0 + T1.length + (tok.length + 2) + 1 + (10 :: T2).length + (tok.length + 2) + 1)
    (0 + T1.length + (tok.length + 2) + 1 + (10 :: T2).length + (tok.length + 2)) 0 tail
    hcB3 hBlen (fun c hc => (hBok c hc).1)
    (by
      have e : z + (tok.length + 2) + 1 +
          (0 + T1.length + (tok.length + 2) + 1 + (10 :: T2).length + (tok.length + 2) + 1)
          = z + (tok.length + 2) + 1 +
            (0 + T1.length + (tok.length + 2) + 1 + (10 :: T2).length + (tok.length + 2)) + 1 := by
        omega
      rw [e, cstr_add buf3 _ 1 (by rw [hq3]; simp), hq3]
      rfl)
    hnt
  have hloop2' : multipart_loop (fun q b y => emailtoc_add_multipart_segment (d + 1) q b y false)
      z (tok.length + 2) (z + (tok.length + 2) + 1) (0 + tail.length + 1 + (10 :: T2).length)
      ⟨p.azHdr, p.aBody ++ [{ body_of_lines false (c1.map (fun l => l ++ [10]))
          EmailBody.zero with
        zContent := some (z + (tok.length + 2) + 1 + 0 + ((unlines c1).length +
          email_line_length (10 :: (b1 ++ [10])))) }]⟩
      buf2 (0 + T1.length + (tok.length + 2) + 1) (0 + T1.length + (tok.length + 2))
      = some (⟨p.azHdr, (p.aBody ++ [{ body_of_lines false (c1.map (fun l => l ++ [10]))
            EmailBody.zero with
          zContent := some (z + (tok.length + 2) + 1 + 0 + ((unlines c1).length +
            email_line_length (10 :: (b1 ++ [10])))) }]) ++
          [{ body_of_lines false (([lastB] :: c2).map (fun l => l ++ [10])) EmailBody.zero with
            zContent := some (z + (tok.length + 2) + 1 + (0 + T1.length + (tok.length + 2)) +
              ((unlines ([lastB] :: c2)).length +
                email_line_length (10 :: (b2 ++ [10])))) }]⟩, buf3) := by
    rw [hloop2]
    split
    · rfl
    · exact htail
  rw [hloop2'] at hloop1
  -- enough fuel
  have hfuel : 0 + tail.length + 1 + (10 :: T2).length + 1 + T1.length ≤ buf1.length := by
    have h1 := cstr_length_le buf z
    rw [hM] at h1
    rw [← hbuf1, wr_length]
    simp only [List.length_append, List.length_cons, List.length_nil] at h1 ⊢
    omega
  have hfinal := mp_loop_fuel_le _ z (tok.length + 2) (z + (tok.length + 2) + 1) _ _ hfuel
    p buf1 0 0 _ hloop1
  refine ⟨buf3, z + (tok.length + 2) + 1 + 0 + ((unlines c1).length +
      email_line_length (10 :: (b1 ++ [10]))),
    z + (tok.length + 2) + 1 + (0 + T1.length + (tok.length + 2)) +
      ((unlines ([lastB] :: c2)).length + email_line_length (10 :: (b2 ++ [10]))), ?_, ?_, ?_⟩
  · have hjbody2 : ∀ b x, body_line b (rtrim [lastB, 10]) x = x := fun b x => hjbody b x
    unfold emailtoc_add_multipart
    rw [hstart, hfinal]
    simp only [List.map_cons, body_of_lines, hjbody2, List.append_assoc, List.singleton_append,
      List.cons_append, List.nil_append]
  · omega
  · rw [unlines_length_cons]
    simp only [List.length_cons, List.length_nil]
    omega
/-! ## Multipart messages -/

/-- The decoder on a message whose header block has a `Content-Type: multipart/`
line: the header lines are recorded and the body goes to the splitter. -/
theorem multipart_top (hs : List (List Nat)) (M : List Nat)
    (hhs : ∀ l ∈ hs, header_line_ok l)
    (hmp : ∃ l ∈ hs, is_multipart_line (rtrim (l ++ [10])) = true)
    (hM : ∀ c ∈ M, c ≠ 0) (h32 : M.headD 0 ≠ 32) (h9 : M.headD 0 ≠ 9) :
    ∃ buf1, emailtoc_from_email (unlines hs ++ 10 :: M) =
        emailtoc_add_multipart (unlines hs ++ 10 :: M).length
          ⟨line_offsets 0 (hs.map (fun l => l ++ [10])), []⟩ buf1 ((unlines hs).length + 1) ∧
      cstr buf1 ((unlines hs).length + 1) = M := by
  obtain ⟨buf1, hfr, hle, hres⟩ := seg_unfold (unlines hs ++ 10 :: M).length [] []
    (unlines hs ++ 10 :: M ++ [0]) 0 true
  have hs0 : cstr (unlines hs ++ 10 :: M ++ [0]) 0 = unlines hs ++ 10 :: M := by
    rw [cstr_message hs M hhs, takeWhile_nul_free_eq M hM]
  obtain ⟨bl, rest, hll, hbl, hbl2⟩ := logical_lines_message hs M hhs
  obtain ⟨hhb, hbs⟩ := header_block_lines hs bl rest hhs hbl
  have hell : email_line_length (10 :: M) = 1 := by
    rw [ell_cons, if_pos ⟨rfl, h32, h9⟩]
  have hbll : bl.length = 1 := by
    rw [hbl2, List.length_take, hell]
    simp
  have hany : (hs.map (fun l => l ++ [10])).any (fun l => is_multipart_line (rtrim l)) = true := by
    obtain ⟨l, hl, hlm⟩ := hmp
    rw [List.any_eq_true]
    exact ⟨l ++ [10], List.mem_map.2 ⟨l, hl, rfl⟩, hlm⟩
  simp only [hs0, hll, hhb, hbs, hbll, hany, if_true, List.nil_append, Nat.zero_add]
    at hres hfr hle
  refine ⟨buf1, hres, ?_⟩
  rw [frame_cstr hfr _ (Nat.le_refl _)]
  have hadd := cstr_add (unlines hs ++ 10 :: M ++ [0]) 0 ((unlines hs).length + 1)
    (by rw [hs0]; simp only [List.length_append, List.length_cons]; omega)
  rw [Nat.zero_add] at hadd
  rw [hadd, hs0]
  have e : unlines hs ++ 10 :: M = (unlines hs ++ [10]) ++ M := by simp
  have e2 : (unlines hs).length + 1 = (unlines hs ++ [10]).length := by simp
  rw [e, e2, drop_append_left]

theorem nf_append {A Bs : List Nat} (hA : ∀ c ∈ A, c ≠ 0) (hB : ∀ c ∈ Bs, c ≠ 0) :
    ∀ c ∈ A ++ Bs, c ≠ 0 := by
  intro c hc
  rcases List.mem_append.1 hc with h | h
  · exact hA c h
  · exact hB c h

theorem nf_cons {a : Nat} {Bs : List Nat} (ha : a ≠ 0) (hB : ∀ c ∈ Bs, c ≠ 0) :
    ∀ c ∈ a :: Bs, c ≠ 0 := by
  intro c hc
  rcases List.mem_cons.1 hc with h | h
  · rw [h]; exact ha
  · exact hB c h

theorem unlines_head (c1 : List (List Nat)) (X : List Nat) (hne : c1 ≠ [])
    (hok : ∀ l ∈ c1, header_line_ok l)
    (hfirst : ∀ l, c1.head? = some l → fossil_isspace (l.headD 0) = false) :
    fossil_isspace ((unlines c1 ++ X).headD 0) = false := by
  cases c1 with
  | nil => exact absurd rfl hne
  | cons l ls =>
    have h1 := hfirst l rfl
    have h2 := (hok l (List.mem_cons_self _ _)).1
    cases l with
    | nil => exact absurd rfl h2
    | cons a t => simpa [unlines] using h1

theorem xyz_line_multipart :
    is_multipart_line (rtrim (bytes "Content-Type: multipart/mixed; boundary=XYZ" ++ [10]))
      = true := by decide!

theorem xyz_token : bytes "--XYZ" = 45 :: 45 :: [88, 89, 90] := by decide!

theorem two_part_example :
    (emailtoc_from_email (bytes ("Content-Type: multipart/mixed; boundary=XYZ\n\n--XYZ\n" ++
      "Content-Type: text/plain\nContent-Transfer-Encoding: base64\n\naGVsbG8=\n--XYZ\n" ++
      "Content-Type: text/html\nContent-Transfer-Encoding: quoted-printable\n\n<b>\n" ++
      "--XYZ--\n"))).map
      (fun r => (r.1.azHdr.length, r.1.aBody.map (fun x => (x.zMimetype, x.encoding))))
      = some (1, [(bytes "text/plain", EMAILENC_B64), (bytes "text/html", EMAILENC_QUOTED)]) := by
  decide!

/-! ## The body entry against what the header lines say -/

theorem take_scanLen (f : Nat → Bool) (l : List Nat) :
    l.take (scanLen f l) = l.takeWhile f := by
  induction l with
  | nil => rfl
  | cons c t ih =>
    by_cases h : f c = true
    · simp only [scanLen, h, if_true, List.take_succ_cons, List.takeWhile_cons, ih]
    · simp only [scanLen, h, Bool.false_eq_true, if_false, List.take_zero, List.takeWhile_cons]

theorem scanLen_eq_length (f : Nat → Bool) (l : List Nat) :
    scanLen f l = (l.takeWhile f).length := by
  induction l with
  | nil => rfl
  | cons c t ih =>
    by_cases h : f c = true
    · simp only [scanLen, h, if_true, List.takeWhile_cons, List.length_cons, ih]
    · simp only [scanLen, h, Bool.false_eq_true, if_false, List.takeWhile_cons,
        List.length_nil]

theorem last_decides_cons {α : Type} (p : List Nat → Bool) (f : List Nat → α) (dflt : α)
    (l : List Nat) (ls : List (List Nat)) :
    last_decides p f dflt (l :: ls) = last_decides p f (if p l then f l else dflt) ls := by
  unfold last_decides
  by_cases hp : p l = true
  · simp only [List.filter_cons, hp, if_true]
    cases hf : ls.filter p with
    | nil => simp
    | cons a t =>
      have hy : ∃ y, (a :: t).getLast? = some y := by
        cases h : (a :: t).getLast? with
        | none => simp at h
        | some y => exact ⟨y, rfl⟩
      obtain ⟨y, hy⟩ := hy
      simp only [List.getLast?_cons_cons, hy]
  · simp only [List.filter_cons, hp, Bool.false_eq_true, if_false]

/-- What one header line does to the encoding, when the line stores no mimetype
of 32 bytes or more. -/
theorem body_line_encoding (b : Bool) (line : List Nat) (x : EmailBody)
    (hshort : content_type_line line = true → (mimetype_token line).length < 32) :
    (body_line b line x).encoding =
      if transfer_encoding_line line then named_encoding line else x.encoding := by
  have hct : (body_content_type line x).encoding = x.encoding := by
    unfold body_content_type
    split
    · rename_i h
      have hlt := hshort (by simp [content_type_line, h.1])
      unfold mimetype_token at hlt
      rw [← scanLen_eq_length] at hlt
      unfold store_mimetype
      simp only []
      rw [if_neg (by omega)]
    · rfl
  have hdisp : ∀ y : EmailBody, (body_disposition b line y).encoding = y.encoding := by
    intro y
    unfold body_disposition
    split <;> rfl
  unfold body_line
  rw [hdisp]
  unfold body_encoding transfer_encoding_line named_encoding
  by_cases h1 : sqlite3_strnicmp line lit_content_transfer_encoding 26 = 0
  · simp only [h1, if_true, decide_True]
    split
    · rfl
    · split <;> rfl
  · simp only [h1, if_false, decide_False, Bool.false_eq_true]
    exact hct

/-- What one header line does to the mimetype, when the line stores no mimetype
of 32 bytes or more. -/
theorem body_line_mimetype (b : Bool) (line : List Nat) (x : EmailBody)
    (hshort : content_type_line line = true → (mimetype_token line).length < 32) :
    (body_line b line x).zMimetype =
      if (content_type_line line && !is_multipart_line line) = true then mimetype_token line
      else x.zMimetype := by
  have hdisp : ∀ y : EmailBody, (body_disposition b line y).zMimetype = y.zMimetype := by
    intro y
    unfold body_disposition
    split <;> rfl
  have henc : ∀ y : EmailBody, (body_encoding line y).zMimetype = y.zMimetype := by
    intro y
    unfold body_encoding
    split
    · split
      · rfl
      · split <;> rfl
    · rfl
  unfold body_line
  rw [hdisp, henc]
  unfold body_content_type
  by_cases h1 : sqlite3_strnicmp line lit_content_type 13 = 0
  · have hlt := hshort (by simp [content_type_line, h1])
    unfold mimetype_token at hlt ⊢
    rw [← scanLen_eq_length] at hlt
    by_cases h2 : strncmp (firstToken (line.drop 13)) lit_multipart 10 = 0
    · simp [h1, h2, content_type_line, is_multipart_line]
    · have hc : (content_type_line line && !is_multipart_line line) = true := by
        simp [h1, h2, content_type_line, is_multipart_line]
      rw [if_pos ⟨h1, h2⟩, if_pos hc]
      unfold store_mimetype
      simp only []
      rw [if_neg (by omega), take_scanLen]
  · have hc : ¬ (content_type_line line && !is_multipart_line line) = true := by
      simp [h1, content_type_line]
    rw [if_neg (fun h => h1 h.1), if_neg hc]

/-- The body entry that a header block gives, read off the block in the spec's
words: the last `Content-Transfer-Encoding:` line decides the encoding and the
last `Content-Type:` line that is not multipart decides the mimetype, as long as
no line stores a mimetype of 32 bytes or more. -/
theorem body_of_lines_spec (b : Bool) : ∀ (ls : List (List Nat)) (x : EmailBody),
    (∀ l ∈ ls, content_type_line (rtrim l) = true → (mimetype_token (rtrim l)).length < 32) →
    (body_of_lines b ls x).encoding =
        last_decides transfer_encoding_line named_encoding x.encoding (ls.map rtrim) ∧
      (body_of_lines b ls x).zMimetype =
        last_decides (fun l => content_type_line l && !is_multipart_line l) mimetype_token
          x.zMimetype (ls.map rtrim) := by
  intro ls
  induction ls with
  | nil => intro x _; exact ⟨rfl, rfl⟩
  | cons l ls ih =>
    intro x h
    have hl := h l (List.mem_cons_self _ _)
    obtain ⟨h1, h2⟩ := ih (body_line b (rtrim l) x)
      (fun m hm => h m (List.mem_cons_of_mem _ hm))
    simp only [body_of_lines, List.map_cons, last_decides_cons]
    rw [h1, h2, body_line_encoding b _ x hl, body_line_mimetype b _ x hl]
    exact ⟨rfl, rfl⟩

theorem map_rtrim_lines (c : List (List Nat)) :
    (c.map (fun l => l ++ [10])).map rtrim = c.map rtrim := by
  rw [List.map_map]
  apply List.map_congr_left
  intro l _
  exact rtrim_line l

/-- The body entry of a child part whose header lines are `c`. -/
theorem child_entry_spec (c : List (List Nat))
    (h : ∀ l ∈ c, content_type_line (rtrim l) = true → (mimetype_token (rtrim l)).length < 32) :
    (body_of_lines false (c.map (fun l => l ++ [10])) EmailBody.zero).encoding
        = spec_encoding (c.map rtrim) ∧
      (body_of_lines false (c.map (fun l => l ++ [10])) EmailBody.zero).zMimetype
        = spec_mimetype (c.map rtrim) := by
  have := body_of_lines_spec false (c.map (fun l => l ++ [10])) EmailBody.zero (by
    intro l hl
    obtain ⟨m, hm, rfl⟩ := List.mem_map.1 hl
    rw [rtrim_line]
    exact h m hm)
  rw [map_rtrim_lines] at this
  exact this

theorem two_part_long_mimetype :
    (emailtoc_from_email (bytes ("Content-Type: multipart/mixed; boundary=XYZ\n\n--XYZ\n" ++
      "Content-Transfer-Encoding: base64\n" ++
      "Content-Type: aaaaaaaaaaaaaaaaaaaaaaaaaaaaaaaa/b\n\naGVsbG8=\n--XYZ\n" ++
      "Content-Type: text/html\n\n<b>\n--XYZ--\n"))).map
      (fun r => r.1.aBody.map (fun x => (x.zMimetype.length, x.encoding)))
      = some [(32, EMAILENC_NONE), (9, EMAILENC_NONE)] ∧
    spec_encoding [bytes "Content-Transfer-Encoding: base64",
      bytes "Content-Type: aaaaaaaaaaaaaaaaaaaaaaaaaaaaaaaa/b"] = EMAILENC_B64 := by
  decide!

/-- C3: for every message whose header block has the line
`Content-Type: multipart/mixed; boundary=XYZ` and whose body is two child parts
(each a block of header lines without a multipart `Content-Type:` line, a blank
line and a body, with no line that begins with `--XYZ`; the first child begins
with a header line whose first byte is not whitespace), each introduced by a line
`--XYZ` and the last followed by the line `--XYZ--`, and in which no
`Content-Type:` line of a child names a mimetype of 32 bytes or more, `emailtoc_from_email` yields exactly two body segments, and the
mimetype and the encoding of each are the ones that the child's own header lines
give: the mimetype named by its last `Content-Type:` line and the encoding named
by its last `Content-Transfer-Encoding:` line (empty and None without such a
line); the header list has the lines of the outer header block only.  On the
message of the spec the two segments are `text/plain` with base64 and `text/html`
with quoted-printable. -/
theorem two_part_toc (hs c1 c2 : List (List Nat)) (b1 b2 : List Nat)
    (hhs : ∀ l ∈ hs, header_line_ok l)
    (hmp : bytes "Content-Type: multipart/mixed; boundary=XYZ" ∈ hs)
    (hc1 : ∀ l ∈ c1, header_line_ok l) (hc2 : ∀ l ∈ c2, header_line_ok l)
    (hne1 : c1 ≠ [])
    (hfirst : ∀ l, c1.head? = some l → fossil_isspace (l.headD 0) = false)
    (hl1 : ∀ l ∈ c1, is_multipart_line (rtrim (l ++ [10])) = false)
    (hl2 : ∀ l ∈ c2, is_multipart_line (rtrim (l ++ [10])) = false)
    (hs1 : ∀ l ∈ c1, content_type_line (rtrim l) = true →
      (mimetype_token (rtrim l)).length < 32)
    (hs2 : ∀ l ∈ c2, content_type_line (rtrim l) = true →
      (mimetype_token (rtrim l)).length < 32)
    (hb1 : ∀ c ∈ b1, c ≠ 0) (hb2 : ∀ c ∈ b2, c ≠ 0)
    (hn1 : no_boundary (bytes "--XYZ") (unlines c1 ++ 10 :: b1))
    (hn2 : no_boundary (bytes "--XYZ") (unlines c2 ++ 10 :: b2)) :
    (∃ toc buf1 x1 x2, emailtoc_from_email (unlines hs ++ 10 :: (bytes "--XYZ" ++
          10 :: ((unlines c1 ++ 10 :: b1) ++ 10 :: (bytes "--XYZ" ++
          10 :: ((unlines c2 ++ 10 :: b2) ++ 10 :: (bytes "--XYZ" ++ bytes "--\n"))))))
        = some (toc, buf1) ∧
      toc.aBody = [x1, x2] ∧
      x1.zMimetype = spec_mimetype (c1.map rtrim) ∧
      x1.encoding = spec_encoding (c1.map rtrim) ∧
      x2.zMimetype = spec_mimetype (c2.map rtrim) ∧
      x2.encoding = spec_encoding (c2.map rtrim) ∧
      toc.azHdr.length = hs.length) ∧
    (emailtoc_from_email (bytes ("Content-Type: multipart/mixed; boundary=XYZ\n\n--XYZ\n" ++
      "Content-Type: text/plain\nContent-Transfer-Encoding: base64\n\naGVsbG8=\n--XYZ\n" ++
      "Content-Type: text/html\nContent-Transfer-Encoding: quoted-printable\n\n<b>\n" ++
      "--XYZ--\n"))).map
      (fun r => (r.1.azHdr.length, r.1.aBody.map (fun x => (x.zMimetype, x.encoding))))
      = some (1, [(bytes "text/plain", EMAILENC_B64), (bytes "text/html", EMAILENC_QUOTED)]) := by
  refine ⟨?_, two_part_example⟩
  rw [xyz_token] at hn1 hn2 ⊢
  have htok : ∀ c ∈ [88, 89, 90], c ≠ 0 ∧ fossil_isspace c = false := by decide
  have hnf1 : ∀ c ∈ unlines c1 ++ 10 :: b1, c ≠ 0 :=
    nf_append (unlines_nul_free c1 (fun l hl c hc => ((hc1 l hl).2.2.1 c hc).1))
      (nf_cons (by decide) hb1)
  have hnf2 : ∀ c ∈ unlines c2 ++ 10 :: b2, c ≠ 0 :=
    nf_append (unlines_nul_free c2 (fun l hl c hc => ((hc2 l hl).2.2.1 c hc).1))
      (nf_cons (by decide) hb2)
  have hB : ∀ c ∈ (45 :: 45 :: [88, 89, 90] : List Nat), c ≠ 0 := by decide
  have hE : ∀ c ∈ bytes "--\n", c ≠ 0 := by decide
  have hMnf : ∀ c ∈ (45 :: 45 :: [88, 89, 90]) ++ 10 :: ((unlines c1 ++ 10 :: b1) ++
      10 :: ((45 :: 45 :: [88, 89, 90]) ++ 10 :: ((unlines c2 ++ 10 :: b2) ++
      10 :: ((45 :: 45 :: [88, 89, 90]) ++ bytes "--\n")))), c ≠ 0 :=
    nf_append hB (nf_cons (by decide) (nf_append hnf1 (nf_cons (by decide)
      (nf_append hB (nf_cons (by decide) (nf_append hnf2 (nf_cons (by decide)
        (nf_append hB hE))))))))
  obtain ⟨buf1, htop, hcM⟩ := multipart_top hs _ hhs
    ⟨_, hmp, xyz_line_multipart⟩ hMnf (by simp) (by simp)
  obtain ⟨d, hd⟩ : ∃ d, (unlines hs ++ 10 :: ((45 :: 45 :: [88, 89, 90]) ++
      10 :: ((unlines c1 ++ 10 :: b1) ++
      10 :: ((45 :: 45 :: [88, 89, 90]) ++ 10 :: ((unlines c2 ++ 10 :: b2) ++
      10 :: ((45 :: 45 :: [88, 89, 90]) ++ bytes "--\n")))))).length = d + 1 :=
    ⟨_, by simp only [List.length_append, List.length_cons]; rfl⟩
  rw [hd] at htop
  obtain ⟨buf2, o1, o2, hmpr, _, _⟩ := mp_two_leaves d
    ⟨line_offsets 0 (hs.map (fun l => l ++ [10])), []⟩ buf1 ((unlines hs).length + 1)
    [88, 89, 90] c1 c2 b1 b2 (bytes "--\n") _ _ htok rfl rfl hcM hc1 hc2
    (unlines_head c1 _ hne1 hc1 hfirst) hl1 hl2 hn1 hn2 (by decide)
  rw [hmpr] at htop
  exact ⟨_, buf2, _, _, htop, rfl, (child_entry_spec c1 hs1).2, (child_entry_spec c1 hs1).1,
    (child_entry_spec c2 hs2).2, (child_entry_spec c2 hs2).1, by simp [line_offsets_length]⟩

/-- Witness for C3: the children of the spec's message, `text/plain` in base64 and
`text/html` in quoted-printable. -/
theorem two_part_toc_witness :
    ∃ toc buf1 x1 x2, emailtoc_from_email
        (unlines [bytes "Content-Type: multipart/mixed; boundary=XYZ"] ++ 10 :: (bytes "--XYZ" ++
          10 :: ((unlines [bytes "Content-Type: text/plain",
              bytes "Content-Transfer-Encoding: base64"] ++ 10 :: bytes "aGVsbG8=") ++
          10 :: (bytes "--XYZ" ++
          10 :: ((unlines [bytes "Content-Type: text/html",
              bytes "Content-Transfer-Encoding: quoted-printable"] ++ 10 :: bytes "<b>") ++
          10 :: (bytes "--XYZ" ++ bytes "--\n"))))))
        = some (toc, buf1) ∧
      toc.aBody = [x1, x2] ∧
      x1.zMimetype = spec_mimetype ([bytes "Content-Type: text/plain",
        bytes "Content-Transfer-Encoding: base64"].map rtrim) ∧
      x1.encoding = spec_encoding ([bytes "Content-Type: text/plain",
        bytes "Content-Transfer-Encoding: base64"].map rtrim) ∧
      x2.zMimetype = spec_mimetype ([bytes "Content-Type: text/html",
        bytes "Content-Transfer-Encoding: quoted-printable"].map rtrim) ∧
      x2.encoding = spec_encoding ([bytes "Content-Type: text/html",
        bytes "Content-Transfer-Encoding: quoted-printable"].map rtrim) ∧
      toc.azHdr.length = [bytes "Content-Type: multipart/mixed; boundary=XYZ"].length :=
  (two_part_toc [bytes "Content-Type: multipart/mixed; boundary=XYZ"]
    [bytes "Content-Type: text/plain", bytes "Content-Transfer-Encoding: base64"]
    [bytes "Content-Type: text/html", bytes "Content-Transfer-Encoding: quoted-printable"]
    (bytes "aGVsbG8=") (bytes "<b>")
    (by decide!) (by decide!) (by decide!) (by decide!) (by decide!) (by decide!)
    (by decide!) (by decide!) (by decide!) (by decide!) (by decide!) (by decide!) (by decide!)
    (by decide!)).1

/-! ## A multipart part inside a multipart message -/

/-- The segment decoder on a part that is a block of header lines, one of them
a `Content-Type: multipart/` line, a blank line and a body: the body goes to the
splitter. -/
theorem container_part_eq (d : Nat) (h : List Nat) (xs : List EmailBody) (buf : List Nat)
    (z : Nat) (cc : List (List Nat)) (M : List Nat)
    (hC : cstr buf z = unlines cc ++ 10 :: M) (hok : ∀ l ∈ cc, header_line_ok l)
    (hmp : ∃ l ∈ cc, is_multipart_line (rtrim (l ++ [10])) = true)
    (h32 : M.headD 0 ≠ 32) (h9 : M.headD 0 ≠ 9) :
    ∃ buf1, emailtoc_add_multipart_segment (d + 1) ⟨h, xs⟩ buf z false =
        emailtoc_add_multipart d ⟨h, xs⟩ buf1 (z + ((unlines cc).length + 1)) ∧
      cstr buf1 (z + ((unlines cc).length + 1)) = M := by
  obtain ⟨buf1, hfr, hle, hres⟩ := seg_unfold d h xs buf z false
  obtain ⟨bl, rest, hll, hbl, hbl2⟩ := logical_lines_message cc M hok
  obtain ⟨hhb, hbs⟩ := header_block_lines cc bl rest hok hbl
  have hell : email_line_length (10 :: M) = 1 := by
    rw [ell_cons, if_pos ⟨rfl, h32, h9⟩]
  have hbll : bl.length = 1 := by
    rw [hbl2, List.length_take, hell]
    simp
  have hany : (cc.map (fun l => l ++ [10])).any (fun l => is_multipart_line (rtrim l)) = true := by
    obtain ⟨l, hl, hlm⟩ := hmp
    rw [List.any_eq_true]
    exact ⟨l ++ [10], List.mem_map.2 ⟨l, hl, rfl⟩, hlm⟩
  simp only [hC, hll, hhb, hbs, hbll, hany, if_true, Bool.false_eq_true, if_false,
    List.append_nil] at hres hfr hle
  refine ⟨buf1, hres, ?_⟩
  rw [frame_cstr hfr _ (Nat.le_refl _)]
  rw [cstr_add buf z ((unlines cc).length + 1)
    (by rw [hC]; simp only [List.length_append, List.length_cons]; omega), hC]
  have e : unlines cc ++ 10 :: M = (unlines cc ++ [10]) ++ M := by simp
  have e2 : (unlines cc).length + 1 = (unlines cc ++ [10]).length := by simp
  rw [e, e2, drop_append_left]

/-- The splitter on a body with one child: whatever `seg` makes of the child is
the result. -/
theorem mp_one_child (seg : EmailToc → Buf → Nat → Option (EmailToc × Buf))
    (p p2 : EmailToc) (buf buf2 : List Nat) (z : Nat) (tok U tail : List Nat)
    (htok : ∀ c ∈ tok, c ≠ 0 ∧ fossil_isspace c = false)
    (hM : cstr buf z = (45 :: 45 :: tok) ++ 10 :: (U ++ 10 :: ((45 :: 45 :: tok) ++ tail)))
    (hfirst : fossil_isspace (U.headD 0) = false) (hUne : U ≠ [])
    (hn : no_boundary (45 :: 45 :: tok) U)
    (hnt : ∀ m, m < tail.length → startsWith (10 :: 45 :: 45 :: tok) (tail.drop m) = false)
    (hseg : seg p (wr (wr buf (z + (tok.length + 2)) 0)
        (z + (tok.length + 2) + 1 + 0 + U.length + 1) 0) (z + (tok.length + 2) + 1 + 0)
      = some (p2, buf2))
    (hfr : frame (z + (tok.length + 2) + 1 + 0) (z + (tok.length + 2) + 1 + 0 + U.length + 1)
      (wr (wr buf (z + (tok.length + 2)) 0) (z + (tok.length + 2) + 1 + 0 + U.length + 1) 0)
      buf2) :
    emailtoc_add_multipart_with seg p buf z = some (p2, buf2) := by
  obtain ⟨B0, lastB, hBeq, hB0, hBok, hB10, hBlen⟩ := concat_of_dashes tok htok
  have hXhead : fossil_isspace ((U ++ 10 :: ((45 :: 45 :: tok) ++ tail)).headD 0) = false := by
    cases U with
    | nil => exact absurd rfl hUne
    | cons a t => simpa using hfirst
  obtain ⟨hstart, hcB, hcX⟩ := mp_start seg p buf z tok _ htok hM hXhead
  rw [hBeq] at hcB hcX hn hnt
  obtain ⟨hcB2, hq2, hloop⟩ := mp_child_step seg z (tok.length + 2)
    (z + (tok.length + 2) + 1) B0 lastB p p2 (wr buf (z + (tok.length + 2)) 0) buf2 0 0
    (0 + tail.length) U tail hcB hBlen hB0 hBok (by omega) (Nat.le_refl _)
    (by simpa using hcX)
    (fun m hm => by
      have := no_boundary_append (B0 ++ [lastB]) U ((B0 ++ [lastB]) ++ tail) hn hB10 (m + 1)
        (by omega)
      simpa using this)
    hseg hfr
  have htail := mp_loop_tail seg z (tok.length + 2) (z + (tok.length + 2) + 1)
    (B0 ++ [lastB]) p2 buf2 (0 + U.length + (tok.length + 2) + 1)
    (0 + U.length + (tok.length + 2)) 0 tail hcB2 hBlen (fun c hc => (hBok c hc).1)
    (by
      have e : z + (tok.length + 2) + 1 + (0 + U.length + (tok.length + 2) + 1)
          = z + (tok.length + 2) + 1 + (0 + U.length + (tok.length + 2)) + 1 := by omega
      rw [e, cstr_add buf2 _ 1 (by rw [hq2]; simp), hq2]
      rfl)
    hnt
  have hloop' : multipart_loop seg z (tok.length + 2) (z + (tok.length + 2) + 1)
      (0 + tail.length + 1 + U.length) p (wr buf (z + (tok.length + 2)) 0) 0 0
      = some (p2, buf2) := by
    rw [hloop]
    split
    · rfl
    · exact htail
  have hfuel : 0 + tail.length + 1 + U.length ≤ (wr buf (z + (tok.length + 2)) 0).length := by
    have h1 := cstr_length_le buf z
    rw [hM] at h1
    rw [wr_length]
    simp only [List.length_append, List.length_cons, List.length_nil] at h1 ⊢
    omega
  rw [hstart]
  exact mp_loop_fuel_le seg z (tok.length + 2) (z + (tok.length + 2) + 1) _ _ hfuel
    p _ 0 0 _ hloop'

/-- The string of the child once the splitter has delimited it. -/
theorem one_child_text (buf : List Nat) (z : Nat) (tok U tail : List Nat)
    (htok : ∀ c ∈ tok, c ≠ 0 ∧ fossil_isspace c = false)
    (hM : cstr buf z = (45 :: 45 :: tok) ++ 10 :: (U ++ 10 :: ((45 :: 45 :: tok) ++ tail)))
    (hfirst : fossil_isspace (U.headD 0) = false) (hUne : U ≠ []) :
    cstr (wr (wr buf (z + (tok.length + 2)) 0)
        (z + (tok.length + 2) + 1 + 0 + U.length + 1) 0) (z + (tok.length + 2) + 1 + 0)
      = U ++ [10] := by
  have hXhead : fossil_isspace ((U ++ 10 :: ((45 :: 45 :: tok) ++ tail)).headD 0) = false := by
    cases U with
    | nil => exact absurd rfl hUne
    | cons a t => simpa using hfirst
  obtain ⟨_, _, hcX⟩ := mp_start (fun _ _ _ => none) emailtoc_alloc buf z tok _ htok hM hXhead
  have e : z + (tok.length + 2) + 1 + 0 + U.length + 1
      = z + (tok.length + 2) + 1 + 0 + (U.length + 1) := by omega
  rw [e, cstr_wr_zero _ _ _ (by
    rw [Nat.add_zero, hcX]; simp only [List.length_append, List.length_cons]; omega)]
  rw [Nat.add_zero, hcX]
  have e2 : U ++ 10 :: ((45 :: 45 :: tok) ++ tail) = (U ++ [10]) ++ ((45 :: 45 :: tok) ++ tail) := by
    simp
  have e3 : U.length + 1 = (U ++ [10]).length := by simp
  rw [e2, e3, take_append_left]

/-! ### Lines that begin with a known multipart `Content-Type` -/

theorem strnicmp_append : ∀ (n : Nat) (a w b : List Nat), n ≤ a.length →
    sqlite3_strnicmp (a ++ w) b n = sqlite3_strnicmp a b n := by
  intro n
  induction n with
  | zero => intro a w b _; simp [sqlite3_strnicmp]
  | succ n ih =>
    intro a w b h
    cases a with
    | nil => simp at h
    | cons x a =>
      simp only [List.cons_append, sqlite3_strnicmp, List.append_eq]
      rw [ih a w b.tail (by simpa using h)]

theorem strncmp_append : ∀ (n : Nat) (a w b : List Nat), n ≤ a.length →
    strncmp (a ++ w) b n = strncmp a b n := by
  intro n
  induction n with
  | zero => intro a w b _; simp [strncmp]
  | succ n ih =>
    intro a w b h
    cases a with
    | nil => simp at h
    | cons x a =>
      simp only [List.cons_append, strncmp, List.headD_cons, List.tail_cons, List.append_eq]
      rw [ih a w b.tail (by simpa using h)]

theorem firstToken_append : ∀ (a w : List Nat), firstToken a ≠ [] →
    firstToken (a ++ w) = firstToken a ++ w := by
  intro a
  induction a with
  | nil => intro w h; exact absurd rfl h
  | cons c t ih =>
    intro w h
    unfold firstToken at h ih ⊢
    by_cases hc : fossil_isspace c = true
    · simp only [List.cons_append, List.dropWhile_cons, hc, if_true] at h ⊢
      exact ih w h
    · simp only [List.cons_append, List.dropWhile_cons, hc, Bool.false_eq_true, if_false]

theorem dropWhile_append_keep (p : Nat → Bool) (Q : List Nat) (hQ : Q.dropWhile p = Q) :
    ∀ W : List Nat, (W ++ Q).dropWhile p = W.dropWhile p ++ Q := by
  intro W
  induction W with
  | nil => simpa using hQ
  | cons c W ih =>
    by_cases hc : p c = true
    · simp only [List.cons_append, List.dropWhile_cons, hc, if_true]
      exact ih
    · simp only [List.cons_append, List.dropWhile_cons, hc, Bool.false_eq_true, if_false]

theorem rtrim_append_keep (P w : List Nat) (hP : rtrim P = P) :
    rtrim (P ++ w) = P ++ rtrim w := by
  unfold rtrim at hP ⊢
  have hQ : P.reverse.dropWhile fossil_isspace = P.reverse := by
    have := congrArg List.reverse hP
    simpa using this
  rw [List.reverse_append, dropWhile_append_keep _ _ hQ, List.reverse_append,
    List.reverse_reverse]

/-- A header line that begins with the bytes of a multipart `Content-Type` line
is one, whatever follows (the boundary parameter is not looked at). -/
theorem multipart_line_append (P v : List Nat) (hP : is_multipart_line P = true)
    (htrim : rtrim P = P) (h13 : 13 ≤ P.length)
    (h10 : 10 ≤ (firstToken (P.drop 13)).length) :
    is_multipart_line (rtrim ((P ++ v) ++ [10])) = true := by
  rw [List.append_assoc, rtrim_append_keep P _ htrim]
  unfold is_multipart_line at hP ⊢
  rw [strnicmp_append 13 P _ _ h13, List.drop_append_of_le_length h13,
    firstToken_append _ _ (by intro h; rw [h] at h10; simp at h10),
    strncmp_append 10 _ _ _ h10]
  exact hP

theorem mixed_line (v : List Nat) :
    is_multipart_line (rtrim ((bytes "Content-Type: multipart/mixed" ++ v) ++ [10])) = true :=
  multipart_line_append _ v (by decide!) (by decide!) (by decide!) (by decide!)

theorem alternative_line (v : List Nat) :
    is_multipart_line (rtrim ((bytes "Content-Type: multipart/alternative" ++ v) ++ [10]))
      = true :=
  multipart_line_append _ v (by decide!) (by decide!) (by decide!) (by decide!)

/-! ### Boundary lines in a text put together from pieces -/

theorem startsWith_split : ∀ (A C X : List Nat), startsWith A (C ++ X) = true →
    startsWith A C = true ∨ startsWith C A = true := by
  intro A
  induction A with
  | nil => intro C X _; left; simp [startsWith]
  | cons a A ih =>
    intro C X h
    cases C with
    | nil => right; simp [startsWith]
    | cons c C =>
      simp only [List.cons_append, startsWith, Bool.and_eq_true, beq_iff_eq] at h ⊢
      rcases ih C X h.2 with h1 | h1
      · left; exact ⟨h.1, h1⟩
      · right; exact ⟨h.1.symm, h1⟩

theorem no_boundary_join (B X Y : List Nat) (hX : no_boundary B X) (hY : no_boundary B Y)
    (hB10 : ∀ c ∈ B, c ≠ 10) : no_boundary B (X ++ 10 :: Y) := by
  intro m hm
  by_cases h : m < X.length + 1
  · have := no_boundary_append B X Y hX hB10 m h
    simpa using this
  · have e : (10 :: (X ++ 10 :: Y)).drop m = (10 :: Y).drop (m - (X.length + 1)) := by
      have e1 : 10 :: (X ++ 10 :: Y) = (10 :: X) ++ 10 :: Y := by simp
      rw [e1, List.drop_append_eq_append_drop]
      have e2 : (10 :: X).drop m = [] := List.drop_eq_nil_of_le (by simp; omega)
      rw [e2]
      simp
    rw [e]
    apply hY
    simp only [List.length_append, List.length_cons] at hm
    omega

/-- A piece without a newline that does not begin with the token has no boundary
line. -/
theorem no_boundary_piece (B L : List Nat) (hL : ∀ c ∈ L, c ≠ 10)
    (hBL : startsWith B L = false) : no_boundary B L := by
  intro m hm
  cases m with
  | zero => simpa [startsWith] using hBL
  | succ m =>
    simp only [List.drop_succ_cons]
    cases hd : L.drop m with
    | nil => simp [startsWith]
    | cons a t =>
      have ha : a ∈ L := List.mem_of_mem_drop (by rw [hd]; exact List.mem_cons_self _ _)
      have := hL a ha
      simp only [startsWith, Bool.and_eq_false_imp, beq_iff_eq]
      intro h
      exact absurd h.symm this

theorem token_no_newline (tok : List Nat) (htok : ∀ c ∈ tok, c ≠ 0 ∧ fossil_isspace c = false) :
    ∀ c ∈ 45 :: 45 :: tok, c ≠ 10 := by
  intro c hc
  simp only [List.mem_cons] at hc
  rcases hc with h | h | h
  · rw [h]; decide
  · rw [h]; decide
  · intro h10
    have := (htok c h).2
    rw [h10] at this
    exact absurd this (by decide)

theorem token_nul_free (tok : List Nat) (htok : ∀ c ∈ tok, c ≠ 0 ∧ fossil_isspace c = false) :
    ∀ c ∈ 45 :: 45 :: tok, c ≠ 0 :=
  nf_cons (by decide) (nf_cons (by decide) (fun c hc => (htok c hc).1))

/-- The terminator line of a boundary: after `--tok` the bytes `--` and a
newline hold no further boundary line. -/
theorem terminator_tail (tok : List Nat) :
    ∀ m, m < ([45, 45, 10] : List Nat).length →
      startsWith (10 :: 45 :: 45 :: tok) (([45, 45, 10] : List Nat).drop m) = false := by
  intro m hm
  simp only [List.length_cons, List.length_nil] at hm
  have : m = 0 ∨ m = 1 ∨ m = 2 := by omega
  rcases this with h | h | h <;> subst h <;> simp [startsWith]

/-- The nested message, with its pieces named. -/
theorem nested_aux (hs cc c1 c2 : List (List Nat)) (tout tin b1 b2 vo vi T1 T2 Mi Tc : List Nat)
    (hT1 : T1 = unlines c1 ++ 10 :: b1) (hT2 : T2 = unlines c2 ++ 10 :: b2)
    (hMi : Mi = (45 :: 45 :: tin) ++ 10 :: (T1 ++ 10 :: ((45 :: 45 :: tin) ++
      10 :: (T2 ++ 10 :: ((45 :: 45 :: tin) ++ [45, 45])))))
    (hTc : Tc = unlines cc ++ 10 :: Mi)
    (hhs : ∀ l ∈ hs, header_line_ok l)
    (hmo : bytes "Content-Type: multipart/mixed" ++ vo ∈ hs)
    (hcc : ∀ l ∈ cc, header_line_ok l)
    (hmi : bytes "Content-Type: multipart/alternative" ++ vi ∈ cc)
    (hccfirst : ∀ l, cc.head? = some l → fossil_isspace (l.headD 0) = false)
    (hto : ∀ c ∈ tout, c ≠ 0 ∧ fossil_isspace c = false)
    (hti : ∀ c ∈ tin, c ≠ 0 ∧ fossil_isspace c = false)
    (hp1 : startsWith tout tin = false) (hp2 : startsWith tin tout = false)
    (hc1 : ∀ l ∈ c1, header_line_ok l) (hc2 : ∀ l ∈ c2, header_line_ok l)
    (hne1 : c1 ≠ [])
    (hfirst : ∀ l, c1.head? = some l → fossil_isspace (l.headD 0) = false)
    (hl1 : ∀ l ∈ c1, is_multipart_line (rtrim (l ++ [10])) = false)
    (hl2 : ∀ l ∈ c2, is_multipart_line (rtrim (l ++ [10])) = false)
    (hb1 : ∀ c ∈ b1, c ≠ 0) (hb2 : ∀ c ∈ b2, c ≠ 0)
    (hnc : no_boundary (45 :: 45 :: tout) (unlines cc))
    (hn1o : no_boundary (45 :: 45 :: tout) T1) (hn1i : no_boundary (45 :: 45 :: tin) T1)
    (hn2o : no_boundary (45 :: 45 :: tout) T2) (hn2i : no_boundary (45 :: 45 :: tin) T2) :
    ∃ toc buf1 o1 o2, emailtoc_from_email (unlines hs ++ 10 :: ((45 :: 45 :: tout) ++
        10 :: (Tc ++ 10 :: ((45 :: 45 :: tout) ++ [45, 45, 10])))) = some (toc, buf1) ∧
      toc.aBody = [{ body_of_lines false (c1.map (fun l => l ++ [10])) EmailBody.zero with
          zContent := some o1 },
        { body_of_lines false (c2.map (fun l => l ++ [10])) EmailBody.zero with
          zContent := some o2 }] ∧
      o1 < o2 ∧ ∀ y ∈ toc.aBody, leaf_mimetype y = true := by
  have hBo10 := token_no_newline tout hto
  have hBi10 := token_no_newline tin hti
  have hBo0 := token_nul_free tout hto
  have hBi0 := token_nul_free tin hti
  -- the texts have no NUL
  have hnf1 : ∀ c ∈ T1, c ≠ 0 := by
    rw [hT1]
    exact nf_append (unlines_nul_free c1 (fun l hl c hc => ((hc1 l hl).2.2.1 c hc).1))
      (nf_cons (by decide) hb1)
  have hnf2 : ∀ c ∈ T2, c ≠ 0 := by
    rw [hT2]
    exact nf_append (unlines_nul_free c2 (fun l hl c hc => ((hc2 l hl).2.2.1 c hc).1))
      (nf_cons (by decide) hb2)
  have hnfMi : ∀ c ∈ Mi, c ≠ 0 := by
    rw [hMi]
    exact nf_append hBi0 (nf_cons (by decide) (nf_append hnf1 (nf_cons (by decide)
      (nf_append hBi0 (nf_cons (by decide) (nf_append hnf2 (nf_cons (by decide)
        (nf_append hBi0 (by decide)))))))))
  have hnfTc : ∀ c ∈ Tc, c ≠ 0 := by
    rw [hTc]
    exact nf_append (unlines_nul_free cc (fun l hl c hc => ((hcc l hl).2.2.1 c hc).1))
      (nf_cons (by decide) hnfMi)
  have hnfMo : ∀ c ∈ (45 :: 45 :: tout) ++ 10 :: (Tc ++ 10 :: ((45 :: 45 :: tout) ++ [45, 45, 10])),
      c ≠ 0 :=
    nf_append hBo0 (nf_cons (by decide) (nf_append hnfTc (nf_cons (by decide)
      (nf_append hBo0 (by decide)))))
  -- no line of the container begins with the outer token
  have hoi : startsWith (45 :: 45 :: tout) (45 :: 45 :: tin) = false := by
    simpa [startsWith] using hp1
  have hoi2 : startsWith (45 :: 45 :: tout) ((45 :: 45 :: tin) ++ [45, 45]) = false := by
    cases h : startsWith (45 :: 45 :: tout) ((45 :: 45 :: tin) ++ [45, 45]) with
    | false => rfl
    | true =>
      exfalso
      rcases startsWith_split _ _ _ h with h1 | h1
      · rw [hoi] at h1; exact absurd h1 (by decide)
      · have : startsWith tin tout = true := by simpa [startsWith] using h1
        rw [hp2] at this; exact absurd this (by decide)
  have hpiece : no_boundary (45 :: 45 :: tout) (45 :: 45 :: tin) :=
    no_boundary_piece _ _ hBi10 hoi
  have hpiece2 : no_boundary (45 :: 45 :: tout) ((45 :: 45 :: tin) ++ [45, 45]) :=
    no_boundary_piece _ _ (by
      intro c hc
      rcases List.mem_append.1 hc with h | h
      · exact hBi10 c h
      · simp only [List.mem_cons, List.mem_singleton, List.not_mem_nil, or_false] at h
        rcases h with h | h <;> rw [h] <;> decide) hoi2
  have hnTc : no_boundary (45 :: 45 :: tout) Tc := by
    rw [hTc, hMi]
    exact no_boundary_join _ _ _ hnc (no_boundary_join _ _ _ hpiece
      (no_boundary_join _ _ _ hn1o (no_boundary_join _ _ _ hpiece
        (no_boundary_join _ _ _ hn2o hpiece2 hBo10) hBo10) hBo10) hBo10) hBo10
  have hccne : cc ≠ [] := List.ne_nil_of_mem hmi
  have hTcfirst : fossil_isspace (Tc.headD 0) = false := by
    rw [hTc]; exact unlines_head cc _ hccne hcc hccfirst
  have hTcne : Tc ≠ [] := by
    rw [hTc]; simp
  have hT1first : fossil_isspace (T1.headD 0) = false := by
    rw [hT1]; exact unlines_head c1 _ hne1 hc1 hfirst
  -- the outer header
  obtain ⟨buf1, htop, hcM⟩ := multipart_top hs _ hhs ⟨_, hmo, mixed_line vo⟩ hnfMo
    (by simp) (by simp)
  obtain ⟨L, hL⟩ : ∃ L, (unlines hs ++ 10 :: ((45 :: 45 :: tout) ++
      10 :: (Tc ++ 10 :: ((45 :: 45 :: tout) ++ [45, 45, 10])))).length = L + 2 :=
    ⟨(unlines hs ++ 10 :: ((45 :: 45 :: tout) ++
      10 :: (Tc ++ 10 :: ((45 :: 45 :: tout) ++ [45, 45, 10])))).length - 2, by
      simp only [List.length_append, List.length_cons]; omega⟩
  rw [hL] at htop
  -- the child that the outer splitter delimits
  have hchild := one_child_text buf1 ((unlines hs).length + 1) tout Tc [45, 45, 10] hto hcM
    hTcfirst hTcne
  generalize hbX : wr (wr buf1 ((unlines hs).length + 1 + (tout.length + 2)) 0)
    ((unlines hs).length + 1 + (tout.length + 2) + 1 + 0 + Tc.length + 1) 0 = bufX at hchild
  obtain ⟨buf2, hcont, hcMi⟩ := container_part_eq (L + 1)
    (line_offsets 0 (hs.map (fun l => l ++ [10]))) [] bufX
    ((unlines hs).length + 1 + (tout.length + 2) + 1 + 0) cc (Mi ++ [10])
    (by rw [hchild, hTc]; simp) hcc ⟨_, hmi, alternative_line vi⟩
    (by rw [hMi]; simp) (by rw [hMi]; simp)
  -- the two leaves
  obtain ⟨buf3, o1, o2, hleaves, ho1, ho2⟩ := mp_two_leaves L
    ⟨line_offsets 0 (hs.map (fun l => l ++ [10])), []⟩ buf2
    ((unlines hs).length + 1 + (tout.length + 2) + 1 + 0 + ((unlines cc).length + 1))
    tin c1 c2 b1 b2 [45, 45, 10] T1 T2 hti hT1 hT2
    (by rw [hcMi, hMi]; simp) hc1 hc2 hT1first hl1 hl2 hn1i hn2i (terminator_tail tin)
  have hseg : emailtoc_add_multipart_segment (L + 2)
      ⟨line_offsets 0 (hs.map (fun l => l ++ [10])), []⟩ bufX
      ((unlines hs).length + 1 + (tout.length + 2) + 1 + 0) false = _ := hcont.trans hleaves
  -- the child call writes inside the child only
  obtain ⟨p4, buf4, h4, hfr4, _⟩ := decode_inv (L + 2)
    ⟨line_offsets 0 (hs.map (fun l => l ++ [10])), []⟩ bufX
    ((unlines hs).length + 1 + (tout.length + 2) + 1 + 0)
    (by
      rw [hchild]
      simp only [List.length_append, List.length_cons, List.length_nil] at hL ⊢
      omega)
  simp only [] at h4
  rw [hseg] at h4
  have hb4 : buf4 = buf3 := by
    have := Option.some.inj h4
    exact (congrArg Prod.snd this).symm
  rw [hb4, hchild] at hfr4
  have hone := mp_one_child
    (fun q b y => emailtoc_add_multipart_segment (L + 2) q b y false)
    ⟨line_offsets 0 (hs.map (fun l => l ++ [10])), []⟩ _ buf1 buf3
    ((unlines hs).length + 1) tout Tc [45, 45, 10] hto hcM hTcfirst hTcne hnTc
    (terminator_tail tout) (by rw [hbX]; exact hseg)
    (by
      rw [hbX]
      have e : (unlines hs).length + 1 + (tout.length + 2) + 1 + 0 + Tc.length + 1
          = (unlines hs).length + 1 + (tout.length + 2) + 1 + 0 + (Tc ++ [10]).length := by
        simp only [List.length_append, List.length_cons, List.length_nil]; omega
      rw [e]; exact hfr4)
  unfold emailtoc_add_multipart at htop
  rw [hone] at htop
  obtain ⟨toc5, buf5, h5, _, _, hleaf⟩ := top_inv (unlines hs ++ 10 :: ((45 :: 45 :: tout) ++
        10 :: (Tc ++ 10 :: ((45 :: 45 :: tout) ++ [45, 45, 10]))))
  refine ⟨_, buf3, o1, o2, htop, by simp, ?_, ?_⟩
  · have hell := ell_le (10 :: (b1 ++ [10]))
    have hT1len : T1.length = (unlines c1).length + 1 + b1.length := by
      rw [hT1]; simp only [List.length_append, List.length_cons]; omega
    simp only [List.length_append, List.length_cons, List.length_nil] at hell
    omega
  · rw [htop] at h5
    have h6 := Option.some.inj h5
    have e : _ = toc5 := congrArg Prod.fst h6
    intro y hy
    apply hleaf y
    rw [← e]
    exact hy

theorem nested_example :
    (emailtoc_from_email (bytes ("Content-Type: multipart/mixed; boundary=OUT\n\n--OUT\n" ++
      "Content-Type: multipart/alternative; boundary=IN\n\n--IN\n" ++
      "Content-Type: text/plain\n\nhi\n--IN\n" ++
      "Content-Type: text/html\n\n<b>\n--IN--\n--OUT--\n"))).map
      (fun r => (r.1.azHdr.length, r.1.aBody.map (fun x => (x.zMimetype, x.zContent))))
      = some (1, [(bytes "text/plain", some 132), (bytes "text/html", some 165)]) := by
  decide!

/-! ## `email_hdr_unfold` applied twice -/

theorem unfold_loop_length (z : Nat) : ∀ (fuel : Nat) (buf : List Nat) (i j : Nat)
    (r : Buf × Nat), email_hdr_unfold_loop z fuel buf i j = some r → r.1.length = buf.length := by
  intro fuel
  induction fuel with
  | zero =>
    intro buf i j r h
    unfold email_hdr_unfold_loop at h
    split at h
    · simp only [Option.some.injEq] at h
      rw [← h]
    · simp at h
  | succ fuel ih =>
    intro buf i j r h
    unfold email_hdr_unfold_loop at h
    split at h
    · simp only [Option.some.injEq] at h
      rw [← h]
    · simp only [] at h
      split at h
      · split at h
        · exact ih _ _ _ _ h
        · rw [ih _ _ _ _ h, wr_length]
      · rw [ih _ _ _ _ h, wr_length]

/-- A string in which the only whitespace bytes are single spaces is left as it is
by the reference transform. -/
theorem collapse_ws_fixed : ∀ (w : List Nat), (∀ c ∈ w, fossil_isspace c = true → c = 32) →
    List.Chain' (fun a b => ¬ (a = 32 ∧ b = 32)) w →
    collapse_ws false w = w ∧ (w.head? ≠ some 32 → collapse_ws true w = w) := by
  intro w
  induction w with
  | nil => intro _ _; exact ⟨rfl, fun _ => rfl⟩
  | cons c t ih =>
    intro hsp hch
    have hsp1 : ∀ x ∈ t, fossil_isspace x = true → x = 32 :=
      fun x hx => hsp x (List.mem_cons_of_mem _ hx)
    have hch1 : List.Chain' (fun a b => ¬ (a = 32 ∧ b = 32)) t := hch.tail
    obtain ⟨ih1, ih2⟩ := ih hsp1 hch1
    by_cases hc : fossil_isspace c = true
    · have hc32 : c = 32 := hsp c (List.mem_cons_self _ _) hc
      have hhead : t.head? ≠ some 32 := by
        intro hh
        cases t with
        | nil => simp at hh
        | cons y t1 =>
          simp only [List.head?_cons, Option.some.injEq] at hh
          have := List.chain'_cons.1 hch
          exact this.1 ⟨hc32, hh⟩
      constructor
      · simp only [collapse_ws, hc, if_true, Bool.false_eq_true, if_false]
        rw [ih2 hhead, hc32]
      · intro h
        exact absurd (by rw [hc32]; rfl) h
    · constructor
      · simp only [collapse_ws, hc, Bool.false_eq_true, if_false]
        rw [ih1]
      · intro _
        simp only [collapse_ws, hc, Bool.false_eq_true, if_false]
        rw [ih1]

/-- The reference transform is idempotent. -/
theorem collapse_ws_idem (z : List Nat) :
    collapse_ws false (collapse_ws false z) = collapse_ws false z :=
  (collapse_ws_fixed _ (collapse_ws_space z false) ((collapse_ws_chain z).2 false)).1

/-- All of the buffer after `email_hdr_unfold`: the string is the transform of
`z`, its NUL follows, and the buffer keeps its length. -/
theorem email_hdr_unfold_shape (pre z post : List Nat) (hz : ∀ c ∈ z, c ≠ 0) :
    ∃ post1, email_hdr_unfold (pre ++ (z ++ 0 :: post)) pre.length
        = some (pre ++ (collapse_ws false z ++ 0 :: post1)) ∧
      (collapse_ws false z).length + post1.length = z.length + post.length := by
  have hfuel : z.length ≤ (pre ++ (z ++ 0 :: post)).length := by simp; omega
  obtain ⟨junk1, h1⟩ := unfold_loop_spec post z hz _ hfuel pre [] []
  simp only [List.nil_append, List.length_nil, Nat.add_zero, Nat.zero_add, last_is_space_nil]
    at h1
  have hlen := unfold_loop_length _ _ _ _ _ _ h1
  simp only [List.length_append, List.length_cons] at hlen
  refine ⟨(junk1 ++ 0 :: post).tail, ?_, ?_⟩
  · unfold email_hdr_unfold
    rw [h1]
    simp only
    rw [wr_append_right, wr_append_length]
    cases junk1 <;> simp [wr]
  · cases junk1 with
    | nil => simp at hlen ⊢; omega
    | cons a t => simp at hlen ⊢; omega

/-- On a string that the transform leaves as it is, `email_hdr_unfold` changes no
byte of the buffer. -/
theorem email_hdr_unfold_fixed (pre w post : List Nat) (hw : ∀ c ∈ w, c ≠ 0)
    (hfix : collapse_ws false w = w) :
    email_hdr_unfold (pre ++ (w ++ 0 :: post)) pre.length = some (pre ++ (w ++ 0 :: post)) := by
  obtain ⟨post1, h1, hlen⟩ := email_hdr_unfold_shape pre w post hw
  rw [hfix] at h1 hlen
  have hfuel : w.length ≤ (pre ++ (w ++ 0 :: post)).length := by simp; omega
  obtain ⟨junk1, h2⟩ := unfold_loop_spec post w hw _ hfuel pre [] []
  simp only [List.nil_append, List.length_nil, Nat.add_zero, Nat.zero_add, last_is_space_nil]
    at h2
  have hl2 := unfold_loop_length _ _ _ _ _ _ h2
  rw [hfix] at h2 hl2
  simp only [List.length_append, List.length_cons] at hl2
  have hj : junk1 = [] := List.eq_nil_of_length_eq_zero (by omega)
  rw [hj] at h2
  unfold email_hdr_unfold
  rw [h2]
  simp only [List.nil_append]
  rw [wr_append_right, wr_append_length]
  simp [wr]

/-- C11: `email_hdr_unfold` is idempotent.  On every NUL-terminated string `z`,
wherever it lies in the buffer, a second call on the result of the first returns
and leaves the whole buffer, and so the string, as the first call left it; the
reference transform that the routine computes is idempotent. -/
theorem email_hdr_unfold_idempotent (pre z post : List Nat) (hz : ∀ c ∈ z, c ≠ 0) :
    (∃ buf1, email_hdr_unfold (pre ++ (z ++ 0 :: post)) pre.length = some buf1 ∧
      email_hdr_unfold buf1 pre.length = some buf1 ∧
      ((email_hdr_unfold (pre ++ (z ++ 0 :: post)) pre.length).bind
          (fun b => email_hdr_unfold b pre.length)).map (fun b => cstr b pre.length)
        = (email_hdr_unfold (pre ++ (z ++ 0 :: post)) pre.length).map
          (fun b => cstr b pre.length)) ∧
    collapse_ws false (collapse_ws false z) = collapse_ws false z := by
  refine ⟨?_, collapse_ws_idem z⟩
  obtain ⟨post1, h1, _⟩ := email_hdr_unfold_shape pre z post hz
  have h2 := email_hdr_unfold_fixed pre (collapse_ws false z) post1
    (collapse_ws_nul_free z hz false) (collapse_ws_idem z)
  refine ⟨_, h1, h2, ?_⟩
  rw [h1]
  show Option.map _ (email_hdr_unfold _ pre.length) = _
  rw [h2]

/-- Witness for C11 on the string `"a \n b"` placed after one byte of the buffer. -/
theorem email_hdr_unfold_idempotent_witness :
    ∃ buf1, email_hdr_unfold ([120] ++ ([97, 32, 10, 32, 98] ++ 0 :: [121])) 1 = some buf1 ∧
      email_hdr_unfold buf1 1 = some buf1 ∧
      ((email_hdr_unfold ([120] ++ ([97, 32, 10, 32, 98] ++ 0 :: [121])) 1).bind
          (fun b => email_hdr_unfold b 1)).map (fun b => cstr b 1)
        = (email_hdr_unfold ([120] ++ ([97, 32, 10, 32, 98] ++ 0 :: [121])) 1).map
          (fun b => cstr b 1) :=
  (email_hdr_unfold_idempotent [120] [97, 32, 10, 32, 98] [121] (by decide)).1

/-! ## `email_hdr_value` -/

theorem strstr_first : ∀ (hay needle : List Nat) (k : Nat), first_occurrence needle hay k →
    strstr hay needle = some k := by
  intro hay
  induction hay with
  | nil =>
    intro needle k h
    obtain ⟨⟨hk, hs⟩, _⟩ := h
    have hk0 : k = 0 := by simpa using hk
    subst hk0
    cases needle with
    | nil => simp [strstr]
    | cons a t => simp [startsWith] at hs
  | cons c t ih =>
    intro needle k h
    obtain ⟨⟨hk, hs⟩, hno⟩ := h
    cases k with
    | zero =>
      simp only [List.drop_zero] at hs
      simp [strstr, hs]
    | succ k =>
      have h0 : startsWith needle (c :: t) = false := by
        have := hno 0 (Nat.succ_pos _)
        simpa using this
      have hrec : strstr t needle = some k := by
        apply ih
        refine ⟨⟨by simpa using hk, by simpa using hs⟩, ?_⟩
        intro m hm
        have := hno (m + 1) (by omega)
        simpa using this
      simp [strstr, h0, hrec]

theorem strstr_none : ∀ (hay needle : List Nat),
    (∀ k, k ≤ hay.length → startsWith needle (hay.drop k) = false) →
    strstr hay needle = none := by
  intro hay
  induction hay with
  | nil =>
    intro needle h
    have h0 := h 0 (Nat.le_refl _)
    cases needle with
    | nil => simp [startsWith] at h0
    | cons a t => simp [strstr]
  | cons c t ih =>
    intro needle h
    have h0 : startsWith needle (c :: t) = false := by
      have := h 0 (Nat.zero_le _)
      simpa using this
    have hrec : strstr t needle = none := by
      apply ih
      intro k hk
      have := h (k + 1) (by simp only [List.length_cons]; omega)
      simpa using this
    simp [strstr, h0, hrec]

theorem strstr_some_first : ∀ (hay needle : List Nat) (k : Nat), strstr hay needle = some k →
    first_occurrence needle hay k := by
  intro hay
  induction hay with
  | nil =>
    intro needle k h
    unfold strstr at h
    split at h
    · rename_i hn
      simp only [Option.some.injEq] at h
      subst h
      subst hn
      exact ⟨⟨Nat.le_refl _, by simp [startsWith]⟩, fun m hm => absurd hm (Nat.not_lt_zero _)⟩
    · simp at h
  | cons c t ih =>
    intro needle k h
    unfold strstr at h
    split at h
    · rename_i hs
      simp only [Option.some.injEq] at h
      subst h
      exact ⟨⟨Nat.zero_le _, by simpa using hs⟩, fun m hm => absurd hm (Nat.not_lt_zero _)⟩
    · rename_i hs
      cases hr : strstr t needle with
      | none => rw [hr] at h; simp at h
      | some j =>
        rw [hr] at h
        simp only [Option.map_some', Option.some.injEq] at h
        subst h
        obtain ⟨⟨hj, hsj⟩, hno⟩ := ih needle j hr
        refine ⟨⟨by simp only [List.length_cons]; omega, by simpa using hsj⟩, ?_⟩
        intro m hm
        cases m with
        | zero => simpa using hs
        | succ m =>
          have := hno m (by omega)
          simpa using this

/-- What `email_hdr_value` does once the first occurrence of the name is known:
the rest of the routine works on the bytes that follow the name. -/
theorem hdr_value_at (z zName : List Nat) (k : Nat) (h : first_occurrence zName z k) :
    email_hdr_value z zName =
      if (z.drop (k + zName.length)).headD 0 ≠ 61 then none
      else if (z.drop (k + zName.length)).tail.headD 0 = 34 then
        if (z.drop (k + zName.length)).tail.tail.getD
            (scanLen (fun c => c != 0 && c != 34) (z.drop (k + zName.length)).tail.tail) 0 ≠ 34
        then none
        else some ((z.drop (k + zName.length)).tail.tail.take
          (scanLen (fun c => c != 0 && c != 34) (z.drop (k + zName.length)).tail.tail))
      else some ((z.drop (k + zName.length)).tail.take
        (scanLen (fun c => c != 0 && !fossil_isspace c) (z.drop (k + zName.length)).tail)) := by
  unfold email_hdr_value
  rw [strstr_first z zName k h]

theorem scanLen_stop (f : Nat → Bool) (h0 : f 0 = false) :
    ∀ l : List Nat, f (l.getD (scanLen f l) 0) = false := by
  intro l
  induction l with
  | nil => simpa [scanLen] using h0
  | cons c t ih =>
    by_cases hc : f c = true
    · simp only [scanLen, hc, if_true, List.getD_cons_succ]
      exact ih
    · simp only [scanLen, hc, Bool.false_eq_true, if_false, List.getD_cons_zero]

theorem scanLen_mem (f : Nat → Bool) :
    ∀ l : List Nat, scanLen f l < l.length → l.getD (scanLen f l) 0 ∈ l := by
  intro l
  induction l with
  | nil => intro h; simp [scanLen] at h
  | cons c t ih =>
    intro h
    by_cases hc : f c = true
    · simp only [scanLen, hc, if_true, List.getD_cons_succ, List.length_cons] at h ⊢
      exact List.mem_cons_of_mem _ (ih (by omega))
    · simp only [scanLen, hc, Bool.false_eq_true, if_false, List.getD_cons_zero]
      exact List.mem_cons_self _ _

theorem hdr_value_example_quoted :
    email_hdr_value (bytes "Content-Disposition: attachment; filename=\"a.txt\"")
      lit_filename = some (bytes "a.txt") := by decide!

/-- C12 as stated fails: the line `filename=b; filename="a.txt"` contains the name
`filename` immediately followed by `="a.txt"` (at offset 12), and the value
returned is `b;`, the one that follows the first occurrence of the name. -/
theorem hdr_value_counterexample :
    occurs_at (bytes "filename" ++ bytes "=\"a.txt\"") (bytes "filename=b; filename=\"a.txt\"") 12 ∧
    (∀ c ∈ bytes "a.txt", c ≠ 34 ∧ c ≠ 0) ∧
    email_hdr_value (bytes "filename=b; filename=\"a.txt\"") (bytes "filename")
      = some (bytes "b;") ∧
    email_hdr_value (bytes "filename=b; filename=\"a.txt\"") (bytes "filename")
      ≠ some (bytes "a.txt") := by
  decide!

/-- C12 (amended): for every header line `z` and parameter name `NAME` such that
the first occurrence of `NAME` in `z` is immediately followed by `="V"`, with `V`
free of double quotes and of NUL, `email_hdr_value(z, NAME)` returns `V`, the
content between the quotes. -/
theorem hdr_value_quoted (z zName V rest : List Nat) (k : Nat)
    (hfirst : first_occurrence zName z k)
    (hval : z.drop (k + zName.length) = 61 :: 34 :: (V ++ 34 :: rest))
    (hV : ∀ c ∈ V, c ≠ 34 ∧ c ≠ 0) :
    email_hdr_value z zName = some V := by
  have hscan : scanLen (fun c => c != 0 && c != 34) (V ++ 34 :: rest) = V.length :=
    scanLen_append _ V (34 :: rest) (fun c hc => by simp [(hV c hc).1, (hV c hc).2]) (by simp)
  rw [hdr_value_at z zName k hfirst, hval]
  simp only [List.headD_cons, List.tail_cons, ne_eq, not_true_eq_false, if_false, if_true, hscan]
  have hget : (V ++ 34 :: rest).getD V.length 0 = 34 := by
    rw [List.getD_eq_getElem?_getD, List.getElem?_append_right (Nat.le_refl _)]
    simp
  rw [hget]
  simp

/-- Witness for C12 on the line `Content-Disposition: attachment; filename="a.txt"`. -/
theorem hdr_value_quoted_witness :
    email_hdr_value (bytes "Content-Disposition: attachment; filename=\"a.txt\"")
      (bytes "filename") = some (bytes "a.txt") :=
  hdr_value_quoted (bytes "Content-Disposition: attachment; filename=\"a.txt\"")
    (bytes "filename") (bytes "a.txt") [] 33 (by decide!) (by decide!) (by decide!)

theorem takeWhile_nul_free_pred (f : Nat → Bool) : ∀ (l : List Nat), (∀ c ∈ l, c ≠ 0) →
    l.takeWhile (fun c => c != 0 && f c) = l.takeWhile f := by
  intro l
  induction l with
  | nil => intro _; rfl
  | cons c t ih =>
    intro h
    have hc : c ≠ 0 := h c (List.mem_cons_self _ _)
    have iht := ih (fun x hx => h x (List.mem_cons_of_mem _ hx))
    have hcf : (c != 0 && f c) = f c := by simp [hc]
    simp only [List.takeWhile_cons, hcf, iht]

theorem hdr_value_example_unquoted :
    email_hdr_value (bytes "attachment; filename=a.txt; size=3") (bytes "filename")
        = some (bytes "a.txt;") ∧
      email_hdr_value (bytes "attachment; filename= x") (bytes "filename") = some [] ∧
      email_hdr_value (bytes "attachment; filename=") (bytes "filename") = some [] := by
  decide!

/-- C13: for every header line `z` (a string, so without NUL) and name `NAME` such
that the first occurrence of `NAME` in `z` is immediately followed by `'='` and
then by a byte other than `'"'` (or by the end of the line), `email_hdr_value`
returns a value, and the value is the maximal run of non-whitespace bytes that
starts right after the `'='`: the bytes after the `'='` are the value followed by
a tail that is empty or begins with a whitespace byte.  The run may be empty
(`filename= x` and `filename=` give the empty value) and takes a trailing `';'`
with it (`filename=a.txt; size=3` gives `a.txt;`). -/
theorem hdr_value_unquoted (z zName : List Nat) (k : Nat) (hz : ∀ c ∈ z, c ≠ 0)
    (hfirst : first_occurrence zName z k)
    (heq : rd z (k + zName.length) = 61) (hq : rd z (k + zName.length + 1) ≠ 34) :
    (∃ v tail, email_hdr_value z zName = some v ∧
      z.drop (k + zName.length + 1) = v ++ tail ∧
      (∀ c ∈ v, fossil_isspace c = false) ∧
      (∀ c, tail.head? = some c → fossil_isspace c = true) ∧
      v = (z.drop (k + zName.length + 1)).takeWhile (fun c => !fossil_isspace c)) ∧
    email_hdr_value (bytes "attachment; filename=a.txt; size=3") (bytes "filename")
        = some (bytes "a.txt;") ∧
    email_hdr_value (bytes "attachment; filename= x") (bytes "filename") = some [] ∧
    email_hdr_value (bytes "attachment; filename=") (bytes "filename") = some [] := by
  refine ⟨?_, hdr_value_example_unquoted⟩
  have htail : (z.drop (k + zName.length)).tail = z.drop (k + zName.length + 1) := by
    rw [List.tail_drop]
  have hhead : (z.drop (k + zName.length)).headD 0 = 61 := by
    rw [← rd_headD, rd_drop, Nat.add_zero]; exact heq
  have hhead2 : (z.drop (k + zName.length + 1)).headD 0 ≠ 34 := by
    rw [← rd_headD, rd_drop, Nat.add_zero]; exact hq
  have hnf : ∀ c ∈ z.drop (k + zName.length + 1), c ≠ 0 :=
    fun c hc => hz c (List.mem_of_mem_drop hc)
  refine ⟨(z.drop (k + zName.length + 1)).takeWhile (fun c => !fossil_isspace c),
    (z.drop (k + zName.length + 1)).dropWhile (fun c => !fossil_isspace c), ?_, ?_, ?_, ?_, rfl⟩
  · rw [hdr_value_at z zName k hfirst, htail, hhead]
    simp only [ne_eq, not_true_eq_false, if_false, hhead2]
    rw [take_scanLen, takeWhile_nul_free_pred _ _ hnf]
  · exact (List.takeWhile_append_dropWhile _ _).symm
  · intro c hc
    have := List.mem_takeWhile_imp hc
    simpa using this
  · intro c hc
    have := List.head?_dropWhile_not (fun c => !fossil_isspace c) (z.drop (k + zName.length + 1))
    rw [hc] at this
    simpa using this

/-- Witness for C13 on the line `attachment; filename=a.txt; size=3`. -/
theorem hdr_value_unquoted_witness :
    ∃ v tail, email_hdr_value (bytes "attachment; filename=a.txt; size=3") (bytes "filename")
        = some v ∧
      (bytes "attachment; filename=a.txt; size=3").drop (12 + (bytes "filename").length + 1)
        = v ++ tail ∧
      (∀ c ∈ v, fossil_isspace c = false) ∧
      (∀ c, tail.head? = some c → fossil_isspace c = true) ∧
      v = ((bytes "attachment; filename=a.txt; size=3").drop
        (12 + (bytes "filename").length + 1)).takeWhile (fun c => !fossil_isspace c) :=
  (hdr_value_unquoted (bytes "attachment; filename=a.txt; size=3") (bytes "filename") 12
    (by decide!) (by decide!) (by decide!) (by decide!)).1

/-- C14: `email_hdr_value(z, NAME)` returns NULL for every line `z` in which `NAME`
does not occur, for every line in which the first occurrence of `NAME` is not
followed by `'='` (so for every line in which no occurrence is), and for every
line in which the first occurrence of `NAME` is followed by `="` and no `'"'`
comes after that before the end of the line. -/
theorem hdr_value_not_found (z zName : List Nat) :
    ((∀ k, k ≤ z.length → ¬ occurs_at zName z k) → email_hdr_value z zName = none) ∧
    (∀ k, first_occurrence zName z k → rd z (k + zName.length) ≠ 61 →
      email_hdr_value z zName = none) ∧
    ((∀ k, k ≤ z.length → occurs_at zName z k → rd z (k + zName.length) ≠ 61) →
      email_hdr_value z zName = none) ∧
    (∀ k rest, first_occurrence zName z k →
      z.drop (k + zName.length) = 61 :: 34 :: rest → (∀ c ∈ rest, c ≠ 34) →
      email_hdr_value z zName = none) := by
  have part2 : ∀ k, first_occurrence zName z k → rd z (k + zName.length) ≠ 61 →
      email_hdr_value z zName = none := by
    intro k hfirst hne
    have hhead : (z.drop (k + zName.length)).headD 0 ≠ 61 := by
      rw [← rd_headD, rd_drop, Nat.add_zero]; exact hne
    rw [hdr_value_at z zName k hfirst, if_pos hhead]
  refine ⟨?_, part2, ?_, ?_⟩
  · intro h
    unfold email_hdr_value
    rw [strstr_none z zName (fun k hk => by
      cases hs : startsWith zName (z.drop k) with
      | false => rfl
      | true => exact absurd ⟨hk, hs⟩ (h k hk))]
  · intro h
    cases hs : strstr z zName with
    | none => unfold email_hdr_value; rw [hs]
    | some k =>
      have hf := strstr_some_first z zName k hs
      exact part2 k hf (h k hf.1.1 hf.1)
  · intro k rest hfirst hval hrest
    rw [hdr_value_at z zName k hfirst, hval]
    simp only [List.headD_cons, List.tail_cons, ne_eq, not_true_eq_false, if_false, if_true]
    have hstop := scanLen_stop (fun c => c != 0 && c != 34) (by decide) rest
    have hget : rest.getD (scanLen (fun c => c != 0 && c != 34) rest) 0 ≠ 34 := by
      by_cases hlt : scanLen (fun c => c != 0 && c != 34) rest < rest.length
      · exact hrest _ (scanLen_mem _ rest hlt)
      · rw [List.getD_eq_default _ _ (by omega)]
        decide
    rw [if_pos hget]

/-- Witness for C14: the name is absent from `attachment`, is followed by a space
in `filename a.txt`, and opens a value that is never closed in `filename="a.txt`. -/
theorem hdr_value_not_found_witness :
    email_hdr_value (bytes "attachment") (bytes "filename") = none ∧
    email_hdr_value (bytes "filename a.txt") (bytes "filename") = none ∧
    email_hdr_value (bytes "x filename: filename;") (bytes "filename") = none ∧
    email_hdr_value (bytes "filename=\"a.txt") (bytes "filename") = none :=
  ⟨(hdr_value_not_found (bytes "attachment") (bytes "filename")).1 (by decide!),
   (hdr_value_not_found (bytes "filename a.txt") (bytes "filename")).2.1 0 (by decide!)
     (by decide!),
   (hdr_value_not_found (bytes "x filename: filename;") (bytes "filename")).2.2.1 (by decide!),
   (hdr_value_not_found (bytes "filename=\"a.txt") (bytes "filename")).2.2.2 0 (bytes "a.txt")
     (by decide!) (by decide!) (by decide!)⟩

/-! ## The invariant of the decoder for any property of the body entries -/

theorem mp_loop_inv_of (P : EmailBody → Prop) (seg : EmailToc → Buf → Nat → Option (EmailToc × Buf)) (d : Nat)
    (hseg : seg_ok_of P seg d) (zB nB z1 E : Nat) (B : List Nat) (hB1 : B.length = nB)
    (hB2 : ∀ c ∈ B, c ≠ 0 ∧ fossil_isspace c = false) (hnB : 1 ≤ nB) (hz : zB + nB < z1)
    (hd : E - z1 < d) :
    ∀ (fuel : Nat) (p : EmailToc) (buf : List Nat) (i iStart : Nat),
      rd buf E = 0 → z1 + i ≤ E → iStart ≤ i → cstr buf zB = B → E - (z1 + i) ≤ fuel →
      ∃ p1 buf1, multipart_loop seg zB nB z1 fuel p buf i iStart = some (p1, buf1) ∧
        frame (z1 + iStart) E buf buf1 ∧ p1.azHdr = p.azHdr ∧
        ∃ ys, p1.aBody = p.aBody ++ ys ∧ ∀ y ∈ ys, P y := by
  intro fuel
  induction fuel with
  | zero =>
    intro p buf i iStart hE hi _ _ hf
    have hiE : z1 + i = E := by omega
    refine ⟨p, buf, ?_, frame_refl _ _ _, rfl, [], by simp, by simp⟩
    unfold multipart_loop
    rw [hiE, if_pos hE]
  | succ f ih =>
    intro p buf i iStart hE hi hiS hcB hf
    by_cases hrd : rd buf (z1 + i) = 0
    · refine ⟨p, buf, ?_, frame_refl _ _ _, rfl, [], by simp, by simp⟩
      unfold multipart_loop
      rw [if_pos hrd]
    · have hiE : z1 + i < E := by
        rcases Nat.lt_or_ge (z1 + i) E with h | h
        · exact h
        · exfalso; apply hrd
          have : z1 + i = E := by omega
          rw [this]; exact hE
      unfold multipart_loop
      rw [if_neg hrd]
      simp only []
      by_cases hm : rd buf (z1 + i) = 10 ∧
          strncmp (cstr buf (z1 + i + 1)) (cstr buf zB) nB = 0
      · rw [if_pos hm]
        -- the boundary token lies wholly inside the string
        have hsw : startsWith B (cstr buf (z1 + i + 1)) = true := by
          have := hm.2
          rw [hcB, ← hB1] at this
          exact (strncmp_eq_zero_iff B _ (fun c hc => (hB2 c hc).1)).1 this
        obtain ⟨hlenB, hBrd⟩ := startsWith_length B _ hsw
        have hcl := cstr_length_of_zero buf (z1 + i + 1) E (by omega) hE
        have hend : z1 + i + 1 + nB ≤ E := by omega
        -- the store `z[i+1] = 0`
        have hfr1 : frame (z1 + iStart) E buf (wr buf (z1 + i + 1) 0) :=
          frame_wr_zero _ _ _ _ (by omega) (by omega)
        have hchild : (cstr (wr buf (z1 + i + 1) 0) (z1 + iStart)).length < d := by
          have := cstr_length_of_zero (wr buf (z1 + i + 1) 0) (z1 + iStart) (z1 + i + 1)
            (by omega) (rd_wr_zero buf _)
          omega
        have hchild2 : (cstr (wr buf (z1 + i + 1) 0) (z1 + iStart)).length
            ≤ i + 1 - iStart := by
          have := cstr_length_of_zero (wr buf (z1 + i + 1) 0) (z1 + iStart) (z1 + i + 1)
            (by omega) (rd_wr_zero buf _)
          omega
        obtain ⟨p2, buf2, hs, hfr2, hh2, ys2, hb2, hq2⟩ :=
          hseg p (wr buf (z1 + i + 1) 0) (z1 + iStart) hchild
        rw [hs]
        simp only []
        have hfr2' : frame (z1 + iStart) (z1 + i + 1) (wr buf (z1 + i + 1) 0) buf2 :=
          frame_mono hfr2 (Nat.le_refl _) (by omega)
        have hfr12 : frame (z1 + iStart) E buf buf2 :=
          frame_trans hfr1 (frame_mono hfr2' (Nat.le_refl _) (by omega))
        by_cases hterm : rd buf2 (z1 + (i + nB)) = 45 ∧ rd buf2 (z1 + (i + nB) + 1) = 45
        · rw [if_pos hterm]
          exact ⟨p2, buf2, rfl, hfr12, hh2, ys2, hb2, hq2⟩
        · rw [if_neg hterm]
          -- the byte at `iStart` is the last byte of the token, or the NUL just stored
          have hnws : fossil_isspace (rd buf2 (z1 + (i + nB))) = false := by
            have e1 : rd buf2 (z1 + (i + nB)) = rd (wr buf (z1 + i + 1) 0) (z1 + (i + nB)) :=
              hfr2'.2.1 _ (Or.inr (by omega))
            rw [e1]
            rcases Nat.eq_or_lt_of_le hnB with h1 | h1
            · have : z1 + (i + nB) = z1 + i + 1 := by omega
              rw [this, rd_wr_zero]
              rfl
            · rw [rd_wr_ne _ _ _ _ (by omega)]
              have e2 : z1 + (i + nB) = z1 + i + 1 + (nB - 1) := by omega
              rw [e2, rd_cstr buf (z1 + i + 1) (nB - 1) (by omega), hBrd (nB - 1) (by omega)]
              have hmem : rd B (nB - 1) ∈ B := by
                rw [rd_eq, List.getElem?_eq_getElem (by omega)]
                simp
              exact (hB2 _ hmem).2
          have hws : scanLen fossil_isspace (cstr buf2 (z1 + (i + nB))) = 0 := by
            apply scanLen_zero
            rw [← rd_cstr_zero]
            exact hnws
          rw [hws, Nat.add_zero]
          have hcB2 : cstr buf2 zB = B := by
            rw [frame_cstr_below hfr12 zB (by rw [hcB, hB1]; omega), hcB]
          obtain ⟨p3, buf3, hl, hfr3, hh3, ys3, hb3, hq3⟩ :=
            ih p2 buf2 (i + nB + 1) (i + nB) (frame_zero hfr12 E hE) (by omega) (by omega)
              hcB2 (by omega)
          refine ⟨p3, buf3, hl, ?_, hh3.trans hh2, ys2 ++ ys3, ?_, ?_⟩
          · exact frame_trans hfr12 (frame_mono hfr3 (by omega) (Nat.le_refl _))
          · rw [hb3, hb2, List.append_assoc]
          · intro y hy
            rcases List.mem_append.1 hy with h | h
            · exact hq2 y h
            · exact hq3 y h
      · rw [if_neg hm]
        obtain ⟨p3, buf3, hl, hfr3, hh3, ys3, hb3, hq3⟩ :=
          ih p buf (i + 1) iStart hE (by omega) (by omega) hcB (by omega)
        exact ⟨p3, buf3, hl, hfr3, hh3, ys3, hb3, hq3⟩

theorem mp_inv_of (P : EmailBody → Prop) (seg : EmailToc → Buf → Nat → Option (EmailToc × Buf)) (d : Nat)
    (hseg : seg_ok_of P seg d) (p : EmailToc) (buf : List Nat) (z : Nat)
    (hlen : (cstr buf z).length ≤ d + 1) :
    ∃ p1 buf1, emailtoc_add_multipart_with seg p buf z = some (p1, buf1) ∧
      frame z (z + (cstr buf z).length) buf buf1 ∧ p1.azHdr = p.azHdr ∧
      ∃ ys, p1.aBody = p.aBody ++ ys ∧ ∀ y ∈ ys, P y := by
  unfold emailtoc_add_multipart_with
  cases hk : skip_to_boundary true (cstr buf z) with
  | none =>
    exact ⟨p, buf, rfl, frame_refl _ _ _, rfl, [], by simp, by simp⟩
  | some k =>
    simp only []
    obtain ⟨hk1, hk2, _⟩ := skip_to_boundary_some _ _ _ hk
    have hcB : cstr buf (z + k) = (cstr buf z).drop k := cstr_add buf z k (by omega)
    have hne : (cstr buf z).drop k ≠ [] := by
      intro h
      have := congrArg List.length h
      simp only [List.length_drop, List.length_nil] at this
      omega
    have hhead : ((cstr buf z).drop k).headD 0 = 45 := by
      rw [← rd_headD, rd_drop, Nat.add_zero]
      simpa using hk2
    have hnB1 : 1 ≤ scanLen (fun c => c != 0 && !fossil_isspace c) ((cstr buf z).drop k) :=
      scanLen_pos _ _ (by rw [hhead]; decide) hne
    have hnB2 := scanLen_le (fun c => c != 0 && !fossil_isspace c) ((cstr buf z).drop k)
    rw [hcB]
    generalize hnB : scanLen (fun c => c != 0 && !fossil_isspace c) ((cstr buf z).drop k)
      = nB at *
    rw [if_neg (by omega)]
    simp only [List.length_drop] at hnB2
    have hcW : cstr buf (z + k + nB) = (cstr buf z).drop (k + nB) := by
      rw [Nat.add_assoc, cstr_add buf z (k + nB) (by omega)]
    have hws := scanLen_le fossil_isspace ((cstr buf z).drop (k + nB))
    rw [hcW]
    generalize hw : scanLen fossil_isspace ((cstr buf z).drop (k + nB)) = ws at *
    simp only [List.length_drop] at hws
    have hE : rd buf (z + (cstr buf z).length) = 0 := rd_cstr_end buf z
    have hfr1 : frame z (z + (cstr buf z).length) buf (wr buf (z + k + nB) 0) := by
      apply frame_wr_zero_or _ _ _ _ (by omega)
      rcases Nat.lt_or_ge (k + nB) (cstr buf z).length with h | h
      · left; omega
      · right
        have : z + k + nB = z + (cstr buf z).length := by omega
        rw [this]; exact hE
    have hcB1 : cstr (wr buf (z + k + nB) 0) (z + k) = ((cstr buf z).drop k).take nB := by
      rw [cstr_wr_zero buf (z + k) nB (by rw [hcB, List.length_drop]; omega), hcB]
    have hBok : ∀ c ∈ ((cstr buf z).drop k).take nB, c ≠ 0 ∧ fossil_isspace c = false := by
      intro c hc
      rw [← hnB] at hc
      have := scanLen_take_all _ _ c hc
      simpa using this
    have hBlen : (((cstr buf z).drop k).take nB).length = nB := by
      simp only [List.length_take, List.length_drop]
      omega
    rcases Nat.eq_zero_or_pos ws with h0 | hpos
    · -- nothing follows the boundary token
      subst h0
      refine ⟨p, wr buf (z + k + nB) 0, ?_, hfr1, rfl, [], by simp, by simp⟩
      unfold multipart_loop
      rw [if_pos (by simpa using rd_wr_zero buf (z + k + nB))]
    · have hEle : z + (cstr buf z).length ≤ buf.length := by
        have := cstr_length_le buf z
        omega
      obtain ⟨p1, buf1, hl, hfr2, hh, ys, hb, hq⟩ :=
        mp_loop_inv_of P seg d hseg (z + k) nB (z + k + nB + ws) (z + (cstr buf z).length)
          (((cstr buf z).drop k).take nB) hBlen hBok (by omega) (by omega) (by omega)
          (wr buf (z + k + nB) 0).length p (wr buf (z + k + nB) 0) 0 0
          (frame_zero hfr1 _ hE) (by omega) (Nat.le_refl _) hcB1
          (by rw [wr_length]; omega)
      refine ⟨p1, buf1, hl, ?_, hh, ys, hb, hq⟩
      exact frame_trans hfr1 (frame_mono hfr2 (by omega) (Nat.le_refl _))

theorem decode_inv_of (P : EmailBody → Prop)
    (hP : ∀ (b : Bool) (ls : List (List Nat)) (o : Nat),
      P { body_of_lines b ls EmailBody.zero with zContent := some o }) : ∀ (d : Nat),
    seg_ok_of P (fun q b y => emailtoc_add_multipart_segment d q b y false) d := by
  intro d
  induction d with
  | zero => intro p buf z h; exact absurd h (Nat.not_lt_zero _)
  | succ d ih =>
    intro p buf z hlen
    obtain ⟨h, xs⟩ := p
    obtain ⟨buf1, hfr, hle, hres⟩ := seg_unfold d h xs buf z false
    simp only [] at hres ⊢
    rw [hres]
    have hc1 : cstr buf1 (z + body_start (logical_lines (cstr buf z)))
        = (cstr buf z).drop (body_start (logical_lines (cstr buf z))) := by
      rw [frame_cstr hfr _ (Nat.le_refl _), cstr_add buf z _ hle]
    split
    · unfold emailtoc_add_multipart
      obtain ⟨p2, buf2, hm, hfr2, hh2, ys, hb2, hq2⟩ := mp_inv_of P _ d ih
        ⟨h ++ (if false = true then line_offsets z (header_block (logical_lines (cstr buf z)))
          else []), xs⟩ buf1 (z + body_start (logical_lines (cstr buf z)))
        (by rw [hc1, List.length_drop]; omega)
      refine ⟨p2, buf2, hm, ?_, ?_, ys, hb2, hq2⟩
      · rw [hc1, List.length_drop] at hfr2
        have e : z + body_start (logical_lines (cstr buf z)) +
            ((cstr buf z).length - body_start (logical_lines (cstr buf z)))
            = z + (cstr buf z).length := by omega
        rw [e] at hfr2
        exact frame_trans (frame_mono hfr (Nat.le_refl _) (by omega))
          (frame_mono hfr2 (by omega) (Nat.le_refl _))
      · rw [hh2]; simp
    · refine ⟨_, buf1, rfl, frame_mono hfr (Nat.le_refl _) (by omega), by simp, _, rfl, ?_⟩
      intro y hy
      simp only [List.mem_singleton] at hy
      subst hy
      exact hP _ _ _

theorem seg_inv_any_of (P : EmailBody → Prop)
    (hP : ∀ (b : Bool) (ls : List (List Nat)) (o : Nat),
      P { body_of_lines b ls EmailBody.zero with zContent := some o }) (d : Nat) (h : List Nat) (xs : List EmailBody) (buf : List Nat)
    (z : Nat) (b : Bool) (hlen : (cstr buf z).length < d + 1) :
    ∃ p1 buf1, emailtoc_add_multipart_segment (d + 1) ⟨h, xs⟩ buf z b = some (p1, buf1) ∧
      frame z (z + (cstr buf z).length) buf buf1 ∧
      p1.azHdr = h ++ (if b then line_offsets z (header_block (logical_lines (cstr buf z)))
        else []) ∧
      ∃ ys, p1.aBody = xs ++ ys ∧ ∀ y ∈ ys, P y := by
  obtain ⟨buf1, hfr, hle, hres⟩ := seg_unfold d h xs buf z b
  rw [hres]
  have hc1 : cstr buf1 (z + body_start (logical_lines (cstr buf z)))
      = (cstr buf z).drop (body_start (logical_lines (cstr buf z))) := by
    rw [frame_cstr hfr _ (Nat.le_refl _), cstr_add buf z _ hle]
  split
  · unfold emailtoc_add_multipart
    obtain ⟨p2, buf2, hm, hfr2, hh2, ys, hb2, hq2⟩ := mp_inv_of P _ d (decode_inv_of P hP d)
      ⟨h ++ (if b then line_offsets z (header_block (logical_lines (cstr buf z)))
        else []), xs⟩ buf1 (z + body_start (logical_lines (cstr buf z)))
      (by rw [hc1, List.length_drop]; omega)
    refine ⟨p2, buf2, hm, ?_, hh2, ys, hb2, hq2⟩
    rw [hc1, List.length_drop] at hfr2
    have e : z + body_start (logical_lines (cstr buf z)) +
        ((cstr buf z).length - body_start (logical_lines (cstr buf z)))
        = z + (cstr buf z).length := by omega
    rw [e] at hfr2
    exact frame_trans (frame_mono hfr (Nat.le_refl _) (by omega))
      (frame_mono hfr2 (by omega) (Nat.le_refl _))
  · refine ⟨_, buf1, rfl, frame_mono hfr (Nat.le_refl _) (by omega), rfl, _, rfl, ?_⟩
    intro y hy
    simp only [List.mem_singleton] at hy
    subst hy
    exact hP _ _ _

theorem top_inv_of (P : EmailBody → Prop)
    (hP : ∀ (b : Bool) (ls : List (List Nat)) (o : Nat),
      P { body_of_lines b ls EmailBody.zero with zContent := some o }) (msg : List Nat) :
    ∃ toc buf1, emailtoc_from_email msg = some (toc, buf1) ∧
      frame 0 (text_of msg).length (msg ++ [0]) buf1 ∧
      toc.azHdr = line_offsets 0 (header_block (logical_lines (text_of msg))) ∧
      ∀ y ∈ toc.aBody, P y := by
  have hs0 : cstr (msg ++ [0]) 0 = text_of msg := cstr_top msg
  have hl := text_length_le msg
  obtain ⟨p1, buf1, hr, hfr, hh, ys, hb, hq⟩ := seg_inv_any_of P hP msg.length [] [] (msg ++ [0]) 0 true
    (by rw [hs0]; omega)
  rw [hs0] at hfr hh
  refine ⟨p1, buf1, hr, by simpa using hfr, by simpa using hh, ?_⟩
  intro y hy
  rw [hb] at hy
  exact hq y (by simpa using hy)

/-! ## The fields of the body entry of a part -/

theorem strnicmp_starts : ∀ (name s : List Nat), (∀ c ∈ name, c ≠ 0) →
    (sqlite3_strnicmp s name name.length = 0 ↔ starts_nocase name s = true) := by
  intro name
  induction name with
  | nil => intro s _; simp [sqlite3_strnicmp, starts_nocase, startsWith]
  | cons y t ih =>
    intro s hn
    have hy : lower y ≠ 0 := lower_ne_zero y (hn y (List.mem_cons_self _ _))
    have iht := fun s => ih s (fun c hc => hn c (List.mem_cons_of_mem _ hc))
    cases s with
    | nil =>
      have h0 : lower 0 = 0 := by decide
      simp only [List.length_cons, sqlite3_strnicmp, List.headD_cons, starts_nocase,
        List.map_cons, List.map_nil, startsWith, h0]
      constructor
      · intro h
        exfalso
        apply hy
        omega
      · intro h; exact absurd h (by decide)
    | cons x a =>
      simp only [List.length_cons, sqlite3_strnicmp, List.headD_cons, List.tail_cons,
        starts_nocase, List.map_cons, startsWith, Bool.and_eq_true, beq_iff_eq]
      by_cases hc : x ≠ 0 ∧ lower x = lower y
      · rw [if_pos hc, iht a]
        unfold starts_nocase
        constructor
        · intro h; exact ⟨hc.2.symm, h⟩
        · intro h; exact h.2
      · rw [if_neg hc]
        have hne : lower x ≠ lower y := by
          intro he
          apply hc
          refine ⟨?_, he⟩
          intro hx
          rw [hx] at he
          exact hy (by rw [← he]; decide)
        constructor
        · intro h
          exfalso
          apply hne
          omega
        · intro h
          exact absurd h.1.symm hne

/-- What one header line does to the file name. -/
theorem body_line_filename (b : Bool) (line : List Nat) (x : EmailBody) :
    (body_line b line x).zFilename =
      if b = false ∧ content_disposition_line line = true then
        email_hdr_value line lit_filename
      else x.zFilename := by
  have hct : (body_content_type line x).zFilename = x.zFilename := by
    unfold body_content_type
    split
    · unfold store_mimetype
      simp only []
      split <;> rfl
    · rfl
  have henc : ∀ y : EmailBody, (body_encoding line y).zFilename = y.zFilename := by
    intro y
    unfold body_encoding
    split
    · split
      · rfl
      · split <;> rfl
    · rfl
  unfold body_line body_disposition content_disposition_line
  by_cases h : b = false ∧ sqlite3_strnicmp line lit_content_disposition 20 = 0
  · rw [if_pos h, if_pos ⟨h.1, by simp [h.2]⟩]
  · rw [if_neg h, if_neg (by
      intro h2
      exact h ⟨h2.1, by simpa using h2.2⟩), henc, hct]

theorem body_of_lines_filename_capture : ∀ (ls : List (List Nat)) (x : EmailBody),
    (body_of_lines true ls x).zFilename = x.zFilename := by
  intro ls
  induction ls with
  | nil => intro x; rfl
  | cons l ls ih =>
    intro x
    simp only [body_of_lines]
    rw [ih, body_line_filename, if_neg (by simp)]

theorem body_of_lines_filename : ∀ (ls : List (List Nat)) (x : EmailBody),
    (body_of_lines false ls x).zFilename =
      last_decides content_disposition_line (fun l => email_hdr_value l lit_filename)
        x.zFilename (ls.map rtrim) := by
  intro ls
  induction ls with
  | nil => intro x; rfl
  | cons l ls ih =>
    intro x
    simp only [body_of_lines, List.map_cons, last_decides_cons]
    rw [ih, body_line_filename]
    simp

/-- What one header line does to the mimetype: a `Content-Type:` line that is not
multipart stores the first 32 bytes of the mimetype it names. -/
theorem body_line_mimetype_any (b : Bool) (line : List Nat) (x : EmailBody) :
    (body_line b line x).zMimetype =
      if (content_type_line line && !is_multipart_line line) = true then
        (mimetype_token line).take 32
      else x.zMimetype := by
  have hdisp : ∀ y : EmailBody, (body_disposition b line y).zMimetype = y.zMimetype := by
    intro y
    unfold body_disposition
    split <;> rfl
  have henc : ∀ y : EmailBody, (body_encoding line y).zMimetype = y.zMimetype := by
    intro y
    unfold body_encoding
    split
    · split
      · rfl
      · split <;> rfl
    · rfl
  unfold body_line
  rw [hdisp, henc]
  unfold body_content_type
  by_cases h1 : sqlite3_strnicmp line lit_content_type 13 = 0
  · by_cases h2 : strncmp (firstToken (line.drop 13)) lit_multipart 10 = 0
    · simp [h1, h2, content_type_line, is_multipart_line]
    · have hc : (content_type_line line && !is_multipart_line line) = true := by
        simp [h1, h2, content_type_line, is_multipart_line]
      rw [if_pos ⟨h1, h2⟩, if_pos hc]
      unfold store_mimetype mimetype_token
      simp only []
      split
      · rename_i hge
        rw [← take_scanLen, List.take_take, Nat.min_eq_left hge]
      · rename_i hlt
        rw [← take_scanLen, List.take_take, Nat.min_eq_right (by omega)]
  · have hc : ¬ (content_type_line line && !is_multipart_line line) = true := by
      simp [h1, content_type_line]
    rw [if_neg (fun h => h1 h.1), if_neg hc]

theorem body_of_lines_mimetype (b : Bool) : ∀ (ls : List (List Nat)) (x : EmailBody),
    (body_of_lines b ls x).zMimetype =
      last_decides (fun l => content_type_line l && !is_multipart_line l)
        (fun l => (mimetype_token l).take 32) x.zMimetype (ls.map rtrim) := by
  intro ls
  induction ls with
  | nil => intro x; rfl
  | cons l ls ih =>
    intro x
    simp only [body_of_lines, List.map_cons, last_decides_cons]
    rw [ih, body_line_mimetype_any]

theorem last_decides_le {α : Type} (p : List Nat → Bool) (f : List Nat → α) (dflt : α)
    (Q : α → Prop) (hd : Q dflt) (hf : ∀ l, Q (f l)) (lines : List (List Nat)) :
    Q (last_decides p f dflt lines) := by
  unfold last_decides
  split
  · exact hd
  · exact hf _

/-- The mimetype of the entry of a part takes at most 32 bytes. -/
theorem body_of_lines_mimetype_le (b : Bool) (ls : List (List Nat)) :
    (body_of_lines b ls EmailBody.zero).zMimetype.length ≤ 32 := by
  rw [body_of_lines_mimetype]
  exact last_decides_le (fun l => content_type_line l && !is_multipart_line l)
    (fun l => (mimetype_token l).take 32) EmailBody.zero.zMimetype
    (fun m : List Nat => m.length ≤ 32) (Nat.zero_le _)
    (fun l => by simp only [List.length_take]; exact Nat.min_le_left _ _) _

/-- The segment decoder on a leaf part, whatever the buffer holds: one body entry
is appended, the one that the header lines of the part give. -/
theorem leaf_part_any (d : Nat) (h : List Nat) (xs : List EmailBody) (buf : List Nat)
    (z : Nat) (b : Bool) (hleaf : leaf_part buf z) :
    ∃ buf1 o, emailtoc_add_multipart_segment (d + 1) ⟨h, xs⟩ buf z b =
      some (⟨h ++ (if b then line_offsets z (header_block (logical_lines (cstr buf z)))
          else []),
        xs ++ [{ body_of_lines b (header_block (logical_lines (cstr buf z))) EmailBody.zero
          with zContent := some o }]⟩, buf1) := by
  obtain ⟨buf1, _, _, hres⟩ := seg_unfold d h xs buf z b
  have hany : (header_block (logical_lines (cstr buf z))).any
      (fun l => is_multipart_line (rtrim l)) = false := by
    rw [List.any_eq_false]
    intro l hl
    have := hleaf (rtrim l) (List.mem_map.2 ⟨l, hl, rfl⟩)
    simp [this]
  rw [hany] at hres
  exact ⟨buf1, _, hres⟩

theorem part_lines_block (buf : List Nat) (z : Nat) (cl : List (List Nat)) (bd : List Nat)
    (hC : cstr buf z = unlines cl ++ 10 :: bd) (hok : ∀ l ∈ cl, header_line_ok l) :
    part_lines buf z = cl.map rtrim := by
  obtain ⟨bl, rest, hll, hbl, _⟩ := logical_lines_message cl bd hok
  obtain ⟨hhb, _⟩ := header_block_lines cl bl rest hok hbl
  unfold part_lines
  rw [hC, hll, hhb, map_rtrim_lines]

theorem last_decides_last {α : Type} (p : List Nat → Bool) (f : List Nat → α) (dflt : α)
    (ls1 ls2 : List (List Nat)) (l : List Nat) (hl : p l = true)
    (h2 : ∀ m ∈ ls2, p m = false) :
    last_decides p f dflt (ls1 ++ l :: ls2) = f l := by
  have hf2 : ls2.filter p = [] := by
    rw [List.filter_eq_nil_iff]
    intro m hm
    rw [h2 m hm]
    decide
  unfold last_decides
  rw [List.filter_append, List.filter_cons, if_pos hl, hf2, List.getLast?_append]
  simp

theorem last_decides_none {α : Type} (p : List Nat → Bool) (f : List Nat → α) (dflt : α)
    (ls : List (List Nat)) (h : ∀ m ∈ ls, p m = false) :
    last_decides p f dflt ls = dflt := by
  have hf : ls.filter p = [] := by
    rw [List.filter_eq_nil_iff]
    intro m hm
    rw [h m hm]
    decide
  unfold last_decides
  rw [hf]
  rfl

/-- The file name of the entry of a leaf part decoded without header capture. -/
theorem part_filename (d : Nat) (h : List Nat) (xs : List EmailBody) (buf : List Nat) (z : Nat)
    (hleaf : leaf_part buf z) :
    ∃ buf1 x, emailtoc_add_multipart_segment (d + 1) ⟨h, xs⟩ buf z false
        = some (⟨h, xs ++ [x]⟩, buf1) ∧
      x.zFilename = spec_filename (part_lines buf z) := by
  obtain ⟨buf1, o, hres⟩ := leaf_part_any d h xs buf z false hleaf
  refine ⟨buf1, { body_of_lines false (header_block (logical_lines (cstr buf z)))
    EmailBody.zero with zContent := some o }, ?_, ?_⟩
  · rw [hres]; simp
  · exact body_of_lines_filename _ _

theorem child_filename_example :
    (emailtoc_add_multipart_segment 1 ⟨[7], []⟩
        (bytes ("Content-Disposition: attachment; filename=\"a.txt\"\n" ++
          "Content-Disposition: attachment; filename=\"b.txt\n\nhello") ++ [0]) 0 false).map
      (fun r => r.1.aBody.map (fun x => x.zFilename)) = some [none] ∧
    (emailtoc_add_multipart_segment 1 ⟨[7], []⟩
        (bytes ("Content-Disposition: attachment; filename=\"b.txt\n" ++
          "Content-Disposition: attachment; filename=\"a.txt\"\n\nhello") ++ [0]) 0 false).map
      (fun r => r.1.aBody.map (fun x => x.zFilename)) = some [some (bytes "a.txt")] := by
  decide!

/-! ## The two forms of the `filename` parameter -/

theorem startsWith_append_left : ∀ (N A X : List Nat), N.length ≤ A.length →
    startsWith N (A ++ X) = startsWith N A := by
  intro N
  induction N with
  | nil => intro A X _; simp [startsWith]
  | cons n N ih =>
    intro A X h
    cases A with
    | nil => simp at h
    | cons a A =>
      simp only [List.cons_append, startsWith, List.append_eq]
      rw [ih A X (by simpa using h)]

theorem first_occurrence_append (N A X : List Nat) (k : Nat) (h : first_occurrence N A k)
    (hk : k + N.length ≤ A.length) : first_occurrence N (A ++ X) k := by
  obtain ⟨⟨_, hs⟩, hno⟩ := h
  have hdrop : ∀ m, m ≤ k → startsWith N ((A ++ X).drop m) = startsWith N (A.drop m) := by
    intro m hm
    rw [List.drop_append_of_le_length (by omega)]
    exact startsWith_append_left N _ X (by rw [List.length_drop]; omega)
  refine ⟨⟨by rw [List.length_append]; omega, ?_⟩, ?_⟩
  · rw [hdrop k (Nat.le_refl _)]; exact hs
  · intro m hm
    rw [hdrop m (by omega)]
    exact hno m hm

theorem scanLen_all_true (f : Nat → Bool) (h0 : f 0 = false) (V : List Nat)
    (hV : ∀ c ∈ V, f c = true) : scanLen f V = V.length := by
  have := scanLen_append f V [] hV (by simpa using h0)
  simpa using this

theorem rtrim_no_space (V : List Nat) (hV : ∀ c ∈ V, fossil_isspace c = false) :
    rtrim V = V := by
  rcases List.eq_nil_or_concat V with h | ⟨a, x, h⟩
  · rw [h]; exact rtrim_nil
  · rw [h, List.concat_eq_append, rtrim_concat]
    have hx : fossil_isspace x = false :=
      hV x (by rw [h, List.concat_eq_append]; simp)
    simp [hx]

theorem cd_quoted_bytes (V : List Nat) :
    bytes "Content-Disposition: attachment; filename=\"" ++ V ++ [34]
      = bytes "Content-Disposition: attachment; filename" ++ 61 :: 34 :: (V ++ [34]) := by
  have : bytes "Content-Disposition: attachment; filename=\""
      = bytes "Content-Disposition: attachment; filename" ++ [61, 34] := by decide!
  rw [this]
  simp

theorem cd_unquoted_bytes (V : List Nat) :
    bytes "Content-Disposition: attachment; filename=" ++ V
      = bytes "Content-Disposition: attachment; filename" ++ 61 :: V := by
  have : bytes "Content-Disposition: attachment; filename="
      = bytes "Content-Disposition: attachment; filename" ++ [61] := by decide!
  rw [this]
  simp

theorem cd_prefix_length : (bytes "Content-Disposition: attachment; filename").length = 41 := by
  decide!

/-- What is known of a line that begins with
`Content-Disposition: attachment; filename` and goes on with bytes that are
neither NUL nor newline: it is a header line, a `Content-Disposition:` line and
no multipart line, and the name `filename` occurs in it at offset 33 first. -/
theorem cd_line_facts (Y : List Nat) (hY : ∀ c ∈ Y, c ≠ 0 ∧ c ≠ 10) :
    header_line_ok (bytes "Content-Disposition: attachment; filename" ++ Y) ∧
    content_disposition_line (bytes "Content-Disposition: attachment; filename" ++ Y) = true ∧
    is_multipart_line (bytes "Content-Disposition: attachment; filename" ++ Y) = false ∧
    first_occurrence lit_filename (bytes "Content-Disposition: attachment; filename" ++ Y) 33 ∧
    (bytes "Content-Disposition: attachment; filename" ++ Y).drop (33 + 8) = Y := by
  have hP : header_line_ok (bytes "Content-Disposition: attachment; filename") := by decide!
  have h67 : bytes "Content-Disposition: attachment; filename"
      = 67 :: 111 :: (bytes "Content-Disposition: attachment; filename").drop 2 := by decide!
  refine ⟨⟨?_, ?_, ?_, ?_, ?_⟩, ?_, ?_, ?_, ?_⟩
  · rw [h67]; simp
  · rw [h67]; simp
  · intro c hc
    rcases List.mem_append.1 hc with h | h
    · exact hP.2.2.1 c h
    · exact hY c h
  · rw [h67]; simp
  · rw [h67]; simp
  · unfold content_disposition_line
    rw [strnicmp_append 20 _ Y _ (by rw [cd_prefix_length]; omega)]
    decide!
  · unfold is_multipart_line
    rw [strnicmp_append 13 _ Y _ (by rw [cd_prefix_length]; omega)]
    have : ¬ sqlite3_strnicmp (bytes "Content-Disposition: attachment; filename")
        lit_content_type 13 = 0 := by decide!
    simp [this]
  · exact first_occurrence_append _ _ Y 33 (by decide!) (by rw [cd_prefix_length]; decide)
  · have e : 33 + 8 = (bytes "Content-Disposition: attachment; filename").length := by
      rw [cd_prefix_length]
    rw [e, drop_append_left]

/-- The quoted form `filename="V"`: the line is its own trimmed form and the
parameter is `V`. -/
theorem cd_quoted_value (V : List Nat)
    (hV : ∀ c ∈ V, c ≠ 0 ∧ c ≠ 34 ∧ fossil_isspace c = false) :
    rtrim (bytes "Content-Disposition: attachment; filename=\"" ++ V ++ [34])
      = bytes "Content-Disposition: attachment; filename=\"" ++ V ++ [34] ∧
    email_hdr_value (bytes "Content-Disposition: attachment; filename=\"" ++ V ++ [34])
      lit_filename = some V := by
  constructor
  · rw [rtrim_concat]
    simp [fossil_isspace]
  · rw [cd_quoted_bytes]
    have hY : ∀ c ∈ 61 :: 34 :: (V ++ [34]), c ≠ 0 ∧ c ≠ 10 := by
      intro c hc
      simp only [List.mem_cons, List.mem_append, List.mem_singleton, List.not_mem_nil,
        or_false] at hc
      rcases hc with h | h | h | h
      · rw [h]; decide
      · rw [h]; decide
      · refine ⟨(hV c h).1, ?_⟩
        intro h10
        have := (hV c h).2.2
        rw [h10] at this
        exact absurd this (by decide)
      · rw [h]; decide
    obtain ⟨_, _, _, hfirst, hdrop⟩ := cd_line_facts _ hY
    exact hdr_value_quoted _ lit_filename V [] 33 hfirst hdrop
      (fun c hc => ⟨(hV c hc).2.1, (hV c hc).1⟩)

/-- The unquoted form `filename=V`: the line is its own trimmed form and the
parameter is `V`. -/
theorem cd_unquoted_value (V : List Nat)
    (hV : ∀ c ∈ V, c ≠ 0 ∧ c ≠ 34 ∧ fossil_isspace c = false) :
    rtrim (bytes "Content-Disposition: attachment; filename=" ++ V)
      = bytes "Content-Disposition: attachment; filename=" ++ V ∧
    email_hdr_value (bytes "Content-Disposition: attachment; filename=" ++ V)
      lit_filename = some V := by
  constructor
  · rw [rtrim_append_keep _ V (by decide!), rtrim_no_space V (fun c hc => (hV c hc).2.2)]
  · rw [cd_unquoted_bytes]
    have hY : ∀ c ∈ 61 :: V, c ≠ 0 ∧ c ≠ 10 := by
      intro c hc
      simp only [List.mem_cons] at hc
      rcases hc with h | h
      · rw [h]; decide
      · refine ⟨(hV c h).1, ?_⟩
        intro h10
        have := (hV c h).2.2
        rw [h10] at this
        exact absurd this (by decide)
    obtain ⟨_, _, _, hfirst, hdrop⟩ := cd_line_facts _ hY
    rw [hdr_value_at _ lit_filename 33 hfirst]
    have hlen : lit_filename.length = 8 := rfl
    rw [hlen, hdrop]
    have hq : V.headD 0 ≠ 34 := by
      cases V with
      | nil => decide
      | cons a t => exact (hV a (List.mem_cons_self _ _)).2.1
    simp only [List.headD_cons, List.tail_cons, ne_eq, not_true_eq_false, if_false]
    rw [if_neg hq, scanLen_all_true _ (by decide) V (fun c hc => by
      simp [(hV c hc).1, (hV c hc).2.2])]
    simp

theorem cd_line_ok (L V : List Nat)
    (hV : ∀ c ∈ V, c ≠ 0 ∧ c ≠ 34 ∧ fossil_isspace c = false)
    (hL : L = bytes "Content-Disposition: attachment; filename=\"" ++ V ++ [34] ∨
      L = bytes "Content-Disposition: attachment; filename=" ++ V) :
    header_line_ok L ∧ rtrim L = L ∧ content_disposition_line L = true ∧
      is_multipart_line L = false ∧ email_hdr_value L lit_filename = some V := by
  have h10 : ∀ c ∈ V, c ≠ 0 ∧ c ≠ 10 := by
    intro c hc
    refine ⟨(hV c hc).1, ?_⟩
    intro h
    have := (hV c hc).2.2
    rw [h] at this
    exact absurd this (by decide)
  rcases hL with h | h
  · obtain ⟨h1, h2⟩ := cd_quoted_value V hV
    rw [h]
    refine ⟨?_, h1, ?_, ?_, h2⟩
    all_goals rw [cd_quoted_bytes]
    all_goals
      have hY : ∀ c ∈ 61 :: 34 :: (V ++ [34]), c ≠ 0 ∧ c ≠ 10 := by
        intro c hc
        simp only [List.mem_cons, List.mem_append, List.mem_singleton, List.not_mem_nil,
          or_false] at hc
        rcases hc with h | h | h | h
        · rw [h]; decide
        · rw [h]; decide
        · exact h10 c h
        · rw [h]; decide
    · exact (cd_line_facts _ hY).1
    · exact (cd_line_facts _ hY).2.1
    · exact (cd_line_facts _ hY).2.2.1
  · obtain ⟨h1, h2⟩ := cd_unquoted_value V hV
    rw [h]
    refine ⟨?_, h1, ?_, ?_, h2⟩
    all_goals rw [cd_unquoted_bytes]
    all_goals
      have hY : ∀ c ∈ 61 :: V, c ≠ 0 ∧ c ≠ 10 := by
        intro c hc
        simp only [List.mem_cons] at hc
        rcases hc with h | h
        · rw [h]; decide
        · exact h10 c h
    · exact (cd_line_facts _ hY).1
    · exact (cd_line_facts _ hY).2.1
    · exact (cd_line_facts _ hY).2.2.1

theorem child_filename_a_txt :
    (emailtoc_add_multipart_segment 1 ⟨[7], []⟩
        (bytes "Content-Disposition: attachment; filename=\"a.txt\"\n\nhello" ++ [0]) 0
        false).map (fun r => r.1.aBody.map (fun x => x.zFilename))
      = some [some (bytes "a.txt")] ∧
    (emailtoc_add_multipart_segment 1 ⟨[7], []⟩
        (bytes "Content-Disposition: attachment; filename=a.txt\n\nhello" ++ [0]) 0
        false).map (fun r => r.1.aBody.map (fun x => x.zFilename))
      = some [some (bytes "a.txt")] := by
  decide!

/-! ## The top-level part and the file name -/

/-- The encoding and the mimetype of the entry of a leaf part, when no
`Content-Type:` line of the part names a mimetype of 32 bytes or more. -/
theorem part_encoding (d : Nat) (h : List Nat) (xs : List EmailBody) (buf : List Nat) (z : Nat)
    (b : Bool) (hleaf : leaf_part buf z)
    (hshort : ∀ l ∈ part_lines buf z, content_type_line l = true →
      (mimetype_token l).length < 32) :
    ∃ toc buf1 x, emailtoc_add_multipart_segment (d + 1) ⟨h, xs⟩ buf z b = some (toc, buf1) ∧
      toc.aBody = xs ++ [x] ∧ x.encoding = spec_encoding (part_lines buf z) := by
  obtain ⟨buf1, o, hres⟩ := leaf_part_any d h xs buf z b hleaf
  refine ⟨_, buf1, { body_of_lines b (header_block (logical_lines (cstr buf z)))
    EmailBody.zero with zContent := some o }, hres, rfl, ?_⟩
  exact (body_of_lines_spec b _ EmailBody.zero (fun l hl =>
    hshort (rtrim l) (List.mem_map.2 ⟨l, hl, rfl⟩))).1

theorem named_encoding_eq (l : List Nat) :
    named_encoding l =
      if starts_nocase lit_base64 (firstToken (l.drop 26)) = true then EMAILENC_B64
      else if starts_nocase lit_quoted_printable (firstToken (l.drop 26)) = true then
        EMAILENC_QUOTED
      else EMAILENC_NONE := by
  have h1 := strnicmp_starts lit_base64 (firstToken (l.drop 26)) (by decide)
  have h2 := strnicmp_starts lit_quoted_printable (firstToken (l.drop 26)) (by decide)
  have e1 : lit_base64.length = 6 := rfl
  have e2 : lit_quoted_printable.length = 16 := rfl
  rw [e1] at h1
  rw [e2] at h2
  unfold named_encoding
  by_cases hb : sqlite3_strnicmp (firstToken (l.drop 26)) lit_base64 6 = 0
  · rw [if_pos hb, if_pos (h1.1 hb)]
  · rw [if_neg hb, if_neg (fun hh => hb (h1.2 hh))]
    by_cases hq : sqlite3_strnicmp (firstToken (l.drop 26)) lit_quoted_printable 16 = 0
    · rw [if_pos hq, if_pos (h2.1 hq)]
    · rw [if_neg hq, if_neg (fun hh => hq (h2.2 hh))]

theorem transfer_encoding_line_eq (l : List Nat) :
    transfer_encoding_line l = starts_nocase lit_content_transfer_encoding l := by
  have h := strnicmp_starts lit_content_transfer_encoding l (by decide)
  have e : lit_content_transfer_encoding.length = 26 := rfl
  rw [e] at h
  unfold transfer_encoding_line
  cases hs : starts_nocase lit_content_transfer_encoding l with
  | true => simp [h.2 hs]
  | false =>
    have : ¬ sqlite3_strnicmp l lit_content_transfer_encoding 26 = 0 := by
      intro h0
      rw [h.1 h0] at hs
      exact absurd hs (by decide)
    simp [this]

/-- The failing input of C18, C19 (and C3): a part whose
`Content-Transfer-Encoding: base64` line is followed by a `Content-Type:` line
that names a mimetype of 32 bytes.  The header lines say base64; the segment has
encoding None and a mimetype of 32 bytes, which fills the 32-byte field. -/
theorem encoding_clobbered :
    spec_encoding (part_lines (bytes ("Content-Transfer-Encoding: base64\n" ++
      "Content-Type: aaaaaaaaaaaaaaaa/bbbbbbbbbbbbbbb\n\naGVsbG8=") ++ [0]) 0) = EMAILENC_B64 ∧
    (emailtoc_from_email (bytes ("Content-Transfer-Encoding: base64\n" ++
      "Content-Type: aaaaaaaaaaaaaaaa/bbbbbbbbbbbbbbb\n\naGVsbG8="))).map
      (fun r => r.1.aBody.map (fun x => (x.zMimetype.length, x.encoding)))
      = some [(32, EMAILENC_NONE)] ∧
    (emailtoc_from_email (bytes ("Content-Transfer-Encoding: base64\n" ++
      "Content-Type: aaaaaaaaaaaaaaaa/bbbbbbbbbbbbbb\n\naGVsbG8="))).map
      (fun r => r.1.aBody.map (fun x => (x.zMimetype.length, x.encoding)))
      = some [(31, EMAILENC_B64)] := by
  decide!

/-- C18: for every leaf part in which no `Content-Type:` line names a mimetype of
32 bytes or more, decoded with or without header capture, the encoding of the
segment is decided by the last header line whose field name matches
`Content-Transfer-Encoding:` without regard to case: Base64 (1) if the first token
of its value starts, without regard to case, with `base64`, QuotedPrintable (2) if
it starts with `quoted-printable`, None (0) for any other value; and it is None
when the part has no such line. -/
theorem leaf_encoding (d : Nat) (h : List Nat) (xs : List EmailBody) (buf : List Nat) (z : Nat)
    (b : Bool) (hleaf : leaf_part buf z)
    (hshort : ∀ l ∈ part_lines buf z, content_type_line l = true →
      (mimetype_token l).length < 32) :
    (∃ toc buf1 x, emailtoc_add_multipart_segment (d + 1) ⟨h, xs⟩ buf z b = some (toc, buf1) ∧
      toc.aBody = xs ++ [x] ∧ x.encoding = spec_encoding (part_lines buf z)) ∧
    (∀ (ls1 ls2 : List (List Nat)) (l : List Nat),
      starts_nocase lit_content_transfer_encoding l = true →
      (∀ m ∈ ls2, starts_nocase lit_content_transfer_encoding m = false) →
      spec_encoding (ls1 ++ l :: ls2) =
        if starts_nocase lit_base64 (firstToken (l.drop 26)) = true then 1
        else if starts_nocase lit_quoted_printable (firstToken (l.drop 26)) = true then 2
        else 0) ∧
    (∀ ls : List (List Nat),
      (∀ m ∈ ls, starts_nocase lit_content_transfer_encoding m = false) →
      spec_encoding ls = 0) := by
  refine ⟨part_encoding d h xs buf z b hleaf hshort, ?_, ?_⟩
  · intro ls1 ls2 l hl h2
    unfold spec_encoding
    rw [last_decides_last _ _ _ ls1 ls2 l (by rw [transfer_encoding_line_eq]; exact hl)
      (fun m hm => by rw [transfer_encoding_line_eq]; exact h2 m hm)]
    exact named_encoding_eq l
  · intro ls h2
    unfold spec_encoding
    exact last_decides_none _ _ _ ls
      (fun m hm => by rw [transfer_encoding_line_eq]; exact h2 m hm)

/-- Witness for C18: a part with two `Content-Transfer-Encoding:` lines. -/
theorem leaf_encoding_witness :
    ∃ toc buf1 x, emailtoc_add_multipart_segment 1 ⟨[], []⟩
        (bytes ("content-transfer-encoding: base64\nContent-Type: text/plain\n" ++
          "Content-Transfer-Encoding:   Quoted-Printable; x\n\nhello") ++ [0]) 0 false
        = some (toc, buf1) ∧
      toc.aBody = [] ++ [x] ∧
      x.encoding = spec_encoding (part_lines
        (bytes ("content-transfer-encoding: base64\nContent-Type: text/plain\n" ++
          "Content-Transfer-Encoding:   Quoted-Printable; x\n\nhello") ++ [0]) 0) :=
  (leaf_encoding 0 [] []
    (bytes ("content-transfer-encoding: base64\nContent-Type: text/plain\n" ++
      "Content-Transfer-Encoding:   Quoted-Printable; x\n\nhello") ++ [0]) 0 false
    (by decide!) (by decide!)).1

theorem leaf_encoding_example :
    (emailtoc_add_multipart_segment 1 ⟨[], []⟩
        (bytes ("content-transfer-encoding: base64\nContent-Type: text/plain\n" ++
          "Content-Transfer-Encoding:   Quoted-Printable; x\n\nhello") ++ [0]) 0 false).map
      (fun r => r.1.aBody.map (fun x => x.encoding)) = some [EMAILENC_QUOTED] := by
  decide!

/-- The failing input of C19: the part names a mimetype of 32 alphanumeric and
`'/'` bytes after a `Content-Transfer-Encoding: base64` line.  The mimetype of the
segment takes 32 bytes, one more than 31, so that no NUL is left inside the 32-byte
field, and storing it has changed the encoding from base64 to None; with a
mimetype of 31 bytes the field holds it whole and the encoding stays. -/
theorem mimetype_overflow :
    (emailtoc_from_email (bytes ("Content-Transfer-Encoding: base64\n" ++
      "Content-Type: aaaaaaaaaaaaaaaa/bbbbbbbbbbbbbbb\n\nx"))).map
      (fun r => r.1.aBody.map (fun x => (x.zMimetype, x.encoding)))
      = some [(bytes "aaaaaaaaaaaaaaaa/bbbbbbbbbbbbbbb", EMAILENC_NONE)] ∧
    (bytes "aaaaaaaaaaaaaaaa/bbbbbbbbbbbbbbb").length = 32 ∧
    (store_mimetype { EmailBody.zero with encoding := EMAILENC_B64 }
      (bytes "aaaaaaaaaaaaaaaa/bbbbbbbbbbbbbbb")).encoding = EMAILENC_NONE ∧
    (emailtoc_from_email (bytes ("Content-Transfer-Encoding: base64\n" ++
      "Content-Type: aaaaaaaaaaaaaaaa/bbbbbbbbbbbbbb\n\nx"))).map
      (fun r => r.1.aBody.map (fun x => (x.zMimetype, x.encoding)))
      = some [(bytes "aaaaaaaaaaaaaaaa/bbbbbbbbbbbbbb", EMAILENC_B64)] := by
  decide!

/-- C19, as far as the code goes: for every input buffer, `emailtoc_from_email`
returns and the mimetype of every body segment takes at most 32 bytes (not 31).  A
`Content-Type` token that begins with fewer than 32 alphanumeric and `'/'` bytes is
stored whole, in at most 31 bytes with its NUL inside the 32-byte field, and no
other field of the segment changes.  A token of 32 such bytes or more is cut to 32
bytes (not 31), which fill the field, and the NUL is stored on the byte after the
field, the field `encoding`, which becomes 0. -/
theorem mimetype_field_bound :
    (∀ msg : List Nat, ∃ toc buf1, emailtoc_from_email msg = some (toc, buf1) ∧
      ∀ x ∈ toc.aBody, x.zMimetype.length ≤ 32) ∧
    (∀ (x : EmailBody) (z2 : List Nat),
      (z2.takeWhile (fun c => c == 47 || fossil_isalnum c)).length < 32 →
      store_mimetype x z2 =
        { x with zMimetype := z2.takeWhile (fun c => c == 47 || fossil_isalnum c) } ∧
      (store_mimetype x z2).zMimetype.length ≤ 31) ∧
    (∀ (x : EmailBody) (z2 : List Nat),
      32 ≤ (z2.takeWhile (fun c => c == 47 || fossil_isalnum c)).length →
      (store_mimetype x z2).zMimetype = z2.take 32 ∧
      (store_mimetype x z2).zMimetype.length = 32 ∧
      (store_mimetype x z2).encoding = 0 ∧
      (store_mimetype x z2).zFilename = x.zFilename ∧
      (store_mimetype x z2).zContent = x.zContent) := by
  refine ⟨?_, ?_, ?_⟩
  · intro msg
    obtain ⟨toc, buf1, hr, _, _, hq⟩ := top_inv_of (fun y => y.zMimetype.length ≤ 32)
      (fun b ls o => body_of_lines_mimetype_le b ls) msg
    exact ⟨toc, buf1, hr, hq⟩
  · intro x z2 hlt
    rw [← scanLen_eq_length] at hlt
    have hs : store_mimetype x z2 =
        { x with zMimetype := z2.takeWhile (fun c => c == 47 || fossil_isalnum c) } := by
      unfold store_mimetype
      simp only []
      rw [if_neg (by omega), take_scanLen]
    refine ⟨hs, ?_⟩
    rw [hs]
    simp only []
    rw [← scanLen_eq_length]
    omega
  · intro x z2 hge
    rw [← scanLen_eq_length] at hge
    have hs : store_mimetype x z2 = { x with zMimetype := z2.take 32, encoding := 0 } := by
      unfold store_mimetype
      simp only []
      rw [if_pos hge]
    rw [hs]
    refine ⟨rfl, ?_, rfl, rfl, rfl⟩
    simp only [List.length_take]
    have := scanLen_le (fun c => c == 47 || fossil_isalnum c) z2
    omega

/-- Witness for C19: the token `text/plain; charset=utf-8` is stored as
`text/plain`. -/
theorem mimetype_field_bound_witness :
    store_mimetype EmailBody.zero (bytes "text/plain; charset=utf-8") =
        { EmailBody.zero with zMimetype := ((bytes "text/plain; charset=utf-8").takeWhile
          (fun c => c == 47 || fossil_isalnum c)) } ∧
      (store_mimetype EmailBody.zero (bytes "text/plain; charset=utf-8")).zMimetype.length
        ≤ 31 :=
  mimetype_field_bound.2.1 EmailBody.zero (bytes "text/plain; charset=utf-8") (by decide!)

theorem mimetype_token_example :
    mimetype_token (bytes "Content-Type: text/plain; charset=utf-8") = bytes "text/plain" ∧
    mimetype_token (bytes "Content-Type: ;x") = [] ∧
    mimetype_token (bytes "Content-Type:") = [] ∧
    (emailtoc_from_email (bytes ("Content-Type: image/png\n" ++
      "content-type:  text/plain; charset=utf-8\n\nhello"))).map
      (fun r => r.1.aBody.map (fun x => x.zMimetype)) = some [bytes "text/plain"] := by
  decide!

/-- The mimetype of the entry of a leaf part, when the last `Content-Type:` line
names a mimetype shorter than 32 bytes. -/
theorem part_mimetype (d : Nat) (h : List Nat) (xs : List EmailBody) (buf : List Nat) (z : Nat)
    (b : Bool) (hleaf : leaf_part buf z)
    (hshort : ∀ l, ((part_lines buf z).filter
        (fun l => content_type_line l && !is_multipart_line l)).getLast? = some l →
      (mimetype_token l).length < 32) :
    ∃ toc buf1 x, emailtoc_add_multipart_segment (d + 1) ⟨h, xs⟩ buf z b = some (toc, buf1) ∧
      toc.aBody = xs ++ [x] ∧ x.zMimetype = spec_mimetype (part_lines buf z) := by
  obtain ⟨buf1, o, hres⟩ := leaf_part_any d h xs buf z b hleaf
  refine ⟨_, buf1, { body_of_lines b (header_block (logical_lines (cstr buf z)))
    EmailBody.zero with zContent := some o }, hres, rfl, ?_⟩
  have h1 := body_of_lines_mimetype b (header_block (logical_lines (cstr buf z)))
    EmailBody.zero
  show (body_of_lines b (header_block (logical_lines (cstr buf z))) EmailBody.zero).zMimetype
    = spec_mimetype (part_lines buf z)
  rw [h1]
  unfold spec_mimetype last_decides
  show (match ((part_lines buf z).filter
      (fun l => content_type_line l && !is_multipart_line l)).getLast? with
    | none => EmailBody.zero.zMimetype
    | some l => (mimetype_token l).take 32) = _
  cases hg : ((part_lines buf z).filter
      (fun l => content_type_line l && !is_multipart_line l)).getLast? with
  | none => rfl
  | some l =>
    simp only []
    exact List.take_of_length_le (by have := hshort l hg; omega)

/-! ## A multipart body without a boundary line -/

theorem skip_to_boundary_line : ∀ (t : List Nat) (f : Bool) (k : Nat),
    skip_to_boundary f t = some k →
    k < t.length ∧ (if k = 0 then f = true else rd t (k - 1) = 10) ∧ rd t k = 45 ∧
      rd t (k + 1) = 45 := by
  intro t
  induction t with
  | nil => intro f k h; simp [skip_to_boundary] at h
  | cons c rest ih =>
    intro f k h
    simp only [skip_to_boundary] at h
    split at h
    · rename_i hc
      simp only [Bool.and_eq_true, beq_iff_eq] at hc
      simp only [Option.some.injEq] at h
      subst h
      obtain ⟨⟨hf, hc1⟩, hc2⟩ := hc
      refine ⟨by simp, by simpa using hf, by simpa [rd] using hc1, ?_⟩
      rw [rd_cons_succ, rd_headD]
      exact hc2
    · cases hr : skip_to_boundary (c == 10) rest with
      | none => rw [hr] at h; simp at h
      | some j =>
        rw [hr] at h
        simp only [Option.map_some', Option.some.injEq] at h
        subst h
        obtain ⟨h1, h2, h3, h4⟩ := ih (c == 10) j hr
        refine ⟨by simp only [List.length_cons]; omega, ?_, ?_, ?_⟩
        · rw [if_neg (by omega)]
          cases j with
          | zero =>
            simp only [if_true, beq_iff_eq] at h2
            simpa [rd] using h2
          | succ j =>
            rw [if_neg (by omega)] at h2
            simpa [rd_cons_succ] using h2
        · rw [rd_cons_succ]; exact h3
        · rw [rd_cons_succ]; exact h4

/-- C21: for every multipart body (the string at `z`) in which no line begins with
the two bytes `"--"`, `emailtoc_add_multipart` returns without a call of the
segment decoder: the table of contents, body list and header list, is the one it
was given and the buffer is the one it was given, whatever the nesting depth and
whatever routine stands for the segment decoder. -/
theorem no_boundary_no_child (d : Nat) (p : EmailToc) (buf : List Nat) (z : Nat)
    (h : ∀ k, k < (cstr buf z).length → ¬ dash_line_at (cstr buf z) k) :
    emailtoc_add_multipart d p buf z = some (p, buf) ∧
    ∀ seg, emailtoc_add_multipart_with seg p buf z = some (p, buf) := by
  have key : skip_to_boundary true (cstr buf z) = none := by
    cases hk : skip_to_boundary true (cstr buf z) with
    | none => rfl
    | some k =>
      exfalso
      obtain ⟨h1, h2, h3, h4⟩ := skip_to_boundary_line _ _ _ hk
      apply h k h1
      refine ⟨?_, h3, h4⟩
      by_cases hk0 : k = 0
      · left; exact hk0
      · right
        rw [if_neg hk0] at h2
        exact h2
  have hall : ∀ seg, emailtoc_add_multipart_with seg p buf z = some (p, buf) := by
    intro seg
    unfold emailtoc_add_multipart_with
    rw [key]
  exact ⟨hall _, hall⟩

/-- Witness for C21: a body of two lines, one of which has `--` after its first
byte. -/
theorem no_boundary_no_child_witness :
    emailtoc_add_multipart 5 ⟨[3], []⟩ (bytes "xpreamble\n --XYZ\n-x\n" ++ [0]) 1
        = some (⟨[3], []⟩, bytes "xpreamble\n --XYZ\n-x\n" ++ [0]) ∧
    ∀ seg, emailtoc_add_multipart_with seg ⟨[3], []⟩ (bytes "xpreamble\n --XYZ\n-x\n" ++ [0]) 1
        = some (⟨[3], []⟩, bytes "xpreamble\n --XYZ\n-x\n" ++ [0]) :=
  no_boundary_no_child 5 ⟨[3], []⟩ (bytes "xpreamble\n --XYZ\n-x\n" ++ [0]) 1 (by decide!)

/-! ## `webmail_normal_header` -/

theorem strnicmp_take : ∀ (N : Nat) (z name : List Nat), (∀ c ∈ z, c ≠ 0) → N ≤ z.length →
    (sqlite3_strnicmp z name N = 0 ↔
      N ≤ name.length ∧ (z.take N).map lower = (name.take N).map lower) := by
  intro N
  induction N with
  | zero => intro z name _ _; simp [sqlite3_strnicmp]
  | succ N ih =>
    intro z name hz hN
    cases z with
    | nil => simp at hN
    | cons x a =>
      have hx : x ≠ 0 := hz x (List.mem_cons_self _ _)
      have hlx : lower x ≠ 0 := lower_ne_zero x hx
      have iha := fun name => ih a name (fun c hc => hz c (List.mem_cons_of_mem _ hc))
        (by simpa using hN)
      cases name with
      | nil =>
        have h0 : lower 0 = 0 := by decide
        simp only [sqlite3_strnicmp, List.headD_nil, h0, List.length_nil]
        rw [if_neg (fun h => hlx h.2)]
        constructor
        · intro h; exfalso; apply hlx; omega
        · intro h; omega
      | cons y b =>
        simp only [sqlite3_strnicmp, List.headD_cons, List.tail_cons, List.length_cons,
          List.take_succ_cons, List.map_cons, List.cons.injEq]
        by_cases hc : lower x = lower y
        · rw [if_pos ⟨hx, hc⟩, iha b]
          constructor
          · intro h; exact ⟨by omega, hc, h.2⟩
          · intro h; exact ⟨by omega, h.2.2⟩
        · rw [if_neg (fun h => hc h.2)]
          constructor
          · intro h; exfalso; apply hc; omega
          · intro h; exact absurd h.2.1 hc

theorem normal_header_iff (z : List Nat) (N : Nat) :
    webmail_normal_header z N = 1 ↔
      ∃ name ∈ normal_header_names, sqlite3_strnicmp z name N = 0 := by
  unfold webmail_normal_header
  constructor
  · intro h
    split at h
    · rename_i ha
      rw [List.any_eq_true] at ha
      obtain ⟨name, hn, hd⟩ := ha
      exact ⟨name, hn, by simpa using hd⟩
    · exact absurd h (by decide)
  · intro ⟨name, hn, hd⟩
    rw [if_pos]
    rw [List.any_eq_true]
    exact ⟨name, hn, by simpa using hd⟩

/-- C26 as stated fails on the line `S: x` with `N = 1`, the offset of its colon:
the byte `S` is not the whole name of one of the six fields, and
`webmail_normal_header` returns 1; it also returns 1 for `N = 0`. -/
theorem normal_header_counterexample :
    webmail_normal_header (bytes "S: x") 1 = 1 ∧
    (∀ name ∈ normal_header_names, ¬ is_whole_name name (bytes "S: x") 1) ∧
    webmail_normal_header (bytes ": x") 0 = 1 ∧
    (∀ name ∈ normal_header_names, ¬ is_whole_name name (bytes ": x") 0) := by
  decide!

/-- C26, as far as the code goes: `webmail_normal_header(z, N)` returns 1 or 0;
it returns 1 whenever the first `N` bytes of `z` are, without regard to case, the
whole name of one of the fields To, Cc, Bcc, Date, From, Subject; and for a string
`z` of at least `N` bytes it returns 1 exactly when its first `N` bytes are,
without regard to case, the first `N` bytes of one of these names, which need not
be the whole name. -/
theorem normal_header_spec (z : List Nat) (N : Nat) :
    (webmail_normal_header z N = 1 ∨ webmail_normal_header z N = 0) ∧
    ((∃ name ∈ normal_header_names, is_whole_name name z N) → webmail_normal_header z N = 1) ∧
    ((∀ c ∈ z, c ≠ 0) → N ≤ z.length →
      (webmail_normal_header z N = 1 ↔
        ∃ name ∈ normal_header_names, N ≤ name.length ∧
          (z.take N).map lower = (name.take N).map lower)) := by
  have hnames : ∀ name ∈ normal_header_names, ∀ c ∈ name, c ≠ 0 := by decide!
  refine ⟨?_, ?_, ?_⟩
  · unfold webmail_normal_header
    split
    · left; rfl
    · right; rfl
  · intro ⟨name, hn, hN, hw⟩
    rw [normal_header_iff]
    refine ⟨name, hn, ?_⟩
    rw [hN, strnicmp_starts name z (hnames name hn)]
    unfold starts_nocase
    have hsplit : z.map lower = (z.take N).map lower ++ (z.drop N).map lower := by
      rw [← List.map_append, List.take_append_drop]
    rw [hsplit, hw]
    have : ∀ (A X : List Nat), startsWith A (A ++ X) = true := by
      intro A
      induction A with
      | nil => intro X; simp [startsWith]
      | cons a A ih => intro X; simp [startsWith, ih]
    exact this _ _
  · intro hz hN
    rw [normal_header_iff]
    constructor
    · intro ⟨name, hn, h⟩
      exact ⟨name, hn, (strnicmp_take N z name hz hN).1 h⟩
    · intro ⟨name, hn, h⟩
      exact ⟨name, hn, (strnicmp_take N z name hz hN).2 h⟩

/-- Witness for C26: the line `subject: hello` with `N = 7`. -/
theorem normal_header_spec_witness :
    webmail_normal_header (bytes "subject: hello") 7 = 1 :=
  (normal_header_spec (bytes "subject: hello") 7).2.1 (by decide!)

/-! ## `cookie_write_parameter` -/

theorem cookie_find_le (zPName : List Nat) :
    ∀ ps : List CookieParam, cookie_find zPName ps ≤ ps.length := by
  intro ps
  induction ps with
  | nil => simp [cookie_find]
  | cons e rest ih =>
    simp only [cookie_find, List.length_cons]
    split
    · omega
    · omega

theorem modify_value_ne (ps : List CookieParam) (i : Nat) (v : Option (List Nat))
    (hi : i < ps.length) (hv : v ≠ cookie_value_at ps i) :
    ps.modify (fun e => { e with zPValue := v }) i ≠ ps := by
  intro h
  apply hv
  have h1 := congrArg (fun l => cookie_value_at l i) h
  simp only [cookie_value_at, List.get?_eq_getElem?, List.getElem?_modify_eq] at h1
  rw [List.getElem?_eq_getElem hi] at h1
  simp only [Option.map_some'] at h1
  unfold cookie_value_at
  rw [List.get?_eq_getElem?, List.getElem?_eq_getElem hi]
  exact h1

theorem cookie_parse_loop_le (dehttpize : List Nat → List Nat) :
    ∀ (fuel : Nat) (z : List Nat) (acc : List CookieParam), acc.length ≤ COOKIE_NPARAM →
    (cookie_parse_loop dehttpize fuel z acc).length ≤ COOKIE_NPARAM := by
  intro fuel
  induction fuel with
  | zero => intro z acc h; simpa [cookie_parse_loop] using h
  | succ fuel ih =>
    intro z acc h
    unfold cookie_parse_loop
    split
    · rename_i hlt
      simp only []
      split
      · exact h
      · split
        · exact ih _ _ (by simp only [List.length_append, List.length_singleton]; omega)
        · exact ih _ _ (by simp only [List.length_append, List.length_singleton]; omega)
    · exact h

theorem cookie_parse_le (dehttpize : List Nat → List Nat) (P : List Nat → Option (List Nat))
    (c : Cookies) (h : c.nParam ≤ COOKIE_NPARAM) :
    (cookie_parse dehttpize P c).nParam ≤ COOKIE_NPARAM := by
  unfold cookie_parse
  split
  · exact h
  · exact cookie_parse_loop_le dehttpize _ _ _ h

/-! ## The terminating delimiter and the epilogue -/

/-- A message whose body is two leaf parts between lines `--tok`, whatever comes
after the third of these lines as long as no later line begins with `--tok`: the
table of contents has the two leaves, with content offsets that do not depend on
what follows. -/
theorem two_leaves_any (hs c1 c2 : List (List Nat)) (tok b1 b2 tail : List Nat)
    (hhs : ∀ l ∈ hs, header_line_ok l)
    (hmp : ∃ l ∈ hs, is_multipart_line (rtrim (l ++ [10])) = true)
    (htok : ∀ c ∈ tok, c ≠ 0 ∧ fossil_isspace c = false)
    (hc1 : ∀ l ∈ c1, header_line_ok l) (hc2 : ∀ l ∈ c2, header_line_ok l)
    (hne1 : c1 ≠ [])
    (hfirst : ∀ l, c1.head? = some l → fossil_isspace (l.headD 0) = false)
    (hl1 : ∀ l ∈ c1, is_multipart_line (rtrim (l ++ [10])) = false)
    (hl2 : ∀ l ∈ c2, is_multipart_line (rtrim (l ++ [10])) = false)
    (hb1 : ∀ c ∈ b1, c ≠ 0) (hb2 : ∀ c ∈ b2, c ≠ 0)
    (hn1 : no_boundary (45 :: 45 :: tok) (unlines c1 ++ 10 :: b1))
    (hn2 : no_boundary (45 :: 45 :: tok) (unlines c2 ++ 10 :: b2))
    (htail0 : ∀ c ∈ tail, c ≠ 0)
    (hnt : ∀ m, m < tail.length → startsWith (10 :: 45 :: 45 :: tok) (tail.drop m) = false) :
    ∃ buf1, emailtoc_from_email (unlines hs ++ 10 :: ((45 :: 45 :: tok) ++
        10 :: ((unlines c1 ++ 10 :: b1) ++ 10 :: ((45 :: 45 :: tok) ++
        10 :: ((unlines c2 ++ 10 :: b2) ++ 10 :: ((45 :: 45 :: tok) ++ tail))))))
      = some (⟨line_offsets 0 (hs.map (fun l => l ++ [10])),
        [{ body_of_lines false (c1.map (fun l => l ++ [10])) EmailBody.zero with
            zContent := some ((unlines hs).length + 1 + (tok.length + 2) + 1 +
              ((unlines c1).length + email_line_length (10 :: (b1 ++ [10])))) },
         { body_of_lines false (c2.map (fun l => l ++ [10])) EmailBody.zero with
            zContent := some ((unlines hs).length + 1 + (tok.length + 2) + 1 +
              ((unlines c1 ++ 10 :: b1).length + (tok.length + 2)) +
              (2 + (unlines c2).length + email_line_length (10 :: (b2 ++ [10])))) }]⟩,
        buf1) := by
  have hnf1 : ∀ c ∈ unlines c1 ++ 10 :: b1, c ≠ 0 :=
    nf_append (unlines_nul_free c1 (fun l hl c hc => ((hc1 l hl).2.2.1 c hc).1))
      (nf_cons (by decide) hb1)
  have hnf2 : ∀ c ∈ unlines c2 ++ 10 :: b2, c ≠ 0 :=
    nf_append (unlines_nul_free c2 (fun l hl c hc => ((hc2 l hl).2.2.1 c hc).1))
      (nf_cons (by decide) hb2)
  have hB := token_nul_free tok htok
  have hMnf : ∀ c ∈ (45 :: 45 :: tok) ++ 10 :: ((unlines c1 ++ 10 :: b1) ++
      10 :: ((45 :: 45 :: tok) ++ 10 :: ((unlines c2 ++ 10 :: b2) ++
      10 :: ((45 :: 45 :: tok) ++ tail)))), c ≠ 0 :=
    nf_append hB (nf_cons (by decide) (nf_append hnf1 (nf_cons (by decide)
      (nf_append hB (nf_cons (by decide) (nf_append hnf2 (nf_cons (by decide)
        (nf_append hB htail0))))))))
  obtain ⟨buf1, htop, hcM⟩ := multipart_top hs _ hhs hmp hMnf (by simp) (by simp)
  obtain ⟨d, hd⟩ : ∃ d, (unlines hs ++ 10 :: ((45 :: 45 :: tok) ++
      10 :: ((unlines c1 ++ 10 :: b1) ++
      10 :: ((45 :: 45 :: tok) ++ 10 :: ((unlines c2 ++ 10 :: b2) ++
      10 :: ((45 :: 45 :: tok) ++ tail)))))).length = d + 1 :=
    ⟨_, by simp only [List.length_append, List.length_cons]; rfl⟩
  rw [hd] at htop
  obtain ⟨buf2, o1, o2, hmpr, ho1, ho2⟩ := mp_two_leaves d
    ⟨line_offsets 0 (hs.map (fun l => l ++ [10])), []⟩ buf1 ((unlines hs).length + 1)
    tok c1 c2 b1 b2 tail _ _ htok rfl rfl hcM hc1 hc2
    (unlines_head c1 _ hne1 hc1 hfirst) hl1 hl2 hn1 hn2 hnt
  rw [hmpr, ho1, ho2] at htop
  exact ⟨buf2, by rw [htop]; simp⟩

/-- The failing input of C22: the body of the first message ends with the
terminating delimiter `--XYZ--`; the second message is the first followed by an
epilogue that has two lines `--XYZ`.  The first gets one body segment, the second
three: the splitter goes on after the terminating delimiter. -/
theorem terminator_counterexample :
    (emailtoc_from_email (bytes ("Content-Type: multipart/mixed; boundary=XYZ\n\n" ++
      "--XYZ\nA: b\n\nx\n--XYZ--\n"))).map (fun r => r.1.aBody.length) = some 1 ∧
    (emailtoc_from_email (bytes ("Content-Type: multipart/mixed; boundary=XYZ\n\n" ++
      "--XYZ\nA: b\n\nx\n--XYZ--\n" ++ "epilogue\n--XYZ\nC: d\n\ny\n--XYZ\n"))).map
      (fun r => r.1.aBody.length) = some 3 := by
  decide!

/-- C22, as far as the code goes: for a message whose body is two leaf parts
between lines `--tok` and whose last such line is the terminating delimiter
`--tok--`, the table of contents (header list, the two body segments and their
content offsets) is the same whatever bytes follow the terminating delimiter, as
long as no line of the epilogue begins with `--tok`.  The splitter does not stop at
the terminating delimiter (unless `tok` ends with `'-'`): it scans the epilogue too
and finds no boundary line there. -/
theorem epilogue_without_boundary (hs c1 c2 : List (List Nat)) (tok b1 b2 epi1 epi2 : List Nat)
    (hhs : ∀ l ∈ hs, header_line_ok l)
    (hmp : ∃ l ∈ hs, is_multipart_line (rtrim (l ++ [10])) = true)
    (htok : ∀ c ∈ tok, c ≠ 0 ∧ fossil_isspace c = false)
    (hc1 : ∀ l ∈ c1, header_line_ok l) (hc2 : ∀ l ∈ c2, header_line_ok l)
    (hne1 : c1 ≠ [])
    (hfirst : ∀ l, c1.head? = some l → fossil_isspace (l.headD 0) = false)
    (hl1 : ∀ l ∈ c1, is_multipart_line (rtrim (l ++ [10])) = false)
    (hl2 : ∀ l ∈ c2, is_multipart_line (rtrim (l ++ [10])) = false)
    (hb1 : ∀ c ∈ b1, c ≠ 0) (hb2 : ∀ c ∈ b2, c ≠ 0)
    (hn1 : no_boundary (45 :: 45 :: tok) (unlines c1 ++ 10 :: b1))
    (hn2 : no_boundary (45 :: 45 :: tok) (unlines c2 ++ 10 :: b2))
    (he1 : ∀ c ∈ epi1, c ≠ 0) (he2 : ∀ c ∈ epi2, c ≠ 0)
    (hq1 : ∀ m, m < (45 :: 45 :: epi1).length →
      startsWith (10 :: 45 :: 45 :: tok) ((45 :: 45 :: epi1).drop m) = false)
    (hq2 : ∀ m, m < (45 :: 45 :: epi2).length →
      startsWith (10 :: 45 :: 45 :: tok) ((45 :: 45 :: epi2).drop m) = false) :
    ∃ toc,
      (emailtoc_from_email (unlines hs ++ 10 :: ((45 :: 45 :: tok) ++
        10 :: ((unlines c1 ++ 10 :: b1) ++ 10 :: ((45 :: 45 :: tok) ++
        10 :: ((unlines c2 ++ 10 :: b2) ++ 10 :: ((45 :: 45 :: tok) ++ 45 :: 45 :: epi1))))))).map
        Prod.fst = some toc ∧
      (emailtoc_from_email (unlines hs ++ 10 :: ((45 :: 45 :: tok) ++
        10 :: ((unlines c1 ++ 10 :: b1) ++ 10 :: ((45 :: 45 :: tok) ++
        10 :: ((unlines c2 ++ 10 :: b2) ++ 10 :: ((45 :: 45 :: tok) ++ 45 :: 45 :: epi2))))))).map
        Prod.fst = some toc ∧
      toc.aBody.length = 2 := by
  obtain ⟨buf1, h1⟩ := two_leaves_any hs c1 c2 tok b1 b2 (45 :: 45 :: epi1) hhs hmp htok hc1 hc2
    hne1 hfirst hl1 hl2 hb1 hb2 hn1 hn2 (nf_cons (by decide) (nf_cons (by decide) he1)) hq1
  obtain ⟨buf2, h2⟩ := two_leaves_any hs c1 c2 tok b1 b2 (45 :: 45 :: epi2) hhs hmp htok hc1 hc2
    hne1 hfirst hl1 hl2 hb1 hb2 hn1 hn2 (nf_cons (by decide) (nf_cons (by decide) he2)) hq2
  rw [h1, h2]
  exact ⟨_, rfl, rfl, rfl⟩

/-- Witness for C22: the message of the spec with an empty epilogue and with an
epilogue of one line. -/
theorem epilogue_without_boundary_witness :
    ∃ toc,
      (emailtoc_from_email (unlines [bytes "Content-Type: multipart/mixed; boundary=XYZ"] ++
        10 :: ((45 :: 45 :: bytes "XYZ") ++
        10 :: ((unlines [bytes "Content-Type: text/plain"] ++ 10 :: bytes "hello") ++
        10 :: ((45 :: 45 :: bytes "XYZ") ++
        10 :: ((unlines [bytes "Content-Type: text/html"] ++ 10 :: bytes "<b>") ++
        10 :: ((45 :: 45 :: bytes "XYZ") ++ 45 :: 45 :: bytes "\n"))))))).map
        Prod.fst = some toc ∧
      (emailtoc_from_email (unlines [bytes "Content-Type: multipart/mixed; boundary=XYZ"] ++
        10 :: ((45 :: 45 :: bytes "XYZ") ++
        10 :: ((unlines [bytes "Content-Type: text/plain"] ++ 10 :: bytes "hello") ++
        10 :: ((45 :: 45 :: bytes "XYZ") ++
        10 :: ((unlines [bytes "Content-Type: text/html"] ++ 10 :: bytes "<b>") ++
        10 :: ((45 :: 45 :: bytes "XYZ") ++ 45 :: 45 :: bytes "\nThe end.\n"))))))).map
        Prod.fst = some toc ∧
      toc.aBody.length = 2 :=
  epilogue_without_boundary [bytes "Content-Type: multipart/mixed; boundary=XYZ"]
    [bytes "Content-Type: text/plain"] [bytes "Content-Type: text/html"] (bytes "XYZ")
    (bytes "hello") (bytes "<b>") (bytes "\n") (bytes "\nThe end.\n")
    (by decide!) (by decide!) (by decide!) (by decide!) (by decide!) (by decide!)
    (by decide!) (by decide!) (by decide!) (by decide!) (by decide!) (by decide!)
    (by decide!) (by decide!) (by decide!) (by decide!) (by decide!)

/-! ## Bytes overwritten by the decoder, and the header lines in the buffer -/

theorem zeroed_refl (a : List Nat) : zeroed a a := ⟨rfl, fun _ => Or.inl rfl⟩

theorem zeroed_nz {a b : List Nat} (h : zeroed a b) (k : Nat) (hk : rd b k ≠ 0) :
    rd a k = rd b k := by
  rcases h.2 k with e | e
  · exact e.symm
  · exact absurd e.1 hk

theorem overwritten_ok_back {a b : List Nat} (h : zeroed a b) (k : Nat)
    (hk : overwritten_ok b k) : overwritten_ok a k := by
  rcases hk with hk | ⟨h1, h2, h3, h4⟩
  · left
    have hnz : rd b k ≠ 0 := by
      intro h0
      rw [h0] at hk
      simp [fossil_isspace] at hk
    rw [zeroed_nz h k hnz]; exact hk
  · right
    refine ⟨?_, ?_, h3, ?_⟩
    · rw [zeroed_nz h k (by rw [h1]; decide)]; exact h1
    · rw [zeroed_nz h (k + 1) (by rw [h2]; decide)]; exact h2
    · rw [zeroed_nz h (k - 1) (by rw [h4]; decide)]; exact h4

theorem zeroed_trans {a b c : List Nat} (h1 : zeroed a b) (h2 : zeroed b c) : zeroed a c := by
  refine ⟨h2.1.trans h1.1, fun k => ?_⟩
  rcases h2.2 k with e | ⟨e, hok⟩
  · rcases h1.2 k with e1 | ⟨e1, hok1⟩
    · left; rw [e, e1]
    · right; exact ⟨by rw [e, e1], hok1⟩
  · right; exact ⟨e, overwritten_ok_back h1 k hok⟩

theorem zeroed_wr (a : List Nat) (q : Nat) (h : overwritten_ok a q ∨ rd a q = 0) :
    zeroed a (wr a q 0) := by
  rcases h with h | h
  · refine ⟨wr_length a q 0, fun k => ?_⟩
    by_cases hk : k = q
    · subst hk
      right
      exact ⟨rd_wr_zero a k, h⟩
    · left; exact rd_wr_ne a q k 0 hk
  · rw [wr_zero_of_rd_zero a q h]
    exact zeroed_refl a

theorem zeroed_zero {a b : List Nat} (h : zeroed a b) (k : Nat) (hk : rd a k = 0) :
    rd b k = 0 := by
  rcases h.2 k with e | e
  · rw [e, hk]
  · exact e.1

theorem trimLen_byte (buf : List Nat) (q : Nat) : ∀ n,
    trimLen buf q n ≤ n ∧
    (trimLen buf q n < n → fossil_isspace (rd buf (q + trimLen buf q n)) = true) ∧
    (trimLen buf q n = n → n = 0 ∨ fossil_isspace (rd buf (q + (n - 1))) = false) := by
  intro n
  induction n with
  | zero => simp [trimLen]
  | succ k ih =>
    simp only [trimLen]
    by_cases hsp : fossil_isspace (rd buf (q + k)) = true
    · rw [if_pos hsp]
      have hle := ih.1
      refine ⟨by omega, ?_, ?_⟩
      · intro _
        rcases Nat.lt_or_ge (trimLen buf q k) k with h | h
        · exact ih.2.1 h
        · have : trimLen buf q k = k := by omega
          rw [this]; exact hsp
      · intro h; omega
    · rw [if_neg hsp]
      refine ⟨Nat.le_refl _, ?_, ?_⟩
      · intro h; omega
      · intro _
        right
        simpa using hsp

/-- The byte on which a header line is cut is a whitespace byte or the NUL
that ends the string. -/
theorem trim_write_byte (buf : List Nat) (q : Nat) (hne : cstr buf q ≠ []) :
    fossil_isspace (rd buf (q + trimLen buf q (email_line_length (cstr buf q)))) = true ∨
      rd buf (q + trimLen buf q (email_line_length (cstr buf q))) = 0 := by
  have hn2 := ell_le (cstr buf q)
  have hn1 := ell_pos (cstr buf q) hne
  obtain ⟨hb1, hb2, hb3⟩ := trimLen_byte buf q (email_line_length (cstr buf q))
  generalize hn : email_line_length (cstr buf q) = n at *
  rcases Nat.lt_or_ge (trimLen buf q n) n with hlt | hge
  · left; exact hb2 hlt
  · have hmn : trimLen buf q n = n := by omega
    right
    rw [hmn]
    rcases hb3 hmn with h0 | hns
    · omega
    · rcases ell_cases (cstr buf q) with h | ⟨_, h⟩
      · rw [hn] at h
        rw [h]
        exact rd_cstr_end buf q
      · exfalso
        rw [hn] at h
        have hrd : rd buf (q + (n - 1)) = rd (cstr buf q) (n - 1) :=
          rd_cstr buf q (n - 1) (by omega)
        rw [hrd, h] at hns
        simp [fossil_isspace] at hns

theorem cstr_eq_of_agree (a b : List Nat) : ∀ (n q : Nat), (cstr a q).length = n →
    (∀ k, k < q + n → rd b k = rd a k) → rd b (q + n) = 0 → cstr b q = cstr a q := by
  intro n
  induction n with
  | zero =>
    intro q hn _ h2
    rw [List.length_eq_zero.1 hn]
    exact (cstr_eq_nil_iff b q).2 (by simpa using h2)
  | succ n ih =>
    intro q hn h1 h2
    have hne : rd a q ≠ 0 := by
      intro h0
      rw [(cstr_eq_nil_iff a q).2 h0] at hn
      simp at hn
    have hq : rd b q = rd a q := h1 q (by omega)
    rw [cstr_cons a q hne, cstr_cons b q (by rw [hq]; exact hne), hq]
    congr 1
    apply ih (q + 1)
    · rw [cstr_cons a q hne] at hn
      simpa using hn
    · intro k hk; exact h1 k (by omega)
    · have e : q + 1 + n = q + (n + 1) := by omega
      rw [e]; exact h2

theorem rtrim_last (l : List Nat) : ∀ c, (rtrim l).getLast? = some c →
    fossil_isspace c = false := by
  induction l using List.reverseRecOn with
  | nil => intro c h; simp [rtrim_nil] at h
  | append_singleton a x ih =>
    intro c h
    rw [rtrim_concat] at h
    by_cases hx : fossil_isspace x = true
    · rw [if_pos hx] at h; exact ih c h
    · rw [if_neg hx] at h
      simp at h
      subst h
      simpa using hx

/-- The header loop on the buffer: it overwrites whitespace only, it leaves the
bytes before the string alone, and afterwards the string at the start of every
header line is that line without its trailing whitespace. -/
theorem seg_loop_hdr (z : Nat) (b : Bool) : ∀ (fuel : Nat) (buf : List Nat) (i : Nat)
    (p : EmailToc) (mp : Bool) (buf1 : List Nat) (r : Nat × EmailToc × Bool),
    segment_loop z b fuel buf i p mp = some (buf1, r) →
    zeroed buf buf1 ∧ (∀ k, k < z + i → rd buf1 k = rd buf k) ∧
      (line_offsets (z + i) (header_block (logical_lines (cstr buf (z + i))))).map (cstr buf1)
        = (header_block (logical_lines (cstr buf (z + i)))).map rtrim := by
  intro fuel
  induction fuel with
  | zero =>
    intro buf i p mp buf1 r h
    by_cases hrd : rd buf (z + i) = 0
    · have hnil : cstr buf (z + i) = [] := (cstr_eq_nil_iff buf (z + i)).2 hrd
      unfold segment_loop at h
      rw [if_pos hrd] at h
      simp only [Option.some.injEq, Prod.mk.injEq] at h
      rw [← h.1, hnil, logical_lines_nil]
      exact ⟨zeroed_refl _, fun _ _ => rfl, by simp [header_block, line_offsets]⟩
    · unfold segment_loop at h
      rw [if_neg hrd] at h
      simp at h
  | succ f ih =>
    intro buf i p mp buf1 r h
    by_cases hrd : rd buf (z + i) = 0
    · have hnil : cstr buf (z + i) = [] := (cstr_eq_nil_iff buf (z + i)).2 hrd
      unfold segment_loop at h
      rw [if_pos hrd] at h
      simp only [Option.some.injEq, Prod.mk.injEq] at h
      rw [← h.1, hnil, logical_lines_nil]
      exact ⟨zeroed_refl _, fun _ _ => rfl, by simp [header_block, line_offsets]⟩
    · have hne : cstr buf (z + i) ≠ [] := fun h => hrd ((cstr_eq_nil_iff buf (z + i)).1 h)
      have hn2 := ell_le (cstr buf (z + i))
      have hn1 := ell_pos (cstr buf (z + i)) hne
      have hll := logical_lines_cons (cstr buf (z + i)) hne
      have hr0 : rd buf (z + i) = rd (cstr buf (z + i)) 0 := by
        have := rd_cstr buf (z + i) 0 (Nat.zero_le _)
        simpa using this
      have hr1 : rd buf (z + i + 1) = rd (cstr buf (z + i)) 1 :=
        rd_cstr buf (z + i) 1 (by omega)
      have hbt := blank_test (cstr buf (z + i)) _ hn1 hn2
      have hlen : ((cstr buf (z + i)).take (email_line_length (cstr buf (z + i)))).length
          = email_line_length (cstr buf (z + i)) := by
        simp; omega
      unfold segment_loop at h
      rw [if_neg hrd] at h
      simp only [] at h
      rw [hr0, hr1] at h
      rw [hll]
      by_cases hb : is_blank ((cstr buf (z + i)).take (email_line_length (cstr buf (z + i))))
          = true
      · rw [if_pos (hbt.2 hb)] at h
        simp only [Option.some.injEq, Prod.mk.injEq] at h
        rw [← h.1]
        exact ⟨zeroed_refl _, fun _ _ => rfl, by simp [header_block, hb, line_offsets]⟩
      · rw [if_neg (fun h => hb (hbt.1 h))] at h
        obtain ⟨hw1, hw2, hw3⟩ := trim_write buf (z + i) hne
        have hwb := trim_write_byte buf (z + i) hne
        have hle := (trimLen_byte buf (z + i) (email_line_length (cstr buf (z + i)))).1
        have e1 : z + (i + trimLen buf (z + i) (email_line_length (cstr buf (z + i))))
            = z + i + trimLen buf (z + i) (email_line_length (cstr buf (z + i))) := by omega
        have e2 : z + (i + email_line_length (cstr buf (z + i)))
            = z + i + email_line_length (cstr buf (z + i)) := by omega
        rw [e1] at h
        obtain ⟨hz, hag, hstr⟩ := ih _ _ _ _ _ _ h
        rw [e2, hw2] at hstr
        have hzw : zeroed buf (wr buf (z + i + trimLen buf (z + i)
            (email_line_length (cstr buf (z + i)))) 0) := by
          apply zeroed_wr
          rcases hwb with h1 | h1
          · left; left; exact h1
          · right; exact h1
        refine ⟨zeroed_trans hzw hz, ?_, ?_⟩
        · intro k hk
          rw [hag k (by omega), rd_wr_ne _ _ _ _ (by omega)]
        · simp only [header_block, hb, Bool.false_eq_true, if_false, line_offsets,
            List.map_cons, hlen]
          rw [hstr]
          congr 1
          rw [← hw1]
          have hlen1 := congrArg List.length hw1
          have hrl := rtrim_length_le
            ((cstr buf (z + i)).take (email_line_length (cstr buf (z + i))))
          rw [hlen] at hrl
          apply cstr_eq_of_agree _ _ _ _ rfl
          · intro k hk
            exact hag k (by rw [hlen1] at hk; omega)
          · apply zeroed_zero hz
            exact rd_cstr_end _ _

theorem header_block_length_le : ∀ (ls : List (List Nat)),
    ((header_block ls).map List.length).sum ≤ body_start ls := by
  intro ls
  induction ls with
  | nil => simp [header_block, body_start]
  | cons l ls ih =>
    by_cases hb : is_blank l = true
    · simp [header_block, body_start, hb]
    · simp only [header_block, body_start, hb, Bool.false_eq_true, if_false, List.map_cons,
        List.sum_cons]
      omega

/-- Header strings that lie below a frame stay what they are. -/
theorem hdr_strings_frame {lo hi : Nat} {a b : List Nat} (h : frame lo hi a b) :
    ∀ (ls : List (List Nat)) (off : Nat), off + (ls.map List.length).sum ≤ lo →
      (line_offsets off ls).map (cstr a) = ls.map rtrim →
      (line_offsets off ls).map (cstr b) = ls.map rtrim := by
  intro ls
  induction ls with
  | nil => intro off _ _; simp [line_offsets]
  | cons l ls ih =>
    intro off hle hs
    simp only [line_offsets, List.map_cons, List.cons.injEq, List.sum_cons] at hs hle ⊢
    have hrl := rtrim_length_le l
    have hlen := congrArg List.length hs.1
    refine ⟨?_, ih (off + l.length) (by omega) hs.2⟩
    rw [← hs.1]
    apply cstr_eq_of_agree _ _ _ _ rfl
    · intro k hk
      exact h.2.1 k (Or.inl (by omega))
    · exact frame_zero h _ (rd_cstr_end _ _)

/-- C24: for every input buffer, the header lines that `emailtoc_from_email` stores
in the table of contents are, read as strings in the buffer that the decoder
leaves, the logical lines of the outermost header block each with its run of
trailing whitespace removed; such a string is empty or its last byte is not a
whitespace byte; and the strings are the same in the buffer as the header loop
leaves it, before the body is split, so the later steps do not change them. -/
theorem header_lines_trimmed (msg : List Nat) :
    ∃ toc buf1, emailtoc_from_email msg = some (toc, buf1) ∧
      toc.azHdr.map (cstr buf1) = (header_block (logical_lines (text_of msg))).map rtrim ∧
      (∀ s ∈ toc.azHdr.map (cstr buf1), ∀ c, s.getLast? = some c → fossil_isspace c = false) ∧
      ∃ bufh r, segment_loop 0 true (msg ++ [0]).length (msg ++ [0]) 0
          (emailtoc_new_body emailtoc_alloc) false = some (bufh, r) ∧
        toc.azHdr.map (cstr bufh) = toc.azHdr.map (cstr buf1) := by
  have hs0 : cstr (msg ++ [0]) 0 = text_of msg := cstr_top msg
  have hl := text_length_le msg
  have hfuel : (cstr (msg ++ [0]) (0 + 0)).length ≤ (msg ++ [0]).length := by
    simp only [Nat.add_zero, hs0, List.length_append, List.length_singleton]
    omega
  obtain ⟨bufh, hres, hfr, _, hhi⟩ := seg_loop_eq 0 true (msg ++ [0]).length (msg ++ [0]) 0
    (emailtoc_new_body emailtoc_alloc) false hfuel
  obtain ⟨_, _, hstr⟩ := seg_loop_hdr 0 true _ _ _ _ _ _ _ hres
  have hres0 := hres
  have hnb : emailtoc_new_body emailtoc_alloc = ⟨[], [] ++ [EmailBody.zero]⟩ := rfl
  rw [hnb, seg_pure_eq] at hres hfr hhi
  simp only [Nat.add_zero, Nat.zero_add, Bool.false_or, hs0, List.nil_append, if_true]
    at hres hfr hhi hstr
  have key : ∀ toc buf1, emailtoc_from_email msg = some (toc, buf1) →
      toc.azHdr = line_offsets 0 (header_block (logical_lines (text_of msg))) →
      (line_offsets 0 (header_block (logical_lines (text_of msg)))).map (cstr buf1)
        = (header_block (logical_lines (text_of msg))).map rtrim →
      ∃ toc buf1, emailtoc_from_email msg = some (toc, buf1) ∧
      toc.azHdr.map (cstr buf1) = (header_block (logical_lines (text_of msg))).map rtrim ∧
      (∀ s ∈ toc.azHdr.map (cstr buf1), ∀ c, s.getLast? = some c →
        fossil_isspace c = false) ∧
      ∃ bufh r, segment_loop 0 true (msg ++ [0]).length (msg ++ [0]) 0
          (emailtoc_new_body emailtoc_alloc) false = some (bufh, r) ∧
        toc.azHdr.map (cstr bufh) = toc.azHdr.map (cstr buf1) := by
    intro toc buf1 hr hh hs
    refine ⟨toc, buf1, hr, by rw [hh]; exact hs, ?_, bufh, _, hres0, ?_⟩
    · intro s hsm c hc
      rw [hh, hs] at hsm
      obtain ⟨l, _, rfl⟩ := List.mem_map.1 hsm
      exact rtrim_last l c hc
    · rw [hh, hs, hstr]
  have hunf : ∀ r, (if (header_block (logical_lines (text_of msg))).any
        (fun l => is_multipart_line (rtrim l)) = true then
        emailtoc_add_multipart_with
          (fun q b y => emailtoc_add_multipart_segment msg.length q b y false)
          ⟨line_offsets 0 (header_block (logical_lines (text_of msg))), []⟩ bufh
          (0 + body_start (logical_lines (text_of msg)))
      else some (⟨line_offsets 0 (header_block (logical_lines (text_of msg))),
          [{ body_of_lines true (header_block (logical_lines (text_of msg))) EmailBody.zero with
            zContent := some (0 + body_start (logical_lines (text_of msg))) }]⟩, bufh)) = some r →
      emailtoc_from_email msg = some r := by
    intro r hr
    unfold emailtoc_from_email emailtoc_from_email_depth emailtoc_add_multipart_segment
    rw [hres0, hnb, seg_pure_eq]
    simp only [Nat.add_zero, Nat.zero_add, Bool.false_or, hs0, List.nil_append, if_true]
    rw [← hr]
    split
    · simp [EmailToc.popBody]
    · simp [EmailToc.updBody]
  by_cases hmp : (header_block (logical_lines (text_of msg))).any
      (fun l => is_multipart_line (rtrim l)) = true
  · have hc1 : cstr bufh (0 + body_start (logical_lines (text_of msg)))
        = (text_of msg).drop (body_start (logical_lines (text_of msg))) := by
      rw [frame_cstr hfr _ (by omega), cstr_add (msg ++ [0]) 0 _ (by rw [hs0]; omega), hs0]
    obtain ⟨p2, buf2, hm, hfr2, hh2, _⟩ := mp_inv _ msg.length (decode_inv msg.length)
      ⟨line_offsets 0 (header_block (logical_lines (text_of msg))), []⟩ bufh
      (0 + body_start (logical_lines (text_of msg)))
      (by rw [hc1, List.length_drop]; omega)
    have hr : emailtoc_from_email msg = some (p2, buf2) := by
      apply hunf
      rw [if_pos hmp]
      exact hm
    exact key p2 buf2 hr hh2 (hdr_strings_frame hfr2 _ 0
      (by have := header_block_length_le (logical_lines (text_of msg)); omega) hstr)
  · have hr := hunf _ (if_neg hmp)
    exact key _ bufh hr rfl hstr

/-! ## An induction principle for the loop of the splitter -/

theorem cstr_length_ge (b : List Nat) : ∀ (n q : Nat), (∀ k, k < n → rd b (q + k) ≠ 0) →
    n ≤ (cstr b q).length := by
  intro n
  induction n with
  | zero => intro q _; exact Nat.zero_le _
  | succ n ih =>
    intro q h
    have h0 : rd b q ≠ 0 := by simpa using h 0 (by omega)
    rw [cstr_cons b q h0, List.length_cons]
    have := ih (q + 1) (fun k hk => by
      have := h (k + 1) (by omega)
      have e : q + 1 + k = q + (k + 1) := by omega
      rw [e]; exact this)
    omega

/-- The loop of the splitter, by cases on what one pass does.  The segment
decoder `seg` is assumed to return on every part shorter than `d` bytes, to write
inside the part only, and to satisfy `S`; the property `Inv` of the state and of
the result then holds when it holds at the end of the string, is carried over a
byte that starts no boundary line, and is carried over a boundary line. -/
theorem mp_loop_rec (S : EmailToc → Buf → Nat → EmailToc → Buf → Prop)
    (seg : EmailToc → Buf → Nat → Option (EmailToc × Buf)) (d : Nat)
    (hseg : ∀ (p : EmailToc) (buf : Buf) (z : Nat), (cstr buf z).length < d →
      ∃ p1 buf1, seg p buf z = some (p1, buf1) ∧
        frame z (z + (cstr buf z).length) buf buf1 ∧ S p buf z p1 buf1)
    (zB nB z1 E : Nat) (B : List Nat) (hB1 : B.length = nB)
    (hB2 : ∀ c ∈ B, c ≠ 0 ∧ fossil_isspace c = false) (hnB : 2 ≤ nB) (hz : zB + nB ≤ z1)
    (hd : E - z1 < d)
    (Inv : Nat → EmailToc → Buf → Nat → Nat → Option (EmailToc × Buf) → Prop)
    (h_end : ∀ (fuel : Nat) (p : EmailToc) (buf : Buf) (i iS : Nat),
      mp_state zB z1 E B buf i iS → rd buf (z1 + i) = 0 → Inv fuel p buf i iS (some (p, buf)))
    (h_skip : ∀ (fuel : Nat) (p : EmailToc) (buf : Buf) (i iS : Nat)
      (res : Option (EmailToc × Buf)),
      mp_state zB z1 E B buf i iS → z1 + i < E → rd buf (z1 + i) ≠ 0 →
      ¬ (rd buf (z1 + i) = 10 ∧ strncmp (cstr buf (z1 + i + 1)) (cstr buf zB) nB = 0) →
      Inv fuel p buf (i + 1) iS res → Inv (fuel + 1) p buf i iS res)
    (h_match : ∀ (fuel : Nat) (p : EmailToc) (buf : Buf) (i iS : Nat) (p2 : EmailToc)
      (buf2 : Buf) (res : Option (EmailToc × Buf)),
      mp_state zB z1 E B buf i iS → rd buf (z1 + i) = 10 →
      strncmp (cstr buf (z1 + i + 1)) (cstr buf zB) nB = 0 →
      startsWith B (cstr buf (z1 + i + 1)) = true → z1 + i + 1 + nB ≤ E →
      (cstr (wr buf (z1 + i + 1) 0) (z1 + iS)).length = i + 1 - iS →
      seg p (wr buf (z1 + i + 1) 0) (z1 + iS) = some (p2, buf2) →
      frame (z1 + iS) (z1 + i + 1) (wr buf (z1 + i + 1) 0) buf2 →
      S p (wr buf (z1 + i + 1) 0) (z1 + iS) p2 buf2 →
      scanLen fossil_isspace (cstr buf2 (z1 + (i + nB))) = 0 →
      mp_state zB z1 E B buf2 (i + nB + 1) (i + nB) →
      ((rd buf2 (z1 + (i + nB)) = 45 ∧ rd buf2 (z1 + (i + nB) + 1) = 45) →
        res = some (p2, buf2)) →
      (¬ (rd buf2 (z1 + (i + nB)) = 45 ∧ rd buf2 (z1 + (i + nB) + 1) = 45) →
        Inv fuel p2 buf2 (i + nB + 1) (i + nB) res) →
      Inv (fuel + 1) p buf i iS res) :
    ∀ (fuel : Nat) (p : EmailToc) (buf : List Nat) (i iS : Nat),
      mp_state zB z1 E B buf i iS → E - (z1 + i) ≤ fuel →
      Inv fuel p buf i iS (multipart_loop seg zB nB z1 fuel p buf i iS) := by
  intro fuel
  induction fuel with
  | zero =>
    intro p buf i iS hst hf
    obtain ⟨hE, hi, _, _, _⟩ := hst
    have hiE : z1 + i = E := by omega
    have hrd : rd buf (z1 + i) = 0 := by rw [hiE]; exact hE
    have : multipart_loop seg zB nB z1 0 p buf i iS = some (p, buf) := by
      unfold multipart_loop
      rw [if_pos hrd]
    rw [this]
    exact h_end 0 p buf i iS ⟨hE, hi, by assumption, by assumption, by assumption⟩ hrd
  | succ f ih =>
    intro p buf i iS hst hf
    obtain ⟨hE, hi, hiS, hcB, hnz⟩ := hst
    have hst : mp_state zB z1 E B buf i iS := ⟨hE, hi, hiS, hcB, hnz⟩
    by_cases hrd : rd buf (z1 + i) = 0
    · have : multipart_loop seg zB nB z1 (f + 1) p buf i iS = some (p, buf) := by
        unfold multipart_loop
        rw [if_pos hrd]
      rw [this]
      exact h_end _ p buf i iS hst hrd
    · have hiE : z1 + i < E := by
        rcases Nat.lt_or_ge (z1 + i) E with h | h
        · exact h
        · exfalso; apply hrd
          have : z1 + i = E := by omega
          rw [this]; exact hE
      by_cases hm : rd buf (z1 + i) = 10 ∧
          strncmp (cstr buf (z1 + i + 1)) (cstr buf zB) nB = 0
      · have hsw : startsWith B (cstr buf (z1 + i + 1)) = true := by
          have := hm.2
          rw [hcB, ← hB1] at this
          exact (strncmp_eq_zero_iff B _ (fun c hc => (hB2 c hc).1)).1 this
        obtain ⟨hlenB, hBrd⟩ := startsWith_length B _ hsw
        have hcl := cstr_length_of_zero buf (z1 + i + 1) E (by omega) hE
        have hend : z1 + i + 1 + nB ≤ E := by omega
        have hfr1 : frame (z1 + iS) E buf (wr buf (z1 + i + 1) 0) :=
          frame_wr_zero _ _ _ _ (by omega) (by omega)
        have hchild2 : (cstr (wr buf (z1 + i + 1) 0) (z1 + iS)).length = i + 1 - iS := by
          have h1 := cstr_length_of_zero (wr buf (z1 + i + 1) 0) (z1 + iS) (z1 + i + 1)
            (by omega) (rd_wr_zero buf _)
          have h2 := cstr_length_ge (wr buf (z1 + i + 1) 0) (i + 1 - iS) (z1 + iS) (by
            intro k hk
            rw [rd_wr_ne _ _ _ _ (by omega)]
            rcases Nat.lt_or_ge (iS + k) i with h | h
            · have := hnz (iS + k) (by omega) h
              have e : z1 + iS + k = z1 + (iS + k) := by omega
              rw [e]; exact this
            · have e : z1 + iS + k = z1 + i := by omega
              rw [e]; exact hrd)
          omega
        have hchild : (cstr (wr buf (z1 + i + 1) 0) (z1 + iS)).length < d := by omega
        obtain ⟨p2, buf2, hs, hfr2, hS⟩ := hseg p (wr buf (z1 + i + 1) 0) (z1 + iS) hchild
        have hfr2' : frame (z1 + iS) (z1 + i + 1) (wr buf (z1 + i + 1) 0) buf2 :=
          frame_mono hfr2 (Nat.le_refl _) (by omega)
        have hfr12 : frame (z1 + iS) E buf buf2 :=
          frame_trans hfr1 (frame_mono hfr2' (Nat.le_refl _) (by omega))
        have hlast : rd buf2 (z1 + (i + nB)) = rd B (nB - 1) := by
          have e1 : rd buf2 (z1 + (i + nB)) = rd (wr buf (z1 + i + 1) 0) (z1 + (i + nB)) :=
            hfr2'.2.1 _ (Or.inr (by omega))
          rw [e1, rd_wr_ne _ _ _ _ (by omega)]
          have e2 : z1 + (i + nB) = z1 + i + 1 + (nB - 1) := by omega
          rw [e2, rd_cstr buf (z1 + i + 1) (nB - 1) (by omega), hBrd (nB - 1) (by omega)]
        have hmem : rd B (nB - 1) ∈ B := by
          rw [rd_eq, List.getElem?_eq_getElem (by omega)]
          simp
        have hws : scanLen fossil_isspace (cstr buf2 (z1 + (i + nB))) = 0 := by
          apply scanLen_zero
          rw [← rd_cstr_zero, hlast]
          exact (hB2 _ hmem).2
        have hcB2 : cstr buf2 zB = B := by
          rw [← hcB]
          apply cstr_eq_of_agree _ _ _ _ rfl
          · intro k hk
            rw [hcB, hB1] at hk
            exact hfr12.2.1 k (Or.inl (by omega))
          · exact frame_zero hfr12 _ (rd_cstr_end buf zB)
        have hst2 : mp_state zB z1 E B buf2 (i + nB + 1) (i + nB) := by
          refine ⟨frame_zero hfr12 E hE, by omega, by omega, hcB2, ?_⟩
          intro k hk1 hk2
          have : k = i + nB := by omega
          rw [this, hlast]
          exact (hB2 _ hmem).1
        have hunf : multipart_loop seg zB nB z1 (f + 1) p buf i iS =
            if rd buf2 (z1 + (i + nB)) = 45 ∧ rd buf2 (z1 + (i + nB) + 1) = 45 then
              some (p2, buf2)
            else multipart_loop seg zB nB z1 f p2 buf2 (i + nB + 1) (i + nB) := by
          conv => lhs; unfold multipart_loop
          rw [if_neg hrd]
          simp only []
          rw [if_pos hm, hs]
          simp only []
          rw [hws]
          rfl
        rw [hunf]
        by_cases hterm : rd buf2 (z1 + (i + nB)) = 45 ∧ rd buf2 (z1 + (i + nB) + 1) = 45
        · rw [if_pos hterm]
          exact h_match f p buf i iS p2 buf2 _ hst hm.1 hm.2 hsw hend hchild2 hs hfr2' hS hws
            hst2 (fun _ => rfl) (fun h => absurd hterm h)
        · rw [if_neg hterm]
          exact h_match f p buf i iS p2 buf2 _ hst hm.1 hm.2 hsw hend hchild2 hs hfr2' hS hws
            hst2 (fun h => absurd h hterm)
            (fun _ => ih p2 buf2 (i + nB + 1) (i + nB) hst2 (by omega))
      · have hunf : multipart_loop seg zB nB z1 (f + 1) p buf i iS =
            multipart_loop seg zB nB z1 f p buf (i + 1) iS := by
          conv => lhs; unfold multipart_loop
          rw [if_neg hrd]
          simp only []
          rw [if_neg hm]
        rw [hunf]
        apply h_skip f p buf i iS _ hst hiE hrd hm
        apply ih p buf (i + 1) iS ⟨hE, by omega, by omega, hcB, ?_⟩ (by omega)
        intro k hk1 hk2
        rcases Nat.lt_or_ge k i with h | h
        · exact hnz k hk1 h
        · have : k = i := by omega
          rw [this]; exact hrd

/-! ## The start of the splitter -/

theorem rd_take (l : List Nat) (n m : Nat) (h : m < n) : rd (l.take n) m = rd l m := by
  simp [rd_eq, List.getElem?_take, h]

theorem scanLen_two (f : Nat → Bool) (l : List Nat) (h0 : f (rd l 0) = true)
    (h1 : f (rd l 1) = true) (hl : 2 ≤ l.length) : 2 ≤ scanLen f l := by
  cases l with
  | nil => simp at hl
  | cons a t =>
    cases t with
    | nil => simp at hl
    | cons b t =>
      have ha : f a = true := by simpa [rd] using h0
      have hb : f b = true := by simpa [rd] using h1
      simp only [scanLen, ha, hb, if_true]
      omega

/-- The start of `emailtoc_add_multipart`: either the string has no line that
begins with `"--"` and nothing is done, or the boundary token is delimited and the
loop is entered in a state that satisfies `mp_state`. -/
theorem mp_with_cases (seg : EmailToc → Buf → Nat → Option (EmailToc × Buf))
    (p : EmailToc) (buf : List Nat) (z : Nat) :
    (skip_to_boundary true (cstr buf z) = none ∧
      emailtoc_add_multipart_with seg p buf z = some (p, buf)) ∨
    ∃ k nB ws, skip_to_boundary true (cstr buf z) = some k ∧
      scanLen (fun c => c != 0 && !fossil_isspace c) (cstr buf (z + k)) = nB ∧
      scanLen fossil_isspace (cstr buf (z + k + nB)) = ws ∧
      2 ≤ nB ∧ k + nB + ws ≤ (cstr buf z).length ∧
      rd buf (z + k) = 45 ∧ rd buf (z + k + 1) = 45 ∧
      rd (((cstr buf z).drop k).take nB) 0 = 45 ∧ rd (((cstr buf z).drop k).take nB) 1 = 45 ∧
      (fossil_isspace (rd buf (z + k + nB)) = true ∨ rd buf (z + k + nB) = 0) ∧
      (((cstr buf z).drop k).take nB).length = nB ∧
      (∀ c ∈ ((cstr buf z).drop k).take nB, c ≠ 0 ∧ fossil_isspace c = false) ∧
      mp_state (z + k) (z + k + nB + ws) (z + (cstr buf z).length)
        (((cstr buf z).drop k).take nB) (wr buf (z + k + nB) 0) 0 0 ∧
      frame z (z + (cstr buf z).length) buf (wr buf (z + k + nB) 0) ∧
      emailtoc_add_multipart_with seg p buf z =
        multipart_loop seg (z + k) nB (z + k + nB + ws) (wr buf (z + k + nB) 0).length p
          (wr buf (z + k + nB) 0) 0 0 := by
  cases hk : skip_to_boundary true (cstr buf z) with
  | none =>
    left
    refine ⟨rfl, ?_⟩
    unfold emailtoc_add_multipart_with
    rw [hk]
  | some k =>
    right
    obtain ⟨hk1, hk2, hk3⟩ := skip_to_boundary_some _ _ _ hk
    have hcB : cstr buf (z + k) = (cstr buf z).drop k := cstr_add buf z k (by omega)
    have hr0 : rd ((cstr buf z).drop k) 0 = 45 := by rw [rd_drop]; simpa using hk2
    have hr1 : rd ((cstr buf z).drop k) 1 = 45 := by rw [rd_drop]; exact hk3
    have hnB1 : 2 ≤ scanLen (fun c => c != 0 && !fossil_isspace c) ((cstr buf z).drop k) :=
      scanLen_two _ _ (by rw [hr0]; decide) (by rw [hr1]; decide)
        (by simp only [List.length_drop]; omega)
    have hnB2 := scanLen_le (fun c => c != 0 && !fossil_isspace c) ((cstr buf z).drop k)
    have hstop := scanLen_stop (fun c => c != 0 && !fossil_isspace c) (by decide)
      ((cstr buf z).drop k)
    have hun : emailtoc_add_multipart_with seg p buf z =
        multipart_loop seg (z + k)
          (scanLen (fun c => c != 0 && !fossil_isspace c) (cstr buf (z + k)))
          (z + k + scanLen (fun c => c != 0 && !fossil_isspace c) (cstr buf (z + k)) +
            scanLen fossil_isspace (cstr buf (z + k +
              scanLen (fun c => c != 0 && !fossil_isspace c) (cstr buf (z + k)))))
          (wr buf (z + k + scanLen (fun c => c != 0 && !fossil_isspace c)
            (cstr buf (z + k))) 0).length p
          (wr buf (z + k + scanLen (fun c => c != 0 && !fossil_isspace c)
            (cstr buf (z + k))) 0) 0 0 := by
      unfold emailtoc_add_multipart_with
      rw [hk]
      simp only []
      rw [if_neg (by rw [hcB]; omega)]
    refine ⟨k, _, _, rfl, rfl, rfl, ?_⟩
    rw [hcB] at hun
    rw [hcB]
    generalize hnB : scanLen (fun c => c != 0 && !fossil_isspace c) ((cstr buf z).drop k)
      = nB at *
    simp only [List.length_drop] at hnB2
    have hcW : cstr buf (z + k + nB) = (cstr buf z).drop (k + nB) := by
      rw [Nat.add_assoc, cstr_add buf z (k + nB) (by omega)]
    have hws := scanLen_le fossil_isspace ((cstr buf z).drop (k + nB))
    rw [hcW] at hun
    rw [hcW]
    generalize hw : scanLen fossil_isspace ((cstr buf z).drop (k + nB)) = ws at *
    simp only [List.length_drop] at hws
    have hE : rd buf (z + (cstr buf z).length) = 0 := rd_cstr_end buf z
    have hfr1 : frame z (z + (cstr buf z).length) buf (wr buf (z + k + nB) 0) := by
      apply frame_wr_zero_or _ _ _ _ (by omega)
      rcases Nat.lt_or_ge (k + nB) (cstr buf z).length with h | h
      · left; omega
      · right
        have : z + k + nB = z + (cstr buf z).length := by omega
        rw [this]; exact hE
    have hcB1 : cstr (wr buf (z + k + nB) 0) (z + k) = ((cstr buf z).drop k).take nB := by
      rw [cstr_wr_zero buf (z + k) nB (by rw [hcB, List.length_drop]; omega), hcB]
    have hBok : ∀ c ∈ ((cstr buf z).drop k).take nB, c ≠ 0 ∧ fossil_isspace c = false := by
      intro c hc
      rw [← hnB] at hc
      have := scanLen_take_all _ _ c hc
      simpa using this
    have hBlen : (((cstr buf z).drop k).take nB).length = nB := by
      simp only [List.length_take, List.length_drop]
      omega
    have hbyte : fossil_isspace (rd buf (z + k + nB)) = true ∨ rd buf (z + k + nB) = 0 := by
      have e : rd buf (z + k + nB) = ((cstr buf z).drop k).getD nB 0 := by
        rw [rd_getD, ← hcB, rd_cstr buf (z + k) nB (by rw [hcB, List.length_drop]; omega)]
      rw [e]
      by_cases h0 : ((cstr buf z).drop k).getD nB 0 = 0
      · right; exact h0
      · left
        have h1 : (((cstr buf z).drop k).getD nB 0 != 0) = true := by simpa using h0
        rw [h1] at hstop
        simpa using hstop
    refine ⟨hnB1, by omega, ?_, ?_, ?_, ?_, hbyte, hBlen, hBok,
      ⟨frame_zero hfr1 _ hE, by omega, Nat.le_refl _, hcB1, fun k h1 h2 => by omega⟩,
      hfr1, hun⟩
    · rw [← Nat.add_zero (z + k), rd_cstr buf (z + k) 0 (Nat.zero_le _), hcB]; exact hr0
    · rw [rd_cstr buf (z + k) 1 (by rw [hcB, List.length_drop]; omega), hcB]; exact hr1
    · rw [rd_take _ _ _ (by omega)]; exact hr0
    · rw [rd_take _ _ _ (by omega)]; exact hr1

/-! ## One call of the segment decoder -/

/-- One call of `emailtoc_add_multipart_segment`: the header loop returns, it
overwrites whitespace inside the header block only, and what follows is either the
splitter on the rest of the string or the end of the call. -/
theorem seg_step (d : Nat) (p : EmailToc) (buf : List Nat) (z : Nat) (b : Bool) :
    ∃ bufh i p1 mp, segment_loop z b buf.length buf 0 (emailtoc_new_body p) false
        = some (bufh, i, p1, mp) ∧
      zeroed buf bufh ∧ frame z (z + i) buf bufh ∧ i ≤ (cstr buf z).length ∧
      cstr bufh (z + i) = (cstr buf z).drop i ∧
      emailtoc_add_multipart_segment (d + 1) p buf z b =
        if mp = true then
          emailtoc_add_multipart_with (fun q b y => emailtoc_add_multipart_segment d q b y false)
            p1.popBody bufh (z + i)
        else some (p1.updBody (fun b => { b with zContent := some (z + i) }), bufh) := by
  have hfuel : (cstr buf (z + 0)).length ≤ buf.length := by
    have := cstr_length_le buf z
    simp only [Nat.add_zero]
    omega
  obtain ⟨bufh, hres, hfr, _, hhi⟩ := seg_loop_eq z b buf.length buf 0
    (emailtoc_new_body p) false hfuel
  obtain ⟨hz, _, _⟩ := seg_loop_hdr z b _ _ _ _ _ _ _ hres
  generalize seg_pure z b 0 (logical_lines (cstr buf (z + 0))) (emailtoc_new_body p) false
    = r at hres hfr hhi
  obtain ⟨i, p1, mp⟩ := r
  simp only [Nat.add_zero, Nat.zero_add] at hfr hhi
  refine ⟨bufh, i, p1, mp, hres, hz, hfr, hhi, ?_, ?_⟩
  · rw [frame_cstr hfr _ (Nat.le_refl _), cstr_add buf z _ hhi]
  · conv => lhs; unfold emailtoc_add_multipart_segment
    rw [hres]

/-! ## The decoder changes the buffer only by storing NUL -/

theorem mp_loop_zeroed (seg : EmailToc → Buf → Nat → Option (EmailToc × Buf)) (d : Nat)
    (hseg : ∀ (p : EmailToc) (buf : Buf) (z : Nat), (cstr buf z).length < d →
      ∃ p1 buf1, seg p buf z = some (p1, buf1) ∧
        frame z (z + (cstr buf z).length) buf buf1 ∧ zeroed buf buf1)
    (zB nB z1 E : Nat) (B : List Nat) (hB1 : B.length = nB)
    (hB2 : ∀ c ∈ B, c ≠ 0 ∧ fossil_isspace c = false) (hnB : 2 ≤ nB) (hz : zB + nB ≤ z1)
    (hd : E - z1 < d) (hB45 : rd B 0 = 45 ∧ rd B 1 = 45) :
    ∀ (fuel : Nat) (p : EmailToc) (buf : List Nat) (i iS : Nat),
      mp_state zB z1 E B buf i iS → E - (z1 + i) ≤ fuel →
      ∀ r, multipart_loop seg zB nB z1 fuel p buf i iS = some r → zeroed buf r.2 := by
  apply mp_loop_rec (fun _ buf _ _ buf1 => zeroed buf buf1) seg d hseg zB nB z1 E B hB1 hB2
    hnB hz hd (fun _ _ buf _ _ res => ∀ r, res = some r → zeroed buf r.2)
  · intro fuel p buf i iS _ _ r hr
    simp only [Option.some.injEq] at hr
    rw [← hr]
    exact zeroed_refl _
  · intro fuel p buf i iS res _ _ _ _ h
    exact h
  · intro fuel p buf i iS p2 buf2 res hst h10 _ hsw hend _ _ _ hS _ _ hterm hcont r hr
    obtain ⟨hlenB, hBrd⟩ := startsWith_length B _ hsw
    have hw : zeroed buf (wr buf (z1 + i + 1) 0) := by
      apply zeroed_wr
      left; right
      refine ⟨?_, ?_, by omega, ?_⟩
      · rw [← Nat.add_zero (z1 + i + 1), rd_cstr buf (z1 + i + 1) 0 (Nat.zero_le _),
          hBrd 0 (by omega)]
        exact hB45.1
      · rw [rd_cstr buf (z1 + i + 1) 1 (by omega), hBrd 1 (by omega)]
        exact hB45.2
      · have e : z1 + i + 1 - 1 = z1 + i := by omega
        rw [e]; exact h10
    by_cases ht : rd buf2 (z1 + (i + nB)) = 45 ∧ rd buf2 (z1 + (i + nB) + 1) = 45
    · have := hterm ht
      rw [this] at hr
      simp only [Option.some.injEq] at hr
      rw [← hr]
      exact zeroed_trans hw hS
    · exact zeroed_trans (zeroed_trans hw hS) (hcont ht r hr)

theorem mp_with_zeroed (seg : EmailToc → Buf → Nat → Option (EmailToc × Buf)) (d : Nat)
    (hseg : ∀ (p : EmailToc) (buf : Buf) (z : Nat), (cstr buf z).length < d →
      ∃ p1 buf1, seg p buf z = some (p1, buf1) ∧
        frame z (z + (cstr buf z).length) buf buf1 ∧ zeroed buf buf1)
    (p : EmailToc) (buf : List Nat) (z : Nat) (hlen : (cstr buf z).length ≤ d + 1) :
    ∀ r, emailtoc_add_multipart_with seg p buf z = some r → zeroed buf r.2 := by
  intro r hr
  rcases mp_with_cases seg p buf z with ⟨_, h⟩ | ⟨k, nB, ws, _, _, _, hnB, hle, hd0, hd1, hb0,
    hb1, hbyte, hBlen, hBok, hst, _, hun⟩
  · rw [h] at hr
    simp only [Option.some.injEq] at hr
    rw [← hr]
    exact zeroed_refl _
  · rw [hun] at hr
    have hw : zeroed buf (wr buf (z + k + nB) 0) := by
      apply zeroed_wr
      rcases hbyte with h | h
      · left; left; exact h
      · right; exact h
    have hEle : z + (cstr buf z).length ≤ buf.length := by
      have := cstr_length_le buf z
      omega
    have := mp_loop_zeroed seg d hseg (z + k) nB (z + k + nB + ws) (z + (cstr buf z).length)
      _ hBlen hBok hnB (by omega) (by omega) ⟨hb0, hb1⟩ _ p _ 0 0 hst
      (by rw [wr_length]; omega) r hr
    exact zeroed_trans hw this

/-- The segment decoder at nesting depth `d`, on a part shorter than `d` bytes:
it returns, it writes inside the part only, and it changes the buffer only by
storing NUL over bytes that may be overwritten. -/
theorem decode_zeroed : ∀ (d : Nat) (p : EmailToc) (buf : Buf) (z : Nat) (b : Bool),
    (cstr buf z).length < d →
    ∃ p1 buf1, emailtoc_add_multipart_segment d p buf z b = some (p1, buf1) ∧
      frame z (z + (cstr buf z).length) buf buf1 ∧ zeroed buf buf1 := by
  intro d
  induction d with
  | zero => intro p buf z b h; exact absurd h (Nat.not_lt_zero _)
  | succ d ih =>
    intro p buf z b hlen
    obtain ⟨h, xs⟩ := p
    obtain ⟨p1, buf1, hr, hfr, _⟩ := seg_inv_any d h xs buf z b hlen
    refine ⟨p1, buf1, hr, hfr, ?_⟩
    obtain ⟨bufh, i, p2, mp, _, hz, hfrh, hi, hc, hun⟩ := seg_step d ⟨h, xs⟩ buf z b
    rw [hun] at hr
    by_cases hmp : mp = true
    · rw [if_pos hmp] at hr
      have := mp_with_zeroed _ d (fun q bb y hl => ih q bb y false hl) p2.popBody bufh (z + i)
        (by rw [hc, List.length_drop]; omega) _ hr
      exact zeroed_trans hz this
    · rw [if_neg hmp] at hr
      simp only [Option.some.injEq, Prod.mk.injEq] at hr
      rw [← hr.2]
      exact hz

theorem getLast_rd (l : List Nat) (n : Nat) (h : l.length = n + 1) :
    l.getLast? = some (rd l n) := by
  rw [List.getLast?_eq_getElem?, rd_eq, h]
  simp only [Nat.add_sub_cancel]
  rw [List.getElem?_eq_getElem (by omega)]
  rfl

theorem getLast_drop (l : List Nat) (n : Nat) (h : n < l.length) :
    (l.drop n).getLast? = l.getLast? := by
  rw [List.getLast?_eq_getElem?, List.getLast?_eq_getElem?, List.getElem?_drop,
    List.length_drop]
  congr 1
  omega

/-! ## The checked decoder never stops at an access -/

theorem ok_bind {α β : Type} (a : α) (f : α → Except Fault β) :
    (Except.ok a >>= f) = f a := rfl

theorem pure_ok {α : Type} (a : α) : (pure a : Except Fault α) = Except.ok a := rfl

theorem rdc_ok (lim : Nat) (buf : List Nat) (i : Nat) (h : i ≤ lim) :
    rdc lim buf i = Except.ok (rd buf i) := by
  unfold rdc; rw [if_pos h]

theorem wrc_ok (lim : Nat) (buf : List Nat) (i v : Nat) (h : i ≤ lim) :
    wrc lim buf i v = Except.ok (wr buf i v) := by
  unfold wrc; rw [if_pos h]

theorem strc_ok (lim : Nat) (buf : List Nat) (off : Nat)
    (h : off + (cstr buf off).length ≤ lim) : strc lim buf off = Except.ok (cstr buf off) := by
  unfold strc; rw [if_pos h]

theorem rdc_when_ok (lim : Nat) (buf : List Nat) (c : Bool) (i : Nat)
    (h : c = true → i ≤ lim) :
    rdc_when lim buf c i = Except.ok (if c = true then rd buf i else 0) := by
  unfold rdc_when
  cases c with
  | false => rfl
  | true => simp only [if_true]; exact rdc_ok lim buf i (h rfl)

theorem strc_when_ok (lim : Nat) (buf : List Nat) (c : Bool) (off : Nat)
    (h : c = true → off + (cstr buf off).length ≤ lim) :
    strc_when lim buf c off = Except.ok (if c = true then cstr buf off else []) := by
  unfold strc_when
  cases c with
  | false => rfl
  | true => simp only [if_true]; exact strc_ok lim buf off (h rfl)

theorem cstr_length_cons (buf : List Nat) (q : Nat) (h : rd buf q ≠ 0) :
    (cstr buf q).length = (cstr buf (q + 1)).length + 1 := by
  rw [cstr_cons buf q h, List.length_cons]

theorem ell_scan_c_eq (lim : Nat) (buf : List Nat) (q : Nat) : ∀ (fuel i : Nat),
    (cstr buf (q + i)).length < fuel → q + i + (cstr buf (q + i)).length ≤ lim →
    email_line_length_scan_c lim buf q fuel i
      = Except.ok (email_line_length_scan (cstr buf (q + i)) i) := by
  intro fuel
  induction fuel with
  | zero => intro i h _; exact absurd h (Nat.not_lt_zero _)
  | succ f ih =>
    intro i hf hl
    unfold email_line_length_scan_c
    rw [rdc_ok lim buf (q + i) (by omega), ok_bind]
    by_cases hrd : rd buf (q + i) = 0
    · rw [rdc_when_ok lim buf _ _ (by rw [hrd]; intro h; exact absurd h (by decide)), ok_bind,
        if_neg (fun h => h.1 hrd), (cstr_eq_nil_iff buf (q + i)).2 hrd]
      rfl
    · have hlen := cstr_length_cons buf (q + i) hrd
      have hh : (cstr buf (q + i + 1)).headD 0 = rd buf (q + i + 1) :=
        (rd_cstr_zero buf (q + i + 1)).symm
      have e : q + i + 1 = q + (i + 1) := by omega
      have hrec := ih (i + 1) (by rw [← e]; omega) (by rw [← e]; omega)
      rw [← e] at hrec
      rw [rdc_when_ok lim buf _ _ (fun _ => by omega), ok_bind, cstr_cons buf (q + i) hrd]
      simp only [email_line_length_scan, hh]
      by_cases h10 : rd buf (q + i) = 10
      · simp only [h10, decide_True, if_true, ne_eq, not_true_eq_false, false_or,
          OfNat.ofNat_ne_zero, not_false_eq_true, true_and]
        by_cases hc1 : rd buf (q + i + 1) = 32 ∨ rd buf (q + i + 1) = 9
        · rw [if_pos hc1, if_pos hc1]
          exact hrec
        · rw [if_neg hc1, if_neg hc1]
          rfl
      · rw [if_pos ⟨hrd, Or.inl h10⟩, if_pos (Or.inl h10)]
        exact hrec

theorem ell_scan_le (z : List Nat) : email_line_length_scan z 0 ≤ email_line_length z := by
  unfold email_line_length
  simp only []
  split <;> omega

theorem email_line_length_c_eq (lim : Nat) (buf : List Nat) (q : Nat)
    (hl : q + (cstr buf q).length ≤ lim) :
    email_line_length_c lim buf q = Except.ok (email_line_length (cstr buf q)) := by
  unfold email_line_length_c
  have hlen := cstr_length_le buf q
  have h1 := ell_scan_c_eq lim buf q (buf.length + 1) 0 (by
    simp only [Nat.add_zero]; omega) (by simp only [Nat.add_zero]; exact hl)
  simp only [Nat.add_zero] at h1
  rw [h1, ok_bind]
  have hle := Nat.le_trans (ell_scan_le (cstr buf q)) (ell_le (cstr buf q))
  rw [rdc_ok lim buf _ (by omega), ok_bind, rd_cstr buf q _ hle]
  rfl

theorem trimLen_c_eq (lim : Nat) (buf : List Nat) (zi : Nat) : ∀ n, zi + n ≤ lim + 1 →
    trimLen_c lim buf zi n = Except.ok (trimLen buf zi n) := by
  intro n
  induction n with
  | zero => intro _; rfl
  | succ k ih =>
    intro h
    unfold trimLen_c
    rw [rdc_ok lim buf (zi + k) (by omega), ok_bind]
    simp only [trimLen]
    by_cases hs : fossil_isspace (rd buf (zi + k)) = true
    · rw [if_pos hs, if_pos hs]
      exact ih (by omega)
    · rw [if_neg hs, if_neg hs]
      rfl

theorem hdr_line_c_eq (lim : Nat) (buf : List Nat) (b : Bool) (zi : Nat) (p : EmailToc)
    (mp : Bool) (hl : zi + (cstr buf zi).length ≤ lim) :
    hdr_line_c lim buf b zi p mp = Except.ok (hdr_line b (cstr buf zi) zi p mp) := by
  unfold hdr_line_c
  rw [strc_ok lim buf zi hl, ok_bind]
  rw [strc_when_ok lim buf _ (zi + 13) (by
    intro h
    have h := of_decide_eq_true h
    have hlen := strnicmp_zero_length 13 _ lit_content_type (by decide) (by decide) h
    rw [cstr_add buf zi 13 hlen, List.length_drop]
    omega), ok_bind]
  rw [strc_when_ok lim buf _ (zi + 26) (by
    intro h
    have h := of_decide_eq_true h
    have hlen := strnicmp_zero_length 26 _ lit_content_transfer_encoding (by decide)
      (by decide) h
    rw [cstr_add buf zi 26 hlen, List.length_drop]
    omega), ok_bind]
  rfl

theorem scan_c_eq (lim : Nat) (buf : List Nat) (f : Nat → Bool) (h0 : f 0 = false) (q : Nat) :
    ∀ (fuel k : Nat), (cstr buf (q + k)).length < fuel →
    q + k + (cstr buf (q + k)).length ≤ lim →
    scan_c lim buf f q fuel k = Except.ok (k + scanLen f (cstr buf (q + k))) := by
  intro fuel
  induction fuel with
  | zero => intro k h _; exact absurd h (Nat.not_lt_zero _)
  | succ n ih =>
    intro k hf hl
    unfold scan_c
    rw [rdc_ok lim buf (q + k) (by omega), ok_bind]
    by_cases hrd : rd buf (q + k) = 0
    · rw [hrd, h0, (cstr_eq_nil_iff buf (q + k)).2 hrd]
      rfl
    · have hlen := cstr_length_cons buf (q + k) hrd
      have e : q + k + 1 = q + (k + 1) := by omega
      have hrec := ih (k + 1) (by rw [← e]; omega) (by rw [← e]; omega)
      rw [← e] at hrec
      rw [cstr_cons buf (q + k) hrd]
      simp only [scanLen]
      by_cases hc : f (rd buf (q + k)) = true
      · rw [if_pos hc, if_pos hc, hrec]
        congr 1
        omega
      · rw [if_neg hc, if_neg hc]
        rfl

theorem skip_c_eq (lim : Nat) (buf : List Nat) (q : Nat) : ∀ (fuel : Nat) (atStart : Bool)
    (k : Nat), (cstr buf (q + k)).length < fuel → q + k + (cstr buf (q + k)).length ≤ lim →
    skip_to_boundary_c lim buf q fuel atStart k
      = Except.ok ((skip_to_boundary atStart (cstr buf (q + k))).map (fun x => x + k)) := by
  intro fuel
  induction fuel with
  | zero => intro a k h _; exact absurd h (Nat.not_lt_zero _)
  | succ n ih =>
    intro a k hf hl
    unfold skip_to_boundary_c
    rw [rdc_ok lim buf (q + k) (by omega), ok_bind]
    by_cases hrd : rd buf (q + k) = 0
    · rw [rdc_when_ok lim buf _ _ (by rw [hrd]; intro h; simp at h), ok_bind,
        if_neg (by rw [hrd]; rintro ⟨_, h, _⟩; exact absurd h (by decide)), if_pos hrd,
        (cstr_eq_nil_iff buf (q + k)).2 hrd]
      rfl
    · have hlen := cstr_length_cons buf (q + k) hrd
      have hh : (cstr buf (q + k + 1)).headD 0 = rd buf (q + k + 1) :=
        (rd_cstr_zero buf (q + k + 1)).symm
      have e : q + k + 1 = q + (k + 1) := by omega
      have hrec := ih (rd buf (q + k) == 10) (k + 1) (by rw [← e]; omega) (by rw [← e]; omega)
      rw [← e] at hrec
      rw [rdc_when_ok lim buf _ _ (fun _ => by omega), ok_bind, cstr_cons buf (q + k) hrd]
      simp only [skip_to_boundary, hh]
      by_cases hf1 : a = true ∧ rd buf (q + k) = 45 ∧ rd buf (q + k + 1) = 45
      · have hb : (a && rd buf (q + k) == 45) = true := by simp [hf1.1, hf1.2.1]
        rw [hb]
        simp only [if_true]
        rw [if_pos hf1, if_pos (by simp [hf1.1, hf1.2.1, hf1.2.2])]
        simp [pure_ok]
      · have hne : ¬ ((a && rd buf (q + k) == 45 && rd buf (q + k + 1) == 45) = true) := by
          intro h
          simp only [Bool.and_eq_true, beq_iff_eq] at h
          exact hf1 ⟨h.1.1, h.1.2, h.2⟩
        have hne2 : ¬ (a = true ∧ rd buf (q + k) = 45 ∧
            (if (a && rd buf (q + k) == 45) = true then rd buf (q + k + 1) else 0) = 45) := by
          rintro ⟨h1, h2, h3⟩
          have hb : (a && rd buf (q + k) == 45) = true := by simp [h1, h2]
          rw [if_pos hb] at h3
          exact hf1 ⟨h1, h2, h3⟩
        rw [if_neg hne2, if_neg hrd, if_neg hne, hrec, Option.map_map]
        congr 2
        funext x
        simp only [Function.comp]
        omega

theorem seg_loop_c_eq (lim : Nat) (z : Nat) (b : Bool) : ∀ (fuel : Nat) (buf : List Nat)
    (i : Nat) (p : EmailToc) (mp : Bool) (r : Buf × Nat × EmailToc × Bool),
    segment_loop z b fuel buf i p mp = some r →
    z + i + (cstr buf (z + i)).length ≤ lim →
    segment_loop_c lim z b fuel buf i p mp = Except.ok r := by
  intro fuel
  induction fuel with
  | zero =>
    intro buf i p mp r h hl
    unfold segment_loop at h
    unfold segment_loop_c
    rw [rdc_ok lim buf (z + i) (by omega), ok_bind]
    by_cases hrd : rd buf (z + i) = 0
    · rw [if_pos hrd] at h
      rw [if_pos hrd]
      simp only [Option.some.injEq] at h
      rw [← h]; rfl
    · rw [if_neg hrd] at h
      simp at h
  | succ f ih =>
    intro buf i p mp r h hl
    unfold segment_loop at h
    unfold segment_loop_c
    rw [rdc_ok lim buf (z + i) (by omega), ok_bind]
    by_cases hrd : rd buf (z + i) = 0
    · rw [if_pos hrd] at h
      rw [if_pos hrd]
      simp only [Option.some.injEq] at h
      rw [← h]; rfl
    · rw [if_neg hrd] at h
      rw [if_neg hrd]
      simp only [] at h ⊢
      have hne : cstr buf (z + i) ≠ [] := fun h => hrd ((cstr_eq_nil_iff buf (z + i)).1 h)
      have hn2 := ell_le (cstr buf (z + i))
      have hn1 := ell_pos (cstr buf (z + i)) hne
      rw [email_line_length_c_eq lim buf (z + i) hl, ok_bind]
      rw [rdc_when_ok lim buf _ (z + i + 1) (by
        intro hc
        have hc := of_decide_eq_true hc
        omega), ok_bind]
      have hiff : ((email_line_length (cstr buf (z + i)) = 2 ∧ rd buf (z + i) = 13 ∧
          (if decide (email_line_length (cstr buf (z + i)) = 2 ∧ rd buf (z + i) = 13) = true
            then rd buf (z + i + 1) else 0) = 10) ∨ rd buf (z + i) = 10 ∨
          email_line_length (cstr buf (z + i)) = 0) ↔
          ((email_line_length (cstr buf (z + i)) = 2 ∧ rd buf (z + i) = 13 ∧
            rd buf (z + i + 1) = 10) ∨ rd buf (z + i) = 10 ∨
          email_line_length (cstr buf (z + i)) = 0) := by
        constructor
        · rintro (⟨h1, h2, h3⟩ | h1 | h1)
          · left
            rw [if_pos (decide_eq_true ⟨h1, h2⟩)] at h3
            exact ⟨h1, h2, h3⟩
          · right; left; exact h1
          · right; right; exact h1
        · rintro (⟨h1, h2, h3⟩ | h1 | h1)
          · left
            refine ⟨h1, h2, ?_⟩
            rw [if_pos (decide_eq_true ⟨h1, h2⟩)]
            exact h3
          · right; left; exact h1
          · right; right; exact h1
      by_cases hb : (email_line_length (cstr buf (z + i)) = 2 ∧ rd buf (z + i) = 13 ∧
            rd buf (z + i + 1) = 10) ∨ rd buf (z + i) = 10 ∨
          email_line_length (cstr buf (z + i)) = 0
      · rw [if_pos hb] at h
        rw [if_pos (hiff.2 hb)]
        simp only [Option.some.injEq] at h
        rw [← h]; rfl
      · rw [if_neg hb] at h
        rw [if_neg (fun hc => hb (hiff.1 hc))]
        obtain ⟨hw1, hw2, _⟩ := trim_write buf (z + i) hne
        have hle := (trimLen_byte buf (z + i) (email_line_length (cstr buf (z + i)))).1
        have hrl := rtrim_length_le
          ((cstr buf (z + i)).take (email_line_length (cstr buf (z + i))))
        simp only [List.length_take] at hrl
        have e1 : z + (i + trimLen buf (z + i) (email_line_length (cstr buf (z + i))))
            = z + i + trimLen buf (z + i) (email_line_length (cstr buf (z + i))) := by omega
        have e2 : z + (i + email_line_length (cstr buf (z + i)))
            = z + i + email_line_length (cstr buf (z + i)) := by omega
        rw [trimLen_c_eq lim buf (z + i) _ (by omega), ok_bind,
          wrc_ok lim buf _ 0 (by omega), ok_bind]
        rw [e1] at h ⊢
        rw [hdr_line_c_eq lim _ b (z + i) p mp (by rw [hw1]; omega), ok_bind]
        apply ih _ _ _ _ _ h
        rw [e2, hw2, List.length_drop]
        omega

theorem mp_loop_c_eq (lim : Nat) (seg : EmailToc → Buf → Nat → Option (EmailToc × Buf))
    (segc : EmailToc → Buf → Nat → Except Fault (EmailToc × Buf)) (d : Nat)
    (hseg : ∀ (p : EmailToc) (buf : Buf) (z : Nat), (cstr buf z).length < d →
      ∃ p1 buf1, seg p buf z = some (p1, buf1) ∧
        frame z (z + (cstr buf z).length) buf buf1 ∧
        (z + (cstr buf z).length ≤ lim → segc p buf z = Except.ok (p1, buf1)))
    (zB nB z1 E : Nat) (B : List Nat) (hB1 : B.length = nB)
    (hB2 : ∀ c ∈ B, c ≠ 0 ∧ fossil_isspace c = false) (hnB : 2 ≤ nB) (hz : zB + nB ≤ z1)
    (hd : E - z1 < d) (hE : E ≤ lim) :
    ∀ (fuel : Nat) (p : EmailToc) (buf : List Nat) (i iS : Nat),
      mp_state zB z1 E B buf i iS → E - (z1 + i) ≤ fuel →
      ∀ r, multipart_loop seg zB nB z1 fuel p buf i iS = some r →
        multipart_loop_c lim segc zB nB z1 fuel p buf i iS = Except.ok r := by
  apply mp_loop_rec (fun p buf z p1 buf1 =>
      z + (cstr buf z).length ≤ lim → segc p buf z = Except.ok (p1, buf1))
    seg d hseg zB nB z1 E B hB1 hB2 hnB hz hd (fun fuel p buf i iS res =>
      ∀ r, res = some r → multipart_loop_c lim segc zB nB z1 fuel p buf i iS = Except.ok r)
  · intro fuel p buf i iS hst hrd r hr
    obtain ⟨_, hi, _, _, _⟩ := hst
    simp only [Option.some.injEq] at hr
    unfold multipart_loop_c
    rw [rdc_ok lim buf (z1 + i) (by omega), ok_bind, if_pos hrd, ← hr]
    rfl
  · intro fuel p buf i iS res hst hiE hrd hm h r hr
    obtain ⟨hE0, hi, _, hcB, _⟩ := hst
    have hcl := cstr_length_of_zero buf (z1 + i + 1) E (by omega) hE0
    unfold multipart_loop_c
    rw [rdc_ok lim buf (z1 + i) (by omega), ok_bind, if_neg hrd]
    simp only []
    rw [strc_when_ok lim buf _ (z1 + i + 1) (fun _ => by omega), ok_bind,
      strc_when_ok lim buf _ zB (fun _ => by rw [hcB, hB1]; omega), ok_bind]
    rw [if_neg (by
      rintro ⟨h10, hs⟩
      rw [if_pos (decide_eq_true h10), if_pos (decide_eq_true h10)] at hs
      exact hm ⟨h10, hs⟩)]
    exact h r hr
  · intro fuel p buf i iS p2 buf2 res hst h10 hstr _ hend hlen hs hfr hS hws hst2 hterm hcont
      r hr
    obtain ⟨hE0, hi, hiS, hcB, _⟩ := hst
    have hrd : rd buf (z1 + i) ≠ 0 := by rw [h10]; decide
    have hcl := cstr_length_of_zero buf (z1 + i + 1) E (by omega) hE0
    unfold multipart_loop_c
    rw [rdc_ok lim buf (z1 + i) (by omega), ok_bind, if_neg hrd]
    simp only []
    rw [strc_when_ok lim buf _ (z1 + i + 1) (fun _ => by omega), ok_bind,
      strc_when_ok lim buf _ zB (fun _ => by rw [hcB, hB1]; omega), ok_bind]
    rw [if_pos (by
      refine ⟨h10, ?_⟩
      rw [if_pos (decide_eq_true h10), if_pos (decide_eq_true h10)]
      exact hstr)]
    rw [wrc_ok lim buf (z1 + i + 1) 0 (by omega), ok_bind, hS (by rw [hlen]; omega), ok_bind]
    simp only []
    rw [rdc_ok lim buf2 (z1 + (i + nB)) (by omega), ok_bind,
      rdc_when_ok lim buf2 _ (z1 + (i + nB) + 1) (fun _ => by omega), ok_bind]
    by_cases ht : rd buf2 (z1 + (i + nB)) = 45 ∧ rd buf2 (z1 + (i + nB) + 1) = 45
    · rw [if_pos (by
        refine ⟨ht.1, ?_⟩
        rw [if_pos (decide_eq_true ht.1)]
        exact ht.2)]
      have := hterm ht
      rw [this] at hr
      simp only [Option.some.injEq] at hr
      rw [← hr]; rfl
    · rw [if_neg (by
        rintro ⟨h1, h2⟩
        rw [if_pos (decide_eq_true h1)] at h2
        exact ht ⟨h1, h2⟩)]
      obtain ⟨hE2, _, _, _, _⟩ := hst2
      have hcl2 := cstr_length_of_zero buf2 (z1 + (i + nB)) E (by omega) hE2
      have hcl3 := cstr_length_le buf2 (z1 + (i + nB))
      rw [scan_c_eq lim buf2 fossil_isspace (by decide) (z1 + (i + nB)) (buf2.length + 1) 0
        (by simp only [Nat.add_zero]; omega) (by simp only [Nat.add_zero]; omega), ok_bind]
      simp only [Nat.add_zero, Nat.zero_add, hws]
      exact hcont ht r hr

theorem mp_with_c_eq (lim : Nat) (seg : EmailToc → Buf → Nat → Option (EmailToc × Buf))
    (segc : EmailToc → Buf → Nat → Except Fault (EmailToc × Buf)) (d : Nat)
    (hseg : ∀ (p : EmailToc) (buf : Buf) (z : Nat), (cstr buf z).length < d →
      ∃ p1 buf1, seg p buf z = some (p1, buf1) ∧
        frame z (z + (cstr buf z).length) buf buf1 ∧
        (z + (cstr buf z).length ≤ lim → segc p buf z = Except.ok (p1, buf1)))
    (p : EmailToc) (buf : List Nat) (z : Nat) (hlen : (cstr buf z).length ≤ d + 1)
    (hl : z + (cstr buf z).length ≤ lim) :
    ∀ r, emailtoc_add_multipart_with seg p buf z = some r →
      emailtoc_add_multipart_with_c lim segc p buf z = Except.ok r := by
  intro r hr
  have hcl := cstr_length_le buf z
  have hskip := skip_c_eq lim buf z (buf.length + 1) true 0
    (by simp only [Nat.add_zero]; omega) (by simp only [Nat.add_zero]; omega)
  simp only [Nat.add_zero] at hskip
  unfold emailtoc_add_multipart_with_c
  rw [hskip, ok_bind]
  rcases mp_with_cases seg p buf z with ⟨hn, h⟩ | ⟨k, nB, ws, hk, hnB, hws, hnB2, hle, _, _,
    _, _, _, hBlen, hBok, hst, _, hun⟩
  · rw [hn]
    rw [h] at hr
    simp only [Option.some.injEq] at hr
    rw [← hr]; rfl
  · rw [hk]
    simp only [Option.map_some', Nat.add_zero]
    have hcB : cstr buf (z + k) = (cstr buf z).drop k := cstr_add buf z k (by omega)
    have hcW : cstr buf (z + k + nB) = (cstr buf z).drop (k + nB) := by
      rw [Nat.add_assoc, cstr_add buf z (k + nB) (by omega)]
    have hclB := cstr_length_le buf (z + k)
    have hclW := cstr_length_le buf (z + k + nB)
    rw [scan_c_eq lim buf _ (by decide) (z + k) (buf.length + 1) 0
      (by simp only [Nat.add_zero]; omega)
      (by simp only [Nat.add_zero]; rw [hcB, List.length_drop]; omega), ok_bind]
    simp only [Nat.add_zero, Nat.zero_add, hnB]
    rw [if_neg (by omega)]
    rw [scan_c_eq lim buf _ (by decide) (z + k + nB) (buf.length + 1) 0
      (by simp only [Nat.add_zero]; omega)
      (by simp only [Nat.add_zero]; rw [hcW, List.length_drop]; omega), ok_bind]
    simp only [Nat.add_zero, Nat.zero_add, hws]
    rw [wrc_ok lim buf (z + k + nB) 0 (by omega), ok_bind]
    rw [hun] at hr
    exact mp_loop_c_eq lim seg segc d hseg (z + k) nB (z + k + nB + ws)
      (z + (cstr buf z).length) _ hBlen hBok hnB2 (by omega) (by omega) hl _ p _ 0 0 hst
      (by rw [wr_length]; omega) r hr

/-- The checked segment decoder at nesting depth `d`, on a part shorter than `d`
bytes that ends at or before the limit: it returns what the decoder returns. -/
theorem decode_c_eq (lim : Nat) : ∀ (d : Nat) (p : EmailToc) (buf : Buf) (z : Nat) (b : Bool),
    (cstr buf z).length < d →
    ∃ p1 buf1, emailtoc_add_multipart_segment d p buf z b = some (p1, buf1) ∧
      frame z (z + (cstr buf z).length) buf buf1 ∧
      (z + (cstr buf z).length ≤ lim →
        emailtoc_add_multipart_segment_c lim d p buf z b = Except.ok (p1, buf1)) := by
  intro d
  induction d with
  | zero => intro p buf z b h; exact absurd h (Nat.not_lt_zero _)
  | succ d ih =>
    intro p buf z b hlen
    obtain ⟨h, xs⟩ := p
    obtain ⟨p1, buf1, hr, hfr, _⟩ := seg_inv_any d h xs buf z b hlen
    refine ⟨p1, buf1, hr, hfr, ?_⟩
    intro hl
    obtain ⟨bufh, i, p2, mp, hloop, _, hfrh, hi, hc, hun⟩ := seg_step d ⟨h, xs⟩ buf z b
    rw [hun] at hr
    have hlc := seg_loop_c_eq lim z b buf.length buf 0 (emailtoc_new_body ⟨h, xs⟩) false _
      hloop (by simp only [Nat.add_zero]; exact hl)
    unfold emailtoc_add_multipart_segment_c
    rw [hlc, ok_bind]
    simp only []
    by_cases hmp : mp = true
    · rw [if_pos hmp] at hr
      rw [if_pos hmp]
      exact mp_with_c_eq lim _ _ d (fun q bb y hq => ih q bb y false hq) p2.popBody bufh (z + i)
        (by rw [hc, List.length_drop]; omega) (by rw [hc, List.length_drop]; omega) _ hr
    · rw [if_neg hmp] at hr
      rw [if_neg hmp]
      simp only [Option.some.injEq] at hr
      rw [← hr]; rfl

/-- C27: for every input buffer, terminated by `blob_terminate`, the decoder with
every access checked returns, and returns what `emailtoc_from_email` returns: no
read or store of `email_line_length`, `emailtoc_add_multipart_segment` or
`emailtoc_add_multipart`, and no string handed to a library routine, reaches an
index greater than the index of the buffer's terminating NUL (the first NUL of
the buffer), which is inside the buffer. -/
theorem accesses_in_range (msg : List Nat) :
    ∃ r, emailtoc_from_email msg = some r ∧ emailtoc_from_email_c msg = Except.ok r ∧
      (cstr (msg ++ [0]) 0).length < (msg ++ [0]).length ∧
      rd (msg ++ [0]) (cstr (msg ++ [0]) 0).length = 0 := by
  have hs0 : cstr (msg ++ [0]) 0 = text_of msg := cstr_top msg
  have hl := text_length_le msg
  obtain ⟨p1, buf1, hr, _, hc⟩ := decode_c_eq (cstr (msg ++ [0]) 0).length (msg.length + 1)
    emailtoc_alloc (msg ++ [0]) 0 true (by rw [hs0]; omega)
  refine ⟨(p1, buf1), hr, hc (by omega), ?_, ?_⟩
  · rw [hs0, List.length_append, List.length_singleton]; omega
  · have := rd_cstr_end (msg ++ [0]) 0
    simpa using this

/-- The checks are real: with the limit one below the index of the terminating
NUL, the checked decoder stops at the read of that NUL. -/
theorem checked_fault_example :
    (match emailtoc_add_multipart_segment_c 2 5 emailtoc_alloc (bytes "abc" ++ [0]) 0 true with
      | Except.error (Fault.range i) => some i
      | _ => none) = some 3 := by
  decide!

/-! ## The decoder's header lines and the header block of the spec -/

theorem logical_lines_aux_head : ∀ (z cur : List Nat), cur ≠ [] →
    ∃ l ls, logical_lines_aux cur z = l :: ls ∧ l.headD 0 = cur.headD 0 := by
  intro z
  induction z with
  | nil =>
    intro cur hc
    exact ⟨cur, [], by simp [logical_lines_aux, hc], rfl⟩
  | cons c rest ih =>
    intro cur hc
    have hh : (cur ++ [c]).headD 0 = cur.headD 0 := by
      cases cur with
      | nil => exact absurd rfl hc
      | cons a t => rfl
    unfold logical_lines_aux
    split
    · exact ⟨cur ++ [c], _, rfl, hh⟩
    · obtain ⟨l, ls, h1, h2⟩ := ih (cur ++ [c]) (by simp)
      exact ⟨l, ls, h1, by rw [h2, hh]⟩

theorem spec_header_text_head (a : Bool) (z : List Nat) :
    ((spec_header_text_aux a z).headD 0 = 32 ↔ z.headD 0 = 32) ∧
    ((spec_header_text_aux a z).headD 0 = 9 ↔ z.headD 0 = 9) := by
  cases z with
  | nil => simp [spec_header_text_aux]
  | cons c rest =>
    unfold spec_header_text_aux
    split
    · rename_i h
      simp only [Bool.and_eq_true, Bool.or_eq_true, beq_iff_eq] at h
      have hc : c = 10 ∨ c = 13 := by
        rcases h.2 with h1 | h1
        · left; exact h1
        · right; exact h1.1
      simp only [List.headD_nil, List.headD_cons]
      constructor
      · constructor
        · intro h0; exact absurd h0 (by decide)
        · intro h0; rcases hc with h1 | h1 <;> omega
      · constructor
        · intro h0; exact absurd h0 (by decide)
        · intro h0; rcases hc with h1 | h1 <;> omega
    · simp

/-- The lines that the decoder takes as header lines are the header lines of the
spec, unless the blank line is a CR-LF pair followed by a space or a tab. -/
theorem header_block_spec_aux : ∀ (z cur : List Nat) (atStart : Bool),
    (cur = [] → atStart = true) →
    (atStart = true → cur = [] ∨ z.headD 0 = 32 ∨ z.headD 0 = 9) →
    (cur ≠ [] → cur.headD 0 ≠ 10 ∧ ¬ (cur.headD 0 = 13 ∧ (cur ++ z).getD 1 0 = 10)) →
    blank_folded_aux atStart z = false →
    header_block (logical_lines_aux cur z)
      = logical_lines_aux cur (spec_header_text_aux atStart z) := by
  intro z
  induction z with
  | nil =>
    intro cur a _ _ h3 _
    simp only [spec_header_text_aux, logical_lines_aux]
    by_cases hc : cur = []
    · simp [hc, header_block]
    · rw [if_neg hc]
      obtain ⟨h10, h13⟩ := h3 hc
      have hnb : is_blank cur = false := by
        unfold is_blank
        simp only [Bool.or_eq_false_iff, beq_eq_false_iff_ne, ne_eq]
        refine ⟨h10, ?_⟩
        intro he
        apply h13
        rw [he]
        simp
      simp [header_block, hnb]
  | cons c rest ih =>
    intro cur a h1 h2 h3 hnf
    by_cases ht : (a && (c == 10 || (c == 13 && rest.headD 0 == 10))) = true
    · -- the blank line
      have hsp : spec_header_text_aux a (c :: rest) = [] := by
        rw [spec_header_text_aux, if_pos ht]
      have hfold : (c == 13 && (rest.getD 1 0 == 32 || rest.getD 1 0 == 9)) = false := by
        rw [blank_folded_aux, if_pos ht] at hnf
        exact hnf
      simp only [Bool.and_eq_true, Bool.or_eq_true, beq_iff_eq] at ht
      have hcur : cur = [] := by
        rcases h2 ht.1 with h | h | h
        · exact h
        · simp only [List.headD_cons] at h
          rcases ht.2 with h5 | h5 <;> omega
        · simp only [List.headD_cons] at h
          rcases ht.2 with h5 | h5 <;> omega
      subst hcur
      rw [hsp]
      have hnil : logical_lines_aux [] [] = [] := by simp [logical_lines_aux]
      rw [hnil]
      rcases ht.2 with hc | ⟨hc, hr⟩
      · subst hc
        rw [logical_lines_aux]
        by_cases hend : (10 : Nat) = 10 ∧ rest.headD 0 ≠ 32 ∧ rest.headD 0 ≠ 9
        · rw [if_pos hend]
          simp [header_block, is_blank]
        · rw [if_neg hend]
          obtain ⟨l, ls, he, hh⟩ := logical_lines_aux_head rest ([] ++ [10]) (by simp)
          rw [he]
          have hb : is_blank l = true := by
            unfold is_blank
            rw [hh]
            rfl
          simp [header_block, hb]
      · subst hc
        cases rest with
        | nil => simp at hr
        | cons c2 r2 =>
          simp only [List.headD_cons] at hr
          subst hr
          simp only [List.getD_cons_succ, List.getD_cons_zero, Bool.and_eq_false_imp,
            Bool.or_eq_false_iff, beq_eq_false_iff_ne, ne_eq, beq_self_eq_true,
            forall_const] at hfold
          have hh0 : r2.headD 0 = r2.getD 0 0 := by cases r2 <;> rfl
          have e1 : logical_lines_aux [] (13 :: 10 :: r2)
              = [13, 10] :: logical_lines_aux [] r2 := by
            rw [logical_lines_aux, if_neg (fun h => absurd h.1 (by decide)),
              logical_lines_aux,
              if_pos ⟨rfl, by rw [hh0]; exact hfold.1, by rw [hh0]; exact hfold.2⟩]
            rfl
          rw [e1]
          simp [header_block, is_blank]
    · -- any other byte
      have hsp : spec_header_text_aux a (c :: rest)
          = c :: spec_header_text_aux (c == 10) rest := by
        rw [spec_header_text_aux, if_neg ht]
      have hnf2 : blank_folded_aux (c == 10) rest = false := by
        rw [blank_folded_aux, if_neg ht] at hnf
        exact hnf
      obtain ⟨hh32, hh9⟩ := spec_header_text_head (c == 10) rest
      rw [hsp]
      simp only [logical_lines_aux]
      have hcond : (c = 10 ∧ (spec_header_text_aux (c == 10) rest).headD 0 ≠ 32 ∧
          (spec_header_text_aux (c == 10) rest).headD 0 ≠ 9) ↔
          (c = 10 ∧ rest.headD 0 ≠ 32 ∧ rest.headD 0 ≠ 9) := by
        constructor
        · rintro ⟨g1, g2, g3⟩
          exact ⟨g1, fun h => g2 (hh32.2 h), fun h => g3 (hh9.2 h)⟩
        · rintro ⟨g1, g2, g3⟩
          exact ⟨g1, fun h => g2 (hh32.1 h), fun h => g3 (hh9.1 h)⟩
      -- the line so far is not blank
      have hfirst : cur = [] → c ≠ 10 ∧ ¬ (c = 13 ∧ rest.headD 0 = 10) := by
        intro hc
        have ha := h1 hc
        rw [ha] at ht
        simp only [Bool.true_and, Bool.or_eq_true, beq_iff_eq, Bool.and_eq_true] at ht
        exact ⟨fun h => ht (Or.inl h), fun h => ht (Or.inr h)⟩
      have hinv : (cur ++ [c]).headD 0 ≠ 10 ∧
          ¬ ((cur ++ [c]).headD 0 = 13 ∧ ((cur ++ [c]) ++ rest).getD 1 0 = 10) := by
        by_cases hc : cur = []
        · subst hc
          obtain ⟨f1, f2⟩ := hfirst rfl
          refine ⟨by simpa using f1, ?_⟩
          rintro ⟨g1, g2⟩
          apply f2
          refine ⟨by simpa using g1, ?_⟩
          cases rest with
          | nil => simp at g2
          | cons x t => simpa using g2
        · obtain ⟨f1, f2⟩ := h3 hc
          have hh : (cur ++ [c]).headD 0 = cur.headD 0 := by
            cases cur with
            | nil => exact absurd rfl hc
            | cons x t => rfl
          rw [hh]
          refine ⟨f1, ?_⟩
          rw [List.append_assoc]
          exact f2
      by_cases hend : c = 10 ∧ rest.headD 0 ≠ 32 ∧ rest.headD 0 ≠ 9
      · rw [if_pos hend, if_pos (hcond.2 hend)]
        have hnb : is_blank (cur ++ [c]) = false := by
          unfold is_blank
          simp only [Bool.or_eq_false_iff, beq_eq_false_iff_ne, ne_eq]
          refine ⟨hinv.1, ?_⟩
          intro he
          apply hinv.2
          rw [List.append_assoc] at *
          have hl : cur.length = 1 := by
            have := congrArg List.length he
            simpa using this
          cases cur with
          | nil => simp at hl
          | cons x t =>
            cases t with
            | nil =>
              simp only [List.cons_append, List.nil_append, List.cons.injEq, and_true] at he
              simp [he.1, he.2]
            | cons y t2 => simp at hl
        simp only [header_block, hnb, Bool.false_eq_true, if_false, List.cons.injEq, true_and]
        have hc10 : (c == 10) = true := by simp [hend.1]
        rw [hc10] at hnf2 ⊢
        exact ih [] true (fun _ => rfl) (fun _ => Or.inl rfl) (fun h => absurd rfl h) hnf2
      · rw [if_neg hend, if_neg (fun h => hend (hcond.1 h))]
        apply ih (cur ++ [c]) (c == 10) (fun h => absurd h (by simp)) ?_ (fun _ => hinv) hnf2
        intro hc10
        right
        have hc : c = 10 := by simpa using hc10
        by_contra hcon
        push_neg at hcon
        exact hend ⟨hc, hcon.1, hcon.2⟩

theorem header_block_spec (z : List Nat) (h : ¬ blank_line_folded z) :
    header_block (logical_lines z) = spec_header_lines z := by
  unfold logical_lines spec_header_lines spec_header_text logical_lines
  apply header_block_spec_aux z [] true (fun _ => rfl) (fun _ => Or.inl rfl)
    (fun h => absurd rfl h)
  unfold blank_line_folded at h
  simpa using h

theorem part_lines_spec (buf : List Nat) (z : Nat) (h : ¬ blank_line_folded (cstr buf z)) :
    part_lines buf z = spec_part_lines buf z := by
  unfold part_lines spec_part_lines
  rw [header_block_spec _ h]

theorem leaf_part_spec (buf : List Nat) (z : Nat) (h : ¬ blank_line_folded (cstr buf z))
    (hl : spec_leaf_part buf z) : leaf_part buf z := by
  unfold leaf_part
  rw [part_lines_spec buf z h]
  exact hl

/-! ## Single-part messages whose blank line is a CR-LF pair -/

theorem logical_lines_crlf (t : List Nat) (h32 : t.headD 0 ≠ 32) (h9 : t.headD 0 ≠ 9) :
    logical_lines (13 :: 10 :: t) = [13, 10] :: logical_lines t := by
  unfold logical_lines
  rw [logical_lines_aux, if_neg (by simp), logical_lines_aux, if_pos ⟨rfl, h32, h9⟩]
  rfl

theorem headD_takeWhile_ne (p : Nat → Bool) (body : List Nat) (v : Nat) (hv : v ≠ 0)
    (h : body.headD 0 ≠ v) : (body.takeWhile p).headD 0 ≠ v := by
  cases body with
  | nil => simpa using hv.symm
  | cons c rest =>
    rw [List.takeWhile_cons]
    split
    · simpa using h
    · simpa using hv.symm

theorem cstr_message_crlf (hs : List (List Nat)) (body : List Nat)
    (hok : ∀ l ∈ hs, header_line_ok l) :
    cstr (unlines hs ++ 13 :: 10 :: body ++ [0]) 0 =
      unlines hs ++ 13 :: 10 :: body.takeWhile (fun c => c != 0) := by
  rw [cstr_top]
  have hnf := unlines_nul_free hs (fun l hl c hc => ((hok l hl).2.2.1 c hc).1)
  rw [takeWhile_append_of_all _ _ _ (fun c hc => by simpa using hnf c hc)]
  simp [List.takeWhile_cons]

/-- A message without a `Content-Type:` header line whose blank line is a CR-LF
pair that is not followed by a space or a tab: the table of contents has the
offsets of the header lines and one body entry, which starts after the pair. -/
theorem single_part_crlf (hs : List (List Nat)) (body : List Nat)
    (hok : ∀ l ∈ hs, header_line_ok l)
    (hct : ∀ l ∈ hs, is_header lit_content_type l = false)
    (h32 : body.headD 0 ≠ 32) (h9 : body.headD 0 ≠ 9) :
    ∃ buf1, emailtoc_from_email (unlines hs ++ 13 :: 10 :: body) =
        some (⟨line_offsets 0 (hs.map (fun l => l ++ [10])),
          [{ body_of_lines true (hs.map (fun l => l ++ [10])) EmailBody.zero with
            zContent := some ((unlines hs).length + 2) }]⟩, buf1) := by
  obtain ⟨buf1, hfr, hle, hres⟩ := seg_unfold (unlines hs ++ 13 :: 10 :: body).length [] []
    (unlines hs ++ 13 :: 10 :: body ++ [0]) 0 true
  have hs0 := cstr_message_crlf hs body hok
  have hll : logical_lines (unlines hs ++ 13 :: 10 :: body.takeWhile (fun c => c != 0)) =
      hs.map (fun l => l ++ [10]) ++ [13, 10] ::
        logical_lines (body.takeWhile (fun c => c != 0)) := by
    rw [logical_lines_unlines hs _ (fun l hl c hc => ((hok l hl).2.2.1 c hc).2)
      (fun l hl => ⟨(hok l hl).2.2.2.1, (hok l hl).2.2.2.2⟩) (by simp) (by simp),
      logical_lines_crlf _ (headD_takeWhile_ne _ body 32 (by decide) h32)
        (headD_takeWhile_ne _ body 9 (by decide) h9)]
  obtain ⟨hhb, hbs⟩ := header_block_lines hs [13, 10]
    (logical_lines (body.takeWhile (fun c => c != 0))) hok rfl
  simp only [hs0, hll, hhb, hbs, no_multipart_lines hs hct, Bool.false_eq_true, if_false,
    if_true, List.nil_append, Nat.zero_add, List.length_cons, List.length_nil] at hres
  exact ⟨buf1, hres⟩

/-- C1 as stated fails, in two ways.  The one header line
`Content-Transfer-Encoding: base64` is not empty, does not start with a space or a
tab and is not a `Content-Type:` line, and the body segment of the message gets
encoding `EMAILENC_B64`.  And the message `"A: b\r\n\r\n x"`, which has the one
header line `A: b`, a blank line that is a CR-LF pair and a body that begins with a
space, gets two header entries. -/
theorem single_part_counterexample :
    (∀ l ∈ [bytes "Content-Transfer-Encoding: base64"],
      header_line_ok l ∧ is_header lit_content_type l = false) ∧
    (emailtoc_from_email (unlines [bytes "Content-Transfer-Encoding: base64"] ++
        10 :: bytes "QUJD")).map (fun r => r.1.aBody.map (fun x => x.encoding))
      = some [EMAILENC_B64] ∧
    (¬ ∃ toc buf1, emailtoc_from_email (unlines [bytes "Content-Transfer-Encoding: base64"] ++
        10 :: bytes "QUJD") = some (toc, buf1) ∧
      ∃ x, toc.aBody = [x] ∧ x.encoding = EMAILENC_NONE) ∧
    (∀ l ∈ [bytes "A: b\r"], header_line_ok l ∧ is_header lit_content_type l = false ∧
      is_header lit_content_transfer_encoding l = false) ∧
    unlines [bytes "A: b\r"] ++ ([13, 10] ++ bytes " x") = bytes "A: b\r\n\r\n x" ∧
    (emailtoc_from_email (bytes "A: b\r\n\r\n x")).map (fun r => r.1.azHdr.length)
      = some 2 := by
  have h : (emailtoc_from_email (unlines [bytes "Content-Transfer-Encoding: base64"] ++
        10 :: bytes "QUJD")).map (fun r => r.1.aBody.map (fun x => x.encoding))
      = some [EMAILENC_B64] := by decide!
  refine ⟨by decide!, h, ?_, by decide!, by decide!, by decide!⟩
  rintro ⟨toc, buf1, h1, x, h2, h3⟩
  rw [h1] at h
  simp only [Option.map_some', h2, List.map_cons, List.map_nil, h3, Option.some.injEq,
    List.cons.injEq, and_true] at h
  exact absurd h (by decide)

/-- C1 (amended): for every message made of header lines (each not empty and not
a lone CR, without NUL, not starting with a space or a tab, none a `Content-Type:`
line and none a `Content-Transfer-Encoding:` line; a line may end with a CR), then
a blank line, which is a bare `'\n'` or a CR-LF pair that is not followed by a
space or a tab, then a body, `emailtoc_from_email` yields as many header entries as
there are header lines and exactly one body segment, whose mimetype is the empty
string, whose encoding is `EMAILENC_NONE` and which has no file name. -/
theorem single_part_toc (hs : List (List Nat)) (blank body : List Nat)
    (hok : ∀ l ∈ hs, header_line_ok l)
    (hct : ∀ l ∈ hs, is_header lit_content_type l = false)
    (hcte : ∀ l ∈ hs, is_header lit_content_transfer_encoding l = false)
    (hbl : blank = [10] ∨ (blank = [13, 10] ∧ body.headD 0 ≠ 32 ∧ body.headD 0 ≠ 9)) :
    ∃ toc buf1, emailtoc_from_email (unlines hs ++ (blank ++ body)) = some (toc, buf1) ∧
      toc.azHdr.length = hs.length ∧
      ∃ x, toc.aBody = [x] ∧ x.zMimetype = [] ∧ x.encoding = EMAILENC_NONE ∧
        x.zFilename = none := by
  rcases hbl with rfl | ⟨rfl, h32, h9⟩
  · obtain ⟨buf1, hres, _⟩ := single_part_eq hs body hok hct
    refine ⟨_, buf1, hres, ?_, _, rfl, ?_, ?_, ?_⟩
    · simp [line_offsets_length]
    · rw [body_of_lines_plain hs _ hct hcte]; rfl
    · rw [body_of_lines_plain hs _ hct hcte]; rfl
    · rw [body_of_lines_plain hs _ hct hcte]; rfl
  · obtain ⟨buf1, hres⟩ := single_part_crlf hs body hok hct h32 h9
    refine ⟨_, buf1, hres, ?_, _, rfl, ?_, ?_, ?_⟩
    · simp [line_offsets_length]
    · rw [body_of_lines_plain hs _ hct hcte]; rfl
    · rw [body_of_lines_plain hs _ hct hcte]; rfl
    · rw [body_of_lines_plain hs _ hct hcte]; rfl

/-- Witness for C1 on the message `"A: b\r\nSubject: x\r\n\r\nhi"`, whose lines
end with CR-LF. -/
theorem single_part_toc_witness :
    ∃ toc buf1, emailtoc_from_email (unlines [bytes "A: b\r", bytes "Subject: x\r"] ++
        ([13, 10] ++ bytes "hi")) = some (toc, buf1) ∧
      toc.azHdr.length = [bytes "A: b\r", bytes "Subject: x\r"].length ∧
      ∃ x, toc.aBody = [x] ∧ x.zMimetype = [] ∧ x.encoding = EMAILENC_NONE ∧
        x.zFilename = none :=
  single_part_toc [bytes "A: b\r", bytes "Subject: x\r"] [13, 10] (bytes "hi") (by decide!)
    (by decide!) (by decide!) (Or.inr (by decide!))

/-! ## Nested multipart messages on which the count of segments is not 2 -/

/-- The failing input of C6: the header block of the message is the one line
`A: b`, the blank line is a CR-LF pair and the body begins with a space.  The
header list gets three entries: the blank line, folded with the first body line,
and the second body line are taken as header lines. -/
theorem header_list_counterexample :
    spec_header_lines (text_of (bytes "A: b\r\n\r\n x\r\ny")) = [bytes "A: b\r\n"] ∧
    blank_line_folded (text_of (bytes "A: b\r\n\r\n x\r\ny")) ∧
    (emailtoc_from_email (bytes "A: b\r\n\r\n x\r\ny")).map
      (fun r => (r.1.azHdr, r.1.azHdr.map (cstr r.2)))
      = some ([0, 6, 12], [bytes "A: b", bytes "\r\n x", bytes "y"]) := by
  decide!

/-- C6, as far as the code goes: for every input buffer in which the blank line
that ends the outermost header block is not a CR-LF pair followed by a space or a
tab, the header list that `emailtoc_from_email` returns holds exactly the offsets
of the logical lines of the outermost header block (the text before the first
blank line, the whole text when there is none), in document order; and for every
input, `emailtoc_add_multipart` and `emailtoc_add_multipart_segment` without
header capture return the header list they were given, so the child parts add
nothing to it. -/
theorem header_list_outermost :
    (∀ msg : List Nat, ¬ blank_line_folded (text_of msg) →
      ∃ toc buf1, emailtoc_from_email msg = some (toc, buf1) ∧
      toc.azHdr = line_offsets 0 (spec_header_lines (text_of msg)) ∧
      toc.azHdr.length = (spec_header_lines (text_of msg)).length) ∧
    (∀ (d : Nat) (p : EmailToc) (buf : List Nat) (z : Nat) (r : EmailToc × Buf),
      emailtoc_add_multipart d p buf z = some r → r.1.azHdr = p.azHdr) ∧
    (∀ (d : Nat) (p : EmailToc) (buf : List Nat) (z : Nat) (r : EmailToc × Buf),
      emailtoc_add_multipart_segment d p buf z false = some r → r.1.azHdr = p.azHdr) := by
  refine ⟨?_, ?_, ?_⟩
  · intro msg hnf
    obtain ⟨toc, buf1, hr, _, hh, _⟩ := top_inv msg
    rw [header_block_spec _ hnf] at hh
    exact ⟨toc, buf1, hr, hh, by rw [hh, line_offsets_length]⟩
  · intro d p buf z r hr
    have hr2 : emailtoc_add_multipart (d + (cstr buf z).length) p buf z = some r :=
      mp_with_mono _ _ (fun q b y r h => seg_mono_add d _ q b y false r h) p buf z r hr
    obtain ⟨p1, buf1, hm, _, hh, _⟩ := mp_inv _ _ (decode_inv (d + (cstr buf z).length))
      p buf z (by omega)
    unfold emailtoc_add_multipart at hr2
    rw [hm] at hr2
    simp only [Option.some.injEq] at hr2
    rw [← hr2]
    exact hh
  · intro d p buf z r hr
    have hr2 := seg_mono_add d ((cstr buf z).length + 1) p buf z false r hr
    obtain ⟨p1, buf1, hm, _, hh, _⟩ := decode_inv (d + ((cstr buf z).length + 1)) p buf z
      (by omega)
    simp only [] at hm
    rw [hm] at hr2
    simp only [Option.some.injEq] at hr2
    rw [← hr2]
    exact hh

/-- Witness for C6: a message with CR-LF line ends, two header lines of which the
second is folded, and a body that begins with a letter; and the splitter on a body
with one child, which leaves the header list `[7, 9]` as it is. -/
theorem header_list_outermost_witness :
    (∃ toc buf1, emailtoc_from_email (bytes "A: b\r\nSubject: x\r\n y\r\n\r\nhi\r\n")
        = some (toc, buf1) ∧
      toc.azHdr = line_offsets 0
        (spec_header_lines (text_of (bytes "A: b\r\nSubject: x\r\n y\r\n\r\nhi\r\n"))) ∧
      toc.azHdr.length =
        (spec_header_lines (text_of (bytes "A: b\r\nSubject: x\r\n y\r\n\r\nhi\r\n"))).length) ∧
    ∃ r, emailtoc_add_multipart 9 ⟨[7, 9], []⟩ (bytes "--X\nA: b\n\nhi\n--X--\n" ++ [0]) 0
        = some r ∧ r.1.azHdr = [7, 9] := by
  refine ⟨header_list_outermost.1 (bytes "A: b\r\nSubject: x\r\n y\r\n\r\nhi\r\n")
    (by decide!), ?_⟩
  have h : (emailtoc_add_multipart 9 ⟨[7, 9], []⟩
      (bytes "--X\nA: b\n\nhi\n--X--\n" ++ [0]) 0).isSome = true := by decide!
  obtain ⟨r, hr⟩ := Option.isSome_iff_exists.1 h
  exact ⟨r, hr, header_list_outermost.2.1 9 ⟨[7, 9], []⟩
    (bytes "--X\nA: b\n\nhi\n--X--\n" ++ [0]) 0 r hr⟩

/-! ## The file name of a child part and the header block of the spec -/

/-- The failing input of C15: the header block of the part is the single line
`Content-Disposition: attachment; filename="a.txt"`, the blank line is a CR-LF pair
and the body begins with a space and has a `Content-Disposition:` line of its own.
The segment gets the file name of the body line. -/
theorem child_filename_forms_counterexample :
    spec_part_lines (bytes ("Content-Disposition: attachment; filename=\"a.txt\"\r\n\r\n" ++
      " x\r\nContent-Disposition: attachment; filename=evil.exe\r\n") ++ [0]) 0
      = [bytes "Content-Disposition: attachment; filename=\"a.txt\""] ∧
    blank_line_folded (cstr (bytes ("Content-Disposition: attachment; filename=\"a.txt\"\r\n\r\n"
      ++ " x\r\nContent-Disposition: attachment; filename=evil.exe\r\n") ++ [0]) 0) ∧
    (emailtoc_add_multipart_segment 1 ⟨[7], []⟩
      (bytes ("Content-Disposition: attachment; filename=\"a.txt\"\r\n\r\n" ++
        " x\r\nContent-Disposition: attachment; filename=evil.exe\r\n") ++ [0]) 0 false).map
      (fun r => r.1.aBody.map (fun x => x.zFilename)) = some [some (bytes "evil.exe")] := by
  decide!

/-- C15, as far as the code goes: for every leaf part decoded without header
capture, in which the blank line that ends the header block is not a CR-LF pair
followed by a space or a tab, and whose header block has, as the last
`Content-Disposition:` line, the line
`Content-Disposition: attachment; filename="V"` or the line
`Content-Disposition: attachment; filename=V`, with `V` free of whitespace, of
double quotes and of NUL, the body segment has the file name `V`, without the
quotes: the two forms give the same file name.  With `V` the bytes `a.txt` both
forms give `a.txt`. -/
theorem child_filename_forms (d : Nat) (h : List Nat) (xs : List EmailBody) (buf : List Nat)
    (z : Nat) (ls1 ls2 : List (List Nat)) (L V : List Nat)
    (hV : ∀ c ∈ V, c ≠ 0 ∧ c ≠ 34 ∧ fossil_isspace c = false)
    (hL : L = bytes "Content-Disposition: attachment; filename=\"" ++ V ++ [34] ∨
      L = bytes "Content-Disposition: attachment; filename=" ++ V)
    (hnf : ¬ blank_line_folded (cstr buf z))
    (hleaf : spec_leaf_part buf z)
    (hlines : spec_part_lines buf z = ls1 ++ L :: ls2)
    (hlast : ∀ l ∈ ls2, content_disposition_line l = false) :
    (∃ buf1 x, emailtoc_add_multipart_segment (d + 1) ⟨h, xs⟩ buf z false
        = some (⟨h, xs ++ [x]⟩, buf1) ∧ x.zFilename = some V) ∧
    (emailtoc_add_multipart_segment 1 ⟨[7], []⟩
        (bytes "Content-Disposition: attachment; filename=\"a.txt\"\n\nhello" ++ [0]) 0
        false).map (fun r => r.1.aBody.map (fun x => x.zFilename))
      = some [some (bytes "a.txt")] ∧
    (emailtoc_add_multipart_segment 1 ⟨[7], []⟩
        (bytes "Content-Disposition: attachment; filename=a.txt\n\nhello" ++ [0]) 0
        false).map (fun r => r.1.aBody.map (fun x => x.zFilename))
      = some [some (bytes "a.txt")] := by
  refine ⟨?_, child_filename_a_txt⟩
  obtain ⟨_, _, hLcd, _, hLval⟩ := cd_line_ok L V hV hL
  obtain ⟨buf1, x, hres, hx⟩ := part_filename d h xs buf z (leaf_part_spec buf z hnf hleaf)
  refine ⟨buf1, x, hres, ?_⟩
  rw [hx, part_lines_spec buf z hnf, hlines]
  unfold spec_filename
  rw [last_decides_last _ _ _ _ _ L hLcd hlast]
  exact hLval

/-- Witness for C15: the quoted form with `a.txt`, after a `Subject:` line, in a
part with CR-LF line ends that starts at offset 2 of the buffer. -/
theorem child_filename_forms_witness :
    ∃ buf1 x, emailtoc_add_multipart_segment 1 ⟨[7], []⟩
        (bytes ("xxSubject: s\r\nContent-Disposition: attachment; filename=\"a.txt\"\r\n" ++
          "\r\nhello") ++ [0]) 2 false = some (⟨[7], [] ++ [x]⟩, buf1) ∧
      x.zFilename = some (bytes "a.txt") :=
  (child_filename_forms 0 [7] []
    (bytes ("xxSubject: s\r\nContent-Disposition: attachment; filename=\"a.txt\"\r\n" ++
      "\r\nhello") ++ [0])
    2 [bytes "Subject: s"] [] (bytes "Content-Disposition: attachment; filename=\"a.txt\"")
    (bytes "a.txt") (by decide!) (Or.inl (by decide!)) (by decide!) (by decide!) (by decide!)
    (by decide!)).1

/-- The failing input of C17: the header block of the part is the one line
`X: y`, so the part has no `Content-Disposition:` line; the blank line is a CR-LF
pair and the body begins with a space and has a `Content-Disposition:` line.  The
segment gets the file name of the body line. -/
theorem child_filename_counterexample :
    spec_part_lines (bytes ("X: y\r\n\r\n body\r\n" ++
      "Content-Disposition: attachment; filename=evil.exe\r\n") ++ [0]) 0 = [bytes "X: y"] ∧
    spec_filename (spec_part_lines (bytes ("X: y\r\n\r\n body\r\n" ++
      "Content-Disposition: attachment; filename=evil.exe\r\n") ++ [0]) 0) = none ∧
    blank_line_folded (cstr (bytes ("X: y\r\n\r\n body\r\n" ++
      "Content-Disposition: attachment; filename=evil.exe\r\n") ++ [0]) 0) ∧
    (emailtoc_add_multipart_segment 1 ⟨[7], []⟩ (bytes ("X: y\r\n\r\n body\r\n" ++
      "Content-Disposition: attachment; filename=evil.exe\r\n") ++ [0]) 0 false).map
      (fun r => r.1.aBody.map (fun x => x.zFilename)) = some [some (bytes "evil.exe")] := by
  decide!

/-- C17, as far as the code goes: for every leaf part decoded without header
capture, in which the blank line that ends the header block is not a CR-LF pair
followed by a space or a tab, the file name of the segment is `spec_filename` of
the lines of the header block: the last `Content-Disposition:` line decides alone,
whatever lines come before it, and the file name is what `email_hdr_value` finds
for `filename` in that line; so it is unset when the value of that line opens with
a quote that is not closed, and a part without a `Content-Disposition:` line has no
file name. -/
theorem child_filename_last_line (d : Nat) (h : List Nat) (xs : List EmailBody)
    (buf : List Nat) (z : Nat) (hnf : ¬ blank_line_folded (cstr buf z))
    (hleaf : spec_leaf_part buf z) :
    (∃ buf1 x, emailtoc_add_multipart_segment (d + 1) ⟨h, xs⟩ buf z false
        = some (⟨h, xs ++ [x]⟩, buf1) ∧
      x.zFilename = spec_filename (spec_part_lines buf z)) ∧
    (∀ (ls1 ls2 : List (List Nat)) (l : List Nat), content_disposition_line l = true →
      (∀ m ∈ ls2, content_disposition_line m = false) →
      spec_filename (ls1 ++ l :: ls2) = email_hdr_value l lit_filename) ∧
    (∀ ls : List (List Nat), (∀ m ∈ ls, content_disposition_line m = false) →
      spec_filename ls = none) ∧
    (∀ (ls1 ls2 : List (List Nat)) (l rest : List Nat) (k : Nat),
      content_disposition_line l = true →
      (∀ m ∈ ls2, content_disposition_line m = false) →
      first_occurrence lit_filename l k → l.drop (k + 8) = 61 :: 34 :: rest →
      (∀ c ∈ rest, c ≠ 34) → spec_filename (ls1 ++ l :: ls2) = none) := by
  refine ⟨?_, ?_, ?_, ?_⟩
  · obtain ⟨buf1, x, hres, hx⟩ := part_filename d h xs buf z (leaf_part_spec buf z hnf hleaf)
    rw [part_lines_spec buf z hnf] at hx
    exact ⟨buf1, x, hres, hx⟩
  · intro ls1 ls2 l hl h2
    exact last_decides_last _ _ _ ls1 ls2 l hl h2
  · intro ls h2
    exact last_decides_none _ _ _ ls h2
  · intro ls1 ls2 l rest k hl h2 hfirst hval hrest
    have h1 : spec_filename (ls1 ++ l :: ls2) = email_hdr_value l lit_filename :=
      last_decides_last _ _ _ ls1 ls2 l hl h2
    rw [h1, hdr_value_at l lit_filename k hfirst]
    have hlen : lit_filename.length = 8 := rfl
    rw [hlen, hval]
    simp only [List.headD_cons, List.tail_cons, ne_eq, not_true_eq_false, if_false, if_true]
    have hget : rest.getD (scanLen (fun c => c != 0 && c != 34) rest) 0 ≠ 34 := by
      by_cases hlt : scanLen (fun c => c != 0 && c != 34) rest < rest.length
      · exact hrest _ (scanLen_mem _ rest hlt)
      · rw [List.getD_eq_default _ _ (by omega)]
        decide
    rw [if_pos hget]

/-- Witness for C17: a part with CR-LF line ends and two `Content-Disposition:`
lines, of which the last has a quote that is not closed: the file name is unset. -/
theorem child_filename_last_line_witness :
    ∃ buf1 x, emailtoc_add_multipart_segment 1 ⟨[7], []⟩
        (bytes ("Content-Disposition: attachment; filename=\"a.txt\"\r\n" ++
          "Content-Disposition: attachment; filename=\"b.txt\r\n\r\nhello") ++ [0]) 0 false
        = some (⟨[7], [] ++ [x]⟩, buf1) ∧
      x.zFilename = spec_filename (spec_part_lines
        (bytes ("Content-Disposition: attachment; filename=\"a.txt\"\r\n" ++
          "Content-Disposition: attachment; filename=\"b.txt\r\n\r\nhello") ++ [0]) 0) :=
  (child_filename_last_line 0 [7] []
    (bytes ("Content-Disposition: attachment; filename=\"a.txt\"\r\n" ++
      "Content-Disposition: attachment; filename=\"b.txt\r\n\r\nhello") ++ [0]) 0
    (by decide!) (by decide!)).1

/-! ## The mimetype of a leaf part and the header block of the spec -/

/-- The failing input of C20: the header block of the part is the one line
`Content-Type: text/plain`; the blank line is a CR-LF pair and the body begins with
a space and has a `Content-Type:` line of its own.  The segment gets the mimetype
that the body line names. -/
theorem leaf_mimetype_counterexample :
    spec_part_lines (bytes ("Content-Type: text/plain\r\n\r\n indented body\r\n" ++
      "Content-Type: evil/x\r\n") ++ [0]) 0 = [bytes "Content-Type: text/plain"] ∧
    spec_mimetype (spec_part_lines (bytes ("Content-Type: text/plain\r\n\r\n indented body\r\n"
      ++ "Content-Type: evil/x\r\n") ++ [0]) 0) = bytes "text/plain" ∧
    blank_line_folded (cstr (bytes ("Content-Type: text/plain\r\n\r\n indented body\r\n" ++
      "Content-Type: evil/x\r\n") ++ [0]) 0) ∧
    (emailtoc_add_multipart_segment 1 ⟨[], []⟩
      (bytes ("Content-Type: text/plain\r\n\r\n indented body\r\n" ++
        "Content-Type: evil/x\r\n") ++ [0]) 0 false).map
      (fun r => r.1.aBody.map (fun x => x.zMimetype)) = some [bytes "evil/x"] := by
  decide!

/-- C20, as far as the code goes: for every leaf part, decoded with or without
header capture, in which the blank line that ends the header block is not a CR-LF
pair followed by a space or a tab, and whose last `Content-Type:` line (not
multipart, the part being a leaf) has a value whose first token begins with fewer
than 32 alphanumeric and `'/'` bytes, the mimetype of the segment is the longest
prefix of that token made of alphanumeric bytes and `'/'`
(`text/plain; charset=utf-8` gives `text/plain`); it is empty when the token has no
such leading byte, and when the part has no `Content-Type:` line. -/
theorem leaf_mimetype_token (d : Nat) (h : List Nat) (xs : List EmailBody) (buf : List Nat)
    (z : Nat) (b : Bool) (hnf : ¬ blank_line_folded (cstr buf z))
    (hleaf : spec_leaf_part buf z)
    (hshort : ∀ l, ((spec_part_lines buf z).filter
        (fun l => content_type_line l && !is_multipart_line l)).getLast? = some l →
      (mimetype_token l).length < 32) :
    (∃ toc buf1 x, emailtoc_add_multipart_segment (d + 1) ⟨h, xs⟩ buf z b = some (toc, buf1) ∧
      toc.aBody = xs ++ [x] ∧ x.zMimetype = spec_mimetype (spec_part_lines buf z)) ∧
    (∀ (ls1 ls2 : List (List Nat)) (l : List Nat),
      (content_type_line l && !is_multipart_line l) = true →
      (∀ m ∈ ls2, (content_type_line m && !is_multipart_line m) = false) →
      spec_mimetype (ls1 ++ l :: ls2) =
        (firstToken (l.drop 13)).takeWhile (fun c => c == 47 || fossil_isalnum c)) ∧
    (∀ ls : List (List Nat), (∀ m ∈ ls, content_type_line m = false) → spec_mimetype ls = []) ∧
    mimetype_token (bytes "Content-Type: text/plain; charset=utf-8") = bytes "text/plain" ∧
    mimetype_token (bytes "Content-Type: ;x") = [] := by
  refine ⟨?_, ?_, ?_, mimetype_token_example.1, mimetype_token_example.2.1⟩
  · have hpl := part_lines_spec buf z hnf
    obtain ⟨toc, buf1, x, hres, hb, hx⟩ := part_mimetype d h xs buf z b
      (leaf_part_spec buf z hnf hleaf) (by rw [hpl]; exact hshort)
    rw [hpl] at hx
    exact ⟨toc, buf1, x, hres, hb, hx⟩
  · intro ls1 ls2 l hl h2
    unfold spec_mimetype
    rw [last_decides_last _ _ _ ls1 ls2 l hl h2]
    rfl
  · intro ls h2
    unfold spec_mimetype
    exact last_decides_none _ _ _ ls (fun m hm => by simp [h2 m hm])

/-- Witness for C20: a part with CR-LF line ends and two `Content-Type:` lines, the
first of which names a mimetype of more than 32 bytes. -/
theorem leaf_mimetype_token_witness :
    ∃ toc buf1 x, emailtoc_add_multipart_segment 1 ⟨[], []⟩
        (bytes ("Content-Type: aaaaaaaaaaaaaaaaaaaaaaaaaaaaaaaaaaaaaaaa/b\r\n" ++
          "content-type:  text/plain; charset=utf-8\r\n\r\nhello") ++ [0]) 0 false
        = some (toc, buf1) ∧
      toc.aBody = [] ++ [x] ∧
      x.zMimetype = spec_mimetype (spec_part_lines
        (bytes ("Content-Type: aaaaaaaaaaaaaaaaaaaaaaaaaaaaaaaaaaaaaaaa/b\r\n" ++
          "content-type:  text/plain; charset=utf-8\r\n\r\nhello") ++ [0]) 0) :=
  (leaf_mimetype_token 0 [] []
    (bytes ("Content-Type: aaaaaaaaaaaaaaaaaaaaaaaaaaaaaaaaaaaaaaaa/b\r\n" ++
      "content-type:  text/plain; charset=utf-8\r\n\r\nhello") ++ [0]) 0 false
    (by decide!) (by decide!) (by decide!)).1

/-! ## Where a child part of a multipart body starts and ends -/

theorem mp_loop_split
    (seg : EmailToc → Buf → Nat → Option (EmailToc × Buf)) (d : Nat)
    (hseg : ∀ (p : EmailToc) (buf : Buf) (z : Nat), (cstr buf z).length < d →
      ∃ p1 buf1, seg p buf z = some (p1, buf1) ∧
        frame z (z + (cstr buf z).length) buf buf1 ∧ True)
    (zB nB z1 E : Nat) (B : List Nat) (hB1 : B.length = nB)
    (hB2 : ∀ c ∈ B, c ≠ 0 ∧ fossil_isspace c = false) (hnB : 2 ≤ nB) (hz : zB + nB ≤ z1)
    (hd : E - z1 < d) :
    ∀ (fuel : Nat) (p : EmailToc) (buf : List Nat) (i iS : Nat),
      mp_state zB z1 E B buf i iS → E - (z1 + i) ≤ fuel →
      (iS = 0 ∨ (nB ≤ iS ∧ rd buf (z1 + iS + 1 - nB) = 0 ∧
        ∀ m, m < nB → 1 ≤ m → rd buf (z1 + iS + 1 - nB + m) = rd buf (zB + m))) →
      multipart_loop (seg_on (child_from_split zB nB z1) seg) zB nB z1 fuel p buf i iS
        = multipart_loop seg zB nB z1 fuel p buf i iS := by
  apply mp_loop_rec (fun _ _ _ _ _ => True) seg d hseg zB nB z1 E B hB1 hB2
    hnB hz hd (fun fuel p buf i iS res =>
      (iS = 0 ∨ (nB ≤ iS ∧ rd buf (z1 + iS + 1 - nB) = 0 ∧
        ∀ m, m < nB → 1 ≤ m → rd buf (z1 + iS + 1 - nB + m) = rd buf (zB + m))) →
      multipart_loop (seg_on (child_from_split zB nB z1) seg) zB nB z1 fuel p buf i iS = res)
  · intro fuel p buf i iS _ hrd _
    unfold multipart_loop
    rw [if_pos hrd]
  · intro fuel p buf i iS res _ _ hrd hm h hstart
    conv => lhs; unfold multipart_loop
    rw [if_neg hrd]
    simp only []
    rw [if_neg hm]
    exact h hstart
  · intro fuel p buf i iS p2 buf2 res hst h10 hstr hsw hend hlen hs hfr2 _ hws hst2 hterm
      hcont hstart
    have hrd : rd buf (z1 + i) ≠ 0 := by rw [h10]; decide
    obtain ⟨_, _, hiS, hcB, _⟩ := hst
    obtain ⟨hlenB, hBrd⟩ := startsWith_length B _ hsw
    have htok : ∀ m, m < nB → rd buf (zB + m) = rd B m := by
      intro m hm
      rw [rd_cstr buf zB m (by rw [hcB, hB1]; omega), hcB]
    have hocc : ∀ m, m < nB → rd buf (z1 + i + 1 + m) = rd B m := by
      intro m hm
      rw [rd_cstr buf (z1 + i + 1) m (by omega), hBrd m (by omega)]
    have hq : child_from_split zB nB z1 (wr buf (z1 + i + 1) 0) (z1 + iS) := by
      refine ⟨?_, ?_, ?_⟩
      · rcases hstart with h0 | ⟨h1, h2, h3⟩
        · left; rw [h0]; rfl
        · right
          refine ⟨by omega, ?_, ?_⟩
          · rw [rd_wr_ne _ _ _ _ (by omega)]; exact h2
          · intro m hm1 hm2
            rw [rd_wr_ne _ _ _ _ (by omega), rd_wr_ne _ _ _ _ (by omega)]
            exact h3 m hm1 hm2
      · have hl : (cstr (wr buf (z1 + i + 1) 0) (z1 + iS)).length = (i - iS) + 1 := by omega
        rw [getLast_rd _ _ hl, ← rd_cstr _ _ _ (by omega)]
        have e : z1 + iS + (i - iS) = z1 + i := by omega
        rw [e, rd_wr_ne _ _ _ _ (by omega), h10]
      · intro m hm1 hm2
        rw [hlen]
        have e : z1 + iS + (i + 1 - iS) + m = z1 + i + 1 + m := by omega
        rw [e, rd_wr_ne _ _ _ _ (by omega), rd_wr_ne _ _ _ _ (by omega), hocc m hm1,
          htok m hm1]
    conv => lhs; unfold multipart_loop
    rw [if_neg hrd]
    simp only []
    rw [if_pos ⟨h10, hstr⟩]
    have hs2 : seg_on (child_from_split zB nB z1) seg p (wr buf (z1 + i + 1) 0) (z1 + iS)
        = some (p2, buf2) := by
      unfold seg_on
      rw [if_pos hq, hs]
    rw [hs2]
    simp only []
    by_cases ht : rd buf2 (z1 + (i + nB)) = 45 ∧ rd buf2 (z1 + (i + nB) + 1) = 45
    · rw [if_pos ht, hterm ht]
    · rw [if_neg ht, hws]
      apply hcont ht
      right
      obtain ⟨_, _, _, hcB2, _⟩ := hst2
      have e0 : z1 + (i + nB) + 1 - nB = z1 + i + 1 := by omega
      refine ⟨by omega, ?_, ?_⟩
      · rw [e0]
        exact frame_zero hfr2 _ (rd_wr_zero buf _)
      · intro m hm1 hm2
        rw [e0, hfr2.2.1 _ (Or.inr (by omega)), rd_wr_ne _ _ _ _ (by omega), hocc m hm1,
          rd_cstr buf2 zB m (by rw [hcB2, hB1]; omega), hcB2]

theorem mp_with_split (seg : EmailToc → Buf → Nat → Option (EmailToc × Buf)) (d : Nat)
    (hseg : ∀ (p : EmailToc) (buf : Buf) (z : Nat), (cstr buf z).length < d →
      ∃ p1 buf1, seg p buf z = some (p1, buf1) ∧
        frame z (z + (cstr buf z).length) buf buf1 ∧ True)
    (p : EmailToc) (buf : List Nat) (z : Nat) (hlen : (cstr buf z).length ≤ d + 1)
    (zB nB z1 : Nat) (hsp : split_start buf z = some (zB, nB, z1)) :
    emailtoc_add_multipart_with (seg_on (child_from_split zB nB z1) seg) p buf z
      = emailtoc_add_multipart_with seg p buf z := by
  rcases mp_with_cases seg p buf z with ⟨hn, h⟩ | ⟨k, nB0, ws, hk, hnB, hws, hnB2, hle, _, _,
    _, hb1, _, hBlen, hBok, hst, _, hun⟩
  · unfold split_start at hsp
    rw [hn] at hsp
    cases hsp
  · have e : zB = z + k ∧ nB = nB0 ∧ z1 = z + k + nB0 + ws := by
      unfold split_start at hsp
      rw [hk] at hsp
      simp only [hnB, hws] at hsp
      rw [if_neg (by omega)] at hsp
      simp only [Option.some.injEq, Prod.mk.injEq] at hsp
      exact ⟨hsp.1.symm, hsp.2.1.symm, hsp.2.2.symm⟩
    obtain ⟨rfl, rfl, rfl⟩ := e
    rcases mp_with_cases (seg_on (child_from_split (z + k) nB (z + k + nB + ws)) seg) p buf z
      with ⟨hn1, _⟩ | ⟨k1, nB1, ws1, hk1, hnB1, hws1, _, _, _, _, _, _, _, _, _, _, _, hun1⟩
    · rw [hn1] at hk; cases hk
    · rw [hk] at hk1
      simp only [Option.some.injEq] at hk1
      subst hk1
      rw [hnB] at hnB1
      subst hnB1
      rw [hws] at hws1
      subst hws1
      rw [hun, hun1]
      have hEle : z + (cstr buf z).length ≤ buf.length := by
        have := cstr_length_le buf z
        omega
      exact mp_loop_split seg d hseg (z + k) nB (z + k + nB + ws)
        (z + (cstr buf z).length) _ hBlen hBok hnB2 (by omega) (by omega)
        _ p _ 0 0 hst (by rw [wr_length]; omega) (Or.inl rfl)

theorem split_start_none (seg : EmailToc → Buf → Nat → Option (EmailToc × Buf))
    (p : EmailToc) (buf : List Nat) (z : Nat) (hsp : split_start buf z = none) :
    emailtoc_add_multipart_with seg p buf z = some (p, buf) := by
  unfold split_start at hsp
  unfold emailtoc_add_multipart_with
  cases hk : skip_to_boundary true (cstr buf z) with
  | none => rfl
  | some k =>
    rw [hk] at hsp
    simp only [] at hsp ⊢
    split at hsp
    · rename_i h0
      rw [if_pos h0]
    · cases hsp

/-- The failing input of C25: the cookie is parsed and empty, the query parameter
`y` does not exist, and the default is `"ci"`.  The call
`cookie_write_parameter("y", "y", "ci")` adds the entry `y=ci` to the table and
sets the changed flag. -/
theorem cookie_write_counterexample :
    (cookie_write_parameter (fun v => v) (fun _ => none)
      ⟨some [], false, true, []⟩ (bytes "y") (bytes "y") (some (bytes "ci"))).map
        (fun r => r.1)
      = some ⟨some [], true, true, [⟨bytes "y", some (bytes "ci")⟩]⟩ ∧
    cookie_parse (fun v => v) (fun _ => none) ⟨some [], false, true, []⟩
      = ⟨some [], false, true, []⟩ := by
  decide!

/-- The routine `cookie_write_parameter` with the cookie parsed to `c1`, `i` the
index that the search for `zPName` gives and `q` the value of `zQP`, or the default
when `zQP` does not exist. -/
theorem cookie_write_unfold (dehttpize : List Nat → List Nat)
    (P : List Nat → Option (List Nat)) (c : Cookies) (zQP zPName : List Nat)
    (zDflt : Option (List Nat)) :
    cookie_write_parameter dehttpize P c zQP zPName zDflt =
      if cookie_find zPName (cookie_parse dehttpize P c).aParam < COOKIE_NPARAM then
        if cookie_find zPName (cookie_parse dehttpize P c).aParam
            = (cookie_parse dehttpize P c).aParam.length then
          some ({ cookie_parse dehttpize P c with
            aParam := (cookie_parse dehttpize P c).aParam ++
              [⟨zPName, if P zQP = none then zDflt else P zQP⟩],
            bChanged := true }, P)
        else
          match strcmp_differ (if P zQP = none then zDflt else P zQP)
            (cookie_value_at (cookie_parse dehttpize P c).aParam
              (cookie_find zPName (cookie_parse dehttpize P c).aParam)) with
          | none => none
          | some true =>
            some ({ cookie_parse dehttpize P c with
              aParam := (cookie_parse dehttpize P c).aParam.modify
                (fun e => { e with zPValue := if P zQP = none then zDflt else P zQP })
                (cookie_find zPName (cookie_parse dehttpize P c).aParam),
              bChanged := true }, P)
          | some false => some (cookie_parse dehttpize P c, P)
      else some (cookie_parse dehttpize P c, P) := by
  have hflagR : ¬ (COOKIE_WRITE &&& COOKIE_READ ≠ 0) := by decide
  have hflagW : COOKIE_WRITE &&& COOKIE_WRITE ≠ 0 := by decide
  unfold cookie_write_parameter cookie_readwrite Cookies.nParam
  simp only []
  rw [if_neg (fun h => hflagR h.2.1)]
  by_cases h10 : cookie_find zPName (cookie_parse dehttpize P c).aParam < COOKIE_NPARAM
  · rw [if_pos ⟨hflagW, h10⟩, if_pos h10]
  · rw [if_neg (fun h => h10 h.2), if_neg h10]

/-- C25, as far as the code goes.  When the query parameter `zQP` exists and has
the value of the `zPName` entry of the parsed cookie, `cookie_write_parameter` is a
no-op on the parsed cookie state and on the query parameters.  When `zQP` does not
exist the routine goes on with the default `zDflt` in its place: it is a no-op
exactly when the `zPName` entry exists with the value `zDflt`, which is not NULL,
or when there is no `zPName` entry and the table is full; otherwise, when it
returns, it stores `zDflt` and sets the changed flag.  The routine does not return,
calling `strcmp` on a NULL pointer, exactly when the `zPName` entry exists and
either its value is NULL, or `zQP` does not exist and `zDflt` is NULL. -/
theorem cookie_write_noop (dehttpize : List Nat → List Nat)
    (P : List Nat → Option (List Nat)) (c : Cookies) (zQP zPName : List Nat)
    (zDflt : Option (List Nat)) (hn : c.nParam ≤ COOKIE_NPARAM) :
    (∀ v, P zQP = some v →
      cookie_find zPName (cookie_parse dehttpize P c).aParam
        < (cookie_parse dehttpize P c).nParam →
      cookie_value_at (cookie_parse dehttpize P c).aParam
        (cookie_find zPName (cookie_parse dehttpize P c).aParam) = some v →
      cookie_write_parameter dehttpize P c zQP zPName zDflt
        = some (cookie_parse dehttpize P c, P)) ∧
    (P zQP = none →
      ((cookie_write_parameter dehttpize P c zQP zPName zDflt).map (fun r => r.1)
          = some (cookie_parse dehttpize P c)
        ↔ (cookie_find zPName (cookie_parse dehttpize P c).aParam
              < (cookie_parse dehttpize P c).nParam ∧ zDflt ≠ none ∧
            cookie_value_at (cookie_parse dehttpize P c).aParam
              (cookie_find zPName (cookie_parse dehttpize P c).aParam) = zDflt) ∨
          (cookie_find zPName (cookie_parse dehttpize P c).aParam
              = (cookie_parse dehttpize P c).nParam ∧
            COOKIE_NPARAM ≤ (cookie_parse dehttpize P c).nParam))) ∧
    (P zQP = none → ∀ r, cookie_write_parameter dehttpize P c zQP zPName zDflt = some r →
      r.1 ≠ cookie_parse dehttpize P c → r.1.bChanged = true) ∧
    (cookie_write_parameter dehttpize P c zQP zPName zDflt = none ↔
      cookie_find zPName (cookie_parse dehttpize P c).aParam
          < (cookie_parse dehttpize P c).nParam ∧
        ((P zQP = none ∧ zDflt = none) ∨
          cookie_value_at (cookie_parse dehttpize P c).aParam
            (cookie_find zPName (cookie_parse dehttpize P c).aParam) = none)) := by
  have hn1 := cookie_parse_le dehttpize P c hn
  have hunf := cookie_write_unfold dehttpize P c zQP zPName zDflt
  generalize cookie_write_parameter dehttpize P c zQP zPName zDflt = res at hunf ⊢
  generalize cookie_parse dehttpize P c = c1 at *
  have hle := cookie_find_le zPName c1.aParam
  generalize cookie_find zPName c1.aParam = i at *
  unfold Cookies.nParam at *
  generalize hva : cookie_value_at c1.aParam i = va at *
  refine ⟨?_, ?_, ?_, ?_⟩
  · intro v hv hlt hval
    rw [hunf, if_pos (by omega), if_neg (by omega), hv, hval]
    simp [strcmp_differ]
  · intro hP
    rw [hP] at hunf
    simp only [if_true] at hunf
    rw [hunf]
    by_cases h10 : i < COOKIE_NPARAM
    · rw [if_pos h10]
      by_cases he : i = c1.aParam.length
      · rw [if_pos he]
        simp only [Option.map_some', Option.some.injEq]
        constructor
        · intro h
          have := congrArg (fun (s : Cookies) => s.aParam.length) h
          simp only [List.length_append, List.length_singleton] at this
          omega
        · rintro (h | h)
          · omega
          · omega
      · rw [if_neg he]
        have hlt : i < c1.aParam.length := by omega
        cases zDflt with
        | none =>
          simp only [strcmp_differ, Option.map_none', ne_eq, not_true_eq_false, false_and,
            and_false, false_or]
          constructor
          · intro h; cases h
          · intro h; exact absurd h.1 he
        | some d =>
          cases va with
          | none =>
            simp only [strcmp_differ, Option.map_none']
            constructor
            · intro h; cases h
            · rintro (h | h)
              · exact absurd h.2.2 (by simp)
              · exact absurd h.1 he
          | some b =>
            simp only [strcmp_differ]
            by_cases hdb : d = b
            · subst hdb
              simp only [ne_eq, not_true_eq_false, decide_False, Option.map_some', true_iff]
              left
              exact ⟨hlt, by simp, trivial⟩
            · have hdec : decide (d ≠ b) = true := by simpa using hdb
              rw [hdec]
              simp only [Option.map_some', Option.some.injEq]
              constructor
              · intro h
                have := congrArg (fun (s : Cookies) => s.aParam) h
                exact absurd this (modify_value_ne c1.aParam i (some d) hlt
                  (by rw [hva]; simpa using hdb))
              · rintro (h | h)
                · exact absurd h.2.2.symm hdb
                · exact absurd h.1 he
    · rw [if_neg h10]
      simp only [Option.map_some', true_iff]
      right
      exact ⟨by omega, by omega⟩
  · intro hP r hr hne
    rw [hP] at hunf
    simp only [if_true] at hunf
    rw [hunf] at hr
    by_cases h10 : i < COOKIE_NPARAM
    · rw [if_pos h10] at hr
      by_cases he : i = c1.aParam.length
      · rw [if_pos he] at hr
        rw [← Option.some.inj hr]
      · rw [if_neg he] at hr
        cases hsd : strcmp_differ zDflt va with
        | none => rw [hsd] at hr; cases hr
        | some t =>
          rw [hsd] at hr
          cases t with
          | true =>
            simp only [] at hr
            rw [← Option.some.inj hr]
          | false =>
            simp only [] at hr
            rw [← Option.some.inj hr] at hne
            exact absurd rfl hne
    · rw [if_neg h10] at hr
      rw [← Option.some.inj hr] at hne
      exact absurd rfl hne
  · rw [hunf]
    by_cases h10 : i < COOKIE_NPARAM
    · rw [if_pos h10]
      by_cases he : i = c1.aParam.length
      · rw [if_pos he]
        constructor
        · intro h; cases h
        · intro h; omega
      · rw [if_neg he]
        have hlt : i < c1.aParam.length := by omega
        cases hq : (if P zQP = none then zDflt else P zQP) with
        | none =>
          simp only [strcmp_differ, true_iff]
          refine ⟨hlt, ?_⟩
          by_cases hP : P zQP = none
          · rw [if_pos hP] at hq
            exact Or.inl ⟨hP, hq⟩
          · rw [if_neg hP] at hq
            exact absurd hq hP
        | some a =>
          cases va with
          | none =>
            simp only [strcmp_differ, true_iff]
            exact ⟨hlt, Or.inr trivial⟩
          | some b =>
            simp only [strcmp_differ]
            constructor
            · intro h
              cases hdec : decide (a ≠ b) <;> rw [hdec] at h <;> cases h
            · rintro ⟨_, h | h⟩
              · rw [if_pos h.1, h.2] at hq
                cases hq
              · cases h
    · rw [if_neg h10]
      constructor
      · intro h; cases h
      · intro h; omega

/-- Witness for C25: the parsed cookie has the entry `y=ci` and the query
parameter `y` exists with the value `ci`. -/
theorem cookie_write_noop_witness :
    cookie_write_parameter (fun v => v) (fun k => if k = bytes "y" then some (bytes "ci") else none)
        ⟨some [], false, true, [⟨bytes "y", some (bytes "ci")⟩]⟩ (bytes "y") (bytes "y")
        (some (bytes "0"))
      = some (cookie_parse (fun v => v)
          (fun k => if k = bytes "y" then some (bytes "ci") else none)
          ⟨some [], false, true, [⟨bytes "y", some (bytes "ci")⟩]⟩,
        fun k => if k = bytes "y" then some (bytes "ci") else none) :=
  (cookie_write_noop (fun v => v) (fun k => if k = bytes "y" then some (bytes "ci") else none)
    ⟨some [], false, true, [⟨bytes "y", some (bytes "ci")⟩]⟩ (bytes "y") (bytes "y")
    (some (bytes "0")) (by decide!)).1 (bytes "ci") (by decide!) (by decide!) (by decide!)

end Webmail
